import Mathlib

/-!
# Commit verification (`types/validation.go`)

A shallow embedding of the commit verification engine: the entrypoints
`VerifyCommit`, `VerifyCommitLight*`, `VerifyCommitLightTrusting*`, the two
drivers `verifyCommitSingle` and `verifyCommitBatch`, and the precondition
check `verifyBasicValsAndCommit`.

Conventions of the embedding.

* Go's `int64` values are `Int`; every operation that can wrap is written
  with `wrapInt64`, and `/` on `int64` is truncating division (`Int.tdiv`).
* A Go function returning `error` returns an `Outcome`: `accept` for `nil`,
  `reject e` for a non-nil error, `panic` for a run-time panic (index out of
  range, nil dereference).
* Side effects are made explicit: a run returns the signature cache it leaves
  behind and the list of calls it made to the cryptographic capabilities.
* Capabilities that `validation.go` consumes but does not define (public-key
  operations, `Commit.VoteSignBytes`, `CommitSig.ValidateBasic`, the batch
  verifier factory) are the fields of `Env`.
-/

namespace Validation

/-! ## Data model -/

/-- Byte strings (`[]byte`). -/
abbrev Bytes := List Nat

/-- The flag of a commit signature. -/
inductive BlockIDFlag where
  | Absent
  | Commit
  | Nil
  deriving DecidableEq, Repr

/-- One validator's entry of a commit. -/
structure CommitSig where
  BlockIDFlag : BlockIDFlag
  ValidatorAddress : Bytes
  Signature : Bytes
  deriving DecidableEq, Repr

/-- A public key, as the bytes that identify it; what it does is in `Env`. -/
structure PubKey where
  raw : Bytes
  deriving DecidableEq, Repr

/-- A validator; `PubKey = none` is Go's nil interface value. -/
structure Validator where
  Address : Bytes
  PubKey : Option PubKey
  VotingPower : Int
  deriving DecidableEq, Repr

/-- An ordered sequence of validators plus a designated proposer. -/
structure ValidatorSet where
  Validators : List Validator
  Proposer : Option Validator
  deriving DecidableEq, Repr

structure PartSetHeader where
  Total : Nat
  Hash : Bytes
  deriving DecidableEq, Repr

/-- A block-content hash plus a parts-set header. -/
structure BlockID where
  Hash : Bytes
  PartSetHeader : PartSetHeader
  deriving DecidableEq, Repr

structure Commit where
  Height : Int
  BlockID : BlockID
  Signatures : List CommitSig
  deriving DecidableEq, Repr

/-- The trust level `cmtmath.Fraction`; both fields are `uint64`. -/
structure Fraction where
  Numerator : Nat
  Denominator : Nat
  deriving DecidableEq, Repr

structure SignatureCacheValue where
  ValidatorAddress : Bytes
  VoteSignBytes : Bytes
  deriving DecidableEq, Repr

/-- Modelled from the spec: the `SignatureCache` interface is declared outside
`validation.go`; the spec describes it as a mapping from raw signature bytes to
`SignatureCacheValue` with operations `Get` and `Add`. It is an association
list, newest entry first; eviction is not modelled. -/
abbrev SignatureCache := List (Bytes × SignatureCacheValue)

/-- Modelled from the spec: `Get(key) -> (value, found)`. -/
def SignatureCache.Get (c : SignatureCache) (key : Bytes) : Option SignatureCacheValue :=
  List.lookup key c

/-- Modelled from the spec: `Add(key, value)`; the new entry shadows an older
one with the same key. -/
def SignatureCache.Add (c : SignatureCache) (key : Bytes) (v : SignatureCacheValue) :
    SignatureCache :=
  (key, v) :: c

/-- The operand printed with `%X` by the two "wrong signature" errors:
`verifyCommitSingle` prints `commitSig.Signature`, `verifyCommitBatch` prints
the whole `CommitSig`. -/
inductive Printed where
  | sigBytes (b : Bytes)
  | commitSig (cs : CommitSig)
  deriving DecidableEq, Repr

/-- The errors of the engine, under the nominal names of the spec. The
arguments are the values formatted into the Go error. -/
inductive VerifyError where
  | NilValidatorSet
  | NilCommit
  | ZeroTrustDenominator
  | InvalidCommitSignatures (expected got : Nat)
  | InvalidCommitHeight (expected got : Int)
  | WrongBlockID (want got : BlockID)
  | DoubleVote (val : Validator) (firstIndex secondIndex : Nat)
  | InvalidCommitSig (val : Option Validator) (idx : Nat)
  | NilPubKey (val : Validator) (idx : Nat)
  | WrongSignature (idx : Nat) (operand : Printed)
  | UnsupportedBatchSignature
  | OverflowComputingThreshold
  | NotEnoughVotingPowerSigned (Got Needed : Int)
  | InternalBatchInvariant
  | BatchAdd (reason : String)
  deriving DecidableEq, Repr

/-- What a call returns: `nil`, an error, or a panic. -/
inductive Outcome where
  | accept
  | reject (e : VerifyError)
  | panic
  deriving DecidableEq, Repr

/-- A call to a cryptographic capability, tagged with the commit index. -/
inductive CryptoCall where
  | VerifySignature (idx : Nat)
  | BatchAdd (idx : Nat)
  | BatchVerify
  deriving DecidableEq, Repr

/-- One `(key, message, signature)` triple handed to `BatchVerifier.Add`. -/
structure BatchEntry where
  key : Option PubKey
  msg : Bytes
  sig : Bytes
  deriving DecidableEq, Repr

/-- The `crypto.BatchVerifier` capability. `Add` sees the entries added so far
and the new one and returns `some reason` when it fails; `Verify` sees all the
entries and returns `(ok, validSigs)`. -/
structure BatchVerifier where
  Add : List BatchEntry → BatchEntry → Option String
  Verify : List BatchEntry → Bool × List Bool

/-- The capabilities `validation.go` consumes. -/
structure Env where
  /-- The method `PubKey.Address()`. -/
  Address : PubKey → Bytes
  /-- The method `PubKey.VerifySignature(msg, sig)`. -/
  VerifySignature : PubKey → Bytes → Bytes → Bool
  /-- The method `commit.VoteSignBytes(chainID, idx)`. -/
  VoteSignBytes : Commit → String → Int → Bytes
  /-- Whether `commitSig.ValidateBasic()` returns `nil`. -/
  ValidateBasic : CommitSig → Bool
  /-- The function `batch.SupportsBatchVerifier(pubKey)`. -/
  SupportsBatchVerifier : Option PubKey → Bool
  /-- The method `vals.AllKeysHaveSameType()`. -/
  AllKeysHaveSameType : ValidatorSet → Bool
  /-- The function `batch.CreateBatchVerifier(pubKey)`; `none` when `ok` is false. -/
  CreateBatchVerifier : Option PubKey → Option BatchVerifier

/-- The result of a run: what is returned, the cache left behind, the value of
`talliedVotingPower` at the return, and the cryptographic calls made. -/
structure Run where
  result : Outcome
  cache : Option SignatureCache
  tallied : Int
  calls : List CryptoCall

/-! ## Machine integers -/

def MaxInt64 : Int := 2 ^ 63 - 1

def MinInt64 : Int := -(2 ^ 63)

/-- The value of an integer after it is stored in an `int64`. -/
def wrapInt64 (x : Int) : Int := (x + 2 ^ 63) % 2 ^ 64 - 2 ^ 63

/-- The value of an integer after it is stored in an `int32`. -/
def wrapInt32 (x : Int) : Int := (x + 2 ^ 31) % 2 ^ 32 - 2 ^ 31

/-- The cap on the total voting power, `MaxInt64 / 8`. -/
def MaxTotalVotingPower : Int := MaxInt64 / 8

/-- Division `a / b` of Go on `int64`: truncated, and `MinInt64 / -1` wraps. -/
def divInt64 (a b : Int) : Int := wrapInt64 (Int.tdiv a b)

/-- The threshold of the full and light modes: `totalVotingPower * 2 / 3`. -/
def votingPowerNeededTwoThirds (totalVotingPower : Int) : Int :=
  divInt64 (wrapInt64 (totalVotingPower * 2)) 3

/-- Modelled from the spec: `safeMul` is defined outside `validation.go`; the
spec describes it as an overflow-checked multiplication that reports overflow
when the product does not fit a signed 64-bit integer. -/
def safeMul (a b : Int) : Int × Bool :=
  if MinInt64 ≤ a * b ∧ a * b ≤ MaxInt64 then (a * b, false) else (0, true)

/-! ## Validator set -/

def ValidatorSet.Size (vals : ValidatorSet) : Nat := vals.Validators.length

/-- Modelled from the spec: `TotalVotingPower` is defined outside
`validation.go`; it is the sum of the validators' voting powers. -/
def ValidatorSet.TotalVotingPower (vals : ValidatorSet) : Int :=
  (vals.Validators.map (fun v => v.VotingPower)).sum

/-- Modelled from the spec: `GetProposer` returns the designated proposer. -/
def ValidatorSet.GetProposer (vals : ValidatorSet) : Option Validator := vals.Proposer

/-- The first validator at or after position `i` whose address is `address`. -/
def findByAddress (address : Bytes) : List Validator → Nat → Option (Nat × Validator)
  | [], _ => none
  | v :: vs, i => if v.Address = address then some (i, v) else findByAddress address vs (i + 1)

/-- Modelled from the spec: `GetByAddress` / `GetByAddressMut` are defined
outside `validation.go`; they locate the validator whose address matches and
return it with its index, or nothing. -/
def ValidatorSet.GetByAddress (vals : ValidatorSet) (address : Bytes) :
    Option (Nat × Validator) :=
  findByAddress address vals.Validators 0

/-! ## Preconditions -/

/-- The check `verifyBasicValsAndCommit`; an argument `none` is Go's `nil`
pointer, the result `none` is the `nil` error. -/
def verifyBasicValsAndCommit (vals : Option ValidatorSet) (commit : Option Commit)
    (height : Int) (blockID : BlockID) : Option VerifyError :=
  match vals with
  | none => some .NilValidatorSet
  | some vals =>
    match commit with
    | none => some .NilCommit
    | some commit =>
      if vals.Size ≠ commit.Signatures.length then
        some (.InvalidCommitSignatures vals.Size commit.Signatures.length)
      else if height ≠ commit.Height then
        some (.InvalidCommitHeight height commit.Height)
      else if ¬ (blockID = commit.BlockID) then
        some (.WrongBlockID blockID commit.BlockID)
      else none

/-- The check `ValidateHash`, with `tmhash.Size` as a parameter; `true` when it returns
an error. -/
def ValidateHash (tmhashSize : Nat) (h : Bytes) : Bool :=
  decide (h.length > 0 ∧ h.length ≠ tmhashSize)

/-! ## The two drivers -/

def batchVerifyThreshold : Nat := 2

/-- How an iteration of a `for` loop ends: it goes on to the next element,
breaks out of the loop, or returns from the function. -/
inductive Flow (σ : Type) where
  | next (s : σ)
  | brk (s : σ)
  | ret (r : Outcome) (s : σ)

/-- The local variables of `verifyCommitSingle` that live across iterations,
with the cache and the log of cryptographic calls. -/
structure SingleState where
  val : Option Validator
  seenVals : List (Nat × Nat)
  talliedVotingPower : Int
  cache : Option SignatureCache
  calls : List CryptoCall

/-- The local variables of `verifyCommitBatch` that live across iterations;
`batch` is the content of the batch verifier. -/
structure BatchState where
  val : Option Validator
  seenVals : List (Nat × Nat)
  batchSigIdxs : List Nat
  batch : List BatchEntry
  talliedVotingPower : Int
  calls : List CryptoCall

/-- The cache test of `verifyCommitSingle` (lines 468-473). -/
def singleCacheHit (E : Env) (cache : Option SignatureCache) (commitSig : CommitSig)
    (pk : PubKey) (voteSignBytes : Bytes) : Bool :=
  match cache with
  | none => false
  | some c =>
    match c.Get commitSig.Signature with
    | none => false
    | some cacheVal =>
      decide (cacheVal.ValidatorAddress = E.Address pk) &&
        decide (cacheVal.VoteSignBytes = voteSignBytes)

/-- The tally after `if countSig(commitSig) { talliedVotingPower += val.VotingPower }`. -/
def addTally (countSig : CommitSig → Bool) (commitSig : CommitSig) (val : Validator)
    (talliedVotingPower : Int) : Int :=
  if countSig commitSig then wrapInt64 (talliedVotingPower + val.VotingPower)
  else talliedVotingPower

/-- The state of `verifyCommitSingle` after the signature of entry `idx` has
passed (lines 479-491): unless it was a cache hit, the verification is logged
and the signature is recorded in the cache (if there is one); the voting power
is added to the tally when the signature counts. -/
def singleAfter (E : Env) (chainID : String) (commit : Commit) (countSig : CommitSig → Bool)
    (idx : Nat) (commitSig : CommitSig) (val : Validator) (pk : PubKey) (cacheHit : Bool)
    (s : SingleState) : SingleState :=
  { val := s.val
    seenVals := s.seenVals
    talliedVotingPower := addTally countSig commitSig val s.talliedVotingPower
    cache :=
      if cacheHit then s.cache
      else s.cache.map (fun c =>
        c.Add commitSig.Signature
          { ValidatorAddress := E.Address pk,
            VoteSignBytes := E.VoteSignBytes commit chainID (wrapInt32 idx) })
    calls := if cacheHit then s.calls else s.calls ++ [.VerifySignature idx] }

/-- The body of the loop of `verifyCommitSingle` from the nil-key check on
(lines 462-496), for the resolved validator `val`. On a cache hit nothing is
verified; otherwise a signature that does not verify ends the function. -/
def singleCheck (E : Env) (chainID : String) (commit : Commit) (votingPowerNeeded : Int)
    (countSig : CommitSig → Bool) (countAllSignatures : Bool)
    (idx : Nat) (commitSig : CommitSig) (val : Validator) (s : SingleState) :
    Flow SingleState :=
  match val.PubKey with
  | none => .ret (.reject (.NilPubKey val idx)) s
  | some pk =>
    let voteSignBytes := E.VoteSignBytes commit chainID (wrapInt32 idx)
    let cacheHit := singleCacheHit E s.cache commitSig pk voteSignBytes
    if cacheHit = false ∧ E.VerifySignature pk voteSignBytes commitSig.Signature = false then
      .ret (.reject (.WrongSignature idx (.sigBytes commitSig.Signature)))
        { s with calls := s.calls ++ [.VerifySignature idx] }
    else
      let s2 := singleAfter E chainID commit countSig idx commitSig val pk cacheHit s
      if countAllSignatures = false ∧ s2.talliedVotingPower > votingPowerNeeded then
        .ret .accept s2
      else .next s2

/-- One iteration of the loop of `verifyCommitSingle` (lines 431-497). -/
def singleBody (E : Env) (chainID : String) (vals : ValidatorSet) (commit : Commit)
    (votingPowerNeeded : Int) (ignoreSig countSig : CommitSig → Bool)
    (countAllSignatures lookUpByIndex : Bool)
    (idx : Nat) (commitSig : CommitSig) (s : SingleState) : Flow SingleState :=
  if ignoreSig commitSig then .next s
  else if ¬ E.ValidateBasic commitSig then
    .ret (.reject (.InvalidCommitSig s.val idx)) s
  else if lookUpByIndex then
    match vals.Validators[idx]? with
    | none => .ret .panic s
    | some val =>
      singleCheck E chainID commit votingPowerNeeded countSig countAllSignatures
        idx commitSig val { s with val := some val }
  else
    match vals.GetByAddress commitSig.ValidatorAddress with
    | none => .next { s with val := none }
    | some (valIdx, val) =>
      match s.seenVals.lookup valIdx with
      | some firstIndex =>
        .ret (.reject (.DoubleVote val firstIndex idx)) { s with val := some val }
      | none =>
        singleCheck E chainID commit votingPowerNeeded countSig countAllSignatures
          idx commitSig val
          { s with val := some val, seenVals := (valIdx, idx) :: s.seenVals }

/-- The loop `for idx, commitSig := range commit.Signatures` of
`verifyCommitSingle`, over the signatures from index `idx` on. -/
def singleLoop (E : Env) (chainID : String) (vals : ValidatorSet) (commit : Commit)
    (votingPowerNeeded : Int) (ignoreSig countSig : CommitSig → Bool)
    (countAllSignatures lookUpByIndex : Bool) :
    List CommitSig → Nat → SingleState → Flow SingleState
  | [], _, s => .next s
  | commitSig :: rest, idx, s =>
    match singleBody E chainID vals commit votingPowerNeeded ignoreSig countSig
        countAllSignatures lookUpByIndex idx commitSig s with
    | .next s1 =>
      singleLoop E chainID vals commit votingPowerNeeded ignoreSig countSig
        countAllSignatures lookUpByIndex rest (idx + 1) s1
    | other => other

/-- What `verifyCommitSingle` returns once its loop has ended. -/
def singleFinish (votingPowerNeeded : Int) : Flow SingleState → Run
  | .ret r s =>
    { result := r, cache := s.cache, tallied := s.talliedVotingPower, calls := s.calls }
  | .next s | .brk s =>
    { result :=
        if s.talliedVotingPower ≤ votingPowerNeeded then
          .reject (.NotEnoughVotingPowerSigned s.talliedVotingPower votingPowerNeeded)
        else .accept
      cache := s.cache, tallied := s.talliedVotingPower, calls := s.calls }

/-- The driver `verifyCommitSingle`. -/
def verifyCommitSingle (E : Env) (chainID : String) (vals : ValidatorSet) (commit : Commit)
    (votingPowerNeeded : Int) (ignoreSig countSig : CommitSig → Bool)
    (countAllSignatures lookUpByIndex : Bool)
    (verifiedSignatureCache : Option SignatureCache) : Run :=
  singleFinish votingPowerNeeded
    (singleLoop E chainID vals commit votingPowerNeeded ignoreSig countSig
      countAllSignatures lookUpByIndex commit.Signatures 0
      { val := none, seenVals := [], talliedVotingPower := 0,
        cache := verifiedSignatureCache, calls := [] })

/-- The cache test of `verifyCommitBatch` (lines 326-330); `none` is the nil
dereference of `val.PubKey.Address()` on a validator without a key. -/
def batchCacheHit (E : Env) (cache : Option SignatureCache) (commitSig : CommitSig)
    (pubKey : Option PubKey) (voteSignBytes : Bytes) : Option Bool :=
  match cache with
  | none => some false
  | some c =>
    match c.Get commitSig.Signature with
    | none => some false
    | some cacheVal =>
      match pubKey with
      | none => none
      | some pk =>
        some (decide (cacheVal.ValidatorAddress = E.Address pk) &&
          decide (cacheVal.VoteSignBytes = voteSignBytes))

/-- The entry that `verifyCommitBatch` hands to the batch verifier for the
signature at index `idx`, paired with the validator `val`. -/
def batchEntry (E : Env) (chainID : String) (commit : Commit) (idx : Nat)
    (commitSig : CommitSig) (val : Validator) : BatchEntry :=
  { key := val.PubKey
    msg := E.VoteSignBytes commit chainID (wrapInt32 idx)
    sig := commitSig.Signature }

/-- The state of `verifyCommitBatch` after entry `idx` has been dealt with
(lines 332-344): unless it was a cache hit, the entry is in the batch and its
index in `batchSigIdxs`; the voting power is added to the tally when the
signature counts. -/
def batchAfter (E : Env) (chainID : String) (commit : Commit) (countSig : CommitSig → Bool)
    (idx : Nat) (commitSig : CommitSig) (val : Validator) (cacheHit : Bool)
    (s : BatchState) : BatchState :=
  { val := s.val
    seenVals := s.seenVals
    batchSigIdxs := if cacheHit then s.batchSigIdxs else s.batchSigIdxs ++ [idx]
    batch :=
      if cacheHit then s.batch else s.batch ++ [batchEntry E chainID commit idx commitSig val]
    talliedVotingPower := addTally countSig commitSig val s.talliedVotingPower
    calls := if cacheHit then s.calls else s.calls ++ [.BatchAdd idx] }

/-- The body of the loop of `verifyCommitBatch` from the computation of the
sign bytes on (lines 323-350), for the resolved validator `val`. -/
def batchCheck (E : Env) (bv : BatchVerifier) (chainID : String) (commit : Commit)
    (votingPowerNeeded : Int) (countSig : CommitSig → Bool) (countAllSignatures : Bool)
    (cache : Option SignatureCache)
    (idx : Nat) (commitSig : CommitSig) (val : Validator) (s : BatchState) :
    Flow BatchState :=
  let voteSignBytes := E.VoteSignBytes commit chainID (wrapInt32 idx)
  match batchCacheHit E cache commitSig val.PubKey voteSignBytes with
  | none => .ret .panic s
  | some cacheHit =>
    match (if cacheHit then none
      else bv.Add s.batch (batchEntry E chainID commit idx commitSig val)) with
    | some reason =>
      .ret (.reject (.BatchAdd reason)) { s with calls := s.calls ++ [.BatchAdd idx] }
    | none =>
      let s2 := batchAfter E chainID commit countSig idx commitSig val cacheHit s
      if countAllSignatures = false ∧ s2.talliedVotingPower > votingPowerNeeded then
        .brk s2
      else .next s2

/-- One iteration of the loop of `verifyCommitBatch` (lines 295-351). -/
def batchBody (E : Env) (bv : BatchVerifier) (chainID : String) (vals : ValidatorSet)
    (commit : Commit) (votingPowerNeeded : Int) (ignoreSig countSig : CommitSig → Bool)
    (countAllSignatures lookUpByIndex : Bool) (cache : Option SignatureCache)
    (idx : Nat) (commitSig : CommitSig) (s : BatchState) : Flow BatchState :=
  if ignoreSig commitSig then .next s
  else if lookUpByIndex then
    match vals.Validators[idx]? with
    | none => .ret .panic s
    | some val =>
      batchCheck E bv chainID commit votingPowerNeeded countSig countAllSignatures cache
        idx commitSig val { s with val := some val }
  else
    match vals.GetByAddress commitSig.ValidatorAddress with
    | none => .next { s with val := none }
    | some (valIdx, val) =>
      match s.seenVals.lookup valIdx with
      | some firstIndex =>
        .ret (.reject (.DoubleVote val firstIndex idx)) { s with val := some val }
      | none =>
        batchCheck E bv chainID commit votingPowerNeeded countSig countAllSignatures cache
          idx commitSig val
          { s with val := some val, seenVals := (valIdx, idx) :: s.seenVals }

/-- The loop `for idx, commitSig := range commit.Signatures` of
`verifyCommitBatch`, over the signatures from index `idx` on. -/
def batchLoop (E : Env) (bv : BatchVerifier) (chainID : String) (vals : ValidatorSet)
    (commit : Commit) (votingPowerNeeded : Int) (ignoreSig countSig : CommitSig → Bool)
    (countAllSignatures lookUpByIndex : Bool) (cache : Option SignatureCache) :
    List CommitSig → Nat → BatchState → Flow BatchState
  | [], _, s => .next s
  | commitSig :: rest, idx, s =>
    match batchBody E bv chainID vals commit votingPowerNeeded ignoreSig countSig
        countAllSignatures lookUpByIndex cache idx commitSig s with
    | .next s1 =>
      batchLoop E bv chainID vals commit votingPowerNeeded ignoreSig countSig
        countAllSignatures lookUpByIndex cache rest (idx + 1) s1
    | other => other

/-- The loop `for i := range validSigs` after a successful batch verification
(lines 369-376), from position `i` on; `none` is an index out of range. -/
def batchCacheAll (E : Env) (chainID : String) (commit : Commit) (batchSigIdxs : List Nat) :
    List Bool → Nat → SignatureCache → Option SignatureCache
  | [], _, c => some c
  | _ :: rest, i, c =>
    match batchSigIdxs[i]? with
    | none => none
    | some idx =>
      match commit.Signatures[idx]? with
      | none => none
      | some sig =>
        batchCacheAll E chainID commit batchSigIdxs rest (i + 1)
          (c.Add sig.Signature
            { ValidatorAddress := sig.ValidatorAddress,
              VoteSignBytes := E.VoteSignBytes commit chainID (wrapInt32 idx) })

/-- The loop `for i, ok := range validSigs` after a failed batch verification
(lines 384-403), from position `i` on, with the error returned after it. -/
def batchFindInvalid (E : Env) (chainID : String) (commit : Commit)
    (batchSigIdxs : List Nat) :
    List Bool → Nat → Option SignatureCache → Outcome × Option SignatureCache
  | [], _, c => (.reject .InternalBatchInvariant, c)
  | ok :: rest, i, c =>
    match batchSigIdxs[i]? with
    | none => (.panic, c)
    | some idx =>
      match commit.Signatures[idx]? with
      | none => (.panic, c)
      | some sig =>
        if ¬ ok then (.reject (.WrongSignature idx (.commitSig sig)), c)
        else
          batchFindInvalid E chainID commit batchSigIdxs rest (i + 1)
            (c.map (fun c =>
              c.Add sig.Signature
                { ValidatorAddress := sig.ValidatorAddress,
                  VoteSignBytes := E.VoteSignBytes commit chainID (wrapInt32 idx) }))

/-- What `verifyCommitBatch` does once its loop has ended (lines 353-403). -/
def batchFinish (E : Env) (bv : BatchVerifier) (chainID : String) (commit : Commit)
    (votingPowerNeeded : Int) (cache : Option SignatureCache) : Flow BatchState → Run
  | .ret r s =>
    { result := r, cache := cache, tallied := s.talliedVotingPower, calls := s.calls }
  | .next s | .brk s =>
    if s.talliedVotingPower ≤ votingPowerNeeded then
      { result := .reject (.NotEnoughVotingPowerSigned s.talliedVotingPower votingPowerNeeded)
        cache := cache, tallied := s.talliedVotingPower, calls := s.calls }
    else if s.batchSigIdxs.length = 0 then
      { result := .accept, cache := cache, tallied := s.talliedVotingPower, calls := s.calls }
    else
      let calls := s.calls ++ [.BatchVerify]
      match bv.Verify s.batch with
      | (true, validSigs) =>
        match cache with
        | none =>
          { result := .accept, cache := none, tallied := s.talliedVotingPower, calls := calls }
        | some c =>
          match batchCacheAll E chainID commit s.batchSigIdxs validSigs 0 c with
          | none =>
            { result := .panic, cache := cache, tallied := s.talliedVotingPower,
              calls := calls }
          | some c1 =>
            { result := .accept, cache := some c1, tallied := s.talliedVotingPower,
              calls := calls }
      | (false, validSigs) =>
        let found := batchFindInvalid E chainID commit s.batchSigIdxs validSigs 0 cache
        { result := found.1, cache := found.2, tallied := s.talliedVotingPower,
          calls := calls }

/-- The driver `verifyCommitBatch`; `batchVerifier = none` is the `nil`
verifier, replaced by the one created for the proposer's key. -/
def verifyCommitBatch (E : Env) (chainID : String) (vals : ValidatorSet) (commit : Commit)
    (votingPowerNeeded : Int) (ignoreSig countSig : CommitSig → Bool)
    (countAllSignatures lookUpByIndex : Bool)
    (batchVerifier : Option BatchVerifier)
    (verifiedSignatureCache : Option SignatureCache) : Run :=
  let created : Option (Option BatchVerifier) :=
    match batchVerifier with
    | some bv => some (some bv)
    | none =>
      match vals.GetProposer with
      | none => none
      | some proposer => some (E.CreateBatchVerifier proposer.PubKey)
  match created with
  | none =>
    { result := .panic, cache := verifiedSignatureCache, tallied := 0, calls := [] }
  | some none =>
    { result := .reject .UnsupportedBatchSignature, cache := verifiedSignatureCache,
      tallied := 0, calls := [] }
  | some (some bv) =>
    if commit.Signatures.length < batchVerifyThreshold then
      { result := .reject .UnsupportedBatchSignature, cache := verifiedSignatureCache,
        tallied := 0, calls := [] }
    else
      batchFinish E bv chainID commit votingPowerNeeded verifiedSignatureCache
        (batchLoop E bv chainID vals commit votingPowerNeeded ignoreSig countSig
          countAllSignatures lookUpByIndex verifiedSignatureCache commit.Signatures 0
          { val := none, seenVals := [], batchSigIdxs := [], batch := [],
            talliedVotingPower := 0, calls := [] })

/-! ## Entrypoints -/

/-- The gate `shouldBatchVerify`; `none` is the nil dereference of
`vals.GetProposer().PubKey` on a set without proposer. -/
def shouldBatchVerify (E : Env) (vals : ValidatorSet) (commit : Commit) : Option Bool :=
  if commit.Signatures.length ≥ batchVerifyThreshold then
    match vals.GetProposer with
    | none => none
    | some proposer =>
      some (E.SupportsBatchVerifier proposer.PubKey && E.AllKeysHaveSameType vals)
  else some false

/-- A return before the drivers are reached. -/
def earlyReturn (r : Outcome) (cache : Option SignatureCache) : Run :=
  { result := r, cache := cache, tallied := 0, calls := [] }

/-- The entrypoint `VerifyCommit`. -/
def VerifyCommit (E : Env) (chainID : String) (vals : Option ValidatorSet) (blockID : BlockID)
    (height : Int) (commit : Option Commit) : Run :=
  match verifyBasicValsAndCommit vals commit height blockID with
  | some err => earlyReturn (.reject err) none
  | none =>
    match vals, commit with
    | some vals, some commit =>
      let votingPowerNeeded := votingPowerNeededTwoThirds vals.TotalVotingPower
      let ignore := fun (c : CommitSig) => decide (c.BlockIDFlag = .Absent)
      let count := fun (c : CommitSig) => decide (c.BlockIDFlag = .Commit)
      match shouldBatchVerify E vals commit with
      | none => earlyReturn .panic none
      | some true =>
        verifyCommitBatch E chainID vals commit votingPowerNeeded ignore count true true
          none none
      | some false =>
        verifyCommitSingle E chainID vals commit votingPowerNeeded ignore count true true
          none
    | _, _ => earlyReturn .panic none

/-- The function `verifyCommitLightInternal`. -/
def verifyCommitLightInternal (E : Env) (chainID : String) (vals : Option ValidatorSet)
    (blockID : BlockID) (height : Int) (commit : Option Commit) (countAllSignatures : Bool)
    (verifiedSignatureCache : Option SignatureCache) : Run :=
  match verifyBasicValsAndCommit vals commit height blockID with
  | some err => earlyReturn (.reject err) verifiedSignatureCache
  | none =>
    match vals, commit with
    | some vals, some commit =>
      let votingPowerNeeded := votingPowerNeededTwoThirds vals.TotalVotingPower
      let ignore := fun (c : CommitSig) => decide (c.BlockIDFlag ≠ .Commit)
      let count := fun (_ : CommitSig) => true
      match shouldBatchVerify E vals commit with
      | none => earlyReturn .panic verifiedSignatureCache
      | some true =>
        verifyCommitBatch E chainID vals commit votingPowerNeeded ignore count
          countAllSignatures true none verifiedSignatureCache
      | some false =>
        verifyCommitSingle E chainID vals commit votingPowerNeeded ignore count
          countAllSignatures true verifiedSignatureCache
    | _, _ => earlyReturn .panic verifiedSignatureCache

def VerifyCommitLight (E : Env) (chainID : String) (vals : Option ValidatorSet)
    (blockID : BlockID) (height : Int) (commit : Option Commit) : Run :=
  verifyCommitLightInternal E chainID vals blockID height commit false none

def VerifyCommitLightWithCache (E : Env) (chainID : String) (vals : Option ValidatorSet)
    (blockID : BlockID) (height : Int) (commit : Option Commit)
    (verifiedSignatureCache : Option SignatureCache) : Run :=
  verifyCommitLightInternal E chainID vals blockID height commit false verifiedSignatureCache

def VerifyCommitLightAllSignatures (E : Env) (chainID : String) (vals : Option ValidatorSet)
    (blockID : BlockID) (height : Int) (commit : Option Commit) : Run :=
  verifyCommitLightInternal E chainID vals blockID height commit true none

/-- The function `verifyCommitLightTrustingInternal`. The conversions
`int64(trustLevel.Numerator)` and `int64(trustLevel.Denominator)` reinterpret
the `uint64` fields. -/
def verifyCommitLightTrustingInternal (E : Env) (chainID : String)
    (vals : Option ValidatorSet) (commit : Option Commit) (trustLevel : Fraction)
    (countAllSignatures : Bool) (verifiedSignatureCache : Option SignatureCache) : Run :=
  match vals with
  | none => earlyReturn (.reject .NilValidatorSet) verifiedSignatureCache
  | some vals =>
    if trustLevel.Denominator = 0 then
      earlyReturn (.reject .ZeroTrustDenominator) verifiedSignatureCache
    else
      match commit with
      | none => earlyReturn (.reject .NilCommit) verifiedSignatureCache
      | some commit =>
        let product := safeMul vals.TotalVotingPower (wrapInt64 trustLevel.Numerator)
        if product.2 then
          earlyReturn (.reject .OverflowComputingThreshold) verifiedSignatureCache
        else if wrapInt64 trustLevel.Denominator = 0 then
          earlyReturn .panic verifiedSignatureCache
        else
          let votingPowerNeeded := divInt64 product.1 (wrapInt64 trustLevel.Denominator)
          let ignore := fun (c : CommitSig) => decide (c.BlockIDFlag ≠ .Commit)
          let count := fun (_ : CommitSig) => true
          match shouldBatchVerify E vals commit with
          | none => earlyReturn .panic verifiedSignatureCache
          | some true =>
            verifyCommitBatch E chainID vals commit votingPowerNeeded ignore count
              countAllSignatures false none verifiedSignatureCache
          | some false =>
            verifyCommitSingle E chainID vals commit votingPowerNeeded ignore count
              countAllSignatures false verifiedSignatureCache

def VerifyCommitLightTrusting (E : Env) (chainID : String) (vals : Option ValidatorSet)
    (commit : Option Commit) (trustLevel : Fraction) : Run :=
  verifyCommitLightTrustingInternal E chainID vals commit trustLevel false none

def VerifyCommitLightTrustingWithCache (E : Env) (chainID : String)
    (vals : Option ValidatorSet) (commit : Option Commit) (trustLevel : Fraction)
    (verifiedSignatureCache : Option SignatureCache) : Run :=
  verifyCommitLightTrustingInternal E chainID vals commit trustLevel false
    verifiedSignatureCache

def VerifyCommitLightTrustingAllSignatures (E : Env) (chainID : String)
    (vals : Option ValidatorSet) (commit : Option Commit) (trustLevel : Fraction) : Run :=
  verifyCommitLightTrustingInternal E chainID vals commit trustLevel true none

/-! ## Specification vocabulary -/

/-- What `PubKey.VerifySignature` returns for a batch entry; an entry without
key is not valid. -/
def entryValid (E : Env) (e : BatchEntry) : Bool :=
  match e.key with
  | some pk => E.VerifySignature pk e.msg e.sig
  | none => false

/-- A batch verifier whose `Add` never fails and whose `Verify` reports, for
each added signature, exactly what `PubKey.VerifySignature` returns. -/
def BatchVerifier.Exact (E : Env) (bv : BatchVerifier) : Prop :=
  (∀ es e, bv.Add es e = none) ∧
  (∀ es, bv.Verify es = (es.all (entryValid E), es.map (entryValid E)))

/-- The predicates `ignore` and `count` of `VerifyCommit`. -/
def ignoreAbsent (c : CommitSig) : Bool := decide (c.BlockIDFlag = .Absent)

def countCommit (c : CommitSig) : Bool := decide (c.BlockIDFlag = .Commit)

/-- The predicates `ignore` and `count` of the light entrypoints. -/
def ignoreNotCommit (c : CommitSig) : Bool := decide (c.BlockIDFlag ≠ .Commit)

def countAlways (_ : CommitSig) : Bool := true

/-! ## A concrete instance

A small signature scheme used to evaluate the engine on concrete inputs: the
key with raw bytes `[k]` has the address `k` repeated twenty times and signs a
message `m` as `k :: m`. The sign bytes of a vote are the length of the chain
identifier followed by the height; they do not depend on the commit index. -/

namespace Fixture

def Address (pk : PubKey) : Bytes := List.replicate 20 (pk.raw.headD 0)

def VerifySignature (pk : PubKey) (msg sig : Bytes) : Bool := decide (sig = pk.raw ++ msg)

def VoteSignBytes (commit : Commit) (chainID : String) (_ : Int) : Bytes :=
  [chainID.length, commit.Height.toNat]

/-- The shape check of a commit signature: an absent entry is empty, any other
entry has a twenty-byte address and a non-empty signature. -/
def ValidateBasic (cs : CommitSig) : Bool :=
  match cs.BlockIDFlag with
  | .Absent => decide (cs.ValidatorAddress = [] ∧ cs.Signature = [])
  | _ => decide (cs.ValidatorAddress.length = 20 ∧ cs.Signature ≠ [])

def valid (e : BatchEntry) : Bool :=
  match e.key with
  | some pk => VerifySignature pk e.msg e.sig
  | none => false

/-- The exact batch verifier of the scheme. -/
def verifier : BatchVerifier where
  Add := fun _ _ => none
  Verify := fun es => (es.all valid, es.map valid)

/-- The capabilities of the scheme; `batch` tells whether its keys support
batch verification. -/
def env (batch : Bool) : Env where
  Address := Address
  VerifySignature := VerifySignature
  VoteSignBytes := VoteSignBytes
  ValidateBasic := ValidateBasic
  SupportsBatchVerifier := fun pk => batch && pk.isSome
  AllKeysHaveSameType := fun _ => true
  CreateBatchVerifier := fun pk => if batch && pk.isSome then some verifier else none

def key (k : Nat) : PubKey := { raw := [k] }

def validator (k : Nat) (power : Int) : Validator :=
  { Address := Address (key k), PubKey := some (key k), VotingPower := power }

/-- Four validators with powers {10,10,10,10}; the first is the proposer. -/
def vals4 : ValidatorSet :=
  { Validators := [validator 1 10, validator 2 10, validator 3 10, validator 4 10],
    Proposer := some (validator 1 10) }

/-- Three validators of equal power. -/
def vals3 : ValidatorSet :=
  { Validators := [validator 1 10, validator 2 10, validator 3 10],
    Proposer := some (validator 1 10) }

def blockB : BlockID := { Hash := [7, 7], PartSetHeader := { Total := 1, Hash := [9] } }

/-- The sign bytes of a vote at height 7 on chain "c". -/
def msg : Bytes := [1, 7]

/-- The entry of validator `k` signing for the block. -/
def signed (k : Nat) : CommitSig :=
  { BlockIDFlag := .Commit, ValidatorAddress := Address (key k), Signature := k :: msg }

/-- The entry of validator `k` with a corrupted signature. -/
def corrupted (k : Nat) : CommitSig :=
  { BlockIDFlag := .Commit, ValidatorAddress := Address (key k), Signature := (k + 100) :: msg }

def absent : CommitSig := { BlockIDFlag := .Absent, ValidatorAddress := [], Signature := [] }

def commitOf (sigs : List CommitSig) : Commit :=
  { Height := 7, BlockID := blockB, Signatures := sigs }

/-- A single validator of power 10. -/
def vals1 : ValidatorSet :=
  { Validators := [validator 1 10], Proposer := some (validator 1 10) }

/-- Two validators of power 10. -/
def vals2 : ValidatorSet :=
  { Validators := [validator 1 10, validator 2 10], Proposer := some (validator 1 10) }

/-- An entry for the block that carries the address of validator `a` and the
signature of validator `k`. -/
def claimed (a k : Nat) : CommitSig :=
  { BlockIDFlag := .Commit, ValidatorAddress := Address (key a), Signature := k :: msg }

end Fixture

/-- The voting power of the validators whose commit signature has flag
`Commit` and verifies, validator `i` of `validators` being paired with entry
`i` of `sigs`; `idx` is the commit index of the first entry. -/
def validCommitPower (E : Env) (chainID : String) (commit : Commit) :
    List Validator → List CommitSig → Nat → Int
  | v :: vs, cs :: rest, idx =>
    (if cs.BlockIDFlag = .Commit ∧
        (match v.PubKey with
          | some pk =>
            E.VerifySignature pk (E.VoteSignBytes commit chainID (wrapInt32 idx)) cs.Signature
          | none => false) = true
      then v.VotingPower else 0) + validCommitPower E chainID commit vs rest (idx + 1)
  | _, _, _ => 0

/-- A cache entry is a genuinely verified triple: some validator of the set
has a key with the recorded address that verifies the signature over the
recorded sign bytes. -/
def genuineEntry (E : Env) (vals : ValidatorSet) (entry : Bytes × SignatureCacheValue) : Bool :=
  vals.Validators.any (fun v =>
    match v.PubKey with
    | some pk =>
      decide (E.Address pk = entry.2.ValidatorAddress) &&
        E.VerifySignature pk entry.2.VoteSignBytes entry.1
    | none => false)

/-! ## Vocabulary of the proofs -/

/-- How the drivers pair an entry with a validator (lines 301-321 and
440-460): a panic (index out of range), a skip (unknown address), a double
vote, or the validator found together with the updated `seenVals`. -/
inductive Resolution where
  | panic
  | skip
  | doubleVote (val : Validator) (firstIndex : Nat)
  | found (val : Validator) (seenVals : List (Nat × Nat))

/-- The resolution of entry `idx`, common to the two drivers. -/
def resolve (vals : ValidatorSet) (lookUpByIndex : Bool) (seenVals : List (Nat × Nat))
    (idx : Nat) (commitSig : CommitSig) : Resolution :=
  if lookUpByIndex then
    match vals.Validators[idx]? with
    | none => .panic
    | some val => .found val seenVals
  else
    match vals.GetByAddress commitSig.ValidatorAddress with
    | none => .skip
    | some (valIdx, val) =>
      match seenVals.lookup valIdx with
      | some firstIndex => .doubleVote val firstIndex
      | none => .found val ((valIdx, idx) :: seenVals)

/-- The validator that the drivers pair with entry `idx` of the commit: the
validator at the same index, or the one with the address of the entry. -/
def pairedValidator (vals : ValidatorSet) (lookUpByIndex : Bool) (idx : Nat)
    (commitSig : CommitSig) : Option Validator :=
  if lookUpByIndex then vals.Validators[idx]?
  else (vals.GetByAddress commitSig.ValidatorAddress).map Prod.snd

/-- Every entry that is not ignored carries a signature that verifies under
the key of the validator at the same index; validator `i` of `validators` is
paired with entry `i` of `sigs`, and `idx` is the commit index of the first
entry. -/
def allExaminedVerify (E : Env) (chainID : String) (commit : Commit)
    (ignoreSig : CommitSig → Bool) : List Validator → List CommitSig → Nat → Bool
  | v :: vs, cs :: rest, idx =>
    (ignoreSig cs ||
      (match v.PubKey with
        | some pk =>
          E.VerifySignature pk (E.VoteSignBytes commit chainID (wrapInt32 idx)) cs.Signature
        | none => false)) &&
      allExaminedVerify E chainID commit ignoreSig vs rest (idx + 1)
  | _, _, _ => true

/-- The validator set has a proposer and, when the proposer's key supports
batch verification, the verifier created for it is exact. -/
def Env.BatchReady (E : Env) (vals : ValidatorSet) : Prop :=
  ∃ p, vals.GetProposer = some p ∧
    (E.SupportsBatchVerifier p.PubKey = true →
      ∃ bv, E.CreateBatchVerifier p.PubKey = some bv ∧ bv.Exact E)

/-- The index of the validator addressed by an entry, if any. -/
def addressedIndex (vals : ValidatorSet) (commitSig : CommitSig) : Option Nat :=
  (vals.GetByAddress commitSig.ValidatorAddress).map Prod.fst

/-- Entry `idx` passes the checks that precede the signature check: its shape
is valid, with lookup by index there is a validator at index `idx`, and the
validator paired with it has a public key. -/
def entryWellFormed (E : Env) (vals : ValidatorSet) (lookUpByIndex : Bool) (idx : Nat)
    (commitSig : CommitSig) : Bool :=
  E.ValidateBasic commitSig &&
    (match pairedValidator vals lookUpByIndex idx commitSig with
      | none => !lookUpByIndex
      | some v => v.PubKey.isSome)

/-- The signature of entry `idx` verifies under the key of the validator
paired with it (when there is one). -/
def entryVerifies (E : Env) (chainID : String) (vals : ValidatorSet) (commit : Commit)
    (lookUpByIndex : Bool) (idx : Nat) (commitSig : CommitSig) : Bool :=
  match pairedValidator vals lookUpByIndex idx commitSig with
  | none => true
  | some v =>
    match v.PubKey with
    | none => true
    | some pk =>
      E.VerifySignature pk (E.VoteSignBytes commit chainID (wrapInt32 idx)) commitSig.Signature

/-- With lookup by address, no validator of the set is addressed by two
entries that are not ignored. -/
def NoDoubleVote (vals : ValidatorSet) (ignoreSig : CommitSig → Bool)
    (sigs : List CommitSig) : Prop :=
  sigs.Pairwise (fun a b =>
    ignoreSig a = false → ignoreSig b = false →
      addressedIndex vals a = none ∨ addressedIndex vals a ≠ addressedIndex vals b)

instance (vals : ValidatorSet) (ignoreSig : CommitSig → Bool) (sigs : List CommitSig) :
    Decidable (NoDoubleVote vals ignoreSig sigs) := by
  unfold NoDoubleVote
  infer_instance

/-- The tally after the entries `sigs`, the first of which has commit index
`idx`, have been processed from the tally `t`: the voting power of the
validator paired with each entry that is not ignored and that counts is added
(in `int64`). -/
def tallyOver (vals : ValidatorSet) (ignoreSig countSig : CommitSig → Bool)
    (lookUpByIndex : Bool) : List CommitSig → Nat → Int → Int
  | [], _, t => t
  | cs :: rest, idx, t =>
    tallyOver vals ignoreSig countSig lookUpByIndex rest (idx + 1)
      (if ignoreSig cs then t
        else
          match pairedValidator vals lookUpByIndex idx cs with
          | none => t
          | some v => addTally countSig cs v t)

/-- No early exit happens while the entries `sigs` are processed: every
signature is counted, or the tally stays at or below the threshold after each
of them. -/
def NoEarlyExit (vals : ValidatorSet) (votingPowerNeeded : Int)
    (ignoreSig countSig : CommitSig → Bool) (countAllSignatures lookUpByIndex : Bool)
    (sigs : List CommitSig) : Prop :=
  countAllSignatures = true ∨
    ∀ j ≤ sigs.length,
      tallyOver vals ignoreSig countSig lookUpByIndex (sigs.take j) 0 0 ≤ votingPowerNeeded

/-- The map `seenVals` after the entries `sigs`, the first of which has commit
index `idx`, have been resolved from the map `seen`. -/
def seenAfter (vals : ValidatorSet) (ignoreSig : CommitSig → Bool) (lookUpByIndex : Bool) :
    List CommitSig → Nat → List (Nat × Nat) → List (Nat × Nat)
  | [], _, seen => seen
  | cs :: rest, idx, seen =>
    seenAfter vals ignoreSig lookUpByIndex rest (idx + 1)
      (if ignoreSig cs then seen
        else
          match resolve vals lookUpByIndex seen idx cs with
          | .found _ seen1 => seen1
          | _ => seen)

instance (vals : ValidatorSet) (votingPowerNeeded : Int) (ignoreSig countSig : CommitSig → Bool)
    (countAllSignatures lookUpByIndex : Bool) (sigs : List CommitSig) :
    Decidable (NoEarlyExit vals votingPowerNeeded ignoreSig countSig countAllSignatures
      lookUpByIndex sigs) := by
  unfold NoEarlyExit
  infer_instance

/-- The state in which a flow ends. -/
def Flow.state {σ : Type} : Flow σ → σ
  | .next s => s
  | .brk s => s
  | .ret _ s => s

/-- The voting power of the validators whose commit signature has flag
`Commit`, whether or not the signature verifies; validator `i` of `validators`
is paired with entry `i` of `sigs`. -/
def commitFlagPower : List Validator → List CommitSig → Int
  | v :: vs, cs :: rest =>
    (if cs.BlockIDFlag = .Commit then v.VotingPower else 0) + commitFlagPower vs rest
  | _, _ => 0

/-- The cache entry that a verification of the signature of validator `k` on
chain "c" leaves. -/
def Fixture.cached (k : Nat) : Bytes × SignatureCacheValue :=
  ((Fixture.signed k).Signature,
    { ValidatorAddress := Fixture.Address (Fixture.key k), VoteSignBytes := Fixture.msg })

/-- Five validators with powers {20,20,20,1,20}; the threshold of two thirds
is 54. -/
def Fixture.vals5 : ValidatorSet :=
  { Validators := [Fixture.validator 1 20, Fixture.validator 2 20, Fixture.validator 3 20,
      Fixture.validator 4 1, Fixture.validator 5 20],
    Proposer := some (Fixture.validator 1 20) }

/-- An entry for the block signed by a key that belongs to no validator of the
sets above. -/
def Fixture.stranger : CommitSig := Fixture.signed 9

/-- The entry of validator `k` for `nil`, with a corrupted signature. -/
def Fixture.corruptedNil (k : Nat) : CommitSig :=
  { BlockIDFlag := .Nil, ValidatorAddress := Fixture.Address (Fixture.key k),
    Signature := (k + 100) :: Fixture.msg }

/-- The entry that `verifyCommitBatch` writes to the cache for the batched
commit index `idx` (lines 372-375 and 392-395), when the index is in range. -/
def batchCacheEntry (E : Env) (chainID : String) (commit : Commit) (idx : Nat) :
    Option (Bytes × SignatureCacheValue) :=
  (commit.Signatures[idx]?).map (fun sig =>
    (sig.Signature,
      { ValidatorAddress := sig.ValidatorAddress,
        VoteSignBytes := E.VoteSignBytes commit chainID (wrapInt32 idx) }))

/-- The voting power of the validator at index `i`, zero beyond the set. -/
def ValidatorSet.powerAt (vals : ValidatorSet) (i : Nat) : Int :=
  ((vals.Validators[i]?).map (fun v => v.VotingPower)).getD 0

/-- The tally `t` is the sum, over the integers, of the voting powers of
validators of the set, each taken at most once: `counted` lists the indices of
the validators whose power has been added. -/
def CountedOnce (vals : ValidatorSet) (t : Int) : Prop :=
  ∃ counted : List Nat, counted.Nodup ∧ (∀ i ∈ counted, i < vals.Validators.length) ∧
    t = (counted.map vals.powerAt).sum

/-- The invariant of the loops on the tally: `t` is the sum of the powers of
distinct validators, each of which lies before the commit index `idx` with
lookup by index and is recorded in `seenVals` with lookup by address. -/
def TallyInv (vals : ValidatorSet) (lookUpByIndex : Bool) (idx : Nat)
    (seenVals : List (Nat × Nat)) (t : Int) : Prop :=
  ∃ counted : List Nat, counted.Nodup ∧ (∀ i ∈ counted, i < vals.Validators.length) ∧
    t = (counted.map vals.powerAt).sum ∧
    ∀ i ∈ counted, (lookUpByIndex = true → i < idx) ∧
      (lookUpByIndex = false → (seenVals.lookup i).isSome = true)

/-! ## Theorems -/

set_option maxRecDepth 8192

/-! ### Threshold arithmetic -/

/-- C4: for every total voting power `T` with `0 ≤ T ≤ MaxInt64 / 8`, the
doubling `T * 2` of the full and light thresholds stays inside the signed
64-bit range (it does not wrap) and the threshold equals `⌊2·T / 3⌋`. -/
theorem votingPowerNeededTwoThirds_exact (T : Int) (h0 : 0 ≤ T) (h1 : T ≤ MaxInt64 / 8) :
    MinInt64 ≤ T * 2 ∧ T * 2 ≤ MaxInt64 ∧ wrapInt64 (T * 2) = T * 2 ∧
      votingPowerNeededTwoThirds T = Int.fdiv (2 * T) 3 := by
  have hmax : MaxInt64 = 2 ^ 63 - 1 := rfl
  have hmin : MinInt64 = -(2 ^ 63) := rfl
  rw [hmax] at h1
  have hw : wrapInt64 (T * 2) = T * 2 := by
    unfold wrapInt64
    omega
  have hd : Int.tdiv (T * 2) 3 = Int.fdiv (2 * T) 3 := by
    rw [Int.tdiv_eq_ediv (by omega) (by omega), Int.fdiv_eq_ediv _ (by omega)]
    congr 1
    ring
  have hq : Int.tdiv (T * 2) 3 = (T * 2) / 3 := Int.tdiv_eq_ediv (by omega) (by omega)
  refine ⟨by rw [hmin]; omega, by rw [hmax]; omega, hw, ?_⟩
  unfold votingPowerNeededTwoThirds divInt64
  rw [hw, ← hd, hq]
  unfold wrapInt64
  omega

/-- C4, at the total voting power 40 of four validators of power 10: the
threshold is 26. -/
theorem votingPowerNeededTwoThirds_exact_witness :
    (0 : Int) ≤ 40 ∧ (40 : Int) ≤ MaxInt64 / 8 ∧ votingPowerNeededTwoThirds 40 = 26 :=
  ⟨by decide, by decide,
    (votingPowerNeededTwoThirds_exact 40 (by decide) (by decide)).2.2.2.trans (by decide)⟩

/-- C5 (evaluation at the failing input): with total voting power 10 and the
trust level `(2^64 - 1) / 1`, the product `10 * (2^64 - 1)` does not fit a
signed 64-bit integer, yet `verifyCommitLightTrustingInternal` reports no
overflow: the numerator is reinterpreted as `-1`, the threshold becomes `-10`,
and a commit whose only entry is absent is accepted. -/
theorem verifyCommitLightTrustingInternal_numerator_wraps :
    Fixture.vals1.TotalVotingPower * ((18446744073709551615 : Nat) : Int) > MaxInt64 ∧
      (verifyCommitLightTrustingInternal (Fixture.env false) "c" (some Fixture.vals1)
        (some (Fixture.commitOf [Fixture.absent]))
        { Numerator := 18446744073709551615, Denominator := 1 } false none).result
        = .accept := by
  decide

/-! ### Preconditions -/

/-- C6: `verifyBasicValsAndCommit` returns nil exactly when the validator set
and the commit are non-nil, the sizes agree, and height and block ID are the
expected ones; otherwise it returns the error of the first failing check, in
the order nil validator set, nil commit, size, height, block ID. An empty
signature list with a non-empty validator set gives `InvalidCommitSignatures`,
and `VerifyCommit` and `verifyCommitLightInternal` return the error of the
check without any cryptographic call and without touching the cache. -/
theorem verifyBasicValsAndCommit_spec (vals : Option ValidatorSet) (commit : Option Commit)
    (height : Int) (blockID : BlockID) :
    (verifyBasicValsAndCommit vals commit height blockID = none ↔
      ∃ v c, vals = some v ∧ commit = some c ∧ v.Size = c.Signatures.length ∧
        height = c.Height ∧ blockID = c.BlockID) ∧
    (vals = none →
      verifyBasicValsAndCommit vals commit height blockID = some .NilValidatorSet) ∧
    (∀ v, vals = some v → commit = none →
      verifyBasicValsAndCommit vals commit height blockID = some .NilCommit) ∧
    (∀ v c, vals = some v → commit = some c → v.Size ≠ c.Signatures.length →
      verifyBasicValsAndCommit vals commit height blockID =
        some (.InvalidCommitSignatures v.Size c.Signatures.length)) ∧
    (∀ v c, vals = some v → commit = some c → v.Size = c.Signatures.length →
      height ≠ c.Height →
      verifyBasicValsAndCommit vals commit height blockID =
        some (.InvalidCommitHeight height c.Height)) ∧
    (∀ v c, vals = some v → commit = some c → v.Size = c.Signatures.length →
      height = c.Height → blockID ≠ c.BlockID →
      verifyBasicValsAndCommit vals commit height blockID =
        some (.WrongBlockID blockID c.BlockID)) ∧
    (∀ v c, vals = some v → commit = some c → c.Signatures = [] → v.Validators ≠ [] →
      verifyBasicValsAndCommit vals commit height blockID =
        some (.InvalidCommitSignatures v.Size 0)) ∧
    (∀ err, verifyBasicValsAndCommit vals commit height blockID = some err →
      ∀ (E : Env) (chainID : String) (countAll : Bool) (cache : Option SignatureCache),
        (VerifyCommit E chainID vals blockID height commit).result = .reject err ∧
        (VerifyCommit E chainID vals blockID height commit).calls = [] ∧
        (verifyCommitLightInternal E chainID vals blockID height commit countAll
          cache).result = .reject err ∧
        (verifyCommitLightInternal E chainID vals blockID height commit countAll
          cache).calls = [] ∧
        (verifyCommitLightInternal E chainID vals blockID height commit countAll
          cache).cache = cache) := by
  refine ⟨?_, ?_, ?_, ?_, ?_, ?_, ?_, ?_⟩
  · constructor
    · intro h
      cases vals with
      | none => simp [verifyBasicValsAndCommit] at h
      | some v =>
        cases commit with
        | none => simp [verifyBasicValsAndCommit] at h
        | some c =>
          simp only [verifyBasicValsAndCommit] at h
          split_ifs at h with h1 h2 h3
          exact ⟨v, c, rfl, rfl, not_not.mp h1, not_not.mp h2, h3⟩
    · rintro ⟨v, c, rfl, rfl, h1, h2, h3⟩
      simp [verifyBasicValsAndCommit, h1, h2, h3]
  · rintro rfl
    rfl
  · rintro v rfl rfl
    rfl
  · rintro v c rfl rfl h
    simp [verifyBasicValsAndCommit, h]
  · rintro v c rfl rfl h1 h2
    simp [verifyBasicValsAndCommit, h1, h2]
  · rintro v c rfl rfl h1 h2 h3
    simp [verifyBasicValsAndCommit, h1, h2, h3]
  · rintro v c rfl rfl h1 h2
    have h0 : v.Size ≠ 0 := by
      simpa [ValidatorSet.Size] using h2
    simp [verifyBasicValsAndCommit, h0, h1]
  · intro err h E chainID countAll cache
    simp [VerifyCommit, verifyCommitLightInternal, h, earlyReturn]

/-- C6, at four validators and a commit without signatures. -/
theorem verifyBasicValsAndCommit_spec_witness :
    Fixture.vals4.Validators ≠ [] ∧
      verifyBasicValsAndCommit (some Fixture.vals4) (some (Fixture.commitOf [])) 7
        Fixture.blockB = some (.InvalidCommitSignatures 4 0) ∧
      (VerifyCommit (Fixture.env true) "c" (some Fixture.vals4) Fixture.blockB 7
        (some (Fixture.commitOf []))).result = .reject (.InvalidCommitSignatures 4 0) :=
  ⟨by decide,
    (verifyBasicValsAndCommit_spec (some Fixture.vals4) (some (Fixture.commitOf [])) 7
      Fixture.blockB).2.2.2.2.2.2.1 _ _ rfl rfl rfl (by decide),
    ((verifyBasicValsAndCommit_spec (some Fixture.vals4) (some (Fixture.commitOf [])) 7
      Fixture.blockB).2.2.2.2.2.2.2 _ (by decide) (Fixture.env true) "c" true none).1⟩

/-! ### Evaluations on concrete commits -/

/-- C1 (counterexample): four validators of power 10, threshold 26, every
signature counted, lookup by index, no cache, the exact batch verifier; the
commit holds one valid signature, one corrupted signature and two absent
entries. `verifyCommitSingle` returns `WrongSignature` for index 1 while
`verifyCommitBatch` returns `NotEnoughVotingPowerSigned{20, 26}`. -/
theorem verifyCommitBatch_error_differs_from_single :
    (verifyCommitSingle (Fixture.env true) "c" Fixture.vals4
        (Fixture.commitOf [Fixture.signed 1, Fixture.corrupted 2, Fixture.absent,
          Fixture.absent])
        26 ignoreAbsent countCommit true true none).result
      = .reject (.WrongSignature 1 (.sigBytes [102, 1, 7])) ∧
    (verifyCommitBatch (Fixture.env true) "c" Fixture.vals4
        (Fixture.commitOf [Fixture.signed 1, Fixture.corrupted 2, Fixture.absent,
          Fixture.absent])
        26 ignoreAbsent countCommit true true (some Fixture.verifier) none).result
      = .reject (.NotEnoughVotingPowerSigned 20 26) := by
  decide

/-- C2 (counterexample): four validators of power 10 (threshold
`⌊2·40/3⌋ + 1 = 27`), three valid signatures for the block and a corrupted
fourth one. The valid block signatures carry power 30, yet `VerifyCommit` and
`VerifyCommitLightAllSignatures` reject with `WrongSignature` for index 3. -/
theorem verifyCommit_rejects_despite_valid_power :
    validCommitPower (Fixture.env false) "c"
        (Fixture.commitOf [Fixture.signed 1, Fixture.signed 2, Fixture.signed 3,
          Fixture.corrupted 4])
        Fixture.vals4.Validators
        [Fixture.signed 1, Fixture.signed 2, Fixture.signed 3, Fixture.corrupted 4] 0 = 30 ∧
    Int.fdiv (2 * Fixture.vals4.TotalVotingPower) 3 + 1 = 27 ∧
    (VerifyCommit (Fixture.env false) "c" (some Fixture.vals4) Fixture.blockB 7
        (some (Fixture.commitOf [Fixture.signed 1, Fixture.signed 2, Fixture.signed 3,
          Fixture.corrupted 4]))).result
      = .reject (.WrongSignature 3 (.sigBytes [104, 1, 7])) ∧
    (VerifyCommitLightAllSignatures (Fixture.env false) "c" (some Fixture.vals4)
        Fixture.blockB 7
        (some (Fixture.commitOf [Fixture.signed 1, Fixture.signed 2, Fixture.signed 3,
          Fixture.corrupted 4]))).result
      = .reject (.WrongSignature 3 (.sigBytes [104, 1, 7])) := by
  decide

/-- C7 (counterexample): three validators of power 10, trust level 1/3. The
commit carries the address of validator 1 at indices 0 and 1, the first entry
with a corrupted signature: the single path returns `WrongSignature` for index
0, not `DoubleVote`. With early exit, a commit whose duplicated entries come
after the threshold is exceeded is accepted by the batch path. -/
theorem trusting_doubleVote_not_reported :
    (VerifyCommitLightTrusting (Fixture.env false) "c" (some Fixture.vals3)
        (some (Fixture.commitOf [Fixture.corrupted 1, Fixture.signed 1, Fixture.signed 2]))
        { Numerator := 1, Denominator := 3 }).result
      = .reject (.WrongSignature 0 (.sigBytes [101, 1, 7])) ∧
    (VerifyCommitLightTrusting (Fixture.env true) "c" (some Fixture.vals3)
        (some (Fixture.commitOf [Fixture.signed 2, Fixture.signed 3, Fixture.signed 1,
          Fixture.signed 1]))
        { Numerator := 1, Denominator := 3 }).result
      = .accept := by
  decide

/-- C8 (counterexample): four validators of power 10, all sign, the signature
at index 3 is corrupted. `VerifyCommitLight` exits after index 2 with tally
`30 > 26` and accepts, in the single and in the batch path. -/
theorem verifyCommitLight_accepts_corrupted_tail :
    (VerifyCommitLight (Fixture.env false) "c" (some Fixture.vals4) Fixture.blockB 7
        (some (Fixture.commitOf [Fixture.signed 1, Fixture.signed 2, Fixture.signed 3,
          Fixture.corrupted 4]))).result = .accept ∧
    (VerifyCommitLight (Fixture.env true) "c" (some Fixture.vals4) Fixture.blockB 7
        (some (Fixture.commitOf [Fixture.signed 1, Fixture.signed 2, Fixture.signed 3,
          Fixture.corrupted 4]))).result = .accept := by
  decide

/-- C9 (evaluation at the failing input): two validators; entry 0 carries the
address of validator 2 and a signature that verifies under the key of
validator 1. The batch path of `VerifyCommitLightWithCache` accepts and
records that signature under the address of validator 2, whose key does not
verify it; the single path records it under the address of validator 1. -/
theorem verifyCommitBatch_caches_claimed_address :
    (VerifyCommitLightWithCache (Fixture.env true) "c" (some Fixture.vals2) Fixture.blockB 7
        (some (Fixture.commitOf [Fixture.claimed 2 1, Fixture.signed 2]))
        (some [])).result = .accept ∧
    (VerifyCommitLightWithCache (Fixture.env true) "c" (some Fixture.vals2) Fixture.blockB 7
        (some (Fixture.commitOf [Fixture.claimed 2 1, Fixture.signed 2]))
        (some [])).cache
      = some [([2, 1, 7],
                { ValidatorAddress := Fixture.Address (Fixture.key 2),
                  VoteSignBytes := [1, 7] }),
              ([1, 1, 7],
                { ValidatorAddress := Fixture.Address (Fixture.key 2),
                  VoteSignBytes := [1, 7] })] ∧
    genuineEntry (Fixture.env true) Fixture.vals2
        ([1, 1, 7],
          { ValidatorAddress := Fixture.Address (Fixture.key 2), VoteSignBytes := [1, 7] })
      = false ∧
    (VerifyCommitLightWithCache (Fixture.env false) "c" (some Fixture.vals2) Fixture.blockB 7
        (some (Fixture.commitOf [Fixture.claimed 2 1, Fixture.signed 2]))
        (some [])).cache
      = some [([2, 1, 7],
                { ValidatorAddress := Fixture.Address (Fixture.key 2),
                  VoteSignBytes := [1, 7] }),
              ([1, 1, 7],
                { ValidatorAddress := Fixture.Address (Fixture.key 1),
                  VoteSignBytes := [1, 7] })] := by
  decide

/-- C10 (evaluation at the failing input): two validators of power 10; both
entries of the commit carry the address of validator 2 and the signature of
validator 1. Without cache the batch path rejects with `WrongSignature` for
index 1, and so does a first run with an empty cache, which leaves the entry
`signature of validator 1 ↦ address of validator 2`; a second run with that
cache accepts the same commit. -/
theorem verifyCommitLightWithCache_replay_accepts :
    (VerifyCommitLight (Fixture.env true) "c" (some Fixture.vals2) Fixture.blockB 7
        (some (Fixture.commitOf [Fixture.claimed 2 1, Fixture.claimed 2 1]))).result
      = .reject (.WrongSignature 1 (.commitSig (Fixture.claimed 2 1))) ∧
    (VerifyCommitLightWithCache (Fixture.env true) "c" (some Fixture.vals2) Fixture.blockB 7
        (some (Fixture.commitOf [Fixture.claimed 2 1, Fixture.claimed 2 1]))
        (some [])).result
      = .reject (.WrongSignature 1 (.commitSig (Fixture.claimed 2 1))) ∧
    (VerifyCommitLightWithCache (Fixture.env true) "c" (some Fixture.vals2) Fixture.blockB 7
        (some (Fixture.commitOf [Fixture.claimed 2 1, Fixture.claimed 2 1]))
        (some [])).cache
      = some [([1, 1, 7],
                { ValidatorAddress := Fixture.Address (Fixture.key 2),
                  VoteSignBytes := [1, 7] })] ∧
    (VerifyCommitLightWithCache (Fixture.env true) "c" (some Fixture.vals2) Fixture.blockB 7
        (some (Fixture.commitOf [Fixture.claimed 2 1, Fixture.claimed 2 1]))
        (some [([1, 1, 7],
                { ValidatorAddress := Fixture.Address (Fixture.key 2),
                  VoteSignBytes := [1, 7] })])).result
      = .accept := by
  decide

/-! ### The batch driver returns no `nil` from inside its loops -/

section Loops

variable (E : Env) (bv : BatchVerifier) (chainID : String) (vals : ValidatorSet)
  (commit : Commit) (needed : Int) (ignoreSig countSig : CommitSig → Bool)
  (countAll byIndex : Bool) (cache : Option SignatureCache)

/-- An iteration of the batch loop never returns `nil`. -/
theorem batchCheck_ne_accept (idx : Nat) (cs : CommitSig) (v : Validator) (b b' : BatchState) :
    batchCheck E bv chainID commit needed countSig countAll cache idx cs v b
      ≠ .ret .accept b' := by
  simp only [batchCheck]
  cases batchCacheHit E cache cs v.PubKey (E.VoteSignBytes commit chainID (wrapInt32 idx)) with
  | none => simp
  | some hit =>
    simp only []
    cases (if hit = true then none
        else bv.Add b.batch (batchEntry E chainID commit idx cs v)) with
    | some r => simp
    | none =>
      simp only []
      split <;> simp

theorem batchBody_ne_accept (idx : Nat) (cs : CommitSig) (b b' : BatchState) :
    batchBody E bv chainID vals commit needed ignoreSig countSig countAll byIndex cache idx cs b
      ≠ .ret .accept b' := by
  simp only [batchBody]
  by_cases hi : ignoreSig cs = true
  · simp [hi]
  · simp only [hi]
    cases byIndex with
    | true =>
      simp only [if_true, Bool.false_eq_true, if_false]
      cases vals.Validators[idx]? with
      | none => simp
      | some v => exact batchCheck_ne_accept _ _ _ _ _ _ _ _ _ _ _ _ _
    | false =>
      simp only [Bool.false_eq_true, if_false]
      cases vals.GetByAddress cs.ValidatorAddress with
      | none => simp
      | some p =>
        obtain ⟨vi, v⟩ := p
        simp only []
        cases List.lookup vi b.seenVals with
        | some i => simp
        | none => exact batchCheck_ne_accept _ _ _ _ _ _ _ _ _ _ _ _ _

theorem batchLoop_ne_accept (sigs : List CommitSig) (idx : Nat) (b b' : BatchState) :
    batchLoop E bv chainID vals commit needed ignoreSig countSig countAll byIndex cache sigs idx b
      ≠ .ret .accept b' := by
  induction sigs generalizing idx b with
  | nil => simp [batchLoop]
  | cons cs rest ih =>
    intro h
    rw [batchLoop] at h
    split at h
    · exact ih _ _ h
    · rename_i other hne
      exact batchBody_ne_accept E bv chainID vals commit needed ignoreSig countSig countAll byIndex
        cache idx cs b b' h

theorem batchFindInvalid_ne_accept (idxs : List Nat) (bits : List Bool) (i : Nat)
    (c : Option SignatureCache) :
    (batchFindInvalid E chainID commit idxs bits i c).1 ≠ .accept := by
  induction bits generalizing i c with
  | nil => simp [batchFindInvalid]
  | cons ok rest ih =>
    rw [batchFindInvalid]
    split
    · simp
    · split
      · simp
      · split
        · simp
        · exact ih _ _

end Loops

/-! ### The loop bodies in terms of `resolve` -/

section Loops

variable (E : Env) (bv : BatchVerifier) (chainID : String) (vals : ValidatorSet)
  (commit : Commit) (needed : Int) (ignoreSig countSig : CommitSig → Bool)
  (countAll byIndex : Bool) (cache : Option SignatureCache)

theorem singleBody_eq (idx : Nat) (cs : CommitSig) (s : SingleState) :
    singleBody E chainID vals commit needed ignoreSig countSig countAll byIndex idx cs s =
      if ignoreSig cs then .next s
      else if ¬ E.ValidateBasic cs then .ret (.reject (.InvalidCommitSig s.val idx)) s
      else
        match resolve vals byIndex s.seenVals idx cs with
        | .panic => .ret .panic s
        | .skip => .next { s with val := none }
        | .doubleVote v i => .ret (.reject (.DoubleVote v i idx)) { s with val := some v }
        | .found v seen =>
          singleCheck E chainID commit needed countSig countAll idx cs v
            { s with val := some v, seenVals := seen } := by
  simp only [singleBody, resolve]
  split
  · rfl
  · split
    · rfl
    · cases byIndex with
      | true =>
        simp only [if_true]
        cases vals.Validators[idx]? <;> rfl
      | false =>
        simp only [Bool.false_eq_true, if_false]
        cases vals.GetByAddress cs.ValidatorAddress with
        | none => rfl
        | some p =>
          obtain ⟨vi, v⟩ := p
          simp only []
          cases List.lookup vi s.seenVals <;> rfl

theorem batchBody_eq (idx : Nat) (cs : CommitSig) (b : BatchState) :
    batchBody E bv chainID vals commit needed ignoreSig countSig countAll byIndex cache idx cs b =
      if ignoreSig cs then .next b
      else
        match resolve vals byIndex b.seenVals idx cs with
        | .panic => .ret .panic b
        | .skip => .next { b with val := none }
        | .doubleVote v i => .ret (.reject (.DoubleVote v i idx)) { b with val := some v }
        | .found v seen =>
          batchCheck E bv chainID commit needed countSig countAll cache idx cs v
            { b with val := some v, seenVals := seen } := by
  simp only [batchBody, resolve]
  split
  · rfl
  · cases byIndex with
    | true =>
      simp only [if_true]
      cases vals.Validators[idx]? <;> rfl
    | false =>
      simp only [Bool.false_eq_true, if_false]
      cases vals.GetByAddress cs.ValidatorAddress with
      | none => rfl
      | some p =>
        obtain ⟨vi, v⟩ := p
        simp only []
        cases List.lookup vi b.seenVals <;> rfl

theorem findByAddress_mem (address : Bytes) (vs : List Validator) (i j : Nat) (v : Validator)
    (h : findByAddress address vs i = some (j, v)) : v ∈ vs ∧ v.Address = address := by
  induction vs generalizing i with
  | nil => simp [findByAddress] at h
  | cons w ws ih =>
    rw [findByAddress] at h
    split at h
    · rename_i hw
      simp only [Option.some.injEq, Prod.mk.injEq] at h
      obtain ⟨-, rfl⟩ := h
      exact ⟨List.mem_cons_self _ _, hw⟩
    · obtain ⟨h1, h2⟩ := ih _ h
      exact ⟨List.mem_cons_of_mem _ h1, h2⟩

/-- A validator found by `resolve` belongs to the set. -/
theorem resolve_found_mem (seen seen1 : List (Nat × Nat)) (idx : Nat) (cs : CommitSig)
    (v : Validator) (h : resolve vals byIndex seen idx cs = .found v seen1) :
    v ∈ vals.Validators := by
  unfold resolve at h
  cases byIndex with
  | true =>
    simp only [if_true] at h
    cases hv : vals.Validators[idx]? with
    | none => simp [hv] at h
    | some w =>
      simp only [hv, Resolution.found.injEq] at h
      obtain ⟨rfl, -⟩ := h
      exact List.getElem?_mem hv
  | false =>
    simp only [Bool.false_eq_true, if_false] at h
    cases hv : vals.GetByAddress cs.ValidatorAddress with
    | none => simp [hv] at h
    | some p =>
      obtain ⟨vi, w⟩ := p
      simp only [hv] at h
      cases hl : List.lookup vi seen with
      | some i => simp [hl] at h
      | none =>
        simp only [hl, Resolution.found.injEq] at h
        obtain ⟨rfl, -⟩ := h
        exact (findByAddress_mem _ _ _ _ _ hv).1

/-! ### The batch driver never accepts a batch with an invalid entry -/

theorem batchFinish_accept_iff (hbv : bv.Exact E) (b : BatchState) :
    ((batchFinish E bv chainID commit needed none (.next b)).result = .accept ↔
      needed < b.talliedVotingPower ∧
        (b.batchSigIdxs.length = 0 ∨ b.batch.all (entryValid E) = true)) ∧
    ((batchFinish E bv chainID commit needed none (.brk b)).result = .accept ↔
      needed < b.talliedVotingPower ∧
        (b.batchSigIdxs.length = 0 ∨ b.batch.all (entryValid E) = true)) := by
  have key : ∀ f : Flow BatchState, (f = .next b ∨ f = .brk b) →
      ((batchFinish E bv chainID commit needed none f).result = .accept ↔
        needed < b.talliedVotingPower ∧
          (b.batchSigIdxs.length = 0 ∨ b.batch.all (entryValid E) = true)) := by
    intro f hf
    have hfin : batchFinish E bv chainID commit needed none f
        = batchFinish E bv chainID commit needed none (.next b) := by
      rcases hf with rfl | rfl <;> rfl
    rw [hfin]
    simp only [batchFinish]
    by_cases ht : b.talliedVotingPower ≤ needed
    · simp [ht, not_lt.mpr ht]
    · by_cases hl : b.batchSigIdxs.length = 0
      · simp [ht, hl, not_le.mp ht]
      · rw [hbv.2]
        cases hall : b.batch.all (entryValid E) with
        | true => simp [ht, hl, not_le.mp ht]
        | false =>
          simp only [ht, hl, if_false, not_le.mp ht, true_and, false_or]
          simp only [Bool.false_eq_true, iff_false]
          exact batchFindInvalid_ne_accept E chainID commit _ _ _ _
  exact ⟨key _ (Or.inl rfl), key _ (Or.inr rfl)⟩

end Loops

section Loops

variable (E : Env) (bv : BatchVerifier) (chainID : String) (vals : ValidatorSet)
  (commit : Commit) (needed : Int) (ignoreSig countSig : CommitSig → Bool)
  (countAll byIndex : Bool) (cache : Option SignatureCache)

theorem batchFinish_bad (hbv : bv.Exact E) (b : BatchState) (f : Flow BatchState)
    (hf : f = .next b ∨ f = .brk b) (hlen : b.batchSigIdxs.length = b.batch.length)
    (hbad : b.batch.all (entryValid E) = false) :
    (batchFinish E bv chainID commit needed cache f).result ≠ .accept := by
  have hfin : batchFinish E bv chainID commit needed cache f
      = batchFinish E bv chainID commit needed cache (.next b) := by
    rcases hf with rfl | rfl <;> rfl
  rw [hfin]
  simp only [batchFinish]
  by_cases ht : b.talliedVotingPower ≤ needed
  · simp [ht]
  · have hl : b.batchSigIdxs.length ≠ 0 := by
      rw [hlen]
      intro h0
      rw [List.length_eq_zero] at h0
      rw [h0] at hbad
      simp at hbad
    rw [hbv.2, hbad]
    simp only [ht, hl, if_false]
    exact batchFindInvalid_ne_accept E chainID commit _ _ _ _

/-- What an iteration of the batch loop that goes on does to the state. -/
theorem batchCheck_flow (idx : Nat) (cs : CommitSig) (v : Validator) (b b1 : BatchState)
    (h : batchCheck E bv chainID commit needed countSig countAll cache idx cs v b = .next b1 ∨
      batchCheck E bv chainID commit needed countSig countAll cache idx cs v b = .brk b1) :
    ∃ hit, batchCacheHit E cache cs v.PubKey (E.VoteSignBytes commit chainID (wrapInt32 idx))
        = some hit ∧ b1 = batchAfter E chainID commit countSig idx cs v hit b := by
  simp only [batchCheck] at h
  cases hhit : batchCacheHit E cache cs v.PubKey
      (E.VoteSignBytes commit chainID (wrapInt32 idx)) with
  | none => simp [hhit] at h
  | some hit =>
    refine ⟨hit, rfl, ?_⟩
    simp only [hhit] at h
    cases hadd : (if hit = true then none
        else bv.Add b.batch (batchEntry E chainID commit idx cs v)) with
    | some r => simp [hadd] at h
    | none =>
      simp only [hadd] at h
      split at h
      · rcases h with h | h
        · cases h
        · exact (Flow.brk.inj h).symm
      · rcases h with h | h
        · exact (Flow.next.inj h).symm
        · cases h

end Loops

section Loops

variable (E : Env) (bv : BatchVerifier) (chainID : String) (vals : ValidatorSet)
  (commit : Commit) (needed : Int) (ignoreSig countSig : CommitSig → Bool)
  (countAll byIndex : Bool) (cache : Option SignatureCache)

theorem resolve_found_paired (seen seen1 : List (Nat × Nat)) (idx : Nat) (cs : CommitSig)
    (v : Validator) (h : resolve vals byIndex seen idx cs = .found v seen1) :
    pairedValidator vals byIndex idx cs = some v := by
  unfold resolve at h
  unfold pairedValidator
  cases byIndex with
  | true =>
    simp only [if_true] at h ⊢
    cases hv : vals.Validators[idx]? with
    | none => simp [hv] at h
    | some w =>
      simp only [hv, Resolution.found.injEq] at h
      rw [h.1]
  | false =>
    simp only [Bool.false_eq_true, if_false] at h ⊢
    cases hv : vals.GetByAddress cs.ValidatorAddress with
    | none => simp [hv] at h
    | some p =>
      obtain ⟨vi, w⟩ := p
      simp only [hv] at h
      cases hl : List.lookup vi seen with
      | some i => simp [hl] at h
      | none =>
        simp only [hl, Resolution.found.injEq] at h
        simp [h.1]

/-- An iteration of the batch loop that goes on leaves the batch as it is, or
adds the entry of the current index, paired with its validator and not found
in the cache. -/
theorem batchBody_flow (idx : Nat) (cs : CommitSig) (b b1 : BatchState)
    (h : batchBody E bv chainID vals commit needed ignoreSig countSig countAll byIndex cache
        idx cs b = .next b1 ∨
      batchBody E bv chainID vals commit needed ignoreSig countSig countAll byIndex cache
        idx cs b = .brk b1) :
    (b1.batchSigIdxs = b.batchSigIdxs ∧ b1.batch = b.batch) ∨
    (∃ v, ignoreSig cs = false ∧ pairedValidator vals byIndex idx cs = some v ∧
      batchCacheHit E cache cs v.PubKey (E.VoteSignBytes commit chainID (wrapInt32 idx))
        = some false ∧
      b1.batchSigIdxs = b.batchSigIdxs ++ [idx] ∧
      b1.batch = b.batch ++ [batchEntry E chainID commit idx cs v]) := by
  rw [batchBody_eq] at h
  by_cases hi : ignoreSig cs = true
  · simp only [hi, if_true] at h
    rcases h with h | h
    · cases h
      exact Or.inl ⟨rfl, rfl⟩
    · cases h
  · simp only [hi, if_false] at h
    cases hres : resolve vals byIndex b.seenVals idx cs with
    | panic => simp [hres] at h
    | skip =>
      simp only [hres] at h
      rcases h with h | h
      · cases h
        exact Or.inl ⟨rfl, rfl⟩
      · cases h
    | doubleVote v i => simp [hres] at h
    | found v seen =>
      simp only [hres] at h
      obtain ⟨hit, hhit, rfl⟩ := batchCheck_flow E bv chainID commit needed countSig countAll
        cache idx cs v _ b1 h
      cases hit with
      | true => exact Or.inl ⟨rfl, rfl⟩
      | false =>
        refine Or.inr ⟨v, by simpa using hi, resolve_found_paired vals byIndex _ _ _ _ _ hres,
          hhit, rfl, rfl⟩

/-- The batch at the end of the loop is the batch at its start followed by
entries of further indices, each paired with its validator and not found in
the cache. -/
theorem batchLoop_flow (sigs : List CommitSig) (idx : Nat) (b b1 : BatchState)
    (h : batchLoop E bv chainID vals commit needed ignoreSig countSig countAll byIndex cache
        sigs idx b = .next b1 ∨
      batchLoop E bv chainID vals commit needed ignoreSig countSig countAll byIndex cache
        sigs idx b = .brk b1) :
    ∃ extra : List (Nat × BatchEntry),
      b1.batchSigIdxs = b.batchSigIdxs ++ extra.map Prod.fst ∧
      b1.batch = b.batch ++ extra.map Prod.snd ∧
      ∀ p ∈ extra, ∃ k cs v, p.1 = idx + k ∧ sigs[k]? = some cs ∧ ignoreSig cs = false ∧
        pairedValidator vals byIndex (idx + k) cs = some v ∧
        batchCacheHit E cache cs v.PubKey
          (E.VoteSignBytes commit chainID (wrapInt32 ((idx + k : Nat) : Int))) = some false ∧
        p.2 = batchEntry E chainID commit (idx + k) cs v := by
  induction sigs generalizing idx b with
  | nil =>
    simp only [batchLoop] at h
    rcases h with h | h
    · cases h
      exact ⟨[], by simp, by simp, by simp⟩
    · cases h
  | cons cs rest ih =>
    rw [batchLoop] at h
    cases hbody : batchBody E bv chainID vals commit needed ignoreSig countSig countAll byIndex
        cache idx cs b with
    | ret r b2 => simp [hbody] at h
    | next b2 =>
      simp only [hbody] at h
      obtain ⟨extra, h1, h2, h3⟩ := ih _ _ h
      have hshift : ∀ p ∈ extra, ∃ k cs' v, p.1 = idx + k ∧ (cs :: rest)[k]? = some cs' ∧
          ignoreSig cs' = false ∧ pairedValidator vals byIndex (idx + k) cs' = some v ∧
          batchCacheHit E cache cs' v.PubKey
            (E.VoteSignBytes commit chainID (wrapInt32 ((idx + k : Nat) : Int))) = some false ∧
          p.2 = batchEntry E chainID commit (idx + k) cs' v := by
        intro p hp
        obtain ⟨k, cs', v, e1, e2, e3, e4, e5, e6⟩ := h3 p hp
        refine ⟨k + 1, cs', v, by omega, by simpa using e2, e3, ?_, ?_, ?_⟩
        · rw [show idx + (k + 1) = idx + 1 + k by omega]; exact e4
        · rw [show idx + (k + 1) = idx + 1 + k by omega]; exact e5
        · rw [show idx + (k + 1) = idx + 1 + k by omega]; exact e6
      rcases batchBody_flow E bv chainID vals commit needed ignoreSig countSig countAll byIndex
          cache idx cs b b2 (Or.inl hbody) with ⟨e1, e2⟩ | ⟨v, e0, e1, e2, e3, e4⟩
      · exact ⟨extra, by rw [h1, e1], by rw [h2, e2], hshift⟩
      · refine ⟨(idx, batchEntry E chainID commit idx cs v) :: extra, ?_, ?_, ?_⟩
        · rw [h1, e3]; simp
        · rw [h2, e4]; simp
        · intro p hp
          rcases List.mem_cons.mp hp with rfl | hp
          · exact ⟨0, cs, v, rfl, by simp, e0, e1, e2, rfl⟩
          · exact hshift p hp
    | brk b2 =>
      simp only [hbody] at h
      rcases h with h | h
      · cases h
      · cases h
        rcases batchBody_flow E bv chainID vals commit needed ignoreSig countSig countAll
            byIndex cache idx cs b b1 (Or.inr hbody) with ⟨e1, e2⟩ | ⟨v, e0, e1, e2, e3, e4⟩
        · exact ⟨[], by simp [e1], by simp [e2], by simp⟩
        · refine ⟨[(idx, batchEntry E chainID commit idx cs v)], by simp [e3], by simp [e4], ?_⟩
          intro p hp
          rw [List.mem_singleton] at hp
          subst hp
          exact ⟨0, cs, v, rfl, by simp, e0, e1, e2, rfl⟩

end Loops

section Loops

variable (E : Env) (bv : BatchVerifier) (chainID : String) (vals : ValidatorSet)
  (commit : Commit) (needed : Int) (ignoreSig countSig : CommitSig → Bool)
  (countAll byIndex : Bool) (cache : Option SignatureCache)

/-- Once the batch holds an invalid entry, `verifyCommitBatch` does not accept. -/
theorem batchLoop_bad (hbv : bv.Exact E) (sigs : List CommitSig) (idx : Nat) (b : BatchState)
    (hlen : b.batchSigIdxs.length = b.batch.length)
    (hbad : b.batch.all (entryValid E) = false) :
    (batchFinish E bv chainID commit needed cache
      (batchLoop E bv chainID vals commit needed ignoreSig countSig countAll byIndex cache
        sigs idx b)).result ≠ .accept := by
  cases hloop : batchLoop E bv chainID vals commit needed ignoreSig countSig countAll byIndex
      cache sigs idx b with
  | ret r b1 =>
    simp only [batchFinish]
    intro hr
    subst hr
    exact batchLoop_ne_accept E bv chainID vals commit needed ignoreSig countSig countAll
      byIndex cache sigs idx b b1 hloop
  | next b1 =>
    obtain ⟨extra, h1, h2, -⟩ := batchLoop_flow E bv chainID vals commit needed ignoreSig
      countSig countAll byIndex cache sigs idx b b1 (Or.inl hloop)
    refine batchFinish_bad E bv chainID commit needed cache hbv b1 _ (Or.inl rfl) ?_ ?_
    · rw [h1, h2]; simp [hlen]
    · rw [h2, List.all_append, hbad]; rfl
  | brk b1 =>
    obtain ⟨extra, h1, h2, -⟩ := batchLoop_flow E bv chainID vals commit needed ignoreSig
      countSig countAll byIndex cache sigs idx b b1 (Or.inr hloop)
    refine batchFinish_bad E bv chainID commit needed cache hbv b1 _ (Or.inr rfl) ?_ ?_
    · rw [h1, h2]; simp [hlen]
    · rw [h2, List.all_append, hbad]; rfl

theorem singleFinish_next_accept_iff (s : SingleState) :
    (singleFinish needed (.next s)).result = .accept ↔ needed < s.talliedVotingPower := by
  simp only [singleFinish]
  by_cases ht : s.talliedVotingPower ≤ needed
  · simp [ht, not_lt.mpr ht]
  · simp [ht, not_le.mp ht]

/-- Without cache and with an exact batch verifier, on entries that pass the
shape check and validators that have a key, the two drivers accept the same
inputs, from any pair of loop states with the same tally and the same
`seenVals` in which the batch holds valid entries only. -/
theorem batch_accept_iff_single_accept (hbv : bv.Exact E)
    (hkeys : ∀ v ∈ vals.Validators, v.PubKey ≠ none)
    (sigs : List CommitSig)
    (hbasic : ∀ cs ∈ sigs, ignoreSig cs = false → E.ValidateBasic cs = true)
    (idx : Nat) (s : SingleState) (b : BatchState)
    (hcache : s.cache = none) (htally : s.talliedVotingPower = b.talliedVotingPower)
    (hseen : s.seenVals = b.seenVals)
    (hlen : b.batchSigIdxs.length = b.batch.length)
    (hvalid : b.batch.all (entryValid E) = true) :
    (batchFinish E bv chainID commit needed none
      (batchLoop E bv chainID vals commit needed ignoreSig countSig countAll byIndex none
        sigs idx b)).result = .accept ↔
    (singleFinish needed
      (singleLoop E chainID vals commit needed ignoreSig countSig countAll byIndex
        sigs idx s)).result = .accept := by
  induction sigs generalizing idx s b with
  | nil =>
    simp only [batchLoop, singleLoop]
    rw [(batchFinish_accept_iff E bv chainID commit needed hbv b).1,
      singleFinish_next_accept_iff, htally]
    simp [hvalid]
  | cons cs rest ih =>
    have ih' := ih (fun c hc => hbasic c (List.mem_cons_of_mem _ hc))
    rw [batchLoop, singleLoop, batchBody_eq, singleBody_eq]
    by_cases hi : ignoreSig cs = true
    · simp only [hi, if_true]
      exact ih' _ _ _ hcache htally hseen hlen hvalid
    · have hb : E.ValidateBasic cs = true :=
        hbasic cs (List.mem_cons_self _ _) (by simpa using hi)
      simp only [hi, hb, if_false, not_true_eq_false]
      rw [← hseen]
      cases hres : resolve vals byIndex s.seenVals idx cs with
      | panic => simp [batchFinish, singleFinish]
      | skip =>
        simp only []
        exact ih' _ _ _ hcache htally rfl hlen hvalid
      | doubleVote v i => simp [batchFinish, singleFinish]
      | found v seen =>
        simp only []
        have hmem := resolve_found_mem vals byIndex _ _ _ _ _ hres
        obtain ⟨pk, hpk⟩ := Option.ne_none_iff_exists'.mp (hkeys v hmem)
        simp only [singleCheck, batchCheck, hpk, hcache, singleCacheHit, batchCacheHit,
          hbv.1, Bool.false_eq_true, if_false, true_and]
        by_cases hv : E.VerifySignature pk (E.VoteSignBytes commit chainID (wrapInt32 idx))
            cs.Signature = true
        · have hvalid1 : (b.batch ++ [batchEntry E chainID commit idx cs v]).all (entryValid E)
              = true := by
            rw [List.all_append, hvalid]
            simp [batchEntry, entryValid, hpk, hv]
          simp only [hv, Bool.true_eq_false, if_false]
          by_cases hexit : countAll = false ∧
              addTally countSig cs v s.talliedVotingPower > needed
          · have hexit' : countAll = false ∧
                addTally countSig cs v b.talliedVotingPower > needed := by
              rw [← htally]; exact hexit
            simp only [singleAfter, batchAfter, hexit, hexit', and_self, if_true,
              Bool.false_eq_true, if_false]
            rw [(batchFinish_accept_iff E bv chainID commit needed hbv _).2]
            simp only [singleFinish, iff_true]
            exact ⟨hexit'.2, Or.inr hvalid1⟩
          · have hexit' : ¬ (countAll = false ∧
                addTally countSig cs v b.talliedVotingPower > needed) := by
              rw [← htally]; exact hexit
            simp only [singleAfter, batchAfter, hexit, hexit', if_false, Bool.false_eq_true]
            refine ih' _ _ _ rfl ?_ rfl ?_ hvalid1
            · simp [htally]
            · simp [hlen]
        · have hv' : E.VerifySignature pk (E.VoteSignBytes commit chainID (wrapInt32 idx))
              cs.Signature = false := by simpa using hv
          have hbad : (b.batch ++ [batchEntry E chainID commit idx cs v]).all (entryValid E)
              = false := by
            rw [List.all_append]
            simp [batchEntry, entryValid, hpk, hv']
          simp only [hv', if_true]
          refine iff_of_false ?_ (by simp [singleFinish])
          have hlen1 : (batchAfter E chainID commit countSig idx cs v false
              { val := some v, seenVals := seen, batchSigIdxs := b.batchSigIdxs,
                batch := b.batch, talliedVotingPower := b.talliedVotingPower,
                calls := b.calls }).batchSigIdxs.length
              = (batchAfter E chainID commit countSig idx cs v false
              { val := some v, seenVals := seen, batchSigIdxs := b.batchSigIdxs,
                batch := b.batch, talliedVotingPower := b.talliedVotingPower,
                calls := b.calls }).batch.length := by
            simp [batchAfter, hlen]
          have hbad1 : (batchAfter E chainID commit countSig idx cs v false
              { val := some v, seenVals := seen, batchSigIdxs := b.batchSigIdxs,
                batch := b.batch, talliedVotingPower := b.talliedVotingPower,
                calls := b.calls }).batch.all (entryValid E) = false := hbad
          split
          · rename_i s1 hs1
            split at hs1
            · cases hs1
            · cases hs1
              exact batchLoop_bad E bv chainID vals commit needed ignoreSig countSig countAll
                byIndex none hbv rest (idx + 1) _ hlen1 hbad1
          · rename_i other hne
            split
            · exact batchFinish_bad E bv chainID commit needed none hbv _ _ (Or.inr rfl)
                hlen1 hbad1
            · rename_i hcond
              exact (hne _ (if_neg hcond)).elim

end Loops

section Drivers

variable (E : Env) (chainID : String) (vals : ValidatorSet)
  (commit : Commit) (needed : Int) (ignoreSig countSig : CommitSig → Bool)
  (countAll byIndex : Bool)

/-- The two drivers accept the same inputs (no cache, exact batch verifier, at
least two signatures, entries passing the shape check, validators with keys). -/
theorem verifyCommitBatch_accept_iff (batchVerifier : Option BatchVerifier)
    (bv : BatchVerifier)
    (hcreated : batchVerifier = some bv ∨
      (batchVerifier = none ∧
        ∃ p, vals.GetProposer = some p ∧ E.CreateBatchVerifier p.PubKey = some bv))
    (hbv : bv.Exact E)
    (hlen : batchVerifyThreshold ≤ commit.Signatures.length)
    (hbasic : ∀ cs ∈ commit.Signatures, ignoreSig cs = false → E.ValidateBasic cs = true)
    (hkeys : ∀ v ∈ vals.Validators, v.PubKey ≠ none) :
    (verifyCommitBatch E chainID vals commit needed ignoreSig countSig countAll byIndex
      batchVerifier none).result = .accept ↔
    (verifyCommitSingle E chainID vals commit needed ignoreSig countSig countAll byIndex
      none).result = .accept := by
  have hnot : ¬ commit.Signatures.length < batchVerifyThreshold := not_lt.mpr hlen
  have hmain := batch_accept_iff_single_accept E bv chainID vals commit needed ignoreSig
    countSig countAll byIndex hbv hkeys commit.Signatures hbasic 0
    { val := none, seenVals := [], talliedVotingPower := 0, cache := none, calls := [] }
    { val := none, seenVals := [], batchSigIdxs := [], batch := [],
      talliedVotingPower := 0, calls := [] } rfl rfl rfl rfl rfl
  rcases hcreated with rfl | ⟨rfl, p, hp, hc⟩
  · simp only [verifyCommitBatch, verifyCommitSingle, hnot, if_false]
    exact hmain
  · simp only [verifyCommitBatch, verifyCommitSingle, hp, hc, hnot, if_false]
    exact hmain

end Drivers

/-- C1 (amended): with no cache, a batch verifier whose `Add` never fails and
whose `Verify` reports exactly what `PubKey.VerifySignature` returns (handed
in, or created for the proposer's key), a commit of at least two signatures
whose non-ignored entries pass `CommitSig.ValidateBasic`, and a validator set
in which every validator has a public key, `verifyCommitBatch` accepts exactly
when `verifyCommitSingle` accepts, for every chain ID, threshold, pair of
ignore/count predicates and both flags. -/
theorem verifyCommitBatch_accepts_iff_single (E : Env) (chainID : String)
    (vals : ValidatorSet) (commit : Commit) (votingPowerNeeded : Int)
    (ignoreSig countSig : CommitSig → Bool) (countAllSignatures lookUpByIndex : Bool)
    (batchVerifier : Option BatchVerifier) (bv : BatchVerifier)
    (hcreated : batchVerifier = some bv ∨
      (batchVerifier = none ∧
        ∃ p, vals.GetProposer = some p ∧ E.CreateBatchVerifier p.PubKey = some bv))
    (hbv : bv.Exact E)
    (hlen : batchVerifyThreshold ≤ commit.Signatures.length)
    (hbasic : ∀ cs ∈ commit.Signatures, ignoreSig cs = false → E.ValidateBasic cs = true)
    (hkeys : ∀ v ∈ vals.Validators, v.PubKey ≠ none) :
    (verifyCommitBatch E chainID vals commit votingPowerNeeded ignoreSig countSig
      countAllSignatures lookUpByIndex batchVerifier none).result = .accept ↔
    (verifyCommitSingle E chainID vals commit votingPowerNeeded ignoreSig countSig
      countAllSignatures lookUpByIndex none).result = .accept :=
  verifyCommitBatch_accept_iff E chainID vals commit votingPowerNeeded ignoreSig countSig
    countAllSignatures lookUpByIndex batchVerifier bv hcreated hbv hlen hbasic hkeys

/-- The batch verifier of the concrete instance is exact. -/
theorem Fixture.verifier_exact (batch : Bool) :
    Fixture.verifier.Exact (Fixture.env batch) :=
  ⟨fun _ _ => rfl, fun _ => rfl⟩

/-- C1 (amended), at four validators of power 10 that all sign, threshold 26:
the hypotheses hold, `verifyCommitSingle` accepts, hence so does
`verifyCommitBatch`. -/
theorem verifyCommitBatch_accepts_iff_single_witness :
    Fixture.verifier.Exact (Fixture.env true) ∧
    (verifyCommitSingle (Fixture.env true) "c" Fixture.vals4
        (Fixture.commitOf [Fixture.signed 1, Fixture.signed 2, Fixture.signed 3,
          Fixture.signed 4])
        26 ignoreAbsent countCommit true true none).result = .accept ∧
    (verifyCommitBatch (Fixture.env true) "c" Fixture.vals4
        (Fixture.commitOf [Fixture.signed 1, Fixture.signed 2, Fixture.signed 3,
          Fixture.signed 4])
        26 ignoreAbsent countCommit true true (some Fixture.verifier) none).result
      = .accept :=
  ⟨Fixture.verifier_exact true, by decide,
    (verifyCommitBatch_accepts_iff_single (Fixture.env true) "c" Fixture.vals4
      (Fixture.commitOf [Fixture.signed 1, Fixture.signed 2, Fixture.signed 3,
        Fixture.signed 4])
      26 ignoreAbsent countCommit true true (some Fixture.verifier) Fixture.verifier
      (Or.inl rfl) (Fixture.verifier_exact true) (by decide) (by decide) (by decide)).mpr
      (by decide)⟩

/-! ### Checking every signature, by index -/

theorem wrapInt64_eq_self (x : Int) (h0 : MinInt64 ≤ x) (h1 : x ≤ MaxInt64) :
    wrapInt64 x = x := by
  have hmax : MaxInt64 = 2 ^ 63 - 1 := rfl
  have hmin : MinInt64 = -(2 ^ 63) := rfl
  rw [hmax] at h1
  rw [hmin] at h0
  unfold wrapInt64
  omega

section Loops

variable (E : Env) (chainID : String) (vals : ValidatorSet)
  (commit : Commit) (needed : Int) (ignoreSig countSig : CommitSig → Bool)

theorem resolve_byIndex (seen : List (Nat × Nat)) (idx : Nat) (cs : CommitSig) (v : Validator)
    (hv : vals.Validators[idx]? = some v) :
    resolve vals true seen idx cs = .found v seen := by
  simp [resolve, hv]

/-- With `countAllSignatures` and lookup by index, no cache, voting powers that
are non-negative and sum up within the `int64` range: `verifyCommitSingle`
accepts exactly when every entry that is not ignored verifies and the power of
the valid block signatures exceeds the threshold. -/
theorem singleLoop_countAll_byIndex
    (hflag : ∀ cs, (ignoreSig cs = false ∧ countSig cs = true) ↔ cs.BlockIDFlag = .Commit)
    (sigs : List CommitSig) (vs : List Validator) (idx : Nat) (s : SingleState)
    (hvs : ∀ k, vals.Validators[idx + k]? = vs[k]?)
    (hlen : vs.length = sigs.length)
    (hbasic : ∀ cs ∈ sigs, ignoreSig cs = false → E.ValidateBasic cs = true)
    (hkeys : ∀ v ∈ vs, v.PubKey ≠ none)
    (hpow : ∀ v ∈ vs, 0 ≤ v.VotingPower)
    (hcache : s.cache = none)
    (h0 : 0 ≤ s.talliedVotingPower)
    (hmax : s.talliedVotingPower + (vs.map (fun v => v.VotingPower)).sum ≤ MaxInt64) :
    (singleFinish needed
      (singleLoop E chainID vals commit needed ignoreSig countSig true true
        sigs idx s)).result = .accept ↔
    (allExaminedVerify E chainID commit ignoreSig vs sigs idx = true ∧
      needed < s.talliedVotingPower + validCommitPower E chainID commit vs sigs idx) := by
  induction sigs generalizing vs idx s with
  | nil =>
    cases vs with
    | nil =>
      simp only [singleLoop, allExaminedVerify, validCommitPower, add_zero, true_and]
      exact singleFinish_next_accept_iff needed s
    | cons v vs' => simp at hlen
  | cons cs rest ih =>
    cases vs with
    | nil => simp at hlen
    | cons v vs' =>
      have hv : vals.Validators[idx]? = some v := by
        have := hvs 0
        simpa using this
      have hvs' : ∀ k, vals.Validators[idx + 1 + k]? = vs'[k]? := by
        intro k
        have := hvs (k + 1)
        rw [show idx + (k + 1) = idx + 1 + k by omega] at this
        simpa using this
      have hlen' : vs'.length = rest.length := by simpa using hlen
      have hbasic' : ∀ c ∈ rest, ignoreSig c = false → E.ValidateBasic c = true :=
        fun c hc => hbasic c (List.mem_cons_of_mem _ hc)
      have hkeys' : ∀ w ∈ vs', w.PubKey ≠ none := fun w hw => hkeys w (List.mem_cons_of_mem _ hw)
      have hpow' : ∀ w ∈ vs', 0 ≤ w.VotingPower := fun w hw => hpow w (List.mem_cons_of_mem _ hw)
      have hv0 : 0 ≤ v.VotingPower := hpow v (List.mem_cons_self _ _)
      have hsum0 : 0 ≤ (vs'.map (fun v => v.VotingPower)).sum := by
        apply List.sum_nonneg
        intro x hx
        obtain ⟨w, hw, rfl⟩ := List.mem_map.mp hx
        exact hpow' w hw
      simp only [List.map_cons, List.sum_cons] at hmax
      rw [singleLoop, singleBody_eq]
      by_cases hi : ignoreSig cs = true
      · have hnc : cs.BlockIDFlag ≠ .Commit := by
          intro hc
          have := ((hflag cs).mpr hc).1
          rw [hi] at this
          cases this
        simp only [hi, if_true, allExaminedVerify, validCommitPower, hnc, false_and, if_false,
          zero_add, Bool.true_or, Bool.true_and]
        exact ih vs' (idx + 1) s hvs' hlen' hbasic' hkeys' hpow' hcache h0 (by omega)
      · have hi' : ignoreSig cs = false := by simpa using hi
        have hb : E.ValidateBasic cs = true := hbasic cs (List.mem_cons_self _ _) hi'
        obtain ⟨pk, hpk⟩ := Option.ne_none_iff_exists'.mp (hkeys v (List.mem_cons_self _ _))
        simp only [hi, hb, if_false, not_true_eq_false, resolve_byIndex vals _ idx cs v hv,
          singleCheck, hpk, hcache, singleCacheHit, true_and]
        by_cases hver : E.VerifySignature pk (E.VoteSignBytes commit chainID (wrapInt32 idx))
            cs.Signature = true
        · have hcount : cs.BlockIDFlag = .Commit ↔ countSig cs = true := by
            rw [← hflag cs]
            simp [hi']
          have htally : addTally countSig cs v s.talliedVotingPower
              = s.talliedVotingPower +
                (if cs.BlockIDFlag = .Commit then v.VotingPower else 0) := by
            unfold addTally
            by_cases hc : countSig cs = true
            · rw [if_pos hc, if_pos (hcount.mpr hc)]
              apply wrapInt64_eq_self
              · have : MinInt64 = -(2 ^ 63) := rfl
                omega
              · omega
            · rw [if_neg hc, if_neg (fun h => hc (hcount.mp h))]
              simp
          have hstep : 0 ≤ (if cs.BlockIDFlag = .Commit then v.VotingPower else 0) ∧
              (if cs.BlockIDFlag = .Commit then v.VotingPower else 0) ≤ v.VotingPower := by
            split <;> constructor <;> omega
          simp only [hver, Bool.true_eq_false, if_false, Bool.false_eq_true, false_and,
            allExaminedVerify, validCommitPower, hpk, hi', Bool.false_or, Bool.true_and, and_true]
          rw [ih vs' (idx + 1) _ hvs' hlen' hbasic' hkeys' hpow' rfl
            (by simp only [singleAfter]; rw [htally]; omega)
            (by simp only [singleAfter]; rw [htally]; omega)]
          simp only [singleAfter]
          rw [htally, add_assoc]
        · have hver' : E.VerifySignature pk (E.VoteSignBytes commit chainID (wrapInt32 idx))
              cs.Signature = false := by simpa using hver
          simp [hver', singleFinish, allExaminedVerify, hpk, hi']

end Loops

/-! ### Full and light verification of every signature -/

theorem votingPowerNeededTwoThirds_eq (T : Int) (h0 : 0 ≤ T) (h1 : T ≤ MaxTotalVotingPower) :
    votingPowerNeededTwoThirds T = Int.fdiv (2 * T) 3 := by
  have hmax : MaxTotalVotingPower = (2 ^ 63 - 1) / 8 := rfl
  rw [hmax] at h1
  have hw : wrapInt64 (T * 2) = T * 2 := by
    unfold wrapInt64
    omega
  have hd : Int.tdiv (T * 2) 3 = Int.fdiv (2 * T) 3 := by
    rw [Int.tdiv_eq_ediv (by omega) (by omega), Int.fdiv_eq_ediv _ (by omega)]
    congr 1
    ring
  have hq : Int.tdiv (T * 2) 3 = (T * 2) / 3 := Int.tdiv_eq_ediv (by omega) (by omega)
  unfold votingPowerNeededTwoThirds divInt64
  rw [hw, ← hd, hq]
  unfold wrapInt64
  omega

theorem verifyBasicValsAndCommit_size (vals : ValidatorSet) (commit : Commit) (height : Int)
    (blockID : BlockID)
    (h : verifyBasicValsAndCommit (some vals) (some commit) height blockID = none) :
    vals.Validators.length = commit.Signatures.length := by
  simp only [verifyBasicValsAndCommit] at h
  split_ifs at h with h1
  exact not_not.mp h1

/-- The dispatch of the entrypoints on entries that pass the shape check: the
driver chosen by `shouldBatchVerify` accepts exactly when `verifyCommitSingle`
does. -/
theorem dispatch_accept_iff (E : Env) (chainID : String) (vals : ValidatorSet)
    (commit : Commit) (needed : Int) (ignoreSig countSig : CommitSig → Bool)
    (countAll byIndex : Bool)
    (hready : E.BatchReady vals)
    (hbasic : ∀ cs ∈ commit.Signatures, ignoreSig cs = false → E.ValidateBasic cs = true)
    (hkeys : ∀ v ∈ vals.Validators, v.PubKey ≠ none) :
    (match shouldBatchVerify E vals commit with
      | none => earlyReturn .panic none
      | some true =>
        verifyCommitBatch E chainID vals commit needed ignoreSig countSig countAll byIndex
          none none
      | some false =>
        verifyCommitSingle E chainID vals commit needed ignoreSig countSig countAll byIndex
          none).result = .accept ↔
    (verifyCommitSingle E chainID vals commit needed ignoreSig countSig countAll byIndex
      none).result = .accept := by
  obtain ⟨p, hp, hsup⟩ := hready
  unfold shouldBatchVerify
  by_cases hlen : commit.Signatures.length ≥ batchVerifyThreshold
  · simp only [hlen, if_true, hp]
    cases hs : (E.SupportsBatchVerifier p.PubKey && E.AllKeysHaveSameType vals) with
    | false => simp
    | true =>
      simp only []
      have hs1 : E.SupportsBatchVerifier p.PubKey = true := by
        simp only [Bool.and_eq_true] at hs
        exact hs.1
      obtain ⟨bv, hbv, hexact⟩ := hsup hs1
      exact verifyCommitBatch_accept_iff E chainID vals commit needed ignoreSig countSig
        countAll byIndex none bv (Or.inr ⟨rfl, p, hp, hbv⟩) hexact hlen hbasic hkeys
  · simp [hlen]

/-- C2 (amended): for every well-formed input (validator set and commit of
equal sizes with matching height and block ID, every validator with a public
key and a non-negative voting power, total voting power within the cap, every
examined entry passing `CommitSig.ValidateBasic`, a proposer whose batch
verifier is exact), `VerifyCommit` accepts if and only if every signature
whose flag is not `Absent` verifies and the voting power of the validators
whose commit signature has flag `Commit` and verifies is at least
`⌊2/3 · totalVotingPower⌋ + 1`; `VerifyCommitLightAllSignatures` accepts if and
only if every signature with flag `Commit` verifies and the same bound holds. -/
theorem verifyCommit_accepts_iff (E : Env) (chainID : String) (vals : ValidatorSet)
    (blockID : BlockID) (height : Int) (commit : Commit)
    (hpre : verifyBasicValsAndCommit (some vals) (some commit) height blockID = none)
    (hbasic : ∀ cs ∈ commit.Signatures, cs.BlockIDFlag ≠ .Absent → E.ValidateBasic cs = true)
    (hkeys : ∀ v ∈ vals.Validators, v.PubKey ≠ none)
    (hpow : ∀ v ∈ vals.Validators, 0 ≤ v.VotingPower)
    (htotal : vals.TotalVotingPower ≤ MaxTotalVotingPower)
    (hready : E.BatchReady vals) :
    ((VerifyCommit E chainID (some vals) blockID height (some commit)).result = .accept ↔
      (allExaminedVerify E chainID commit ignoreAbsent vals.Validators commit.Signatures 0
          = true ∧
        validCommitPower E chainID commit vals.Validators commit.Signatures 0
          ≥ Int.fdiv (2 * vals.TotalVotingPower) 3 + 1)) ∧
    ((VerifyCommitLightAllSignatures E chainID (some vals) blockID height
        (some commit)).result = .accept ↔
      (allExaminedVerify E chainID commit ignoreNotCommit vals.Validators commit.Signatures 0
          = true ∧
        validCommitPower E chainID commit vals.Validators commit.Signatures 0
          ≥ Int.fdiv (2 * vals.TotalVotingPower) 3 + 1)) := by
  have hsize := verifyBasicValsAndCommit_size vals commit height blockID hpre
  have hT0 : 0 ≤ vals.TotalVotingPower := by
    unfold ValidatorSet.TotalVotingPower
    apply List.sum_nonneg
    intro x hx
    obtain ⟨w, hw, rfl⟩ := List.mem_map.mp hx
    exact hpow w hw
  have hneeded := votingPowerNeededTwoThirds_eq vals.TotalVotingPower hT0 htotal
  have hmax : (0 : Int) + (vals.Validators.map (fun v => v.VotingPower)).sum ≤ MaxInt64 := by
    have h8 : MaxTotalVotingPower ≤ MaxInt64 := by decide
    have : (vals.Validators.map (fun v => v.VotingPower)).sum = vals.TotalVotingPower := rfl
    omega
  have hflagFull : ∀ cs : CommitSig,
      (ignoreAbsent cs = false ∧ countCommit cs = true) ↔ cs.BlockIDFlag = .Commit := by
    intro cs
    unfold ignoreAbsent countCommit
    cases cs.BlockIDFlag <;> simp
  have hflagLight : ∀ cs : CommitSig,
      (ignoreNotCommit cs = false ∧ countAlways cs = true) ↔ cs.BlockIDFlag = .Commit := by
    intro cs
    unfold ignoreNotCommit countAlways
    cases cs.BlockIDFlag <;> simp
  have hbasicFull : ∀ cs ∈ commit.Signatures, ignoreAbsent cs = false →
      E.ValidateBasic cs = true := by
    intro cs hcs hi
    apply hbasic cs hcs
    unfold ignoreAbsent at hi
    simpa using hi
  have hbasicLight : ∀ cs ∈ commit.Signatures, ignoreNotCommit cs = false →
      E.ValidateBasic cs = true := by
    intro cs hcs hi
    apply hbasic cs hcs
    unfold ignoreNotCommit at hi
    have : cs.BlockIDFlag = .Commit := by simpa using hi
    rw [this]
    decide
  have hge : ∀ x : Int, votingPowerNeededTwoThirds vals.TotalVotingPower < 0 + x ↔
      x ≥ Int.fdiv (2 * vals.TotalVotingPower) 3 + 1 := by
    intro x
    rw [hneeded]
    omega
  constructor
  · have hd := dispatch_accept_iff E chainID vals commit
      (votingPowerNeededTwoThirds vals.TotalVotingPower) ignoreAbsent countCommit true true
      hready hbasicFull hkeys
    have hs := singleLoop_countAll_byIndex E chainID vals commit
      (votingPowerNeededTwoThirds vals.TotalVotingPower) ignoreAbsent countCommit hflagFull
      commit.Signatures vals.Validators 0
      { val := none, seenVals := [], talliedVotingPower := 0, cache := none, calls := [] }
      (fun k => by simp) hsize hbasicFull hkeys hpow rfl (le_refl _) hmax
    rw [← hge]
    simp only [VerifyCommit, hpre]
    exact hd.trans hs
  · have hd := dispatch_accept_iff E chainID vals commit
      (votingPowerNeededTwoThirds vals.TotalVotingPower) ignoreNotCommit countAlways true true
      hready hbasicLight hkeys
    have hs := singleLoop_countAll_byIndex E chainID vals commit
      (votingPowerNeededTwoThirds vals.TotalVotingPower) ignoreNotCommit countAlways hflagLight
      commit.Signatures vals.Validators 0
      { val := none, seenVals := [], talliedVotingPower := 0, cache := none, calls := [] }
      (fun k => by simp) hsize hbasicLight hkeys hpow rfl (le_refl _) hmax
    rw [← hge]
    simp only [VerifyCommitLightAllSignatures, verifyCommitLightInternal, hpre]
    exact hd.trans hs

/-- The concrete instance is ready for batch verification of four validators. -/
theorem Fixture.batchReady_vals4 : (Fixture.env true).BatchReady Fixture.vals4 :=
  ⟨Fixture.validator 1 10, rfl, fun _ => ⟨Fixture.verifier, rfl, Fixture.verifier_exact true⟩⟩

/-- C2 (amended), at four validators of power 10 that all sign (scenario S1):
every hypothesis holds, every signature verifies and the valid power 40 is at
least 27, hence `VerifyCommit` accepts. -/
theorem verifyCommit_accepts_iff_witness :
    verifyBasicValsAndCommit (some Fixture.vals4)
        (some (Fixture.commitOf [Fixture.signed 1, Fixture.signed 2, Fixture.signed 3,
          Fixture.signed 4])) 7 Fixture.blockB = none ∧
    Fixture.vals4.TotalVotingPower ≤ MaxTotalVotingPower ∧
    (VerifyCommit (Fixture.env true) "c" (some Fixture.vals4) Fixture.blockB 7
        (some (Fixture.commitOf [Fixture.signed 1, Fixture.signed 2, Fixture.signed 3,
          Fixture.signed 4]))).result = .accept :=
  ⟨by decide, by decide,
    (verifyCommit_accepts_iff (Fixture.env true) "c" Fixture.vals4 Fixture.blockB 7
      (Fixture.commitOf [Fixture.signed 1, Fixture.signed 2, Fixture.signed 3,
        Fixture.signed 4])
      (by decide) (by decide) (by decide) (by decide) (by decide)
      Fixture.batchReady_vals4).1.mpr ⟨by decide, by decide⟩⟩

/-! ### Commits whose entries raise no error -/

section Loops

variable (E : Env) (bv : BatchVerifier) (chainID : String) (vals : ValidatorSet)
  (commit : Commit) (needed : Int) (ignoreSig countSig : CommitSig → Bool)
  (countAll byIndex : Bool) (cache : Option SignatureCache)

/-- A well-formed entry whose validator has not been seen is skipped (unknown
address) or paired with a validator that has a key. -/
theorem resolve_wellFormed (seen : List (Nat × Nat)) (idx : Nat) (cs : CommitSig)
    (hwf : entryWellFormed E vals byIndex idx cs = true)
    (hseen : byIndex = false → ∀ i, addressedIndex vals cs = some i →
      seen.lookup i = none) :
    (resolve vals byIndex seen idx cs = .skip ∧ byIndex = false ∧
      addressedIndex vals cs = none) ∨
    (∃ v pk seen1, resolve vals byIndex seen idx cs = .found v seen1 ∧
      pairedValidator vals byIndex idx cs = some v ∧ v.PubKey = some pk ∧
      (byIndex = true → seen1 = seen) ∧
      (byIndex = false → ∃ i, addressedIndex vals cs = some i ∧ seen1 = (i, idx) :: seen)) := by
  unfold entryWellFormed at hwf
  simp only [Bool.and_eq_true] at hwf
  obtain ⟨-, hwf⟩ := hwf
  cases byIndex with
  | true =>
    cases hv : vals.Validators[idx]? with
    | none => simp [pairedValidator, hv] at hwf
    | some v =>
      simp only [pairedValidator, hv, if_true] at hwf
      obtain ⟨pk, hpk⟩ := Option.isSome_iff_exists.mp hwf
      exact Or.inr ⟨v, pk, seen, by simp [resolve, hv], by simp [pairedValidator, hv], hpk,
        fun _ => rfl, fun h => by cases h⟩
  | false =>
    cases hv : vals.GetByAddress cs.ValidatorAddress with
    | none =>
      exact Or.inl ⟨by simp [resolve, hv], rfl, by simp [addressedIndex, hv]⟩
    | some p =>
      obtain ⟨i, v⟩ := p
      simp only [pairedValidator, hv, Option.map_some', Bool.false_eq_true, if_false] at hwf
      obtain ⟨pk, hpk⟩ := Option.isSome_iff_exists.mp hwf
      have hl : List.lookup i seen = none := hseen rfl i (by simp [addressedIndex, hv])
      exact Or.inr ⟨v, pk, (i, idx) :: seen, by simp [resolve, hv, hl],
        by simp [pairedValidator, hv], hpk, (fun h => by cases h),
        fun _ => ⟨i, by simp [addressedIndex, hv], rfl⟩⟩

/-- The hypothesis on `seenVals` carried through the loops: no entry of the
remaining list addresses a validator already seen. -/
theorem unseen_tail (seen : List (Nat × Nat)) (idx : Nat) (cs : CommitSig)
    (rest : List CommitSig)
    (hndv : byIndex = false → NoDoubleVote vals ignoreSig (cs :: rest) ∧
      ∀ c ∈ cs :: rest, ignoreSig c = false → ∀ i, addressedIndex vals c = some i →
        seen.lookup i = none) :
    (byIndex = false → NoDoubleVote vals ignoreSig rest ∧
      ∀ c ∈ rest, ignoreSig c = false → ∀ i, addressedIndex vals c = some i →
        seen.lookup i = none) ∧
    (ignoreSig cs = false → ∀ j, addressedIndex vals cs = some j →
      (byIndex = false → NoDoubleVote vals ignoreSig rest ∧
        ∀ c ∈ rest, ignoreSig c = false → ∀ i, addressedIndex vals c = some i →
          ((j, idx) :: seen).lookup i = none)) := by
  constructor
  · intro hb
    obtain ⟨h1, h2⟩ := hndv hb
    exact ⟨(List.pairwise_cons.mp h1).2, fun c hc => h2 c (List.mem_cons_of_mem _ hc)⟩
  · intro hi j hj hb
    obtain ⟨h1, h2⟩ := hndv hb
    obtain ⟨hhead, htail⟩ := List.pairwise_cons.mp h1
    refine ⟨htail, ?_⟩
    intro c hc hic i hci
    have hne : i ≠ j := by
      rcases hhead c hc hi hic with h | h
      · rw [hj] at h; cases h
      · intro hij
        apply h
        rw [hj, hci, hij]
    rw [List.lookup_cons]
    have : (i == j) = false := by simpa using hne
    rw [this]
    exact h2 c (List.mem_cons_of_mem _ hc) hic i hci

/-- When every entry that is not ignored is well formed and verifies, and no
validator is addressed twice, `verifyCommitSingle` accepts if the tally exceeds
the threshold and otherwise reports the tally as not enough. -/
theorem singleLoop_good (sigs : List CommitSig) (idx : Nat) (s : SingleState)
    (hwf : ∀ p ∈ sigs.enumFrom idx, ignoreSig p.2 = false →
      entryWellFormed E vals byIndex p.1 p.2 = true ∧
        entryVerifies E chainID vals commit byIndex p.1 p.2 = true)
    (hndv : byIndex = false → NoDoubleVote vals ignoreSig sigs ∧
      ∀ c ∈ sigs, ignoreSig c = false → ∀ i, addressedIndex vals c = some i →
        s.seenVals.lookup i = none) :
    (singleFinish needed
      (singleLoop E chainID vals commit needed ignoreSig countSig countAll byIndex
        sigs idx s)).result =
      if needed < (singleFinish needed
          (singleLoop E chainID vals commit needed ignoreSig countSig countAll byIndex
            sigs idx s)).tallied
      then .accept
      else .reject (.NotEnoughVotingPowerSigned
        (singleFinish needed
          (singleLoop E chainID vals commit needed ignoreSig countSig countAll byIndex
            sigs idx s)).tallied needed) := by
  induction sigs generalizing idx s with
  | nil =>
    simp only [singleLoop, singleFinish]
    by_cases ht : s.talliedVotingPower ≤ needed
    · simp [ht, not_lt.mpr ht]
    · simp [ht, not_le.mp ht]
  | cons cs rest ih =>
    have hwf' : ∀ p ∈ rest.enumFrom (idx + 1), ignoreSig p.2 = false →
        entryWellFormed E vals byIndex p.1 p.2 = true ∧
          entryVerifies E chainID vals commit byIndex p.1 p.2 = true := by
      intro p hp
      apply hwf p
      rw [List.enumFrom_cons]
      exact List.mem_cons_of_mem _ hp
    obtain ⟨htail, hhead⟩ := unseen_tail vals ignoreSig byIndex s.seenVals idx cs rest hndv
    by_cases hi : ignoreSig cs = true
    · rw [singleLoop, singleBody_eq]
      simp only [hi, if_true]
      exact ih _ _ hwf' htail
    · have hi' : ignoreSig cs = false := by simpa using hi
      obtain ⟨hw, hver⟩ := hwf (idx, cs) (by rw [List.enumFrom_cons]; exact List.mem_cons_self _ _)
        hi'
      have hb : E.ValidateBasic cs = true := by
        unfold entryWellFormed at hw
        simp only [Bool.and_eq_true] at hw
        exact hw.1
      rcases resolve_wellFormed E vals byIndex s.seenVals idx cs hw
          (fun hbi => (hndv hbi).2 cs (List.mem_cons_self _ _) hi') with
        ⟨hres, hbi, hnone⟩ | ⟨v, pk, seen1, hres, hpv, hpk, hs1, hs2⟩
      · rw [singleLoop, singleBody_eq]
        simp only [hi, hb, if_false, not_true_eq_false, hres, Bool.false_eq_true]
        exact ih _ _ hwf' htail
      · have hvalid : E.VerifySignature pk (E.VoteSignBytes commit chainID (wrapInt32 idx))
            cs.Signature = true := by
          unfold entryVerifies at hver
          simpa [hpv, hpk] using hver
        obtain ⟨s2, hseen2, hbody⟩ : ∃ s2 : SingleState, s2.seenVals = seen1 ∧
            singleBody E chainID vals commit needed ignoreSig countSig countAll byIndex
              idx cs s =
            if countAll = false ∧ s2.talliedVotingPower > needed then .ret .accept s2
            else .next s2 := by
          refine ⟨singleAfter E chainID commit countSig idx cs v pk
              (singleCacheHit E s.cache cs pk
                (E.VoteSignBytes commit chainID (wrapInt32 idx)))
              { s with val := some v, seenVals := seen1 }, rfl, ?_⟩
          rw [singleBody_eq]
          simp only [hi, hb, if_false, not_true_eq_false, hres, singleCheck, hpk, hvalid,
            Bool.true_eq_false, and_false, Bool.false_eq_true]
        rw [singleLoop, hbody]
        by_cases hexit : countAll = false ∧ s2.talliedVotingPower > needed
        · rw [if_pos hexit]
          simp only [singleFinish]
          rw [if_pos hexit.2]
        · rw [if_neg hexit]
          apply ih
          · exact hwf'
          · intro hbi
            obtain ⟨i, hi1, hi2⟩ := hs2 hbi
            have := hhead hi' i hi1 hbi
            rw [hseen2, hi2]
            exact this

end Loops

section Loops

variable (E : Env) (bv : BatchVerifier) (chainID : String) (vals : ValidatorSet)
  (commit : Commit) (needed : Int) (ignoreSig countSig : CommitSig → Bool)
  (countAll byIndex : Bool) (cache : Option SignatureCache)

theorem batchCacheHit_some (cs : CommitSig) (pk : PubKey) (bytes : Bytes) :
    ∃ hit, batchCacheHit E cache cs (some pk) bytes = some hit := by
  unfold batchCacheHit
  cases cache with
  | none => exact ⟨false, rfl⟩
  | some c =>
    simp only []
    cases c.Get cs.Signature with
    | none => exact ⟨false, rfl⟩
    | some cv => exact ⟨_, rfl⟩

/-- On well-formed entries without double vote, with a verifier whose `Add`
never fails, the loop of `verifyCommitBatch` runs to its end or to the break. -/
theorem batchLoop_progress (hadd : ∀ es e, bv.Add es e = none)
    (sigs : List CommitSig) (idx : Nat) (b : BatchState)
    (hwf : ∀ p ∈ sigs.enumFrom idx, ignoreSig p.2 = false →
      entryWellFormed E vals byIndex p.1 p.2 = true)
    (hndv : byIndex = false → NoDoubleVote vals ignoreSig sigs ∧
      ∀ c ∈ sigs, ignoreSig c = false → ∀ i, addressedIndex vals c = some i →
        b.seenVals.lookup i = none) :
    ∃ b1,
      batchLoop E bv chainID vals commit needed ignoreSig countSig countAll byIndex cache
        sigs idx b = .next b1 ∨
      batchLoop E bv chainID vals commit needed ignoreSig countSig countAll byIndex cache
        sigs idx b = .brk b1 := by
  induction sigs generalizing idx b with
  | nil => exact ⟨b, Or.inl rfl⟩
  | cons cs rest ih =>
    have hwf' : ∀ p ∈ rest.enumFrom (idx + 1), ignoreSig p.2 = false →
        entryWellFormed E vals byIndex p.1 p.2 = true := by
      intro p hp
      apply hwf p
      rw [List.enumFrom_cons]
      exact List.mem_cons_of_mem _ hp
    obtain ⟨htail, hhead⟩ := unseen_tail vals ignoreSig byIndex b.seenVals idx cs rest hndv
    by_cases hi : ignoreSig cs = true
    · rw [batchLoop, batchBody_eq]
      simp only [hi, if_true]
      exact ih _ _ hwf' htail
    · have hi' : ignoreSig cs = false := by simpa using hi
      have hw := hwf (idx, cs) (by rw [List.enumFrom_cons]; exact List.mem_cons_self _ _) hi'
      rcases resolve_wellFormed E vals byIndex b.seenVals idx cs hw
          (fun hbi => (hndv hbi).2 cs (List.mem_cons_self _ _) hi') with
        ⟨hres, hbi, hnone⟩ | ⟨v, pk, seen1, hres, hpv, hpk, hs1, hs2⟩
      · rw [batchLoop, batchBody_eq]
        simp only [hi, if_false, hres, Bool.false_eq_true]
        exact ih _ _ hwf' htail
      · obtain ⟨hit, hhit⟩ := batchCacheHit_some E cache cs pk
          (E.VoteSignBytes commit chainID (wrapInt32 idx))
        obtain ⟨b2, hseen2, hbody⟩ : ∃ b2 : BatchState, b2.seenVals = seen1 ∧
            batchBody E bv chainID vals commit needed ignoreSig countSig countAll byIndex
              cache idx cs b =
            if countAll = false ∧ b2.talliedVotingPower > needed then .brk b2
            else .next b2 := by
          refine ⟨batchAfter E chainID commit countSig idx cs v hit
              { b with val := some v, seenVals := seen1 }, rfl, ?_⟩
          rw [batchBody_eq]
          simp only [hi, if_false, hres, batchCheck, hpk, hhit, hadd, ite_self,
            Bool.false_eq_true]
        rw [batchLoop, hbody]
        by_cases hexit : countAll = false ∧ b2.talliedVotingPower > needed
        · rw [if_pos hexit]
          exact ⟨b2, Or.inr rfl⟩
        · rw [if_neg hexit]
          apply ih
          · exact hwf'
          · intro hbi
            obtain ⟨i, hi1, hi2⟩ := hs2 hbi
            have := hhead hi' i hi1 hbi
            rw [hseen2, hi2]
            exact this

theorem batchCacheAll_some (idxs : List Nat)
    (hidx : ∀ idx ∈ idxs, idx < commit.Signatures.length)
    (bits : List Bool) (i : Nat) (c : SignatureCache) (hlen : i + bits.length ≤ idxs.length) :
    ∃ c1, batchCacheAll E chainID commit idxs bits i c = some c1 := by
  induction bits generalizing i c with
  | nil => exact ⟨c, rfl⟩
  | cons bit rest ih =>
    simp only [List.length_cons] at hlen
    have hi : i < idxs.length := by omega
    have h1 : idxs[i]? = some idxs[i] := List.getElem?_eq_getElem hi
    have h2 : idxs[i] < commit.Signatures.length := hidx _ (List.getElem_mem _)
    have h3 : commit.Signatures[idxs[i]]? = some commit.Signatures[idxs[i]] :=
      List.getElem?_eq_getElem h2
    rw [batchCacheAll]
    simp only [h1, h3]
    exact ih _ _ (by omega)

/-- The end of `verifyCommitBatch` on a batch of valid entries. -/
theorem batchFinish_good (hbv : bv.Exact E) (b : BatchState) (f : Flow BatchState)
    (hf : f = .next b ∨ f = .brk b)
    (hlen : b.batchSigIdxs.length = b.batch.length)
    (hidx : ∀ idx ∈ b.batchSigIdxs, idx < commit.Signatures.length)
    (hvalid : b.batch.all (entryValid E) = true) :
    (batchFinish E bv chainID commit needed cache f).tallied = b.talliedVotingPower ∧
    (batchFinish E bv chainID commit needed cache f).result =
      if needed < b.talliedVotingPower then .accept
      else .reject (.NotEnoughVotingPowerSigned b.talliedVotingPower needed) := by
  have hfin : batchFinish E bv chainID commit needed cache f
      = batchFinish E bv chainID commit needed cache (.next b) := by
    rcases hf with rfl | rfl <;> rfl
  rw [hfin]
  simp only [batchFinish]
  by_cases ht : b.talliedVotingPower ≤ needed
  · simp [ht, not_lt.mpr ht]
  · simp only [ht, if_false, not_le.mp ht, if_true]
    by_cases hl : b.batchSigIdxs.length = 0
    · simp [hl]
    · simp only [hl, if_false]
      rw [hbv.2, hvalid]
      simp only []
      cases cache with
      | none => simp
      | some c =>
        obtain ⟨c1, hc1⟩ := batchCacheAll_some E chainID commit b.batchSigIdxs hidx
          (b.batch.map (entryValid E)) 0 c (by simp [hlen])
        simp only [hc1]
        simp

end Loops

section Drivers

variable (E : Env) (chainID : String) (vals : ValidatorSet)
  (commit : Commit) (needed : Int) (ignoreSig countSig : CommitSig → Bool)
  (countAll byIndex : Bool) (cache : Option SignatureCache)

/-- On a commit whose examined entries are well formed and verify, without
double vote, `verifyCommitBatch` with an exact verifier accepts if the tally
exceeds the threshold and otherwise reports the tally as not enough. -/
theorem verifyCommitBatch_good (batchVerifier : Option BatchVerifier) (bv : BatchVerifier)
    (hcreated : batchVerifier = some bv ∨
      (batchVerifier = none ∧
        ∃ p, vals.GetProposer = some p ∧ E.CreateBatchVerifier p.PubKey = some bv))
    (hbv : bv.Exact E)
    (hlen : batchVerifyThreshold ≤ commit.Signatures.length)
    (hgood : ∀ p ∈ commit.Signatures.enum, ignoreSig p.2 = false →
      entryWellFormed E vals byIndex p.1 p.2 = true ∧
        entryVerifies E chainID vals commit byIndex p.1 p.2 = true)
    (hndv : byIndex = false → NoDoubleVote vals ignoreSig commit.Signatures) :
    (verifyCommitBatch E chainID vals commit needed ignoreSig countSig countAll byIndex
      batchVerifier cache).result =
      if needed < (verifyCommitBatch E chainID vals commit needed ignoreSig countSig countAll
          byIndex batchVerifier cache).tallied
      then .accept
      else .reject (.NotEnoughVotingPowerSigned
        (verifyCommitBatch E chainID vals commit needed ignoreSig countSig countAll
          byIndex batchVerifier cache).tallied needed) := by
  have hnot : ¬ commit.Signatures.length < batchVerifyThreshold := not_lt.mpr hlen
  have hrun : verifyCommitBatch E chainID vals commit needed ignoreSig countSig countAll byIndex
      batchVerifier cache =
      batchFinish E bv chainID commit needed cache
        (batchLoop E bv chainID vals commit needed ignoreSig countSig countAll byIndex cache
          commit.Signatures 0
          { val := none, seenVals := [], batchSigIdxs := [], batch := [],
            talliedVotingPower := 0, calls := [] }) := by
    rcases hcreated with rfl | ⟨rfl, p, hp, hc⟩
    · simp only [verifyCommitBatch, hnot, if_false]
    · simp only [verifyCommitBatch, hp, hc, hnot, if_false]
  rw [hrun]
  obtain ⟨b1, hloop⟩ := batchLoop_progress E bv chainID vals commit needed ignoreSig countSig
    countAll byIndex cache hbv.1 commit.Signatures 0
    { val := none, seenVals := [], batchSigIdxs := [], batch := [],
      talliedVotingPower := 0, calls := [] }
    (fun p hp hi => (hgood p hp hi).1)
    (fun hb => ⟨hndv hb, fun _ _ _ _ _ => rfl⟩)
  obtain ⟨extra, h1, h2, h3⟩ := batchLoop_flow E bv chainID vals commit needed ignoreSig
    countSig countAll byIndex cache commit.Signatures 0 _ b1 hloop
  simp only [List.nil_append] at h1 h2
  have hlen1 : b1.batchSigIdxs.length = b1.batch.length := by rw [h1, h2]; simp
  have hidx : ∀ idx ∈ b1.batchSigIdxs, idx < commit.Signatures.length := by
    intro idx hidx
    rw [h1] at hidx
    obtain ⟨p, hp, rfl⟩ := List.mem_map.mp hidx
    obtain ⟨k, cs, v, e1, e2, -⟩ := h3 p hp
    rw [e1, zero_add]
    exact (List.getElem?_eq_some_iff.mp e2).1
  have hvalid : b1.batch.all (entryValid E) = true := by
    rw [h2, List.all_eq_true]
    intro e he
    obtain ⟨p, hp, rfl⟩ := List.mem_map.mp he
    obtain ⟨k, cs, v, e1, e2, e3, e4, e5, e6⟩ := h3 p hp
    rw [zero_add] at e4 e6
    have hmem : (k, cs) ∈ commit.Signatures.enum := List.mk_mem_enum_iff_getElem?.mpr e2
    obtain ⟨hw, hver⟩ := hgood (k, cs) hmem e3
    simp only [entryWellFormed, e4, Bool.and_eq_true] at hw
    obtain ⟨pk, hpk⟩ := Option.isSome_iff_exists.mp hw.2
    simp only [entryVerifies, e4, hpk] at hver
    rw [e6]
    simp only [entryValid, batchEntry, hpk]
    exact hver
  obtain ⟨ht, hr⟩ := batchFinish_good E bv chainID commit needed cache hbv b1 _
    hloop hlen1 hidx hvalid
  rw [ht, hr]

end Drivers

/-- C3: the acceptance condition is strict. For every commit in which every
signature that is not ignored is well formed (shape check passed, validator
present with a public key) and verifies, and in which no validator is
addressed twice (lookup by address), `verifyCommitSingle` accepts iff its tally
exceeds `votingPowerNeeded` and returns `ErrNotEnoughVotingPowerSigned{Got:
tally, Needed: votingPowerNeeded}` when the tally is equal to or below it; so
does `verifyCommitBatch`, given at least two signatures and a batch verifier
whose `Add` never fails and whose `Verify` is exact. -/
theorem tally_strictly_above_threshold (E : Env) (chainID : String) (vals : ValidatorSet)
    (commit : Commit) (votingPowerNeeded : Int) (ignoreSig countSig : CommitSig → Bool)
    (countAllSignatures lookUpByIndex : Bool) (cache : Option SignatureCache)
    (hgood : ∀ p ∈ commit.Signatures.enum, ignoreSig p.2 = false →
      entryWellFormed E vals lookUpByIndex p.1 p.2 = true ∧
        entryVerifies E chainID vals commit lookUpByIndex p.1 p.2 = true)
    (hndv : lookUpByIndex = false → NoDoubleVote vals ignoreSig commit.Signatures) :
    (((verifyCommitSingle E chainID vals commit votingPowerNeeded ignoreSig countSig
          countAllSignatures lookUpByIndex cache).result = .accept ↔
        (verifyCommitSingle E chainID vals commit votingPowerNeeded ignoreSig countSig
          countAllSignatures lookUpByIndex cache).tallied > votingPowerNeeded) ∧
      ((verifyCommitSingle E chainID vals commit votingPowerNeeded ignoreSig countSig
          countAllSignatures lookUpByIndex cache).tallied ≤ votingPowerNeeded →
        (verifyCommitSingle E chainID vals commit votingPowerNeeded ignoreSig countSig
          countAllSignatures lookUpByIndex cache).result =
          .reject (.NotEnoughVotingPowerSigned
            (verifyCommitSingle E chainID vals commit votingPowerNeeded ignoreSig countSig
              countAllSignatures lookUpByIndex cache).tallied votingPowerNeeded))) ∧
    (∀ (batchVerifier : Option BatchVerifier) (bv : BatchVerifier),
      (batchVerifier = some bv ∨
        (batchVerifier = none ∧
          ∃ p, vals.GetProposer = some p ∧ E.CreateBatchVerifier p.PubKey = some bv)) →
      bv.Exact E → batchVerifyThreshold ≤ commit.Signatures.length →
      ((verifyCommitBatch E chainID vals commit votingPowerNeeded ignoreSig countSig
          countAllSignatures lookUpByIndex batchVerifier cache).result = .accept ↔
        (verifyCommitBatch E chainID vals commit votingPowerNeeded ignoreSig countSig
          countAllSignatures lookUpByIndex batchVerifier cache).tallied > votingPowerNeeded) ∧
      ((verifyCommitBatch E chainID vals commit votingPowerNeeded ignoreSig countSig
          countAllSignatures lookUpByIndex batchVerifier cache).tallied ≤ votingPowerNeeded →
        (verifyCommitBatch E chainID vals commit votingPowerNeeded ignoreSig countSig
          countAllSignatures lookUpByIndex batchVerifier cache).result =
          .reject (.NotEnoughVotingPowerSigned
            (verifyCommitBatch E chainID vals commit votingPowerNeeded ignoreSig countSig
              countAllSignatures lookUpByIndex batchVerifier cache).tallied
            votingPowerNeeded))) := by
  have key : ∀ r : Run,
      r.result = (if votingPowerNeeded < r.tallied then Outcome.accept
        else .reject (.NotEnoughVotingPowerSigned r.tallied votingPowerNeeded)) →
      (r.result = .accept ↔ r.tallied > votingPowerNeeded) ∧
      (r.tallied ≤ votingPowerNeeded →
        r.result = .reject (.NotEnoughVotingPowerSigned r.tallied votingPowerNeeded)) := by
    intro r hr
    by_cases ht : votingPowerNeeded < r.tallied
    · rw [if_pos ht] at hr
      exact ⟨⟨fun _ => ht, fun _ => hr⟩, fun hle => absurd ht (not_lt.mpr hle)⟩
    · rw [if_neg ht] at hr
      refine ⟨⟨fun h => ?_, fun h => absurd h ht⟩, fun _ => hr⟩
      rw [hr] at h
      cases h
  constructor
  · apply key
    have hgood0 : ∀ p ∈ commit.Signatures.enumFrom 0, ignoreSig p.2 = false →
        entryWellFormed E vals lookUpByIndex p.1 p.2 = true ∧
          entryVerifies E chainID vals commit lookUpByIndex p.1 p.2 = true := hgood
    exact singleLoop_good E chainID vals commit votingPowerNeeded ignoreSig countSig
      countAllSignatures lookUpByIndex commit.Signatures 0 _ hgood0
      (fun hb => ⟨hndv hb, fun _ _ _ _ _ => rfl⟩)
  · intro batchVerifier bv hcreated hbv hlen
    apply key
    exact verifyCommitBatch_good E chainID vals commit votingPowerNeeded ignoreSig countSig
      countAllSignatures lookUpByIndex cache batchVerifier bv hcreated hbv hlen hgood hndv

/-- C3, at four validators of power 10 and threshold 26 with two absent
entries (scenario S3): the hypotheses hold, the tally 20 does not exceed 26,
and both drivers return `ErrNotEnoughVotingPowerSigned{20, 26}`. -/
theorem tally_strictly_above_threshold_witness :
    NoDoubleVote Fixture.vals4 ignoreAbsent
        [Fixture.signed 1, Fixture.signed 2, Fixture.absent, Fixture.absent] ∧
    (verifyCommitSingle (Fixture.env true) "c" Fixture.vals4
        (Fixture.commitOf [Fixture.signed 1, Fixture.signed 2, Fixture.absent,
          Fixture.absent])
        26 ignoreAbsent countCommit true true none).result
      = .reject (.NotEnoughVotingPowerSigned 20 26) ∧
    (verifyCommitBatch (Fixture.env true) "c" Fixture.vals4
        (Fixture.commitOf [Fixture.signed 1, Fixture.signed 2, Fixture.absent,
          Fixture.absent])
        26 ignoreAbsent countCommit true true (some Fixture.verifier) none).result
      = .reject (.NotEnoughVotingPowerSigned 20 26) :=
  ⟨by decide,
    (tally_strictly_above_threshold (Fixture.env true) "c" Fixture.vals4
      (Fixture.commitOf [Fixture.signed 1, Fixture.signed 2, Fixture.absent, Fixture.absent])
      26 ignoreAbsent countCommit true true none (by decide) (by decide)).1.2 (by decide),
    ((tally_strictly_above_threshold (Fixture.env true) "c" Fixture.vals4
      (Fixture.commitOf [Fixture.signed 1, Fixture.signed 2, Fixture.absent, Fixture.absent])
      26 ignoreAbsent countCommit true true none (by decide) (by decide)).2
      (some Fixture.verifier) Fixture.verifier (Or.inl rfl) (Fixture.verifier_exact true)
      (by decide)).2 (by decide)⟩

/-! ### Running the loops over the first entries of a commit -/

section Loops

variable (E : Env) (bv : BatchVerifier) (chainID : String) (vals : ValidatorSet)
  (commit : Commit) (needed : Int) (ignoreSig countSig : CommitSig → Bool)
  (countAll byIndex : Bool) (cache : Option SignatureCache)

theorem singleLoop_append (pre suf : List CommitSig) (idx : Nat) (s : SingleState) :
    singleLoop E chainID vals commit needed ignoreSig countSig countAll byIndex
        (pre ++ suf) idx s =
      match singleLoop E chainID vals commit needed ignoreSig countSig countAll byIndex
          pre idx s with
      | .next s1 =>
        singleLoop E chainID vals commit needed ignoreSig countSig countAll byIndex
          suf (idx + pre.length) s1
      | other => other := by
  induction pre generalizing idx s with
  | nil => simp [singleLoop]
  | cons cs rest ih =>
    simp only [List.cons_append, singleLoop, List.length_cons]
    cases singleBody E chainID vals commit needed ignoreSig countSig countAll byIndex idx cs s
      with
    | next s1 =>
      simp only []
      rw [show idx + (rest.length + 1) = idx + 1 + rest.length by omega]
      exact ih _ _
    | brk s1 => rfl
    | ret r s1 => rfl

theorem batchLoop_append (pre suf : List CommitSig) (idx : Nat) (b : BatchState) :
    batchLoop E bv chainID vals commit needed ignoreSig countSig countAll byIndex cache
        (pre ++ suf) idx b =
      match batchLoop E bv chainID vals commit needed ignoreSig countSig countAll byIndex cache
          pre idx b with
      | .next b1 =>
        batchLoop E bv chainID vals commit needed ignoreSig countSig countAll byIndex cache
          suf (idx + pre.length) b1
      | other => other := by
  induction pre generalizing idx b with
  | nil => simp [batchLoop]
  | cons cs rest ih =>
    simp only [List.cons_append, batchLoop, List.length_cons]
    cases batchBody E bv chainID vals commit needed ignoreSig countSig countAll byIndex cache
        idx cs b with
    | next b1 =>
      simp only []
      rw [show idx + (rest.length + 1) = idx + 1 + rest.length by omega]
      exact ih _ _
    | brk b1 => rfl
    | ret r b1 => rfl

/-- The tally after one more entry. -/
theorem tallyOver_cons_take (cs : CommitSig) (rest : List CommitSig) (idx : Nat) (t : Int)
    (j : Nat) :
    tallyOver vals ignoreSig countSig byIndex ((cs :: rest).take (j + 1)) idx t =
      tallyOver vals ignoreSig countSig byIndex (rest.take j) (idx + 1)
        (tallyOver vals ignoreSig countSig byIndex [cs] idx t) := by
  simp [tallyOver]

/-- The hypothesis of no early exit, carried through the loops. -/
theorem noExit_tail (cs : CommitSig) (rest : List CommitSig) (idx : Nat) (t : Int)
    (hexit : countAll = true ∨
      ∀ j ≤ (cs :: rest).length,
        tallyOver vals ignoreSig countSig byIndex ((cs :: rest).take j) idx t ≤ needed) :
    ¬ (countAll = false ∧ tallyOver vals ignoreSig countSig byIndex [cs] idx t > needed) ∧
    (countAll = true ∨
      ∀ j ≤ rest.length,
        tallyOver vals ignoreSig countSig byIndex (rest.take j) (idx + 1)
          (tallyOver vals ignoreSig countSig byIndex [cs] idx t) ≤ needed) := by
  rcases hexit with h | h
  · exact ⟨(fun hc => by rw [h] at hc; cases hc.1), Or.inl h⟩
  · constructor
    · intro hc
      have := h 1 (by simp)
      simp only [List.take_succ_cons, List.take_zero] at this
      exact absurd hc.2 (not_lt.mpr this)
    · right
      intro j hj
      rw [← tallyOver_cons_take]
      exact h (j + 1) (by simpa using hj)

end Loops

section Loops

variable (E : Env) (bv : BatchVerifier) (chainID : String) (vals : ValidatorSet)
  (commit : Commit) (needed : Int) (ignoreSig countSig : CommitSig → Bool)
  (countAll byIndex : Bool) (cache : Option SignatureCache)

theorem tallyOver_cons (cs : CommitSig) (rest : List CommitSig) (idx : Nat) (t : Int) :
    tallyOver vals ignoreSig countSig byIndex (cs :: rest) idx t =
      tallyOver vals ignoreSig countSig byIndex rest (idx + 1)
        (tallyOver vals ignoreSig countSig byIndex [cs] idx t) := by
  simp [tallyOver]

theorem seenAfter_cons (cs : CommitSig) (rest : List CommitSig) (idx : Nat)
    (seen : List (Nat × Nat)) :
    seenAfter vals ignoreSig byIndex (cs :: rest) idx seen =
      seenAfter vals ignoreSig byIndex rest (idx + 1)
        (seenAfter vals ignoreSig byIndex [cs] idx seen) := by
  simp [seenAfter]

theorem pairedValidator_of_skip (idx : Nat) (cs : CommitSig) (hbi : byIndex = false)
    (hnone : addressedIndex vals cs = none) :
    pairedValidator vals byIndex idx cs = none := by
  unfold addressedIndex at hnone
  unfold pairedValidator
  rw [hbi]
  simp only [Bool.false_eq_true, if_false]
  cases h : vals.GetByAddress cs.ValidatorAddress with
  | none => rfl
  | some p => simp [h] at hnone

/-- On entries that are well formed and verify, without double vote and
without early exit, the loop of `verifyCommitSingle` reaches the end of the
entries; the tally and `seenVals` are those of `tallyOver` and `seenAfter`. -/
theorem singleLoop_run (sigs : List CommitSig) (idx : Nat) (s : SingleState)
    (hgood : ∀ p ∈ sigs.enumFrom idx, ignoreSig p.2 = false →
      entryWellFormed E vals byIndex p.1 p.2 = true ∧
        entryVerifies E chainID vals commit byIndex p.1 p.2 = true)
    (hndv : byIndex = false → NoDoubleVote vals ignoreSig sigs ∧
      ∀ c ∈ sigs, ignoreSig c = false → ∀ i, addressedIndex vals c = some i →
        s.seenVals.lookup i = none)
    (hexit : countAll = true ∨
      ∀ j ≤ sigs.length,
        tallyOver vals ignoreSig countSig byIndex (sigs.take j) idx s.talliedVotingPower
          ≤ needed) :
    ∃ s1, singleLoop E chainID vals commit needed ignoreSig countSig countAll byIndex
        sigs idx s = .next s1 ∧
      s1.talliedVotingPower =
        tallyOver vals ignoreSig countSig byIndex sigs idx s.talliedVotingPower ∧
      s1.seenVals = seenAfter vals ignoreSig byIndex sigs idx s.seenVals ∧
      (s.cache = none → s1.cache = none) := by
  induction sigs generalizing idx s with
  | nil => exact ⟨s, rfl, rfl, rfl, id⟩
  | cons cs rest ih =>
    have hgood' : ∀ p ∈ rest.enumFrom (idx + 1), ignoreSig p.2 = false →
        entryWellFormed E vals byIndex p.1 p.2 = true ∧
          entryVerifies E chainID vals commit byIndex p.1 p.2 = true := by
      intro p hp
      apply hgood p
      rw [List.enumFrom_cons]
      exact List.mem_cons_of_mem _ hp
    obtain ⟨htail, hhead⟩ := unseen_tail vals ignoreSig byIndex s.seenVals idx cs rest hndv
    obtain ⟨hnow, hlater⟩ := noExit_tail vals needed ignoreSig countSig countAll byIndex cs rest
      idx s.talliedVotingPower hexit
    rw [tallyOver_cons, seenAfter_cons]
    by_cases hi : ignoreSig cs = true
    · have ht : tallyOver vals ignoreSig countSig byIndex [cs] idx s.talliedVotingPower
          = s.talliedVotingPower := by simp [tallyOver, hi]
      have hs : seenAfter vals ignoreSig byIndex [cs] idx s.seenVals = s.seenVals := by
        simp [seenAfter, hi]
      rw [singleLoop, singleBody_eq, ht, hs]
      simp only [hi, if_true]
      rw [ht] at hlater
      exact ih _ _ hgood' htail hlater
    · have hi' : ignoreSig cs = false := by simpa using hi
      obtain ⟨hw, hver⟩ := hgood (idx, cs)
        (by rw [List.enumFrom_cons]; exact List.mem_cons_self _ _) hi'
      have hb : E.ValidateBasic cs = true := by
        unfold entryWellFormed at hw
        simp only [Bool.and_eq_true] at hw
        exact hw.1
      rcases resolve_wellFormed E vals byIndex s.seenVals idx cs hw
          (fun hbi => (hndv hbi).2 cs (List.mem_cons_self _ _) hi') with
        ⟨hres, hbi, hnone⟩ | ⟨v, pk, seen1, hres, hpv, hpk, hs1, hs2⟩
      · have ht : tallyOver vals ignoreSig countSig byIndex [cs] idx s.talliedVotingPower
            = s.talliedVotingPower := by
          simp [tallyOver, hi', pairedValidator_of_skip vals byIndex idx cs hbi hnone]
        have hs : seenAfter vals ignoreSig byIndex [cs] idx s.seenVals = s.seenVals := by
          simp [seenAfter, hi', hres]
        rw [singleLoop, singleBody_eq, ht, hs]
        simp only [hi, hb, if_false, not_true_eq_false, hres, Bool.false_eq_true]
        rw [ht] at hlater
        exact ih _ _ hgood' htail hlater
      · have hvalid : E.VerifySignature pk (E.VoteSignBytes commit chainID (wrapInt32 idx))
            cs.Signature = true := by
          unfold entryVerifies at hver
          simpa [hpv, hpk] using hver
        have ht : tallyOver vals ignoreSig countSig byIndex [cs] idx s.talliedVotingPower
            = addTally countSig cs v s.talliedVotingPower := by
          simp [tallyOver, hi', hpv]
        have hs : seenAfter vals ignoreSig byIndex [cs] idx s.seenVals = seen1 := by
          simp [seenAfter, hi', hres]
        obtain ⟨s2, hseen2, htally2, hcache2, hbody⟩ : ∃ s2 : SingleState,
            s2.seenVals = seen1 ∧
            s2.talliedVotingPower = addTally countSig cs v s.talliedVotingPower ∧
            (s.cache = none → s2.cache = none) ∧
            singleBody E chainID vals commit needed ignoreSig countSig countAll byIndex
              idx cs s =
            if countAll = false ∧ s2.talliedVotingPower > needed then .ret .accept s2
            else .next s2 := by
          refine ⟨singleAfter E chainID commit countSig idx cs v pk
              (singleCacheHit E s.cache cs pk
                (E.VoteSignBytes commit chainID (wrapInt32 idx)))
              { s with val := some v, seenVals := seen1 }, rfl, rfl, ?_, ?_⟩
          · intro hc
            simp [singleAfter, hc]
          · rw [singleBody_eq]
            simp only [hi, hb, if_false, not_true_eq_false, hres, singleCheck, hpk, hvalid,
              Bool.true_eq_false, and_false, Bool.false_eq_true]
        rw [ht] at hnow hlater ⊢
        rw [hs, singleLoop, hbody, htally2, if_neg hnow]
        simp only []
        obtain ⟨s3, h1, h2, h3, h4⟩ := ih (idx + 1) s2 hgood'
          (by
            intro hbi
            obtain ⟨i, hi1, hi2⟩ := hs2 hbi
            have := hhead hi' i hi1 hbi
            rw [hseen2, hi2]
            exact this)
          (by rw [htally2]; exact hlater)
        exact ⟨s3, h1, by rw [h2, htally2], by rw [h3, hseen2], fun hc => h4 (hcache2 hc)⟩

/-- On well-formed entries, without double vote and without early exit, the
loop of `verifyCommitBatch` reaches the end of the entries. -/
theorem batchLoop_run (hadd : ∀ es e, bv.Add es e = none)
    (sigs : List CommitSig) (idx : Nat) (b : BatchState)
    (hwf : ∀ p ∈ sigs.enumFrom idx, ignoreSig p.2 = false →
      entryWellFormed E vals byIndex p.1 p.2 = true)
    (hndv : byIndex = false → NoDoubleVote vals ignoreSig sigs ∧
      ∀ c ∈ sigs, ignoreSig c = false → ∀ i, addressedIndex vals c = some i →
        b.seenVals.lookup i = none)
    (hexit : countAll = true ∨
      ∀ j ≤ sigs.length,
        tallyOver vals ignoreSig countSig byIndex (sigs.take j) idx b.talliedVotingPower
          ≤ needed) :
    ∃ b1, batchLoop E bv chainID vals commit needed ignoreSig countSig countAll byIndex cache
        sigs idx b = .next b1 ∧
      b1.talliedVotingPower =
        tallyOver vals ignoreSig countSig byIndex sigs idx b.talliedVotingPower ∧
      b1.seenVals = seenAfter vals ignoreSig byIndex sigs idx b.seenVals := by
  induction sigs generalizing idx b with
  | nil => exact ⟨b, rfl, rfl, rfl⟩
  | cons cs rest ih =>
    have hwf' : ∀ p ∈ rest.enumFrom (idx + 1), ignoreSig p.2 = false →
        entryWellFormed E vals byIndex p.1 p.2 = true := by
      intro p hp
      apply hwf p
      rw [List.enumFrom_cons]
      exact List.mem_cons_of_mem _ hp
    obtain ⟨htail, hhead⟩ := unseen_tail vals ignoreSig byIndex b.seenVals idx cs rest hndv
    obtain ⟨hnow, hlater⟩ := noExit_tail vals needed ignoreSig countSig countAll byIndex cs rest
      idx b.talliedVotingPower hexit
    rw [tallyOver_cons, seenAfter_cons]
    by_cases hi : ignoreSig cs = true
    · have ht : tallyOver vals ignoreSig countSig byIndex [cs] idx b.talliedVotingPower
          = b.talliedVotingPower := by simp [tallyOver, hi]
      have hs : seenAfter vals ignoreSig byIndex [cs] idx b.seenVals = b.seenVals := by
        simp [seenAfter, hi]
      rw [batchLoop, batchBody_eq, ht, hs]
      simp only [hi, if_true]
      rw [ht] at hlater
      exact ih _ _ hwf' htail hlater
    · have hi' : ignoreSig cs = false := by simpa using hi
      have hw := hwf (idx, cs) (by rw [List.enumFrom_cons]; exact List.mem_cons_self _ _) hi'
      rcases resolve_wellFormed E vals byIndex b.seenVals idx cs hw
          (fun hbi => (hndv hbi).2 cs (List.mem_cons_self _ _) hi') with
        ⟨hres, hbi, hnone⟩ | ⟨v, pk, seen1, hres, hpv, hpk, hs1, hs2⟩
      · have ht : tallyOver vals ignoreSig countSig byIndex [cs] idx b.talliedVotingPower
            = b.talliedVotingPower := by
          simp [tallyOver, hi', pairedValidator_of_skip vals byIndex idx cs hbi hnone]
        have hs : seenAfter vals ignoreSig byIndex [cs] idx b.seenVals = b.seenVals := by
          simp [seenAfter, hi', hres]
        rw [batchLoop, batchBody_eq, ht, hs]
        simp only [hi, if_false, hres, Bool.false_eq_true]
        rw [ht] at hlater
        exact ih _ _ hwf' htail hlater
      · have ht : tallyOver vals ignoreSig countSig byIndex [cs] idx b.talliedVotingPower
            = addTally countSig cs v b.talliedVotingPower := by
          simp [tallyOver, hi', hpv]
        have hs : seenAfter vals ignoreSig byIndex [cs] idx b.seenVals = seen1 := by
          simp [seenAfter, hi', hres]
        obtain ⟨hit, hhit⟩ := batchCacheHit_some E cache cs pk
          (E.VoteSignBytes commit chainID (wrapInt32 idx))
        obtain ⟨b2, hseen2, htally2, hbody⟩ : ∃ b2 : BatchState,
            b2.seenVals = seen1 ∧
            b2.talliedVotingPower = addTally countSig cs v b.talliedVotingPower ∧
            batchBody E bv chainID vals commit needed ignoreSig countSig countAll byIndex
              cache idx cs b =
            if countAll = false ∧ b2.talliedVotingPower > needed then .brk b2
            else .next b2 := by
          refine ⟨batchAfter E chainID commit countSig idx cs v hit
              { b with val := some v, seenVals := seen1 }, rfl, rfl, ?_⟩
          rw [batchBody_eq]
          simp only [hi, if_false, hres, batchCheck, hpk, hhit, hadd, ite_self,
            Bool.false_eq_true]
        rw [ht] at hnow hlater ⊢
        rw [hs, batchLoop, hbody, htally2, if_neg hnow]
        simp only []
        obtain ⟨b3, h1, h2, h3⟩ := ih (idx + 1) b2 hwf'
          (by
            intro hbi
            obtain ⟨i, hi1, hi2⟩ := hs2 hbi
            have := hhead hi' i hi1 hbi
            rw [hseen2, hi2]
            exact this)
          (by rw [htally2]; exact hlater)
        exact ⟨b3, h1, by rw [h2, htally2], by rw [h3, hseen2]⟩

end Loops

/-! ### The map `seenVals` -/

section Seen

variable (vals : ValidatorSet) (ignoreSig : CommitSig → Bool)

/-- What one entry does to `seenVals` with lookup by address. -/
theorem seenAfter_one (idx : Nat) (cs : CommitSig) (seen : List (Nat × Nat)) :
    seenAfter vals ignoreSig false [cs] idx seen = seen ∨
    (∃ i, ignoreSig cs = false ∧ addressedIndex vals cs = some i ∧ seen.lookup i = none ∧
      seenAfter vals ignoreSig false [cs] idx seen = (i, idx) :: seen) := by
  simp only [seenAfter, resolve, Bool.false_eq_true, if_false]
  by_cases hi : ignoreSig cs = true
  · simp [hi]
  · simp only [hi, if_false]
    cases hv : vals.GetByAddress cs.ValidatorAddress with
    | none => simp
    | some p =>
      obtain ⟨i, v⟩ := p
      simp only []
      cases hl : List.lookup i seen with
      | some n => simp
      | none =>
        right
        exact ⟨i, trivial, by simp [addressedIndex, hv], hl, rfl⟩

/-- An entry of `seenVals` is never overwritten. -/
theorem seenAfter_keeps (sigs : List CommitSig) (idx : Nat) (seen : List (Nat × Nat))
    (i n : Nat) (h : seen.lookup i = some n) :
    (seenAfter vals ignoreSig false sigs idx seen).lookup i = some n := by
  induction sigs generalizing idx seen with
  | nil => exact h
  | cons cs rest ih =>
    rw [seenAfter_cons]
    apply ih
    rcases seenAfter_one vals ignoreSig idx cs seen with h1 | ⟨j, -, -, hl, h1⟩
    · rw [h1]; exact h
    · rw [h1, List.lookup_cons]
      have hne : (i == j) = false := by
        have : i ≠ j := by
          rintro rfl
          rw [hl] at h
          cases h
        simpa using this
      rw [hne]
      exact h

/-- A validator that no entry addresses is not added to `seenVals`. -/
theorem seenAfter_unseen (sigs : List CommitSig) (idx : Nat) (seen : List (Nat × Nat))
    (i : Nat) (h : seen.lookup i = none)
    (hno : ∀ cs ∈ sigs, ignoreSig cs = false → addressedIndex vals cs ≠ some i) :
    (seenAfter vals ignoreSig false sigs idx seen).lookup i = none := by
  induction sigs generalizing idx seen with
  | nil => exact h
  | cons cs rest ih =>
    rw [seenAfter_cons]
    apply ih
    · rcases seenAfter_one vals ignoreSig idx cs seen with h1 | ⟨j, hj1, hj2, hl, h1⟩
      · rw [h1]; exact h
      · rw [h1, List.lookup_cons]
        have hne : (i == j) = false := by
          have : i ≠ j := by
            rintro rfl
            exact hno cs (List.mem_cons_self _ _) hj1 hj2
          simpa using this
        rw [hne]
        exact h
    · exact fun c hc => hno c (List.mem_cons_of_mem _ hc)

/-- Without double vote, the validator addressed by entry `k` is recorded in
`seenVals` with the commit index of that entry. -/
theorem seenAfter_records (sigs : List CommitSig) (idx : Nat) (seen : List (Nat × Nat))
    (hndv : NoDoubleVote vals ignoreSig sigs)
    (hun : ∀ c ∈ sigs, ignoreSig c = false → ∀ i, addressedIndex vals c = some i →
      seen.lookup i = none)
    (k : Nat) (cs : CommitSig) (i : Nat) (hk : sigs[k]? = some cs)
    (hi : ignoreSig cs = false) (ha : addressedIndex vals cs = some i) :
    (seenAfter vals ignoreSig false sigs idx seen).lookup i = some (idx + k) := by
  induction sigs generalizing idx seen k with
  | nil => simp at hk
  | cons c rest ih =>
    rw [seenAfter_cons]
    obtain ⟨htail, hhead⟩ := unseen_tail vals ignoreSig false seen idx c rest
      (fun _ => ⟨hndv, hun⟩)
    cases k with
    | zero =>
      have hc : c = cs := by simpa using hk
      subst hc
      apply seenAfter_keeps
      have hl : seen.lookup i = none := hun c (List.mem_cons_self _ _) hi i ha
      have hstep : seenAfter vals ignoreSig false [c] idx seen = (i, idx) :: seen := by
        unfold addressedIndex at ha
        cases hv : vals.GetByAddress c.ValidatorAddress with
        | none => simp [hv] at ha
        | some p =>
          obtain ⟨j, v⟩ := p
          have hj : j = i := by simpa [hv] using ha
          subst hj
          simp [seenAfter, resolve, hi, hv, hl]
      rw [hstep]
      simp
    | succ k =>
      have hk' : rest[k]? = some cs := by simpa using hk
      rw [show idx + (k + 1) = idx + 1 + k by omega]
      rcases seenAfter_one vals ignoreSig idx c seen with h1 | ⟨j, hj1, hj2, hl, h1⟩
      · rw [h1]
        exact ih _ _ (htail rfl).1 (htail rfl).2 k hk'
      · rw [h1]
        exact ih _ _ (hhead hj1 j hj2 rfl).1 (hhead hj1 j hj2 rfl).2 k hk'

end Seen

/-! ### Double votes -/

/-- C7 (amended): with lookup by address (trusting mode), let two entries that
are not ignored address the same validator of the set, the second one at
commit index `pre.length`. If the loop reaches the second entry, that is, the
entries before it are well formed, contain no double vote and cause no early
exit, then `verifyCommitBatch` returns the `DoubleVote` error naming the first
and the second index, whatever the validity of any signature of the commit;
`verifyCommitSingle` returns the same error provided the signatures before the
second entry verify and the second entry passes the shape check, whatever the
validity of the second signature and of the entries after it. -/
theorem doubleVote_when_reached (E : Env) (chainID : String) (vals : ValidatorSet)
    (commit : Commit) (votingPowerNeeded : Int) (ignoreSig countSig : CommitSig → Bool)
    (countAllSignatures : Bool)
    (pre post : List CommitSig) (first second : CommitSig) (i valIdx : Nat) (val : Validator)
    (hsigs : commit.Signatures = pre ++ second :: post)
    (hwf : ∀ p ∈ pre.enum, ignoreSig p.2 = false →
      entryWellFormed E vals false p.1 p.2 = true)
    (hndv : NoDoubleVote vals ignoreSig pre)
    (hexit : NoEarlyExit vals votingPowerNeeded ignoreSig countSig countAllSignatures false pre)
    (hfirst : pre[i]? = some first) (hfi : ignoreSig first = false)
    (hfa : vals.GetByAddress first.ValidatorAddress = some (valIdx, val))
    (hsi : ignoreSig second = false)
    (hsa : vals.GetByAddress second.ValidatorAddress = some (valIdx, val)) :
    ((∀ p ∈ pre.enum, ignoreSig p.2 = false →
        entryVerifies E chainID vals commit false p.1 p.2 = true) →
      E.ValidateBasic second = true →
      ∀ cache : Option SignatureCache,
        (verifyCommitSingle E chainID vals commit votingPowerNeeded ignoreSig countSig
          countAllSignatures false cache).result
          = .reject (.DoubleVote val i pre.length)) ∧
    (∀ (batchVerifier : Option BatchVerifier) (bv : BatchVerifier)
        (cache : Option SignatureCache),
      (batchVerifier = some bv ∨
        (batchVerifier = none ∧
          ∃ p, vals.GetProposer = some p ∧ E.CreateBatchVerifier p.PubKey = some bv)) →
      (∀ es e, bv.Add es e = none) →
      (verifyCommitBatch E chainID vals commit votingPowerNeeded ignoreSig countSig
        countAllSignatures false batchVerifier cache).result
        = .reject (.DoubleVote val i pre.length)) := by
  have hfa' : addressedIndex vals first = some valIdx := by simp [addressedIndex, hfa]
  have hexit0 : countAllSignatures = true ∨
      ∀ j ≤ pre.length,
        tallyOver vals ignoreSig countSig false (pre.take j) 0 0 ≤ votingPowerNeeded := hexit
  have hseen : (seenAfter vals ignoreSig false pre 0 []).lookup valIdx = some i := by
    have := seenAfter_records vals ignoreSig pre 0 [] hndv (fun _ _ _ _ _ => rfl) i first valIdx
      hfirst hfi hfa'
    simpa using this
  have hres : ∀ seen : List (Nat × Nat), seen.lookup valIdx = some i →
      resolve vals false seen pre.length second = .doubleVote val i := by
    intro seen hl
    simp [resolve, hsa, hl]
  constructor
  · intro hver hsb cache
    obtain ⟨s1, hloop, -, hs1, -⟩ := singleLoop_run E chainID vals commit votingPowerNeeded
      ignoreSig countSig countAllSignatures false pre 0
      { val := none, seenVals := [], talliedVotingPower := 0, cache := cache, calls := [] }
      (fun p hp hi => ⟨hwf p hp hi, hver p hp hi⟩)
      (fun _ => ⟨hndv, fun _ _ _ _ _ => rfl⟩) hexit0
    simp only [verifyCommitSingle, hsigs]
    rw [singleLoop_append, hloop]
    simp only [zero_add, singleLoop]
    rw [singleBody_eq]
    have hl : s1.seenVals.lookup valIdx = some i := by rw [hs1]; exact hseen
    simp only [hsi, hsb, hres _ hl, Bool.false_eq_true, if_false, not_true_eq_false]
    rfl
  · intro batchVerifier bv cache hcreated hadd
    obtain ⟨b1, hloop, -, hb1⟩ := batchLoop_run E bv chainID vals commit votingPowerNeeded
      ignoreSig countSig countAllSignatures false cache hadd pre 0
      { val := none, seenVals := [], batchSigIdxs := [], batch := [],
        talliedVotingPower := 0, calls := [] }
      hwf (fun _ => ⟨hndv, fun _ _ _ _ _ => rfl⟩) hexit0
    have hlen : ¬ commit.Signatures.length < batchVerifyThreshold := by
      have hi1 : i < pre.length := (List.getElem?_eq_some_iff.mp hfirst).1
      rw [hsigs]
      simp only [List.length_append, List.length_cons, batchVerifyThreshold]
      omega
    have hl : b1.seenVals.lookup valIdx = some i := by rw [hb1]; exact hseen
    have hrun : batchFinish E bv chainID commit votingPowerNeeded cache
        (batchLoop E bv chainID vals commit votingPowerNeeded ignoreSig countSig
          countAllSignatures false cache commit.Signatures 0
          { val := none, seenVals := [], batchSigIdxs := [], batch := [],
            talliedVotingPower := 0, calls := [] }) =
        batchFinish E bv chainID commit votingPowerNeeded cache
          (.ret (.reject (.DoubleVote val i pre.length)) { b1 with val := some val }) := by
      rw [hsigs, batchLoop_append, hloop]
      simp only [zero_add, batchLoop]
      rw [batchBody_eq]
      simp only [hsi, hres _ hl, Bool.false_eq_true, if_false]
    rcases hcreated with rfl | ⟨rfl, p, hp, hc⟩
    · simp only [verifyCommitBatch, hlen, if_false]
      rw [hrun]
      rfl
    · simp only [verifyCommitBatch, hp, hc, hlen, if_false]
      rw [hrun]
      rfl

/-- C7 (amended), at three validators of power 10 and threshold 10 (trust
level 1/3, scenario S5): the commit carries the address of validator 1 at
indices 0 and 1, the second time with a corrupted signature; both drivers
return `DoubleVote` for the indices 0 and 1. -/
theorem doubleVote_when_reached_witness :
    NoDoubleVote Fixture.vals3 ignoreNotCommit [Fixture.signed 1] ∧
    NoEarlyExit Fixture.vals3 10 ignoreNotCommit countAlways false false [Fixture.signed 1] ∧
    (verifyCommitSingle (Fixture.env false) "c" Fixture.vals3
        (Fixture.commitOf [Fixture.signed 1, Fixture.corrupted 1, Fixture.signed 2])
        10 ignoreNotCommit countAlways false false none).result
      = .reject (.DoubleVote (Fixture.validator 1 10) 0 1) ∧
    (verifyCommitBatch (Fixture.env true) "c" Fixture.vals3
        (Fixture.commitOf [Fixture.signed 1, Fixture.corrupted 1, Fixture.signed 2])
        10 ignoreNotCommit countAlways false false none none).result
      = .reject (.DoubleVote (Fixture.validator 1 10) 0 1) :=
  ⟨by decide, by decide,
    (doubleVote_when_reached (Fixture.env false) "c" Fixture.vals3
      (Fixture.commitOf [Fixture.signed 1, Fixture.corrupted 1, Fixture.signed 2])
      10 ignoreNotCommit countAlways false
      [Fixture.signed 1] [Fixture.signed 2] (Fixture.signed 1) (Fixture.corrupted 1) 0 0
      (Fixture.validator 1 10) rfl (by decide) (by decide) (by decide) rfl (by decide)
      (by decide) (by decide) (by decide)).1 (by decide) (by decide) none,
    (doubleVote_when_reached (Fixture.env true) "c" Fixture.vals3
      (Fixture.commitOf [Fixture.signed 1, Fixture.corrupted 1, Fixture.signed 2])
      10 ignoreNotCommit countAlways false
      [Fixture.signed 1] [Fixture.signed 2] (Fixture.signed 1) (Fixture.corrupted 1) 0 0
      (Fixture.validator 1 10) rfl (by decide) (by decide) (by decide) rfl (by decide)
      (by decide) (by decide) (by decide)).2 none Fixture.verifier none
      (Or.inr ⟨rfl, Fixture.validator 1 10, rfl, rfl⟩) (fun _ _ => rfl)⟩

/-! ### The first invalid signature -/

section Loops

variable (E : Env) (bv : BatchVerifier) (chainID : String) (vals : ValidatorSet)
  (commit : Commit) (needed : Int) (ignoreSig countSig : CommitSig → Bool)
  (countAll byIndex : Bool) (cache : Option SignatureCache)

theorem map_eq_replicate_true {α : Type} (f : α → Bool) (l : List α)
    (h : ∀ a ∈ l, f a = true) : l.map f = List.replicate l.length true := by
  induction l with
  | nil => rfl
  | cons a l ih =>
    simp only [List.map_cons, List.length_cons, List.replicate_succ]
    rw [h a (List.mem_cons_self _ _), ih (fun b hb => h b (List.mem_cons_of_mem _ hb))]

/-- The scan of the validity bits stops at the first `false` bit and reports
the commit index remembered for it. -/
theorem batchFindInvalid_first (A B : List Nat) (k : Nat) (sig : CommitSig)
    (hk : commit.Signatures[k]? = some sig)
    (hA : ∀ a ∈ A, a < commit.Signatures.length) (bitsB : List Bool)
    (n i : Nat) (c : Option SignatureCache) (hi : i + n = A.length) :
    (batchFindInvalid E chainID commit (A ++ k :: B)
      (List.replicate n true ++ false :: bitsB) i c).1 =
      .reject (.WrongSignature k (.commitSig sig)) := by
  induction n generalizing i c with
  | zero =>
    have hik : (A ++ k :: B)[i]? = some k := by
      rw [show i = A.length by omega, List.getElem?_append_right (le_refl _)]
      simp
    simp only [List.replicate_zero, List.nil_append, batchFindInvalid, hik, hk]
    simp
  | succ n ih =>
    have hlt : i < A.length := by omega
    have hia : (A ++ k :: B)[i]? = some A[i] := by
      rw [List.getElem?_append_left hlt]
      exact List.getElem?_eq_getElem hlt
    have hin : A[i] < commit.Signatures.length := hA _ (List.getElem_mem _)
    have his : commit.Signatures[A[i]]? = some commit.Signatures[A[i]] :=
      List.getElem?_eq_getElem hin
    simp only [List.replicate_succ, List.cons_append, batchFindInvalid, hia, his]
    simp only [not_true_eq_false, if_false]
    exact ih _ _ (by omega)

/-- The end of `verifyCommitBatch` on a batch whose first invalid entry is the
one of commit index `k`, when the tally exceeds the threshold. -/
theorem batchFinish_first_invalid (hbv : bv.Exact E) (b : BatchState) (f : Flow BatchState)
    (hf : f = .next b ∨ f = .brk b)
    (A X : List Nat) (EA Y : List BatchEntry) (k : Nat) (ek : BatchEntry) (sig : CommitSig)
    (hidxs : b.batchSigIdxs = A ++ k :: X) (hbatch : b.batch = EA ++ ek :: Y)
    (hlen : A.length = EA.length)
    (hEA : ∀ e ∈ EA, entryValid E e = true) (hek : entryValid E ek = false)
    (hA : ∀ a ∈ A, a < commit.Signatures.length)
    (hk : commit.Signatures[k]? = some sig)
    (ht : needed < b.talliedVotingPower) :
    (batchFinish E bv chainID commit needed cache f).result =
      .reject (.WrongSignature k (.commitSig sig)) := by
  have hfin : batchFinish E bv chainID commit needed cache f
      = batchFinish E bv chainID commit needed cache (.next b) := by
    rcases hf with rfl | rfl <;> rfl
  rw [hfin]
  simp only [batchFinish]
  have ht' : ¬ b.talliedVotingPower ≤ needed := not_le.mpr ht
  have hl : b.batchSigIdxs.length ≠ 0 := by
    rw [hidxs]
    simp
  have hall : b.batch.all (entryValid E) = false := by
    rw [hbatch, List.all_append]
    simp [hek]
  have hbits : b.batch.map (entryValid E) =
      List.replicate A.length true ++ false :: Y.map (entryValid E) := by
    rw [hbatch, List.map_append, List.map_cons, hek, map_eq_replicate_true _ _ hEA, hlen]
  simp only [ht', hl, if_false]
  rw [hbv.2, hall, hbits, hidxs]
  exact batchFindInvalid_first E chainID commit A X k sig hk hA _ A.length 0 cache (by simp)

end Loops

section Drivers

variable (E : Env) (chainID : String) (vals : ValidatorSet)
  (commit : Commit) (needed : Int) (ignoreSig countSig : CommitSig → Bool)
  (countAll byIndex : Bool)

theorem enum_append_left {α : Type} (pre suf : List α) (p : Nat × α) (h : p ∈ pre.enum) :
    p ∈ (pre ++ suf).enum ∧ p.1 < pre.length := by
  obtain ⟨i, a⟩ := p
  rw [List.mk_mem_enum_iff_getElem?] at h
  have hlt : i < pre.length := (List.getElem?_eq_some_iff.mp h).1
  refine ⟨?_, hlt⟩
  rw [List.mk_mem_enum_iff_getElem?, List.getElem?_append_left hlt]
  exact h

theorem enum_append_mid {α : Type} (pre suf : List α) (a : α) :
    (pre.length, a) ∈ (pre ++ a :: suf).enum := by
  rw [List.mk_mem_enum_iff_getElem?, List.getElem?_append_right (le_refl _)]
  simp

/-- The validator addressed by an entry is not in `seenVals` after the entries
before it, when the commit has no double vote. -/
theorem unseen_after_pre (pre post : List CommitSig) (c : CommitSig)
    (hndv : NoDoubleVote vals ignoreSig (pre ++ c :: post))
    (hci : ignoreSig c = false) (i : Nat) (hi : addressedIndex vals c = some i) :
    (seenAfter vals ignoreSig false pre 0 []).lookup i = none := by
  apply seenAfter_unseen
  · rfl
  · intro a ha hai hcontra
    obtain ⟨-, -, hcross⟩ := List.pairwise_append.mp hndv
    rcases hcross a ha c (List.mem_cons_self _ _) hai hci with h | h
    · rw [hcontra] at h; cases h
    · exact h (by rw [hcontra, hi])

/-- The single driver on a commit whose first corrupted signature is reached. -/
theorem verifyCommitSingle_first_corrupted (pre post : List CommitSig) (c : CommitSig)
    (hsigs : commit.Signatures = pre ++ c :: post)
    (hwf : ∀ p ∈ commit.Signatures.enum, ignoreSig p.2 = false →
      entryWellFormed E vals byIndex p.1 p.2 = true)
    (hndv : byIndex = false → NoDoubleVote vals ignoreSig commit.Signatures)
    (hpre : ∀ p ∈ pre.enum, ignoreSig p.2 = false →
      entryVerifies E chainID vals commit byIndex p.1 p.2 = true)
    (hci : ignoreSig c = false)
    (hcv : entryVerifies E chainID vals commit byIndex pre.length c = false)
    (hexit : NoEarlyExit vals needed ignoreSig countSig countAll byIndex pre) :
    (verifyCommitSingle E chainID vals commit needed ignoreSig countSig countAll byIndex
      none).result = .reject (.WrongSignature pre.length (.sigBytes c.Signature)) := by
  rw [hsigs] at hwf hndv
  have hexit0 : countAll = true ∨
      ∀ j ≤ pre.length, tallyOver vals ignoreSig countSig byIndex (pre.take j) 0 0 ≤ needed :=
    hexit
  obtain ⟨s1, hloop, -, hs1, hc1⟩ := singleLoop_run E chainID vals commit needed
    ignoreSig countSig countAll byIndex pre 0
    { val := none, seenVals := [], talliedVotingPower := 0, cache := none, calls := [] }
    (fun p hp hi => ⟨hwf p (enum_append_left pre _ p hp).1 hi, hpre p hp hi⟩)
    (fun hb => ⟨(List.pairwise_append.mp (hndv hb)).1, fun _ _ _ _ _ => rfl⟩) hexit0
  have hcache : s1.cache = none := hc1 rfl
  have hw := hwf (pre.length, c) (enum_append_mid pre post c) hci
  have hb : E.ValidateBasic c = true := by
    unfold entryWellFormed at hw
    simp only [Bool.and_eq_true] at hw
    exact hw.1
  simp only [verifyCommitSingle, hsigs]
  rw [singleLoop_append, hloop]
  simp only [zero_add, singleLoop]
  rw [singleBody_eq]
  rcases resolve_wellFormed E vals byIndex s1.seenVals pre.length c hw
      (by
        intro hbi i hi
        subst hbi
        rw [hs1]
        exact unseen_after_pre vals ignoreSig pre post c (hndv rfl) hci i hi) with
    ⟨hres, hbi, hnone⟩ | ⟨v, pk, seen1, hres, hpv, hpk, -, -⟩
  · rw [entryVerifies, pairedValidator_of_skip vals byIndex _ c hbi hnone] at hcv
    cases hcv
  · have hbad : E.VerifySignature pk
        (E.VoteSignBytes commit chainID (wrapInt32 pre.length)) c.Signature = false := by
      unfold entryVerifies at hcv
      simpa [hpv, hpk] using hcv
    simp only [hci, hb, hres, singleCheck, hpk, hcache, singleCacheHit, hbad,
      Bool.false_eq_true, if_false, not_true_eq_false, and_self, if_true]
    rfl

end Drivers

section Drivers

variable (E : Env) (chainID : String) (vals : ValidatorSet)
  (commit : Commit) (needed : Int) (ignoreSig countSig : CommitSig → Bool)
  (countAll byIndex : Bool)

theorem batchFinish_tallied (bv : BatchVerifier) (cache : Option SignatureCache)
    (b : BatchState) (f : Flow BatchState) (hf : f = .next b ∨ f = .brk b) :
    (batchFinish E bv chainID commit needed cache f).tallied = b.talliedVotingPower := by
  have hfin : batchFinish E bv chainID commit needed cache f
      = batchFinish E bv chainID commit needed cache (.next b) := by
    rcases hf with rfl | rfl <;> rfl
  rw [hfin]
  simp only [batchFinish]
  split
  · rfl
  · split
    · rfl
    · split
      · split
        · rfl
        · split <;> rfl
      · rfl

/-- The batch driver on a commit whose first corrupted signature is reached
and whose tally exceeds the threshold. -/
theorem verifyCommitBatch_first_corrupted (pre post : List CommitSig) (c : CommitSig)
    (batchVerifier : Option BatchVerifier) (bv : BatchVerifier)
    (hcreated : batchVerifier = some bv ∨
      (batchVerifier = none ∧
        ∃ p, vals.GetProposer = some p ∧ E.CreateBatchVerifier p.PubKey = some bv))
    (hbv : bv.Exact E)
    (hlen : batchVerifyThreshold ≤ commit.Signatures.length)
    (hsigs : commit.Signatures = pre ++ c :: post)
    (hwf : ∀ p ∈ commit.Signatures.enum, ignoreSig p.2 = false →
      entryWellFormed E vals byIndex p.1 p.2 = true)
    (hndv : byIndex = false → NoDoubleVote vals ignoreSig commit.Signatures)
    (hpre : ∀ p ∈ pre.enum, ignoreSig p.2 = false →
      entryVerifies E chainID vals commit byIndex p.1 p.2 = true)
    (hci : ignoreSig c = false)
    (hcv : entryVerifies E chainID vals commit byIndex pre.length c = false)
    (hexit : NoEarlyExit vals needed ignoreSig countSig countAll byIndex pre)
    (htally : needed < (verifyCommitBatch E chainID vals commit needed ignoreSig countSig
      countAll byIndex batchVerifier none).tallied) :
    (verifyCommitBatch E chainID vals commit needed ignoreSig countSig countAll byIndex
      batchVerifier none).result = .reject (.WrongSignature pre.length (.commitSig c)) := by
  have hnot : ¬ commit.Signatures.length < batchVerifyThreshold := not_lt.mpr hlen
  have hrun : verifyCommitBatch E chainID vals commit needed ignoreSig countSig countAll byIndex
      batchVerifier none =
      batchFinish E bv chainID commit needed none
        (batchLoop E bv chainID vals commit needed ignoreSig countSig countAll byIndex none
          commit.Signatures 0
          { val := none, seenVals := [], batchSigIdxs := [], batch := [],
            talliedVotingPower := 0, calls := [] }) := by
    rcases hcreated with rfl | ⟨rfl, p, hp, hc⟩
    · simp only [verifyCommitBatch, hnot, if_false]
    · simp only [verifyCommitBatch, hp, hc, hnot, if_false]
  rw [hrun] at htally ⊢
  obtain ⟨bF, hprog⟩ := batchLoop_progress E bv chainID vals commit needed ignoreSig countSig
    countAll byIndex none hbv.1 commit.Signatures 0
    { val := none, seenVals := [], batchSigIdxs := [], batch := [],
      talliedVotingPower := 0, calls := [] }
    hwf (fun hb => ⟨hndv hb, fun _ _ _ _ _ => rfl⟩)
  rw [batchFinish_tallied E chainID commit needed bv none bF _ hprog] at htally
  have hk : commit.Signatures[pre.length]? = some c := by
    rw [hsigs, List.getElem?_append_right (le_refl _)]
    simp
  have hwf0 := hwf
  rw [hsigs] at hwf hndv
  have hexit0 : countAll = true ∨
      ∀ j ≤ pre.length, tallyOver vals ignoreSig countSig byIndex (pre.take j) 0 0 ≤ needed :=
    hexit
  obtain ⟨b1, hloop1, -, hs1⟩ := batchLoop_run E bv chainID vals commit needed
    ignoreSig countSig countAll byIndex none hbv.1 pre 0
    { val := none, seenVals := [], batchSigIdxs := [], batch := [],
      talliedVotingPower := 0, calls := [] }
    (fun p hp hi => hwf p (enum_append_left pre _ p hp).1 hi)
    (fun hb => ⟨(List.pairwise_append.mp (hndv hb)).1, fun _ _ _ _ _ => rfl⟩) hexit0
  obtain ⟨extra1, hx1, hx2, hx3⟩ := batchLoop_flow E bv chainID vals commit needed ignoreSig
    countSig countAll byIndex none pre 0 _ b1 (Or.inl hloop1)
  simp only [List.nil_append] at hx1 hx2
  have hA : ∀ a ∈ extra1.map Prod.fst, a < commit.Signatures.length := by
    intro a ha
    obtain ⟨p, hp, rfl⟩ := List.mem_map.mp ha
    obtain ⟨j, cs, v, e1, e2, -⟩ := hx3 p hp
    have : j < pre.length := (List.getElem?_eq_some_iff.mp e2).1
    rw [e1, hsigs, List.length_append]
    omega
  have hEA : ∀ e ∈ extra1.map Prod.snd, entryValid E e = true := by
    intro e he
    obtain ⟨p, hp, rfl⟩ := List.mem_map.mp he
    obtain ⟨j, cs, v, e1, e2, e3, e4, e5, e6⟩ := hx3 p hp
    rw [zero_add] at e4 e6
    have hmem : (j, cs) ∈ pre.enum := List.mk_mem_enum_iff_getElem?.mpr e2
    have hw := hwf (j, cs) (enum_append_left pre _ _ hmem).1 e3
    have hver := hpre (j, cs) hmem e3
    simp only [entryWellFormed, e4, Bool.and_eq_true] at hw
    obtain ⟨pk, hpk⟩ := Option.isSome_iff_exists.mp hw.2
    simp only [entryVerifies, e4, hpk] at hver
    rw [e6]
    simp only [entryValid, batchEntry, hpk]
    exact hver
  have hw := hwf (pre.length, c) (enum_append_mid pre post c) hci
  rcases resolve_wellFormed E vals byIndex b1.seenVals pre.length c hw
      (by
        intro hbi i hi
        subst hbi
        rw [hs1]
        exact unseen_after_pre vals ignoreSig pre post c (hndv rfl) hci i hi) with
    ⟨hres, hbi, hnone⟩ | ⟨v, pk, seen1, hres, hpv, hpk, -, -⟩
  · rw [entryVerifies, pairedValidator_of_skip vals byIndex _ c hbi hnone] at hcv
    cases hcv
  · have hek : entryValid E (batchEntry E chainID commit pre.length c v) = false := by
      unfold entryVerifies at hcv
      simp only [hpv, hpk] at hcv
      simp only [entryValid, batchEntry, hpk]
      exact hcv
    obtain ⟨b2, hi2, hb2, hbody⟩ : ∃ b2 : BatchState,
        b2.batchSigIdxs = b1.batchSigIdxs ++ [pre.length] ∧
        b2.batch = b1.batch ++ [batchEntry E chainID commit pre.length c v] ∧
        batchBody E bv chainID vals commit needed ignoreSig countSig countAll byIndex
          none pre.length c b1 =
        if countAll = false ∧ b2.talliedVotingPower > needed then .brk b2
        else .next b2 := by
      refine ⟨batchAfter E chainID commit countSig pre.length c v false
          { b1 with val := some v, seenVals := seen1 }, rfl, rfl, ?_⟩
      rw [batchBody_eq]
      simp only [hci, hres, batchCheck, hpk, batchCacheHit, hbv.1, Bool.false_eq_true,
        if_false]
    by_cases hx : countAll = false ∧ b2.talliedVotingPower > needed
    · have hloopAll : batchLoop E bv chainID vals commit needed ignoreSig countSig countAll
          byIndex none commit.Signatures 0
          { val := none, seenVals := [], batchSigIdxs := [], batch := [],
            talliedVotingPower := 0, calls := [] } = .brk b2 := by
        rw [hsigs, batchLoop_append, hloop1]
        simp only [zero_add, batchLoop]
        rw [hbody, if_pos hx]
      rw [hloopAll] at hprog ⊢
      have hbF : bF = b2 := by
        rcases hprog with h | h
        · cases h
        · exact (Flow.brk.inj h).symm
      subst hbF
      exact batchFinish_first_invalid E bv chainID commit needed none hbv bF _ (Or.inr rfl)
        (extra1.map Prod.fst) [] (extra1.map Prod.snd) [] pre.length _ c
        (by rw [hi2, hx1]) (by rw [hb2, hx2]) (by simp) hEA hek hA hk htally
    · have hloopAll : batchLoop E bv chainID vals commit needed ignoreSig countSig countAll
          byIndex none commit.Signatures 0
          { val := none, seenVals := [], batchSigIdxs := [], batch := [],
            talliedVotingPower := 0, calls := [] } =
          batchLoop E bv chainID vals commit needed ignoreSig countSig countAll byIndex none
            post (pre.length + 1) b2 := by
        rw [hsigs, batchLoop_append, hloop1]
        simp only [zero_add, batchLoop]
        rw [hbody, if_neg hx]
      rw [hloopAll] at hprog ⊢
      obtain ⟨extra2, hy1, hy2, -⟩ := batchLoop_flow E bv chainID vals commit needed ignoreSig
        countSig countAll byIndex none post (pre.length + 1) b2 bF hprog
      exact batchFinish_first_invalid E bv chainID commit needed none hbv bF _ hprog
        (extra1.map Prod.fst) (extra2.map Prod.fst) (extra1.map Prod.snd)
        (extra2.map Prod.snd) pre.length _ c
        (by rw [hy1, hi2, hx1]; simp) (by rw [hy2, hb2, hx2]; simp) (by simp) hEA hek hA hk
        htally

end Drivers

/-- C8 (amended): let the examined entries of a commit be well formed, without
double vote, and let the entry at commit index `pre.length` be the first one
whose signature fails verification (the signatures before it verify), reached
without early exit (`countAllSignatures`, or the tally of the entries before it
never exceeds the threshold). Without cache, `verifyCommitSingle` returns the
`WrongSignature` error carrying exactly that commit index, and so does
`verifyCommitBatch` with an exact batch verifier on a commit of at least two
signatures whose tally exceeds the threshold (as it does for an otherwise
valid commit). -/
theorem wrongSignature_at_first_corrupted (E : Env) (chainID : String) (vals : ValidatorSet)
    (commit : Commit) (votingPowerNeeded : Int) (ignoreSig countSig : CommitSig → Bool)
    (countAllSignatures lookUpByIndex : Bool)
    (pre post : List CommitSig) (corrupted : CommitSig)
    (hsigs : commit.Signatures = pre ++ corrupted :: post)
    (hwf : ∀ p ∈ commit.Signatures.enum, ignoreSig p.2 = false →
      entryWellFormed E vals lookUpByIndex p.1 p.2 = true)
    (hndv : lookUpByIndex = false → NoDoubleVote vals ignoreSig commit.Signatures)
    (hpre : ∀ p ∈ pre.enum, ignoreSig p.2 = false →
      entryVerifies E chainID vals commit lookUpByIndex p.1 p.2 = true)
    (hci : ignoreSig corrupted = false)
    (hcv : entryVerifies E chainID vals commit lookUpByIndex pre.length corrupted = false)
    (hexit : NoEarlyExit vals votingPowerNeeded ignoreSig countSig countAllSignatures
      lookUpByIndex pre) :
    (∃ operand,
      (verifyCommitSingle E chainID vals commit votingPowerNeeded ignoreSig countSig
        countAllSignatures lookUpByIndex none).result
        = .reject (.WrongSignature pre.length operand)) ∧
    (∀ (batchVerifier : Option BatchVerifier) (bv : BatchVerifier),
      (batchVerifier = some bv ∨
        (batchVerifier = none ∧
          ∃ p, vals.GetProposer = some p ∧ E.CreateBatchVerifier p.PubKey = some bv)) →
      bv.Exact E → batchVerifyThreshold ≤ commit.Signatures.length →
      votingPowerNeeded < (verifyCommitBatch E chainID vals commit votingPowerNeeded ignoreSig
        countSig countAllSignatures lookUpByIndex batchVerifier none).tallied →
      ∃ operand,
        (verifyCommitBatch E chainID vals commit votingPowerNeeded ignoreSig countSig
          countAllSignatures lookUpByIndex batchVerifier none).result
          = .reject (.WrongSignature pre.length operand)) :=
  ⟨⟨_, verifyCommitSingle_first_corrupted E chainID vals commit votingPowerNeeded ignoreSig
      countSig countAllSignatures lookUpByIndex pre post corrupted hsigs hwf hndv hpre hci hcv
      hexit⟩,
    fun batchVerifier bv hcreated hbv hlen htally =>
      ⟨_, verifyCommitBatch_first_corrupted E chainID vals commit votingPowerNeeded ignoreSig
        countSig countAllSignatures lookUpByIndex pre post corrupted batchVerifier bv hcreated
        hbv hlen hsigs hwf hndv hpre hci hcv hexit htally⟩⟩

/-- C8 (amended), at four validators of power 10 that all sign, threshold 26,
every signature checked, the signature at index 2 corrupted (scenario S4):
both drivers return `WrongSignature` for index 2. -/
theorem wrongSignature_at_first_corrupted_witness :
    NoEarlyExit Fixture.vals4 26 ignoreAbsent countCommit true true
        [Fixture.signed 1, Fixture.signed 2] ∧
    (∃ operand,
      (verifyCommitSingle (Fixture.env true) "c" Fixture.vals4
        (Fixture.commitOf [Fixture.signed 1, Fixture.signed 2, Fixture.corrupted 3,
          Fixture.signed 4])
        26 ignoreAbsent countCommit true true none).result
        = .reject (.WrongSignature 2 operand)) ∧
    (∃ operand,
      (verifyCommitBatch (Fixture.env true) "c" Fixture.vals4
        (Fixture.commitOf [Fixture.signed 1, Fixture.signed 2, Fixture.corrupted 3,
          Fixture.signed 4])
        26 ignoreAbsent countCommit true true none none).result
        = .reject (.WrongSignature 2 operand)) :=
  ⟨by decide,
    (wrongSignature_at_first_corrupted (Fixture.env true) "c" Fixture.vals4
      (Fixture.commitOf [Fixture.signed 1, Fixture.signed 2, Fixture.corrupted 3,
        Fixture.signed 4])
      26 ignoreAbsent countCommit true true
      [Fixture.signed 1, Fixture.signed 2] [Fixture.signed 4] (Fixture.corrupted 3)
      rfl (by decide) (by decide) (by decide) (by decide) (by decide) (by decide)).1,
    (wrongSignature_at_first_corrupted (Fixture.env true) "c" Fixture.vals4
      (Fixture.commitOf [Fixture.signed 1, Fixture.signed 2, Fixture.corrupted 3,
        Fixture.signed 4])
      26 ignoreAbsent countCommit true true
      [Fixture.signed 1, Fixture.signed 2] [Fixture.signed 4] (Fixture.corrupted 3)
      rfl (by decide) (by decide) (by decide) (by decide) (by decide) (by decide)).2
      none Fixture.verifier (Or.inr ⟨rfl, Fixture.validator 1 10, rfl, rfl⟩)
      (Fixture.verifier_exact true) (by decide) (by decide)⟩

/-! ### The log of cryptographic calls and the writes to the cache -/

section Loops

variable (E : Env) (bv : BatchVerifier) (chainID : String) (vals : ValidatorSet)
  (commit : Commit) (needed : Int) (ignoreSig countSig : CommitSig → Bool)
  (countAll byIndex : Bool) (cache : Option SignatureCache)

/-- What the check of one resolved entry does to the log and to the cache of
`verifyCommitSingle`: nothing on a cache hit; otherwise the verification is
logged and, when it succeeds, the signature is written to the cache. -/
theorem singleCheck_trace (idx : Nat) (cs : CommitSig) (v : Validator) (s : SingleState) :
    ((singleCheck E chainID commit needed countSig countAll idx cs v s).state.calls = s.calls ∧
      (singleCheck E chainID commit needed countSig countAll idx cs v s).state.cache
        = s.cache) ∨
    ((singleCheck E chainID commit needed countSig countAll idx cs v s).state.calls
        = s.calls ++ [.VerifySignature idx] ∧
      ∃ adds : SignatureCache,
        (singleCheck E chainID commit needed countSig countAll idx cs v s).state.cache
          = s.cache.map (fun c => adds ++ c) ∧
        ∀ e ∈ adds, e.1 = cs.Signature) := by
  unfold singleCheck
  cases v.PubKey with
  | none => exact Or.inl ⟨rfl, rfl⟩
  | some pk =>
    simp only []
    by_cases hbad : singleCacheHit E s.cache cs pk (E.VoteSignBytes commit chainID (wrapInt32 idx))
        = false ∧
        E.VerifySignature pk (E.VoteSignBytes commit chainID (wrapInt32 idx)) cs.Signature = false
    · rw [if_pos hbad]
      refine Or.inr ⟨rfl, [], ?_, by simp⟩
      cases s.cache <;> simp [Flow.state]
    · rw [if_neg hbad]
      have key : ∀ s2 : SingleState,
          s2 = singleAfter E chainID commit countSig idx cs v pk
            (singleCacheHit E s.cache cs pk (E.VoteSignBytes commit chainID (wrapInt32 idx))) s →
          (s2.calls = s.calls ∧ s2.cache = s.cache) ∨
          (s2.calls = s.calls ++ [.VerifySignature idx] ∧
            ∃ adds : SignatureCache, s2.cache = s.cache.map (fun c => adds ++ c) ∧
              ∀ e ∈ adds, e.1 = cs.Signature) := by
        intro s2 hs2
        cases hhit : singleCacheHit E s.cache cs pk
            (E.VoteSignBytes commit chainID (wrapInt32 idx)) with
        | true =>
          rw [hhit] at hs2
          left
          rw [hs2]
          simp [singleAfter]
        | false =>
          rw [hhit] at hs2
          right
          rw [hs2]
          refine ⟨by simp [singleAfter],
            [(cs.Signature,
              { ValidatorAddress := E.Address pk,
                VoteSignBytes := E.VoteSignBytes commit chainID (wrapInt32 idx) })], ?_,
            by simp⟩
          simp only [singleAfter, Bool.false_eq_true, if_false, SignatureCache.Add]
          rfl
      split
      · exact key _ rfl
      · exact key _ rfl

/-- What one iteration of `verifyCommitSingle` does to the log and to the
cache. -/
theorem singleBody_trace (idx : Nat) (cs : CommitSig) (s : SingleState) :
    ((singleBody E chainID vals commit needed ignoreSig countSig countAll byIndex idx cs
        s).state.calls = s.calls ∧
      (singleBody E chainID vals commit needed ignoreSig countSig countAll byIndex idx cs
        s).state.cache = s.cache) ∨
    (ignoreSig cs = false ∧
      (singleBody E chainID vals commit needed ignoreSig countSig countAll byIndex idx cs
        s).state.calls = s.calls ++ [.VerifySignature idx] ∧
      ∃ adds : SignatureCache,
        (singleBody E chainID vals commit needed ignoreSig countSig countAll byIndex idx cs
          s).state.cache = s.cache.map (fun c => adds ++ c) ∧
        ∀ e ∈ adds, e.1 = cs.Signature) := by
  rw [singleBody_eq]
  by_cases hi : ignoreSig cs = true
  · rw [if_pos hi]
    exact Or.inl ⟨rfl, rfl⟩
  · rw [if_neg hi]
    have hif : ignoreSig cs = false := by simpa using hi
    by_cases hvb : ¬ E.ValidateBasic cs = true
    · rw [if_pos hvb]
      exact Or.inl ⟨rfl, rfl⟩
    · rw [if_neg hvb]
      cases resolve vals byIndex s.seenVals idx cs with
      | panic => exact Or.inl ⟨rfl, rfl⟩
      | skip => exact Or.inl ⟨rfl, rfl⟩
      | doubleVote w i => exact Or.inl ⟨rfl, rfl⟩
      | found w seen =>
        simp only []
        rcases singleCheck_trace E chainID commit needed countSig countAll idx cs w
          { s with val := some w, seenVals := seen } with h | h
        · exact Or.inl h
        · exact Or.inr ⟨hif, h⟩

end Loops
section Loops

variable (E : Env) (bv : BatchVerifier) (chainID : String) (vals : ValidatorSet)
  (commit : Commit) (needed : Int) (ignoreSig countSig : CommitSig → Bool)
  (countAll byIndex : Bool) (cache : Option SignatureCache)

/-- The log and the cache at the end of the loop of `verifyCommitSingle`: every
logged call is the verification of an entry that is not ignored, and every
write to the cache carries the signature of an entry whose verification is in
the log. -/
theorem singleLoop_trace (sigs : List CommitSig) (idx : Nat) (s : SingleState) :
    ∃ (new : List CryptoCall) (adds : SignatureCache),
      (singleLoop E chainID vals commit needed ignoreSig countSig countAll byIndex
        sigs idx s).state.calls = s.calls ++ new ∧
      (singleLoop E chainID vals commit needed ignoreSig countSig countAll byIndex
        sigs idx s).state.cache = s.cache.map (fun c => adds ++ c) ∧
      (∀ call ∈ new, ∃ k cs, call = .VerifySignature (idx + k) ∧ sigs[k]? = some cs ∧
        ignoreSig cs = false) ∧
      (∀ e ∈ adds, ∃ k cs, CryptoCall.VerifySignature (idx + k) ∈ new ∧ sigs[k]? = some cs ∧
        e.1 = cs.Signature) := by
  induction sigs generalizing idx s with
  | nil =>
    refine ⟨[], [], by simp [singleLoop, Flow.state], ?_, by simp, by simp⟩
    cases hc : s.cache <;> simp [singleLoop, Flow.state, hc]
  | cons cs rest ih =>
    have hstep := singleBody_trace E chainID vals commit needed ignoreSig countSig countAll
      byIndex idx cs s
    -- the calls and writes of the first iteration
    have hfirst : ∃ (new1 : List CryptoCall) (adds1 : SignatureCache),
        (singleBody E chainID vals commit needed ignoreSig countSig countAll byIndex idx cs
          s).state.calls = s.calls ++ new1 ∧
        (singleBody E chainID vals commit needed ignoreSig countSig countAll byIndex idx cs
          s).state.cache = s.cache.map (fun c => adds1 ++ c) ∧
        (∀ call ∈ new1, call = .VerifySignature idx ∧ ignoreSig cs = false) ∧
        (∀ e ∈ adds1, CryptoCall.VerifySignature idx ∈ new1 ∧ e.1 = cs.Signature) := by
      rcases hstep with ⟨h1, h2⟩ | ⟨hi, h1, adds, h2, h3⟩
      · refine ⟨[], [], by simpa using h1, ?_, by simp, by simp⟩
        rw [h2]
        cases s.cache <;> simp
      · exact ⟨[.VerifySignature idx], adds, h1, h2, by simpa using hi,
          fun e he => ⟨by simp, h3 e he⟩⟩
    obtain ⟨new1, adds1, hc1, hk1, hn1, ha1⟩ := hfirst
    have lift1 : ∀ call ∈ new1, ∃ k c, call = CryptoCall.VerifySignature (idx + k) ∧
        (cs :: rest)[k]? = some c ∧ ignoreSig c = false :=
      fun call hcall => ⟨0, cs, (hn1 call hcall).1, by simp, (hn1 call hcall).2⟩
    have lifta1 : ∀ e ∈ adds1, ∀ extra : List CryptoCall,
        ∃ k c, CryptoCall.VerifySignature (idx + k) ∈ new1 ++ extra ∧
          (cs :: rest)[k]? = some c ∧ e.1 = c.Signature :=
      fun e he extra =>
        ⟨0, cs, List.mem_append_left _ (ha1 e he).1, by simp, (ha1 e he).2⟩
    rw [singleLoop]
    cases hbody : singleBody E chainID vals commit needed ignoreSig countSig countAll byIndex
        idx cs s with
    | next s1 =>
      simp only []
      rw [hbody] at hc1 hk1
      simp only [Flow.state] at hc1 hk1
      obtain ⟨new2, adds2, hc2, hk2, hn2, ha2⟩ := ih (idx + 1) s1
      refine ⟨new1 ++ new2, adds2 ++ adds1, ?_, ?_, ?_, ?_⟩
      · rw [hc2, hc1, List.append_assoc]
      · rw [hk2, hk1]
        cases s.cache <;> simp
      · intro call hcall
        rcases List.mem_append.mp hcall with h | h
        · exact lift1 call h
        · obtain ⟨k, c, h1, h2, h3⟩ := hn2 call h
          exact ⟨k + 1, c, by rw [h1]; congr 1; omega, by simpa using h2, h3⟩
      · intro e he
        rcases List.mem_append.mp he with h | h
        · obtain ⟨k, c, h1, h2, h3⟩ := ha2 e h
          refine ⟨k + 1, c, List.mem_append_right _ ?_, by simpa using h2, h3⟩
          rw [show idx + (k + 1) = idx + 1 + k by omega]
          exact h1
        · exact lifta1 e h new2
    | brk s1 =>
      simp only []
      rw [hbody] at hc1 hk1
      exact ⟨new1, adds1, hc1, hk1, lift1, fun e he => by simpa using lifta1 e he []⟩
    | ret r s1 =>
      simp only []
      rw [hbody] at hc1 hk1
      exact ⟨new1, adds1, hc1, hk1, lift1, fun e he => by simpa using lifta1 e he []⟩

end Loops

section Loops

variable (E : Env) (bv : BatchVerifier) (chainID : String) (vals : ValidatorSet)
  (commit : Commit) (needed : Int) (ignoreSig countSig : CommitSig → Bool)
  (countAll byIndex : Bool) (cache : Option SignatureCache)

/-- What the treatment of one resolved entry does to the log and to the list
of batched indices of `verifyCommitBatch`: nothing on a cache hit; otherwise
the call of `Add` is logged and, when it succeeds, the index is recorded. -/
theorem batchCheck_trace (idx : Nat) (cs : CommitSig) (v : Validator) (b : BatchState) :
    ((batchCheck E bv chainID commit needed countSig countAll cache idx cs v b).state.calls
        = b.calls ∧
      (batchCheck E bv chainID commit needed countSig countAll cache idx cs v
        b).state.batchSigIdxs = b.batchSigIdxs) ∨
    ((batchCheck E bv chainID commit needed countSig countAll cache idx cs v b).state.calls
        = b.calls ++ [.BatchAdd idx] ∧
      ((batchCheck E bv chainID commit needed countSig countAll cache idx cs v
          b).state.batchSigIdxs = b.batchSigIdxs ∨
        (batchCheck E bv chainID commit needed countSig countAll cache idx cs v
          b).state.batchSigIdxs = b.batchSigIdxs ++ [idx])) := by
  simp only [batchCheck]
  cases batchCacheHit E cache cs v.PubKey (E.VoteSignBytes commit chainID (wrapInt32 idx)) with
  | none => exact Or.inl ⟨rfl, rfl⟩
  | some hit =>
    simp only []
    cases hit with
    | true =>
      simp only [if_true]
      left
      split <;> simp [Flow.state, batchAfter]
    | false =>
      simp only [Bool.false_eq_true, if_false]
      right
      cases bv.Add b.batch (batchEntry E chainID commit idx cs v) with
      | some reason => exact ⟨rfl, Or.inl rfl⟩
      | none =>
        simp only []
        split <;> simp [Flow.state, batchAfter]

/-- What one iteration of `verifyCommitBatch` does to the log and to the list
of batched indices. -/
theorem batchBody_trace (idx : Nat) (cs : CommitSig) (b : BatchState) :
    ((batchBody E bv chainID vals commit needed ignoreSig countSig countAll byIndex cache idx cs
        b).state.calls = b.calls ∧
      (batchBody E bv chainID vals commit needed ignoreSig countSig countAll byIndex cache idx cs
        b).state.batchSigIdxs = b.batchSigIdxs) ∨
    (ignoreSig cs = false ∧
      (batchBody E bv chainID vals commit needed ignoreSig countSig countAll byIndex cache idx cs
        b).state.calls = b.calls ++ [.BatchAdd idx] ∧
      ((batchBody E bv chainID vals commit needed ignoreSig countSig countAll byIndex cache idx
          cs b).state.batchSigIdxs = b.batchSigIdxs ∨
        (batchBody E bv chainID vals commit needed ignoreSig countSig countAll byIndex cache idx
          cs b).state.batchSigIdxs = b.batchSigIdxs ++ [idx])) := by
  rw [batchBody_eq]
  by_cases hi : ignoreSig cs = true
  · rw [if_pos hi]
    exact Or.inl ⟨rfl, rfl⟩
  · rw [if_neg hi]
    have hif : ignoreSig cs = false := by simpa using hi
    cases resolve vals byIndex b.seenVals idx cs with
    | panic => exact Or.inl ⟨rfl, rfl⟩
    | skip => exact Or.inl ⟨rfl, rfl⟩
    | doubleVote w i => exact Or.inl ⟨rfl, rfl⟩
    | found w seen =>
      simp only []
      rcases batchCheck_trace E bv chainID commit needed countSig countAll cache idx cs w
        { b with val := some w, seenVals := seen } with h | h
      · exact Or.inl h
      · exact Or.inr ⟨hif, h⟩

/-- The log and the batched indices at the end of the loop of
`verifyCommitBatch`: every logged call is the `Add` of an entry that is not
ignored (the loop never calls `Verify`), and every batched index is in the
log. -/
theorem batchLoop_trace (sigs : List CommitSig) (idx : Nat) (b : BatchState) :
    ∃ (new : List CryptoCall) (extra : List Nat),
      (batchLoop E bv chainID vals commit needed ignoreSig countSig countAll byIndex cache
        sigs idx b).state.calls = b.calls ++ new ∧
      (batchLoop E bv chainID vals commit needed ignoreSig countSig countAll byIndex cache
        sigs idx b).state.batchSigIdxs = b.batchSigIdxs ++ extra ∧
      (∀ call ∈ new, ∃ k cs, call = .BatchAdd (idx + k) ∧ sigs[k]? = some cs ∧
        ignoreSig cs = false) ∧
      (∀ i ∈ extra, CryptoCall.BatchAdd i ∈ new) := by
  induction sigs generalizing idx b with
  | nil => exact ⟨[], [], by simp [batchLoop, Flow.state], by simp [batchLoop, Flow.state],
      by simp, by simp⟩
  | cons cs rest ih =>
    have hstep := batchBody_trace E bv chainID vals commit needed ignoreSig countSig countAll
      byIndex cache idx cs b
    have hfirst : ∃ (new1 : List CryptoCall) (extra1 : List Nat),
        (batchBody E bv chainID vals commit needed ignoreSig countSig countAll byIndex cache idx
          cs b).state.calls = b.calls ++ new1 ∧
        (batchBody E bv chainID vals commit needed ignoreSig countSig countAll byIndex cache idx
          cs b).state.batchSigIdxs = b.batchSigIdxs ++ extra1 ∧
        (∀ call ∈ new1, call = .BatchAdd idx ∧ ignoreSig cs = false) ∧
        (∀ i ∈ extra1, CryptoCall.BatchAdd i ∈ new1) := by
      rcases hstep with ⟨h1, h2⟩ | ⟨hi, h1, h2 | h2⟩
      · exact ⟨[], [], by simpa using h1, by simpa using h2, by simp, by simp⟩
      · exact ⟨[.BatchAdd idx], [], h1, by simpa using h2, by simpa using hi, by simp⟩
      · exact ⟨[.BatchAdd idx], [idx], h1, h2, by simpa using hi, by simp⟩
    obtain ⟨new1, extra1, hc1, hk1, hn1, ha1⟩ := hfirst
    have lift1 : ∀ call ∈ new1, ∃ k c, call = CryptoCall.BatchAdd (idx + k) ∧
        (cs :: rest)[k]? = some c ∧ ignoreSig c = false :=
      fun call hcall => ⟨0, cs, (hn1 call hcall).1, by simp, (hn1 call hcall).2⟩
    rw [batchLoop]
    cases hbody : batchBody E bv chainID vals commit needed ignoreSig countSig countAll byIndex
        cache idx cs b with
    | next b1 =>
      simp only []
      rw [hbody] at hc1 hk1
      simp only [Flow.state] at hc1 hk1
      obtain ⟨new2, extra2, hc2, hk2, hn2, ha2⟩ := ih (idx + 1) b1
      refine ⟨new1 ++ new2, extra1 ++ extra2, ?_, ?_, ?_, ?_⟩
      · rw [hc2, hc1, List.append_assoc]
      · rw [hk2, hk1, List.append_assoc]
      · intro call hcall
        rcases List.mem_append.mp hcall with h | h
        · exact lift1 call h
        · obtain ⟨k, c, h1, h2, h3⟩ := hn2 call h
          exact ⟨k + 1, c, by rw [h1]; congr 1; omega, by simpa using h2, h3⟩
      · intro i hi
        rcases List.mem_append.mp hi with h | h
        · exact List.mem_append_left _ (ha1 i h)
        · exact List.mem_append_right _ (ha2 i h)
    | brk b1 =>
      simp only []
      rw [hbody] at hc1 hk1
      exact ⟨new1, extra1, hc1, hk1, lift1, ha1⟩
    | ret r b1 =>
      simp only []
      rw [hbody] at hc1 hk1
      exact ⟨new1, extra1, hc1, hk1, lift1, ha1⟩

/-- The writes of the loop that follows a successful batch verification carry
the signatures of batched entries. -/
theorem batchCacheAll_adds (idxs : List Nat) (bits : List Bool) (i : Nat)
    (c c1 : SignatureCache) (h : batchCacheAll E chainID commit idxs bits i c = some c1) :
    ∃ adds : SignatureCache, c1 = adds ++ c ∧
      ∀ e ∈ adds, ∃ idx ∈ idxs, ∃ sig, commit.Signatures[idx]? = some sig ∧
        e.1 = sig.Signature := by
  induction bits generalizing i c with
  | nil =>
    simp only [batchCacheAll, Option.some.injEq] at h
    exact ⟨[], by simp [h], by simp⟩
  | cons bit rest ih =>
    rw [batchCacheAll] at h
    cases h1 : idxs[i]? with
    | none => simp [h1] at h
    | some idx =>
      cases h2 : commit.Signatures[idx]? with
      | none => simp [h1, h2] at h
      | some sig =>
        simp only [h1, h2] at h
        obtain ⟨adds, hc, hall⟩ := ih _ _ h
        refine ⟨adds ++ [(sig.Signature,
          { ValidatorAddress := sig.ValidatorAddress,
            VoteSignBytes := E.VoteSignBytes commit chainID (wrapInt32 idx) })], ?_, ?_⟩
        · rw [hc]
          simp [SignatureCache.Add]
        · intro e he
          rcases List.mem_append.mp he with h | h
          · exact hall e h
          · simp only [List.mem_singleton] at h
            exact ⟨idx, List.getElem?_mem h1, sig, h2, by rw [h]⟩

/-- The writes of the loop that follows a failed batch verification carry the
signatures of batched entries. -/
theorem batchFindInvalid_adds (idxs : List Nat) (bits : List Bool) (i : Nat)
    (c : Option SignatureCache) :
    ∃ adds : SignatureCache,
      (batchFindInvalid E chainID commit idxs bits i c).2 = c.map (fun c => adds ++ c) ∧
      ∀ e ∈ adds, ∃ idx ∈ idxs, ∃ sig, commit.Signatures[idx]? = some sig ∧
        e.1 = sig.Signature := by
  induction bits generalizing i c with
  | nil =>
    refine ⟨[], ?_, by simp⟩
    cases c <;> simp [batchFindInvalid]
  | cons bit rest ih =>
    have hnone : ∃ adds : SignatureCache, c = c.map (fun c => adds ++ c) ∧
        ∀ e ∈ adds, ∃ idx ∈ idxs, ∃ sig, commit.Signatures[idx]? = some sig ∧
          e.1 = sig.Signature := by
      refine ⟨[], ?_, by simp⟩
      cases c <;> simp
    rw [batchFindInvalid]
    cases h1 : idxs[i]? with
    | none => simpa using hnone
    | some idx =>
      simp only []
      cases h2 : commit.Signatures[idx]? with
      | none => simpa using hnone
      | some sig =>
        simp only []
        cases bit with
        | false => simpa using hnone
        | true =>
          simp only [not_true_eq_false, if_false]
          obtain ⟨adds, hc, hall⟩ := ih (i + 1) (c.map (fun c =>
            c.Add sig.Signature
              { ValidatorAddress := sig.ValidatorAddress,
                VoteSignBytes := E.VoteSignBytes commit chainID (wrapInt32 idx) }))
          refine ⟨adds ++ [(sig.Signature,
            { ValidatorAddress := sig.ValidatorAddress,
              VoteSignBytes := E.VoteSignBytes commit chainID (wrapInt32 idx) })], ?_, ?_⟩
          · rw [hc]
            cases c <;> simp [SignatureCache.Add]
          · intro e he
            rcases List.mem_append.mp he with h | h
            · exact hall e h
            · simp only [List.mem_singleton] at h
              exact ⟨idx, List.getElem?_mem h1, sig, h2, by rw [h]⟩

end Loops
section Drivers

variable (E : Env) (chainID : String) (vals : ValidatorSet)
  (commit : Commit) (needed : Int) (ignoreSig countSig : CommitSig → Bool)
  (countAll byIndex : Bool)

/-- The end of `verifyCommitSingle` leaves the log, the cache and the tally of
the loop as they are. -/
theorem singleFinish_state (f : Flow SingleState) :
    (singleFinish needed f).calls = f.state.calls ∧
    (singleFinish needed f).cache = f.state.cache ∧
    (singleFinish needed f).tallied = f.state.talliedVotingPower := by
  cases f <;> exact ⟨rfl, rfl, rfl⟩

/-- The end of `verifyCommitBatch`: either nothing more is logged and the
cache is the one received, or the tally exceeds the threshold, the batch is
not empty, `Verify` is logged, and the writes to the cache carry signatures of
batched entries. -/
theorem batchFinish_trace (bv : BatchVerifier) (cache : Option SignatureCache)
    (f : Flow BatchState) :
    (batchFinish E bv chainID commit needed cache f).tallied = f.state.talliedVotingPower ∧
    (((batchFinish E bv chainID commit needed cache f).calls = f.state.calls ∧
        (batchFinish E bv chainID commit needed cache f).cache = cache) ∨
      (needed < f.state.talliedVotingPower ∧ f.state.batchSigIdxs ≠ [] ∧
        (batchFinish E bv chainID commit needed cache f).calls
          = f.state.calls ++ [.BatchVerify] ∧
        ∃ adds : SignatureCache,
          (batchFinish E bv chainID commit needed cache f).cache
            = cache.map (fun c => adds ++ c) ∧
          ∀ e ∈ adds, ∃ idx ∈ f.state.batchSigIdxs, ∃ sig,
            commit.Signatures[idx]? = some sig ∧ e.1 = sig.Signature)) := by
  have key : ∀ b : BatchState,
      (batchFinish E bv chainID commit needed cache (.next b)).tallied = b.talliedVotingPower ∧
      (((batchFinish E bv chainID commit needed cache (.next b)).calls = b.calls ∧
          (batchFinish E bv chainID commit needed cache (.next b)).cache = cache) ∨
        (needed < b.talliedVotingPower ∧ b.batchSigIdxs ≠ [] ∧
          (batchFinish E bv chainID commit needed cache (.next b)).calls
            = b.calls ++ [.BatchVerify] ∧
          ∃ adds : SignatureCache,
            (batchFinish E bv chainID commit needed cache (.next b)).cache
              = cache.map (fun c => adds ++ c) ∧
            ∀ e ∈ adds, ∃ idx ∈ b.batchSigIdxs, ∃ sig,
              commit.Signatures[idx]? = some sig ∧ e.1 = sig.Signature)) := by
    intro b
    refine ⟨batchFinish_tallied E chainID commit needed bv cache b _ (Or.inl rfl), ?_⟩
    simp only [batchFinish]
    by_cases ht : b.talliedVotingPower ≤ needed
    · rw [if_pos ht]
      exact Or.inl ⟨rfl, rfl⟩
    · rw [if_neg ht]
      by_cases hl : b.batchSigIdxs.length = 0
      · rw [if_pos hl]
        exact Or.inl ⟨rfl, rfl⟩
      · rw [if_neg hl]
        right
        refine ⟨not_le.mp ht, fun h => hl (by rw [h]; rfl), ?_⟩
        cases hv : bv.Verify b.batch with
        | mk ok bits =>
          cases ok with
          | true =>
            simp only []
            cases cache with
            | none => exact ⟨rfl, [], rfl, by simp⟩
            | some c =>
              simp only []
              cases hall : batchCacheAll E chainID commit b.batchSigIdxs bits 0 c with
              | none =>
                simp only []
                exact ⟨trivial, [], by simp, by simp⟩
              | some c1 =>
                simp only []
                obtain ⟨adds, h1, h2⟩ :=
                  batchCacheAll_adds E chainID commit _ _ _ _ _ hall
                exact ⟨trivial, adds, by simp [h1], h2⟩
          | false =>
            simp only []
            obtain ⟨adds, h1, h2⟩ :=
              batchFindInvalid_adds E chainID commit b.batchSigIdxs bits 0 cache
            exact ⟨trivial, adds, h1, h2⟩
  cases f with
  | next b => exact key b
  | brk b => exact key b
  | ret r b => exact ⟨rfl, Or.inl ⟨rfl, rfl⟩⟩

/-- The log and the cache of a run of `verifyCommitSingle`: only entries that
are not ignored are verified, and every write to the cache carries the
signature of an entry verified in this run. -/
theorem verifyCommitSingle_trace (cache : Option SignatureCache) :
    ∃ adds : SignatureCache,
      (verifyCommitSingle E chainID vals commit needed ignoreSig countSig countAll byIndex
        cache).cache = cache.map (fun c => adds ++ c) ∧
      (∀ call ∈ (verifyCommitSingle E chainID vals commit needed ignoreSig countSig countAll
          byIndex cache).calls,
        ∃ idx cs, call = .VerifySignature idx ∧ commit.Signatures[idx]? = some cs ∧
          ignoreSig cs = false) ∧
      (∀ e ∈ adds, ∃ idx cs,
        CryptoCall.VerifySignature idx ∈ (verifyCommitSingle E chainID vals commit needed
          ignoreSig countSig countAll byIndex cache).calls ∧
        commit.Signatures[idx]? = some cs ∧ e.1 = cs.Signature) := by
  obtain ⟨new, adds, h1, h2, h3, h4⟩ :=
    singleLoop_trace E chainID vals commit needed ignoreSig countSig countAll byIndex
      commit.Signatures 0
      { val := none, seenVals := [], talliedVotingPower := 0, cache := cache, calls := [] }
  obtain ⟨f1, f2, -⟩ := singleFinish_state needed
    (singleLoop E chainID vals commit needed ignoreSig countSig countAll byIndex
      commit.Signatures 0
      { val := none, seenVals := [], talliedVotingPower := 0, cache := cache, calls := [] })
  simp only [List.nil_append, Nat.zero_add] at h1 h3 h4
  refine ⟨adds, ?_, ?_, ?_⟩
  · unfold verifyCommitSingle
    rw [f2, h2]
  · unfold verifyCommitSingle
    rw [f1, h1]
    exact h3
  · unfold verifyCommitSingle
    rw [f1, h1]
    exact h4

/-- The log and the cache of a run of `verifyCommitBatch`: only entries that
are not ignored are added to the batch, every write to the cache carries the
signature of an entry added in this run, writes happen only after `Verify`,
and `Verify` is called only when the tally exceeds the threshold. -/
theorem verifyCommitBatch_trace (batchVerifier : Option BatchVerifier)
    (cache : Option SignatureCache) :
    ∃ adds : SignatureCache,
      (verifyCommitBatch E chainID vals commit needed ignoreSig countSig countAll byIndex
        batchVerifier cache).cache = cache.map (fun c => adds ++ c) ∧
      (∀ call ∈ (verifyCommitBatch E chainID vals commit needed ignoreSig countSig countAll
          byIndex batchVerifier cache).calls,
        call = .BatchVerify ∨
        ∃ idx cs, call = .BatchAdd idx ∧ commit.Signatures[idx]? = some cs ∧
          ignoreSig cs = false) ∧
      (∀ e ∈ adds, ∃ idx cs,
        CryptoCall.BatchAdd idx ∈ (verifyCommitBatch E chainID vals commit needed
          ignoreSig countSig countAll byIndex batchVerifier cache).calls ∧
        commit.Signatures[idx]? = some cs ∧ e.1 = cs.Signature) ∧
      (adds ≠ [] → CryptoCall.BatchVerify ∈ (verifyCommitBatch E chainID vals commit needed
          ignoreSig countSig countAll byIndex batchVerifier cache).calls) ∧
      (CryptoCall.BatchVerify ∈ (verifyCommitBatch E chainID vals commit needed
          ignoreSig countSig countAll byIndex batchVerifier cache).calls →
        needed < (verifyCommitBatch E chainID vals commit needed ignoreSig countSig countAll
          byIndex batchVerifier cache).tallied ∧
        ∃ idx, CryptoCall.BatchAdd idx ∈ (verifyCommitBatch E chainID vals commit needed
          ignoreSig countSig countAll byIndex batchVerifier cache).calls) := by
  have hearly : ∀ r : Run, r.calls = [] → r.cache = cache →
      ∃ adds : SignatureCache,
        r.cache = cache.map (fun c => adds ++ c) ∧
        (∀ call ∈ r.calls, call = .BatchVerify ∨
          ∃ idx cs, call = .BatchAdd idx ∧ commit.Signatures[idx]? = some cs ∧
            ignoreSig cs = false) ∧
        (∀ e ∈ adds, ∃ idx cs, CryptoCall.BatchAdd idx ∈ r.calls ∧
          commit.Signatures[idx]? = some cs ∧ e.1 = cs.Signature) ∧
        (adds ≠ [] → CryptoCall.BatchVerify ∈ r.calls) ∧
        (CryptoCall.BatchVerify ∈ r.calls →
          needed < r.tallied ∧ ∃ idx, CryptoCall.BatchAdd idx ∈ r.calls) := by
    intro r h1 h2
    refine ⟨[], ?_, by simp [h1], by simp, by simp, by simp [h1]⟩
    rw [h2]
    cases cache <;> simp
  have hmain : ∀ bv : BatchVerifier,
      ∃ adds : SignatureCache,
        (batchFinish E bv chainID commit needed cache
          (batchLoop E bv chainID vals commit needed ignoreSig countSig countAll byIndex cache
            commit.Signatures 0
            { val := none, seenVals := [], batchSigIdxs := [], batch := [],
              talliedVotingPower := 0, calls := [] })).cache
          = cache.map (fun c => adds ++ c) ∧
        (∀ call ∈ (batchFinish E bv chainID commit needed cache
          (batchLoop E bv chainID vals commit needed ignoreSig countSig countAll byIndex cache
            commit.Signatures 0
            { val := none, seenVals := [], batchSigIdxs := [], batch := [],
              talliedVotingPower := 0, calls := [] })).calls, call = .BatchVerify ∨
          ∃ idx cs, call = .BatchAdd idx ∧ commit.Signatures[idx]? = some cs ∧
            ignoreSig cs = false) ∧
        (∀ e ∈ adds, ∃ idx cs, CryptoCall.BatchAdd idx ∈ (batchFinish E bv chainID commit
          needed cache
          (batchLoop E bv chainID vals commit needed ignoreSig countSig countAll byIndex cache
            commit.Signatures 0
            { val := none, seenVals := [], batchSigIdxs := [], batch := [],
              talliedVotingPower := 0, calls := [] })).calls ∧
          commit.Signatures[idx]? = some cs ∧ e.1 = cs.Signature) ∧
        (adds ≠ [] → CryptoCall.BatchVerify ∈ (batchFinish E bv chainID commit needed cache
          (batchLoop E bv chainID vals commit needed ignoreSig countSig countAll byIndex cache
            commit.Signatures 0
            { val := none, seenVals := [], batchSigIdxs := [], batch := [],
              talliedVotingPower := 0, calls := [] })).calls) ∧
        (CryptoCall.BatchVerify ∈ (batchFinish E bv chainID commit needed cache
          (batchLoop E bv chainID vals commit needed ignoreSig countSig countAll byIndex cache
            commit.Signatures 0
            { val := none, seenVals := [], batchSigIdxs := [], batch := [],
              talliedVotingPower := 0, calls := [] })).calls →
          needed < (batchFinish E bv chainID commit needed cache
            (batchLoop E bv chainID vals commit needed ignoreSig countSig countAll byIndex cache
              commit.Signatures 0
              { val := none, seenVals := [], batchSigIdxs := [], batch := [],
                talliedVotingPower := 0, calls := [] })).tallied ∧
          ∃ idx, CryptoCall.BatchAdd idx ∈ (batchFinish E bv chainID commit needed cache
            (batchLoop E bv chainID vals commit needed ignoreSig countSig countAll byIndex cache
              commit.Signatures 0
              { val := none, seenVals := [], batchSigIdxs := [], batch := [],
                talliedVotingPower := 0, calls := [] })).calls) := by
    intro bv
    obtain ⟨new, extra, h1, h2, h3, h4⟩ :=
      batchLoop_trace E bv chainID vals commit needed ignoreSig countSig countAll byIndex cache
        commit.Signatures 0
        { val := none, seenVals := [], batchSigIdxs := [], batch := [],
          talliedVotingPower := 0, calls := [] }
    simp only [List.nil_append, Nat.zero_add] at h1 h2 h3
    obtain ⟨ft, hfin⟩ := batchFinish_trace E chainID commit needed bv cache
      (batchLoop E bv chainID vals commit needed ignoreSig countSig countAll byIndex cache
        commit.Signatures 0
        { val := none, seenVals := [], batchSigIdxs := [], batch := [],
          talliedVotingPower := 0, calls := [] })
    have hnoVerify : CryptoCall.BatchVerify ∉ new := by
      intro hmem
      obtain ⟨k, c, hk, -, -⟩ := h3 _ hmem
      cases hk
    rcases hfin with ⟨g1, g2⟩ | ⟨gt, gne, g1, adds, g2, g3⟩
    · refine ⟨[], ?_, ?_, by simp, by simp, ?_⟩
      · rw [g2]
        cases cache <;> simp
      · rw [g1, h1]
        exact fun call hcall => Or.inr (h3 call hcall)
      · rw [g1, h1]
        exact fun hmem => absurd hmem hnoVerify
    · refine ⟨adds, g2, ?_, ?_, ?_, ?_⟩
      · rw [g1, h1]
        intro call hcall
        rcases List.mem_append.mp hcall with h | h
        · exact Or.inr (h3 call h)
        · exact Or.inl (by simpa using h)
      · intro e he
        obtain ⟨idx, hidx, sig, hs, hes⟩ := g3 e he
        rw [h2] at hidx
        exact ⟨idx, sig, by rw [g1, h1]; exact List.mem_append_left _ (h4 idx hidx), hs, hes⟩
      · intro _
        rw [g1]
        simp
      · intro _
        rw [ft]
        refine ⟨gt, ?_⟩
        rw [h2] at gne
        obtain ⟨i, hi⟩ := List.exists_mem_of_ne_nil _ gne
        exact ⟨i, by rw [g1, h1]; exact List.mem_append_left _ (h4 i hi)⟩
  unfold verifyCommitBatch
  cases batchVerifier with
  | some bv =>
    simp only []
    split
    · exact hearly _ rfl rfl
    · exact hmain bv
  | none =>
    simp only []
    cases vals.GetProposer with
    | none => exact hearly _ rfl rfl
    | some p =>
      simp only []
      cases E.CreateBatchVerifier p.PubKey with
      | none => exact hearly _ rfl rfl
      | some bv =>
        simp only []
        split
        · exact hearly _ rfl rfl
        · exact hmain bv

end Drivers

/-! ### The hash check -/

/-- C18: `ValidateHash(h)` returns an error if and only if the hash `h` is not
empty and its length differs from `tmhash.Size`; the empty hash and a hash of
exactly `tmhash.Size` bytes are accepted. -/
theorem validateHash_error_iff (tmhashSize : Nat) (h : Bytes) :
    (ValidateHash tmhashSize h = true ↔ h ≠ [] ∧ h.length ≠ tmhashSize) ∧
    ValidateHash tmhashSize [] = false ∧
    ValidateHash tmhashSize (List.replicate tmhashSize 0) = false := by
  refine ⟨?_, by simp [ValidateHash], by simp [ValidateHash]⟩
  simp only [ValidateHash, decide_eq_true_eq]
  constructor
  · rintro ⟨h1, h2⟩
    exact ⟨fun h0 => by rw [h0] at h1; simp at h1, h2⟩
  · rintro ⟨h1, h2⟩
    exact ⟨List.length_pos.mpr h1, h2⟩

/-- C18, at `tmhash.Size = 32`: a hash of three bytes is rejected, the empty
hash is accepted. -/
theorem validateHash_error_iff_witness :
    ValidateHash 32 [1, 2, 3] = true ∧ ValidateHash 32 [] = false :=
  ⟨(validateHash_error_iff 32 [1, 2, 3]).1.mpr ⟨by decide, by decide⟩,
    (validateHash_error_iff 32 [1, 2, 3]).2.1⟩
/-! ### The threshold is enforced before the batch is verified -/

/-- C20: in `verifyCommitBatch` (at least two signatures, a batch verifier
`bv`), when the loop ends, at the end of the entries or at the break, with a
tally equal to or below `votingPowerNeeded`, the result is
`ErrNotEnoughVotingPowerSigned{Got: tally, Needed: votingPowerNeeded}`, the
log holds the calls of the loop only, `Verify` is not among them, and the
cache is the one received. For every run of `verifyCommitBatch`, `Verify` is
called and the cache is written only when the tally exceeds
`votingPowerNeeded`. -/
theorem batch_threshold_before_cryptography (E : Env) (chainID : String) (vals : ValidatorSet)
    (commit : Commit) (votingPowerNeeded : Int) (ignoreSig countSig : CommitSig → Bool)
    (countAllSignatures lookUpByIndex : Bool) (cache : Option SignatureCache)
    (bv : BatchVerifier) (b : BatchState)
    (hlen : batchVerifyThreshold ≤ commit.Signatures.length)
    (hloop :
      batchLoop E bv chainID vals commit votingPowerNeeded ignoreSig countSig
        countAllSignatures lookUpByIndex cache commit.Signatures 0
        { val := none, seenVals := [], batchSigIdxs := [], batch := [],
          talliedVotingPower := 0, calls := [] } = .next b ∨
      batchLoop E bv chainID vals commit votingPowerNeeded ignoreSig countSig
        countAllSignatures lookUpByIndex cache commit.Signatures 0
        { val := none, seenVals := [], batchSigIdxs := [], batch := [],
          talliedVotingPower := 0, calls := [] } = .brk b)
    (htally : b.talliedVotingPower ≤ votingPowerNeeded) :
    ((verifyCommitBatch E chainID vals commit votingPowerNeeded ignoreSig countSig
        countAllSignatures lookUpByIndex (some bv) cache).result
      = .reject (.NotEnoughVotingPowerSigned b.talliedVotingPower votingPowerNeeded) ∧
      (verifyCommitBatch E chainID vals commit votingPowerNeeded ignoreSig countSig
        countAllSignatures lookUpByIndex (some bv) cache).calls = b.calls ∧
      CryptoCall.BatchVerify ∉ (verifyCommitBatch E chainID vals commit votingPowerNeeded
        ignoreSig countSig countAllSignatures lookUpByIndex (some bv) cache).calls ∧
      (verifyCommitBatch E chainID vals commit votingPowerNeeded ignoreSig countSig
        countAllSignatures lookUpByIndex (some bv) cache).cache = cache) ∧
    (∀ batchVerifier : Option BatchVerifier,
      (CryptoCall.BatchVerify ∈ (verifyCommitBatch E chainID vals commit votingPowerNeeded
          ignoreSig countSig countAllSignatures lookUpByIndex batchVerifier cache).calls →
        votingPowerNeeded < (verifyCommitBatch E chainID vals commit votingPowerNeeded
          ignoreSig countSig countAllSignatures lookUpByIndex batchVerifier cache).tallied) ∧
      ((verifyCommitBatch E chainID vals commit votingPowerNeeded ignoreSig countSig
          countAllSignatures lookUpByIndex batchVerifier cache).cache ≠ cache →
        votingPowerNeeded < (verifyCommitBatch E chainID vals commit votingPowerNeeded
          ignoreSig countSig countAllSignatures lookUpByIndex batchVerifier cache).tallied)) := by
  have hnot : ¬ commit.Signatures.length < batchVerifyThreshold := not_lt.mpr hlen
  have hrun : verifyCommitBatch E chainID vals commit votingPowerNeeded ignoreSig countSig
      countAllSignatures lookUpByIndex (some bv) cache =
      batchFinish E bv chainID commit votingPowerNeeded cache (.next b) := by
    simp only [verifyCommitBatch, hnot, if_false]
    rcases hloop with h | h
    · rw [h]
    · rw [h]
      rfl
  have hfin : batchFinish E bv chainID commit votingPowerNeeded cache (.next b) =
      { result := .reject (.NotEnoughVotingPowerSigned b.talliedVotingPower votingPowerNeeded)
        cache := cache, tallied := b.talliedVotingPower, calls := b.calls } := by
    simp only [batchFinish, htally, if_true]
  obtain ⟨new, extra, h1, -, h3, -⟩ :=
    batchLoop_trace E bv chainID vals commit votingPowerNeeded ignoreSig countSig
      countAllSignatures lookUpByIndex cache commit.Signatures 0
      { val := none, seenVals := [], batchSigIdxs := [], batch := [],
        talliedVotingPower := 0, calls := [] }
  have hcalls : b.calls = new := by
    rcases hloop with h | h <;> rw [h] at h1 <;> simpa [Flow.state] using h1
  refine ⟨?_, ?_⟩
  · rw [hrun, hfin]
    refine ⟨rfl, rfl, ?_, rfl⟩
    show CryptoCall.BatchVerify ∉ b.calls
    rw [hcalls]
    intro hmem
    obtain ⟨k, c, hk, -, -⟩ := h3 _ hmem
    cases hk
  · intro batchVerifier
    obtain ⟨adds, g1, -, -, g4, g5⟩ :=
      verifyCommitBatch_trace E chainID vals commit votingPowerNeeded ignoreSig countSig
        countAllSignatures lookUpByIndex batchVerifier cache
    refine ⟨fun hv => (g5 hv).1, fun hne => (g5 (g4 ?_)).1⟩
    intro hadds
    apply hne
    rw [g1, hadds]
    cases cache <;> simp

/-- C20, at four validators of power 10 and threshold 26: the commit holds a
corrupted signature, a valid one and two absent entries, and the cache is
empty. The loop ends with the two entries in the batch and the tally 20; the
result is `ErrNotEnoughVotingPowerSigned{20, 26}`, `Verify` is not called and
the cache stays empty. -/
theorem batch_threshold_before_cryptography_witness :
    (verifyCommitBatch (Fixture.env true) "c" Fixture.vals4
        (Fixture.commitOf [Fixture.corrupted 1, Fixture.signed 2, Fixture.absent,
          Fixture.absent])
        26 ignoreAbsent countCommit true true (some Fixture.verifier) (some [])).result
      = .reject (.NotEnoughVotingPowerSigned 20 26) ∧
    (verifyCommitBatch (Fixture.env true) "c" Fixture.vals4
        (Fixture.commitOf [Fixture.corrupted 1, Fixture.signed 2, Fixture.absent,
          Fixture.absent])
        26 ignoreAbsent countCommit true true (some Fixture.verifier) (some [])).calls
      = [.BatchAdd 0, .BatchAdd 1] ∧
    CryptoCall.BatchVerify ∉ (verifyCommitBatch (Fixture.env true) "c" Fixture.vals4
        (Fixture.commitOf [Fixture.corrupted 1, Fixture.signed 2, Fixture.absent,
          Fixture.absent])
        26 ignoreAbsent countCommit true true (some Fixture.verifier) (some [])).calls ∧
    (verifyCommitBatch (Fixture.env true) "c" Fixture.vals4
        (Fixture.commitOf [Fixture.corrupted 1, Fixture.signed 2, Fixture.absent,
          Fixture.absent])
        26 ignoreAbsent countCommit true true (some Fixture.verifier) (some [])).cache
      = some [] :=
  (batch_threshold_before_cryptography (Fixture.env true) "c" Fixture.vals4
    (Fixture.commitOf [Fixture.corrupted 1, Fixture.signed 2, Fixture.absent, Fixture.absent])
    26 ignoreAbsent countCommit true true (some []) Fixture.verifier
    { val := some (Fixture.validator 2 10), seenVals := [], batchSigIdxs := [0, 1],
      batch := [{ key := some (Fixture.key 1), msg := Fixture.msg, sig := [101, 1, 7] },
        { key := some (Fixture.key 2), msg := Fixture.msg, sig := [2, 1, 7] }],
      talliedVotingPower := 20, calls := [.BatchAdd 0, .BatchAdd 1] }
    (by decide) (Or.inl rfl) (by decide)).1

/-! ### Writes to the cache -/

/-- C12: the cache is written only for signatures verified in the run, never
for cache hits. In `verifyCommitSingle` and `verifyCommitBatch` the check of an
entry that is a cache hit leaves the log, the cache and the batch as they
are. The cache returned by `verifyCommitSingle` is the one received with
entries added in front, each carrying the signature of an entry whose
verification is in the log of the run; for `verifyCommitBatch` each carries the
signature of an entry added to the batch in the run, and `Verify` was called.
So when nothing is verified (every processed signature is a cache hit) the
cache is unchanged, and in the batch path `Verify` is not called. -/
theorem cache_written_only_after_verification (E : Env) (chainID : String)
    (vals : ValidatorSet) (commit : Commit) (votingPowerNeeded : Int)
    (ignoreSig countSig : CommitSig → Bool) (countAllSignatures lookUpByIndex : Bool)
    (c : SignatureCache) (batchVerifier : Option BatchVerifier) :
    (∀ (idx : Nat) (cs : CommitSig) (v : Validator) (pk : PubKey) (s : SingleState),
      v.PubKey = some pk →
      singleCacheHit E s.cache cs pk (E.VoteSignBytes commit chainID (wrapInt32 idx)) = true →
      (singleCheck E chainID commit votingPowerNeeded countSig countAllSignatures idx cs v
        s).state.cache = s.cache ∧
      (singleCheck E chainID commit votingPowerNeeded countSig countAllSignatures idx cs v
        s).state.calls = s.calls) ∧
    (∀ (bv : BatchVerifier) (idx : Nat) (cs : CommitSig) (v : Validator) (b : BatchState),
      batchCacheHit E (some c) cs v.PubKey (E.VoteSignBytes commit chainID (wrapInt32 idx))
        = some true →
      (batchCheck E bv chainID commit votingPowerNeeded countSig countAllSignatures (some c)
        idx cs v b).state.batchSigIdxs = b.batchSigIdxs ∧
      (batchCheck E bv chainID commit votingPowerNeeded countSig countAllSignatures (some c)
        idx cs v b).state.batch = b.batch ∧
      (batchCheck E bv chainID commit votingPowerNeeded countSig countAllSignatures (some c)
        idx cs v b).state.calls = b.calls) ∧
    (∃ adds : SignatureCache,
      (verifyCommitSingle E chainID vals commit votingPowerNeeded ignoreSig countSig
        countAllSignatures lookUpByIndex (some c)).cache = some (adds ++ c) ∧
      ∀ e ∈ adds, ∃ idx cs,
        CryptoCall.VerifySignature idx ∈ (verifyCommitSingle E chainID vals commit
          votingPowerNeeded ignoreSig countSig countAllSignatures lookUpByIndex
          (some c)).calls ∧
        commit.Signatures[idx]? = some cs ∧ e.1 = cs.Signature) ∧
    ((∀ idx, CryptoCall.VerifySignature idx ∉ (verifyCommitSingle E chainID vals commit
        votingPowerNeeded ignoreSig countSig countAllSignatures lookUpByIndex (some c)).calls) →
      (verifyCommitSingle E chainID vals commit votingPowerNeeded ignoreSig countSig
        countAllSignatures lookUpByIndex (some c)).cache = some c) ∧
    (∃ adds : SignatureCache,
      (verifyCommitBatch E chainID vals commit votingPowerNeeded ignoreSig countSig
        countAllSignatures lookUpByIndex batchVerifier (some c)).cache = some (adds ++ c) ∧
      ∀ e ∈ adds,
        CryptoCall.BatchVerify ∈ (verifyCommitBatch E chainID vals commit votingPowerNeeded
          ignoreSig countSig countAllSignatures lookUpByIndex batchVerifier (some c)).calls ∧
        ∃ idx cs,
          CryptoCall.BatchAdd idx ∈ (verifyCommitBatch E chainID vals commit
            votingPowerNeeded ignoreSig countSig countAllSignatures lookUpByIndex batchVerifier
            (some c)).calls ∧
          commit.Signatures[idx]? = some cs ∧ e.1 = cs.Signature) ∧
    ((∀ idx, CryptoCall.BatchAdd idx ∉ (verifyCommitBatch E chainID vals commit
        votingPowerNeeded ignoreSig countSig countAllSignatures lookUpByIndex batchVerifier
        (some c)).calls) →
      (verifyCommitBatch E chainID vals commit votingPowerNeeded ignoreSig countSig
        countAllSignatures lookUpByIndex batchVerifier (some c)).cache = some c ∧
      CryptoCall.BatchVerify ∉ (verifyCommitBatch E chainID vals commit votingPowerNeeded
        ignoreSig countSig countAllSignatures lookUpByIndex batchVerifier (some c)).calls) := by
  obtain ⟨addsS, s1, -, s3⟩ :=
    verifyCommitSingle_trace E chainID vals commit votingPowerNeeded ignoreSig countSig
      countAllSignatures lookUpByIndex (some c)
  obtain ⟨addsB, b1, -, b3, b4, b5⟩ :=
    verifyCommitBatch_trace E chainID vals commit votingPowerNeeded ignoreSig countSig
      countAllSignatures lookUpByIndex batchVerifier (some c)
  have nilOfNone : ∀ (adds : SignatureCache) (P : Bytes × SignatureCacheValue → Prop),
      (∀ e ∈ adds, P e) → (∀ e, ¬ P e) → adds = [] := by
    intro adds P hall hno
    cases adds with
    | nil => rfl
    | cons e rest => exact absurd (hall e (List.mem_cons_self _ _)) (hno e)
  refine ⟨?_, ?_, ⟨addsS, s1, s3⟩, ?_, ⟨addsB, b1, ?_⟩, ?_⟩
  · intro idx cs v pk s hpk hhit
    simp only [singleCheck, hpk, hhit, Bool.true_eq_false, false_and, if_false]
    split <;> simp [Flow.state, singleAfter]
  · intro bv idx cs v b hhit
    simp only [batchCheck, hhit, if_true]
    split <;> simp [Flow.state, batchAfter]
  · intro hno
    have : addsS = [] :=
      nilOfNone addsS _ s3 (fun e ⟨idx, cs, h, _⟩ => hno idx h)
    rw [s1, this]
    rfl
  · intro e he
    have hne : addsB ≠ [] := fun h => by rw [h] at he; cases he
    exact ⟨b4 hne, b3 e he⟩
  · intro hno
    have : addsB = [] :=
      nilOfNone addsB _ b3 (fun e ⟨idx, cs, h, _⟩ => hno idx h)
    refine ⟨by rw [b1, this]; rfl, fun hv => ?_⟩
    obtain ⟨-, idx, hidx⟩ := b5 hv
    exact hno idx hidx

/-- C12, at four validators of power 10 and threshold 15, with a cache that
holds the verified signatures of the first two validators: both entries of the
commit are cache hits, the two drivers accept without any cryptographic call
and leave the cache as it is. -/
theorem cache_written_only_after_verification_witness :
    ((verifyCommitSingle (Fixture.env true) "c" Fixture.vals4
        (Fixture.commitOf [Fixture.signed 1, Fixture.signed 2, Fixture.absent,
          Fixture.absent])
        15 ignoreNotCommit countAlways false true
        (some [Fixture.cached 2, Fixture.cached 1])).result = .accept ∧
      (verifyCommitSingle (Fixture.env true) "c" Fixture.vals4
        (Fixture.commitOf [Fixture.signed 1, Fixture.signed 2, Fixture.absent,
          Fixture.absent])
        15 ignoreNotCommit countAlways false true
        (some [Fixture.cached 2, Fixture.cached 1])).cache
        = some [Fixture.cached 2, Fixture.cached 1]) ∧
    ((verifyCommitBatch (Fixture.env true) "c" Fixture.vals4
        (Fixture.commitOf [Fixture.signed 1, Fixture.signed 2, Fixture.absent,
          Fixture.absent])
        15 ignoreNotCommit countAlways false true (some Fixture.verifier)
        (some [Fixture.cached 2, Fixture.cached 1])).result = .accept ∧
      (verifyCommitBatch (Fixture.env true) "c" Fixture.vals4
        (Fixture.commitOf [Fixture.signed 1, Fixture.signed 2, Fixture.absent,
          Fixture.absent])
        15 ignoreNotCommit countAlways false true (some Fixture.verifier)
        (some [Fixture.cached 2, Fixture.cached 1])).cache
        = some [Fixture.cached 2, Fixture.cached 1] ∧
      CryptoCall.BatchVerify ∉ (verifyCommitBatch (Fixture.env true) "c" Fixture.vals4
        (Fixture.commitOf [Fixture.signed 1, Fixture.signed 2, Fixture.absent,
          Fixture.absent])
        15 ignoreNotCommit countAlways false true (some Fixture.verifier)
        (some [Fixture.cached 2, Fixture.cached 1])).calls) :=
  ⟨⟨by decide,
      (cache_written_only_after_verification (Fixture.env true) "c" Fixture.vals4
        (Fixture.commitOf [Fixture.signed 1, Fixture.signed 2, Fixture.absent, Fixture.absent])
        15 ignoreNotCommit countAlways false true [Fixture.cached 2, Fixture.cached 1]
        (some Fixture.verifier)).2.2.2.1
        (fun _ => List.eq_nil_iff_forall_not_mem.mp (by decide) _)⟩,
    by decide,
    (cache_written_only_after_verification (Fixture.env true) "c" Fixture.vals4
      (Fixture.commitOf [Fixture.signed 1, Fixture.signed 2, Fixture.absent, Fixture.absent])
      15 ignoreNotCommit countAlways false true [Fixture.cached 2, Fixture.cached 1]
      (some Fixture.verifier)).2.2.2.2.2
      (fun _ => List.eq_nil_iff_forall_not_mem.mp (by decide) _)⟩

/-! ### Cache hits -/

/-- C11 (counterexample): four validators of power 10, threshold 26, a cache
that holds the signatures of the first two validators verified on chain "c",
and a commit with these two signatures and two absent entries, checked on
chain "dd": the sign bytes differ from the cached ones and neither signature
verifies over them. `verifyCommitSingle` rejects with `WrongSignature` for
index 0, but `verifyCommitBatch` adds the two signatures to the batch, never
verifies them and rejects with `NotEnoughVotingPowerSigned{20, 26}`. -/
theorem verifyCommitBatch_changed_signBytes_not_verified :
    Fixture.VerifySignature (Fixture.key 1)
      (Fixture.VoteSignBytes (Fixture.commitOf [Fixture.signed 1, Fixture.signed 2,
        Fixture.absent, Fixture.absent]) "dd" 0) (Fixture.signed 1).Signature = false ∧
    (verifyCommitSingle (Fixture.env true) "dd" Fixture.vals4
        (Fixture.commitOf [Fixture.signed 1, Fixture.signed 2, Fixture.absent,
          Fixture.absent])
        26 ignoreNotCommit countAlways false true
        (some [Fixture.cached 2, Fixture.cached 1])).result
      = .reject (.WrongSignature 0 (.sigBytes [1, 1, 7])) ∧
    (verifyCommitBatch (Fixture.env true) "dd" Fixture.vals4
        (Fixture.commitOf [Fixture.signed 1, Fixture.signed 2, Fixture.absent,
          Fixture.absent])
        26 ignoreNotCommit countAlways false true (some Fixture.verifier)
        (some [Fixture.cached 2, Fixture.cached 1])).result
      = .reject (.NotEnoughVotingPowerSigned 20 26) ∧
    (verifyCommitBatch (Fixture.env true) "dd" Fixture.vals4
        (Fixture.commitOf [Fixture.signed 1, Fixture.signed 2, Fixture.absent,
          Fixture.absent])
        26 ignoreNotCommit countAlways false true (some Fixture.verifier)
        (some [Fixture.cached 2, Fixture.cached 1])).calls
      = [.BatchAdd 0, .BatchAdd 1] := by
  decide

/-- C11 (amended): for an entry paired with a validator that has a key, the
cache test of the two drivers succeeds if and only if there is a cache, it
holds the signature bytes as a key, the stored address is the address of the
validator's key and the stored sign bytes are those of the vote at this
index. On a hit `verifyCommitSingle` logs no verification; on a miss it
verifies the signature and returns `WrongSignature` for this index when the
signature is invalid. `verifyCommitBatch` leaves a hit out of the batch and
adds a miss to it; once its loop has ended it returns
`NotEnoughVotingPowerSigned` when the tally does not exceed the threshold, and
otherwise `WrongSignature` for the first batched index whose entry is
invalid. -/
theorem cache_hit_iff_all_match (E : Env) (chainID : String) (commit : Commit)
    (votingPowerNeeded : Int) (countSig : CommitSig → Bool) (countAllSignatures : Bool)
    (idx : Nat) (commitSig : CommitSig) (val : Validator) (pk : PubKey)
    (hpk : val.PubKey = some pk) :
    (∀ cache : Option SignatureCache,
      (singleCacheHit E cache commitSig pk (E.VoteSignBytes commit chainID (wrapInt32 idx))
          = true ↔
        ∃ c cv, cache = some c ∧ c.Get commitSig.Signature = some cv ∧
          cv.ValidatorAddress = E.Address pk ∧
          cv.VoteSignBytes = E.VoteSignBytes commit chainID (wrapInt32 idx)) ∧
      batchCacheHit E cache commitSig val.PubKey
          (E.VoteSignBytes commit chainID (wrapInt32 idx))
        = some (singleCacheHit E cache commitSig pk
            (E.VoteSignBytes commit chainID (wrapInt32 idx)))) ∧
    (∀ s : SingleState,
      (singleCheck E chainID commit votingPowerNeeded countSig countAllSignatures idx commitSig
          val s).state.calls =
        (if singleCacheHit E s.cache commitSig pk
            (E.VoteSignBytes commit chainID (wrapInt32 idx)) = true
          then s.calls else s.calls ++ [.VerifySignature idx]) ∧
      (singleCacheHit E s.cache commitSig pk (E.VoteSignBytes commit chainID (wrapInt32 idx))
          = false →
        E.VerifySignature pk (E.VoteSignBytes commit chainID (wrapInt32 idx))
          commitSig.Signature = false →
        singleCheck E chainID commit votingPowerNeeded countSig countAllSignatures idx
            commitSig val s =
          .ret (.reject (.WrongSignature idx (.sigBytes commitSig.Signature)))
            { s with calls := s.calls ++ [.VerifySignature idx] })) ∧
    (∀ (bv : BatchVerifier) (cache : Option SignatureCache) (b : BatchState),
      bv.Add b.batch (batchEntry E chainID commit idx commitSig val) = none →
      (batchCheck E bv chainID commit votingPowerNeeded countSig countAllSignatures cache idx
          commitSig val b).state.batch =
        (if singleCacheHit E cache commitSig pk
            (E.VoteSignBytes commit chainID (wrapInt32 idx)) = true
          then b.batch else b.batch ++ [batchEntry E chainID commit idx commitSig val]) ∧
      (batchCheck E bv chainID commit votingPowerNeeded countSig countAllSignatures cache idx
          commitSig val b).state.batchSigIdxs =
        (if singleCacheHit E cache commitSig pk
            (E.VoteSignBytes commit chainID (wrapInt32 idx)) = true
          then b.batchSigIdxs else b.batchSigIdxs ++ [idx])) ∧
    (∀ (bv : BatchVerifier) (cache : Option SignatureCache) (b : BatchState),
      (b.talliedVotingPower ≤ votingPowerNeeded →
        (batchFinish E bv chainID commit votingPowerNeeded cache (.next b)).result =
          .reject (.NotEnoughVotingPowerSigned b.talliedVotingPower votingPowerNeeded)) ∧
      (∀ (A X : List Nat) (EA Y : List BatchEntry) (k : Nat) (ek : BatchEntry)
        (sig : CommitSig),
        bv.Exact E → votingPowerNeeded < b.talliedVotingPower →
        b.batchSigIdxs = A ++ k :: X → b.batch = EA ++ ek :: Y → A.length = EA.length →
        (∀ e ∈ EA, entryValid E e = true) → entryValid E ek = false →
        (∀ a ∈ A, a < commit.Signatures.length) → commit.Signatures[k]? = some sig →
        (batchFinish E bv chainID commit votingPowerNeeded cache (.next b)).result =
          .reject (.WrongSignature k (.commitSig sig)))) := by
  refine ⟨?_, ?_, ?_, ?_⟩
  · intro cache
    constructor
    · unfold singleCacheHit
      cases cache with
      | none => simp
      | some c =>
        simp only []
        cases hget : c.Get commitSig.Signature with
        | none => simp [hget]
        | some cv =>
          simp only [Bool.and_eq_true, decide_eq_true_eq]
          constructor
          · intro h
            exact ⟨c, cv, rfl, hget, h.1, h.2⟩
          · rintro ⟨c1, cv1, h1, h2, h3, h4⟩
            cases h1
            rw [hget] at h2
            cases h2
            exact ⟨h3, h4⟩
    · rw [hpk]
      unfold batchCacheHit singleCacheHit
      cases cache with
      | none => rfl
      | some c =>
        simp only []
        cases c.Get commitSig.Signature <;> rfl
  · intro s
    constructor
    · simp only [singleCheck, hpk]
      cases hhit : singleCacheHit E s.cache commitSig pk
          (E.VoteSignBytes commit chainID (wrapInt32 idx)) with
      | true =>
        simp only [Bool.true_eq_false, false_and, if_false, if_true]
        split <;> simp [Flow.state, singleAfter]
      | false =>
        simp only [true_and, Bool.false_eq_true, if_false]
        split
        · rfl
        · split <;> simp [Flow.state, singleAfter]
    · intro hmiss hbad
      simp only [singleCheck, hpk, hmiss, hbad, and_self, if_true]
  · intro bv cache b hadd
    have hhit : batchCacheHit E cache commitSig val.PubKey
        (E.VoteSignBytes commit chainID (wrapInt32 idx))
        = some (singleCacheHit E cache commitSig pk
            (E.VoteSignBytes commit chainID (wrapInt32 idx))) := by
      rw [hpk]
      unfold batchCacheHit singleCacheHit
      cases cache with
      | none => rfl
      | some c =>
        simp only []
        cases c.Get commitSig.Signature <;> rfl
    simp only [batchCheck, hhit]
    cases singleCacheHit E cache commitSig pk
        (E.VoteSignBytes commit chainID (wrapInt32 idx)) with
    | true =>
      simp only [if_true]
      constructor <;> split <;> simp [Flow.state, batchAfter]
    | false =>
      simp only [Bool.false_eq_true, if_false, hadd]
      constructor <;> split <;> simp [Flow.state, batchAfter]
  · intro bv cache b
    constructor
    · intro ht
      simp only [batchFinish, ht, if_true]
    · intro A X EA Y k ek sig hbv ht hidxs hbatch hlen hEA hek hA hk
      exact batchFinish_first_invalid E bv chainID commit votingPowerNeeded cache hbv b _
        (Or.inl rfl) A X EA Y k ek sig hidxs hbatch hlen hEA hek hA hk ht

/-- C11, at the first validator of the fixture and its signature checked on
chain "dd", with a cache that holds this signature verified on chain "c": the
sign bytes differ, so the entry is not a cache hit, the signature is verified
again and rejected with `WrongSignature` for index 0. -/
theorem cache_hit_iff_all_match_witness :
    (Fixture.validator 1 10).PubKey = some (Fixture.key 1) ∧
    singleCheck (Fixture.env true) "dd"
        (Fixture.commitOf [Fixture.signed 1, Fixture.signed 2]) 13 countAlways false 0
        (Fixture.signed 1) (Fixture.validator 1 10)
        { val := some (Fixture.validator 1 10), seenVals := [], talliedVotingPower := 0,
          cache := some [Fixture.cached 1], calls := [] } =
      .ret (.reject (.WrongSignature 0 (.sigBytes (Fixture.signed 1).Signature)))
        { val := some (Fixture.validator 1 10), seenVals := [], talliedVotingPower := 0,
          cache := some [Fixture.cached 1], calls := [.VerifySignature 0] } :=
  ⟨rfl,
    ((cache_hit_iff_all_match (Fixture.env true) "dd"
      (Fixture.commitOf [Fixture.signed 1, Fixture.signed 2]) 13 countAlways false 0
      (Fixture.signed 1) (Fixture.validator 1 10) (Fixture.key 1) rfl).2.1
      { val := some (Fixture.validator 1 10), seenVals := [], talliedVotingPower := 0,
        cache := some [Fixture.cached 1], calls := [] }).2 (by decide) (by decide)⟩

/-! ### Early exit -/

section Loops

variable (E : Env) (bv : BatchVerifier) (chainID : String) (vals : ValidatorSet)
  (commit : Commit) (needed : Int) (ignoreSig countSig : CommitSig → Bool)
  (countAll byIndex : Bool) (cache : Option SignatureCache)

/-- With early exit, an iteration of `verifyCommitSingle` that goes on to the
next entry leaves the tally at or below the threshold. -/
theorem singleBody_next_below (idx : Nat) (cs : CommitSig) (s s1 : SingleState)
    (hca : countAll = false) (hs : s.talliedVotingPower ≤ needed)
    (h : singleBody E chainID vals commit needed ignoreSig countSig countAll byIndex idx cs s
      = .next s1) :
    s1.talliedVotingPower ≤ needed := by
  rw [singleBody_eq] at h
  by_cases hi : ignoreSig cs = true
  · rw [if_pos hi] at h
    cases h
    exact hs
  · rw [if_neg hi] at h
    by_cases hvb : ¬ E.ValidateBasic cs = true
    · rw [if_pos hvb] at h
      cases h
    · rw [if_neg hvb] at h
      cases hres : resolve vals byIndex s.seenVals idx cs with
      | panic => rw [hres] at h; cases h
      | skip =>
        rw [hres] at h
        cases h
        exact hs
      | doubleVote w i => rw [hres] at h; cases h
      | found w seen =>
        rw [hres] at h
        simp only [singleCheck] at h
        cases hpk : w.PubKey with
        | none => rw [hpk] at h; cases h
        | some pk =>
          rw [hpk] at h
          simp only [] at h
          split at h
          · cases h
          · split at h
            · cases h
            · rename_i hx
              cases h
              by_contra hgt
              exact hx ⟨hca, not_le.mp hgt⟩

/-- With early exit, a loop of `verifyCommitSingle` that runs to the end of the
entries leaves the tally at or below the threshold. -/
theorem singleLoop_next_below (sigs : List CommitSig) (idx : Nat) (s s1 : SingleState)
    (hca : countAll = false) (hs : s.talliedVotingPower ≤ needed)
    (h : singleLoop E chainID vals commit needed ignoreSig countSig countAll byIndex sigs idx s
      = .next s1) :
    s1.talliedVotingPower ≤ needed := by
  induction sigs generalizing idx s with
  | nil =>
    simp only [singleLoop] at h
    cases h
    exact hs
  | cons cs rest ih =>
    rw [singleLoop] at h
    cases hbody : singleBody E chainID vals commit needed ignoreSig countSig countAll byIndex
        idx cs s with
    | next s2 =>
      rw [hbody] at h
      exact ih _ _ (singleBody_next_below E chainID vals commit needed ignoreSig countSig
        countAll byIndex idx cs s s2 hca hs hbody) h
    | brk s2 => rw [hbody] at h; cases h
    | ret r s2 => rw [hbody] at h; cases h

end Loops

/-- The early exit on a threshold that is not negative: with
`countAllSignatures = false`, if the loop of `verifyCommitSingle` gets through
the entries up to index `k` without error and the tally after entry `k` exceeds
`votingPowerNeeded`, then `verifyCommitSingle` accepts, whatever the entries
after index `k` are: its tally, log and cache are those reached at index `k`,
and no signature of index greater than `k` is verified. -/
theorem early_exit_ignores_later_signatures (E : Env) (chainID : String)
    (vals : ValidatorSet) (commit : Commit) (votingPowerNeeded : Int)
    (ignoreSig countSig : CommitSig → Bool) (lookUpByIndex : Bool)
    (cache : Option SignatureCache) (pre post : List CommitSig) (c : CommitSig)
    (s : SingleState)
    (hsigs : commit.Signatures = pre ++ c :: post)
    (hneeded : 0 ≤ votingPowerNeeded)
    (hreach :
      singleLoop E chainID vals commit votingPowerNeeded ignoreSig countSig false
        lookUpByIndex (pre ++ [c]) 0
        { val := none, seenVals := [], talliedVotingPower := 0, cache := cache, calls := [] }
        = .next s ∨
      singleLoop E chainID vals commit votingPowerNeeded ignoreSig countSig false
        lookUpByIndex (pre ++ [c]) 0
        { val := none, seenVals := [], talliedVotingPower := 0, cache := cache, calls := [] }
        = .ret .accept s)
    (htally : votingPowerNeeded < s.talliedVotingPower) :
    (verifyCommitSingle E chainID vals commit votingPowerNeeded ignoreSig countSig false
      lookUpByIndex cache).result = .accept ∧
    (verifyCommitSingle E chainID vals commit votingPowerNeeded ignoreSig countSig false
      lookUpByIndex cache).tallied = s.talliedVotingPower ∧
    (verifyCommitSingle E chainID vals commit votingPowerNeeded ignoreSig countSig false
      lookUpByIndex cache).calls = s.calls ∧
    (verifyCommitSingle E chainID vals commit votingPowerNeeded ignoreSig countSig false
      lookUpByIndex cache).cache = s.cache ∧
    ∀ call ∈ (verifyCommitSingle E chainID vals commit votingPowerNeeded ignoreSig countSig
        false lookUpByIndex cache).calls,
      ∃ idx, call = .VerifySignature idx ∧ idx ≤ pre.length := by
  have hret : singleLoop E chainID vals commit votingPowerNeeded ignoreSig countSig false
      lookUpByIndex (pre ++ [c]) 0
      { val := none, seenVals := [], talliedVotingPower := 0, cache := cache, calls := [] }
      = .ret .accept s := by
    rcases hreach with h | h
    · exact absurd htally (not_lt.mpr
        (singleLoop_next_below E chainID vals commit votingPowerNeeded ignoreSig countSig false
          lookUpByIndex _ 0 _ s rfl hneeded h))
    · exact h
  have hall : singleLoop E chainID vals commit votingPowerNeeded ignoreSig countSig false
      lookUpByIndex commit.Signatures 0
      { val := none, seenVals := [], talliedVotingPower := 0, cache := cache, calls := [] }
      = .ret .accept s := by
    rw [hsigs, show pre ++ c :: post = (pre ++ [c]) ++ post by simp, singleLoop_append, hret]
  obtain ⟨new, adds, h1, -, h3, -⟩ :=
    singleLoop_trace E chainID vals commit votingPowerNeeded ignoreSig countSig false
      lookUpByIndex (pre ++ [c]) 0
      { val := none, seenVals := [], talliedVotingPower := 0, cache := cache, calls := [] }
  rw [hret] at h1
  simp only [Flow.state, List.nil_append] at h1
  unfold verifyCommitSingle
  rw [hall]
  refine ⟨rfl, rfl, rfl, rfl, ?_⟩
  intro call hcall
  have hcall1 : call ∈ new := by
    rw [← h1]
    exact hcall
  obtain ⟨k, cs, hk, hget, -⟩ := h3 call hcall1
  refine ⟨k, by simpa using hk, ?_⟩
  have := (List.getElem?_eq_some_iff.mp hget).1
  simp only [List.length_append, List.length_singleton] at this
  omega

/-- The early exit at four validators of power 10 and the threshold 26: after
the third valid signature the tally is 30, so `VerifyCommitLight`'s driver accepts a
commit whose fourth signature is corrupted, having verified the first three
signatures only. -/
theorem early_exit_ignores_later_signatures_witness :
    (verifyCommitSingle (Fixture.env false) "c" Fixture.vals4
        (Fixture.commitOf [Fixture.signed 1, Fixture.signed 2, Fixture.signed 3,
          Fixture.corrupted 4])
        26 ignoreNotCommit countAlways false true none).result = .accept ∧
    (verifyCommitSingle (Fixture.env false) "c" Fixture.vals4
        (Fixture.commitOf [Fixture.signed 1, Fixture.signed 2, Fixture.signed 3,
          Fixture.corrupted 4])
        26 ignoreNotCommit countAlways false true none).calls
      = [.VerifySignature 0, .VerifySignature 1, .VerifySignature 2] :=
  ⟨(early_exit_ignores_later_signatures (Fixture.env false) "c" Fixture.vals4
      (Fixture.commitOf [Fixture.signed 1, Fixture.signed 2, Fixture.signed 3,
        Fixture.corrupted 4])
      26 ignoreNotCommit countAlways true none
      [Fixture.signed 1, Fixture.signed 2] [Fixture.corrupted 4] (Fixture.signed 3)
      { val := some (Fixture.validator 3 10), seenVals := [], talliedVotingPower := 30,
        cache := none,
        calls := [.VerifySignature 0, .VerifySignature 1, .VerifySignature 2] }
      rfl (by decide) (Or.inr rfl) (by decide)).1,
    (early_exit_ignores_later_signatures (Fixture.env false) "c" Fixture.vals4
      (Fixture.commitOf [Fixture.signed 1, Fixture.signed 2, Fixture.signed 3,
        Fixture.corrupted 4])
      26 ignoreNotCommit countAlways true none
      [Fixture.signed 1, Fixture.signed 2] [Fixture.corrupted 4] (Fixture.signed 3)
      { val := some (Fixture.validator 3 10), seenVals := [], talliedVotingPower := 30,
        cache := none,
        calls := [.VerifySignature 0, .VerifySignature 1, .VerifySignature 2] }
      rfl (by decide) (Or.inr rfl) (by decide)).2.2.1⟩

/-! ### What a loop that ran to its end has checked -/

section Loops

variable (E : Env) (bv : BatchVerifier) (chainID : String) (vals : ValidatorSet)
  (commit : Commit) (needed : Int) (ignoreSig countSig : CommitSig → Bool)
  (countAll byIndex : Bool) (cache : Option SignatureCache)

/-- A resolution by address that skips the entry or finds a validator. -/
theorem resolve_byAddress (seen : List (Nat × Nat)) (idx : Nat) (cs : CommitSig) :
    (resolve vals false seen idx cs = .skip → addressedIndex vals cs = none) ∧
    (∀ v seen1, resolve vals false seen idx cs = .found v seen1 →
      ∃ i, addressedIndex vals cs = some i ∧ seen.lookup i = none ∧
        seen1 = (i, idx) :: seen) := by
  unfold resolve addressedIndex
  simp only [Bool.false_eq_true, if_false]
  cases vals.GetByAddress cs.ValidatorAddress with
  | none => simp
  | some p =>
    obtain ⟨vi, w⟩ := p
    simp only [Option.map_some']
    cases hl : List.lookup vi seen with
    | some i => simp
    | none =>
      refine ⟨by simp, ?_⟩
      intro v seen1 h
      simp only [Resolution.found.injEq] at h
      exact ⟨vi, rfl, hl, h.2.symm⟩

/-- The check of a resolved entry that goes on to the next entry: the
validator has a key, the map `seenVals` is untouched and, without cache, the
signature has been verified with success. -/
theorem singleCheck_next (idx : Nat) (cs : CommitSig) (v : Validator) (s s1 : SingleState)
    (h : singleCheck E chainID commit needed countSig countAll idx cs v s = .next s1) :
    s1.seenVals = s.seenVals ∧
    ∃ pk, v.PubKey = some pk ∧
      (s.cache = none →
        s1.cache = none ∧
        E.VerifySignature pk (E.VoteSignBytes commit chainID (wrapInt32 idx)) cs.Signature
          = true ∧
        s1.calls = s.calls ++ [.VerifySignature idx]) := by
  simp only [singleCheck] at h
  cases hpk : v.PubKey with
  | none => rw [hpk] at h; cases h
  | some pk =>
    rw [hpk] at h
    simp only [] at h
    split at h
    · cases h
    · rename_i hbad
      split at h
      · cases h
      · cases h
        refine ⟨rfl, pk, rfl, ?_⟩
        intro hc
        have hmiss : singleCacheHit E s.cache cs pk
            (E.VoteSignBytes commit chainID (wrapInt32 idx)) = false := by
          rw [hc]
          rfl
        rw [hmiss] at hbad
        simp only [true_and, Bool.not_eq_false] at hbad
        refine ⟨?_, hbad, ?_⟩
        · simp [singleAfter, hmiss, hc]
        · simp [singleAfter, hmiss]

/-- An iteration of `verifyCommitSingle` that goes on to the next entry: how
the entry was resolved and, without cache, what has been checked. -/
theorem singleBody_next (idx : Nat) (cs : CommitSig) (s s1 : SingleState)
    (h : singleBody E chainID vals commit needed ignoreSig countSig countAll byIndex idx cs s
      = .next s1) :
    (ignoreSig cs = true ∧ s1 = s) ∨
    (ignoreSig cs = false ∧ E.ValidateBasic cs = true ∧
      ((resolve vals byIndex s.seenVals idx cs = .skip ∧ s1.seenVals = s.seenVals ∧
          s1.cache = s.cache ∧ s1.calls = s.calls) ∨
        (∃ v seen1 pk, resolve vals byIndex s.seenVals idx cs = .found v seen1 ∧
          s1.seenVals = seen1 ∧ v.PubKey = some pk ∧
          (s.cache = none →
            s1.cache = none ∧
            E.VerifySignature pk (E.VoteSignBytes commit chainID (wrapInt32 idx))
              cs.Signature = true ∧
            s1.calls = s.calls ++ [.VerifySignature idx])))) := by
  rw [singleBody_eq] at h
  by_cases hi : ignoreSig cs = true
  · rw [if_pos hi] at h
    cases h
    exact Or.inl ⟨hi, rfl⟩
  · rw [if_neg hi] at h
    have hif : ignoreSig cs = false := by simpa using hi
    by_cases hvb : ¬ E.ValidateBasic cs = true
    · rw [if_pos hvb] at h
      cases h
    · rw [if_neg hvb] at h
      have hvb1 : E.ValidateBasic cs = true := by simpa using hvb
      right
      refine ⟨hif, hvb1, ?_⟩
      cases hres : resolve vals byIndex s.seenVals idx cs with
      | panic => rw [hres] at h; cases h
      | skip =>
        rw [hres] at h
        cases h
        exact Or.inl ⟨rfl, rfl, rfl, rfl⟩
      | doubleVote w i => rw [hres] at h; cases h
      | found w seen =>
        rw [hres] at h
        simp only [] at h
        obtain ⟨h1, pk, h2, h3⟩ := singleCheck_next E chainID commit needed countSig countAll
          idx cs w _ s1 h
        exact Or.inr ⟨w, seen, pk, rfl, h1, h2, h3⟩

/-- Without cache, a loop of `verifyCommitSingle` that ran to the end of the
entries has found every entry that is not ignored well formed and has verified
its signature with success. -/
theorem singleLoop_next_good (sigs : List CommitSig) (idx : Nat) (s s1 : SingleState)
    (hc : s.cache = none)
    (h : singleLoop E chainID vals commit needed ignoreSig countSig countAll byIndex sigs idx s
      = .next s1) :
    s1.cache = none ∧
    ∀ p ∈ sigs.enumFrom idx, ignoreSig p.2 = false →
      entryWellFormed E vals byIndex p.1 p.2 = true ∧
      entryVerifies E chainID vals commit byIndex p.1 p.2 = true ∧
      (pairedValidator vals byIndex p.1 p.2 ≠ none →
        CryptoCall.VerifySignature p.1 ∈ s1.calls) := by
  induction sigs generalizing idx s with
  | nil =>
    simp only [singleLoop] at h
    cases h
    exact ⟨hc, by simp⟩
  | cons cs rest ih =>
    rw [singleLoop] at h
    cases hbody : singleBody E chainID vals commit needed ignoreSig countSig countAll byIndex
        idx cs s with
    | brk s2 => rw [hbody] at h; cases h
    | ret r s2 => rw [hbody] at h; cases h
    | next s2 =>
      rw [hbody] at h
      simp only [] at h
      obtain ⟨new, adds, hcalls, -, -, -⟩ :=
        singleLoop_trace E chainID vals commit needed ignoreSig countSig countAll byIndex
          rest (idx + 1) s2
      rw [h] at hcalls
      simp only [Flow.state] at hcalls
      have hfirst : s2.cache = none ∧ (ignoreSig cs = false →
          entryWellFormed E vals byIndex idx cs = true ∧
          entryVerifies E chainID vals commit byIndex idx cs = true ∧
          (pairedValidator vals byIndex idx cs ≠ none →
            CryptoCall.VerifySignature idx ∈ s2.calls)) := by
        rcases singleBody_next E chainID vals commit needed ignoreSig countSig countAll byIndex
          idx cs s s2 hbody with ⟨hi, rfl⟩ | ⟨hi, hvb, hskip | hfound⟩
        · exact ⟨hc, fun hno => by rw [hi] at hno; cases hno⟩
        · obtain ⟨hres, -, hcache, -⟩ := hskip
          refine ⟨by rw [hcache, hc], fun _ => ?_⟩
          have hbi : byIndex = false := by
            cases hb : byIndex with
            | false => rfl
            | true =>
              rw [hb] at hres
              unfold resolve at hres
              simp only [if_true] at hres
              cases hv : vals.Validators[idx]? <;> simp [hv] at hres
          have hnone : pairedValidator vals byIndex idx cs = none := by
            rw [hbi] at hres
            exact pairedValidator_of_skip vals byIndex idx cs hbi
              ((resolve_byAddress vals s.seenVals idx cs).1 hres)
          refine ⟨?_, ?_, fun hne => absurd hnone hne⟩
          · simp only [entryWellFormed, hvb, hnone]
            simp [hbi]
          · simp only [entryVerifies, hnone]
        · obtain ⟨v, seen1, pk, hres, -, hpk, hrest⟩ := hfound
          obtain ⟨h1, h2, h3⟩ := hrest hc
          have hpv := resolve_found_paired vals byIndex _ _ idx cs v hres
          refine ⟨h1, fun _ => ⟨?_, ?_, fun _ => by rw [h3]; simp⟩⟩
          · simp [entryWellFormed, hvb, hpv, hpk]
          · simp only [entryVerifies, hpv, hpk]
            exact h2
      obtain ⟨hc1, hrestGood⟩ := ih (idx + 1) s2 hfirst.1 h
      refine ⟨hc1, ?_⟩
      intro p hp hi
      rw [List.enumFrom_cons] at hp
      rcases List.mem_cons.mp hp with rfl | hp
      · obtain ⟨g1, g2, g3⟩ := hfirst.2 hi
        exact ⟨g1, g2, fun hne => by rw [hcalls]; exact List.mem_append_left _ (g3 hne)⟩
      · exact hrestGood p hp hi

/-- With lookup by address, a loop of `verifyCommitSingle` that ran to the end
of the entries has met no validator twice. -/
theorem singleLoop_next_noDoubleVote (sigs : List CommitSig) (idx : Nat) (s s1 : SingleState)
    (h : singleLoop E chainID vals commit needed ignoreSig countSig countAll false sigs idx s
      = .next s1) :
    NoDoubleVote vals ignoreSig sigs ∧
    (∀ c ∈ sigs, ignoreSig c = false → ∀ i, addressedIndex vals c = some i →
      s.seenVals.lookup i = none) ∧
    (∀ i, s1.seenVals.lookup i = none → s.seenVals.lookup i = none) := by
  induction sigs generalizing idx s with
  | nil =>
    simp only [singleLoop] at h
    cases h
    exact ⟨List.Pairwise.nil, by simp, fun _ h => h⟩
  | cons cs rest ih =>
    rw [singleLoop] at h
    cases hbody : singleBody E chainID vals commit needed ignoreSig countSig countAll false
        idx cs s with
    | brk s2 => rw [hbody] at h; cases h
    | ret r s2 => rw [hbody] at h; cases h
    | next s2 =>
      rw [hbody] at h
      simp only [] at h
      obtain ⟨hndv, hunseen, hmono⟩ := ih (idx + 1) s2 h
      have hstep : (s2.seenVals = s.seenVals ∧
            (ignoreSig cs = false → addressedIndex vals cs = none)) ∨
          (∃ i, addressedIndex vals cs = some i ∧ s.seenVals.lookup i = none ∧
            s2.seenVals = (i, idx) :: s.seenVals) := by
        rcases singleBody_next E chainID vals commit needed ignoreSig countSig countAll false
          idx cs s s2 hbody with ⟨hi, rfl⟩ | ⟨hi, -, hskip | hfound⟩
        · exact Or.inl ⟨rfl, fun hno => by rw [hi] at hno; cases hno⟩
        · exact Or.inl ⟨hskip.2.1, fun _ => (resolve_byAddress vals _ idx cs).1 hskip.1⟩
        · obtain ⟨v, seen1, pk, hres, hs, -, -⟩ := hfound
          obtain ⟨i, h1, h2, h3⟩ := (resolve_byAddress vals _ idx cs).2 v seen1 hres
          exact Or.inr ⟨i, h1, h2, by rw [hs, h3]⟩
      have hback : ∀ i, s2.seenVals.lookup i = none → s.seenVals.lookup i = none := by
        intro i hi
        rcases hstep with ⟨hs, -⟩ | ⟨j, -, -, hs⟩
        · rw [← hs]; exact hi
        · rw [hs, List.lookup_cons] at hi
          cases hij : i == j with
          | true => rw [hij] at hi; cases hi
          | false => rw [hij] at hi; exact hi
      refine ⟨?_, ?_, fun i hi => hback i (hmono i hi)⟩
      · unfold NoDoubleVote
        rw [List.pairwise_cons]
        refine ⟨?_, hndv⟩
        intro c hc hics hic
        rcases hstep with ⟨-, hnone⟩ | ⟨j, hj, -, hs⟩
        · exact Or.inl (hnone hics)
        · right
          intro heq
          have := hunseen c hc hic j (by rw [← heq, hj])
          rw [hs, List.lookup_cons] at this
          simp at this
      · intro c hc hic i hi
        rcases List.mem_cons.mp hc with rfl | hc
        · rcases hstep with ⟨-, hnone⟩ | ⟨j, hj, hl, -⟩
          · rw [hnone hic] at hi; cases hi
          · rw [hj] at hi
            cases hi
            exact hl
        · exact hback i (hunseen c hc hic i hi)

end Loops
section Loops

variable (E : Env) (bv : BatchVerifier) (chainID : String) (vals : ValidatorSet)
  (commit : Commit) (needed : Int) (ignoreSig countSig : CommitSig → Bool)
  (countAll byIndex : Bool) (cache : Option SignatureCache)

/-- The loop of `verifyCommitSingle` never returns the threshold error. -/
theorem singleLoop_ret_kind (sigs : List CommitSig) (idx : Nat) (s s1 : SingleState)
    (r : Outcome)
    (h : singleLoop E chainID vals commit needed ignoreSig countSig countAll byIndex sigs idx s
      = .ret r s1) (g n : Int) :
    r ≠ .reject (.NotEnoughVotingPowerSigned g n) := by
  induction sigs generalizing idx s with
  | nil => simp [singleLoop] at h
  | cons cs rest ih =>
    rw [singleLoop] at h
    cases hbody : singleBody E chainID vals commit needed ignoreSig countSig countAll byIndex
        idx cs s with
    | next s2 =>
      rw [hbody] at h
      exact ih _ _ h
    | brk s2 => rw [hbody] at h; cases h
    | ret r2 s2 =>
      rw [hbody] at h
      cases h
      rw [singleBody_eq] at hbody
      split at hbody
      · cases hbody
      · split at hbody
        · cases hbody
          simp
        · cases hres : resolve vals byIndex s.seenVals idx cs with
          | panic => rw [hres] at hbody; cases hbody; simp
          | skip => rw [hres] at hbody; cases hbody
          | doubleVote w i => rw [hres] at hbody; cases hbody; simp
          | found w seen =>
            rw [hres] at hbody
            simp only [singleCheck] at hbody
            cases hpk : w.PubKey with
            | none => rw [hpk] at hbody; cases hbody; simp
            | some pk =>
              rw [hpk] at hbody
              simp only [] at hbody
              split at hbody
              · cases hbody; simp
              · split at hbody
                · cases hbody; simp
                · cases hbody

/-- From inside its loop `verifyCommitBatch` returns neither `WrongSignature`
nor the threshold error. -/
theorem batchLoop_ret_kind (sigs : List CommitSig) (idx : Nat) (b b1 : BatchState)
    (r : Outcome)
    (h : batchLoop E bv chainID vals commit needed ignoreSig countSig countAll byIndex cache
      sigs idx b = .ret r b1) :
    (∀ i o, r ≠ .reject (.WrongSignature i o)) ∧
    (∀ g n, r ≠ .reject (.NotEnoughVotingPowerSigned g n)) := by
  induction sigs generalizing idx b with
  | nil => simp [batchLoop] at h
  | cons cs rest ih =>
    rw [batchLoop] at h
    cases hbody : batchBody E bv chainID vals commit needed ignoreSig countSig countAll byIndex
        cache idx cs b with
    | next b2 =>
      rw [hbody] at h
      exact ih _ _ h
    | brk b2 => rw [hbody] at h; cases h
    | ret r2 b2 =>
      rw [hbody] at h
      cases h
      rw [batchBody_eq] at hbody
      split at hbody
      · cases hbody
      · cases hres : resolve vals byIndex b.seenVals idx cs with
        | panic => rw [hres] at hbody; cases hbody; simp
        | skip => rw [hres] at hbody; cases hbody
        | doubleVote w i => rw [hres] at hbody; cases hbody; simp
        | found w seen =>
          rw [hres] at hbody
          simp only [batchCheck] at hbody
          cases hhit : batchCacheHit E cache cs w.PubKey
              (E.VoteSignBytes commit chainID (wrapInt32 idx)) with
          | none => rw [hhit] at hbody; cases hbody; simp
          | some hit =>
            rw [hhit] at hbody
            simp only [] at hbody
            split at hbody
            · cases hbody; simp
            · split at hbody <;> cases hbody

/-- An iteration of `verifyCommitBatch` that does not return: how the entry
was resolved and, without cache, that it has been added to the batch. -/
theorem batchBody_next (idx : Nat) (cs : CommitSig) (b b1 : BatchState)
    (h : batchBody E bv chainID vals commit needed ignoreSig countSig countAll byIndex cache
        idx cs b = .next b1 ∨
      batchBody E bv chainID vals commit needed ignoreSig countSig countAll byIndex cache
        idx cs b = .brk b1) :
    (ignoreSig cs = true ∧ b1 = b) ∨
    (ignoreSig cs = false ∧
      ((resolve vals byIndex b.seenVals idx cs = .skip ∧ b1.seenVals = b.seenVals ∧
          b1.calls = b.calls) ∨
        (∃ v seen1, resolve vals byIndex b.seenVals idx cs = .found v seen1 ∧
          b1.seenVals = seen1 ∧
          (cache = none → b1.calls = b.calls ++ [.BatchAdd idx])))) := by
  rw [batchBody_eq] at h
  by_cases hi : ignoreSig cs = true
  · rw [if_pos hi] at h
    rcases h with h | h
    · cases h
      exact Or.inl ⟨hi, rfl⟩
    · cases h
  · rw [if_neg hi] at h
    have hif : ignoreSig cs = false := by simpa using hi
    right
    refine ⟨hif, ?_⟩
    cases hres : resolve vals byIndex b.seenVals idx cs with
    | panic => rw [hres] at h; rcases h with h | h <;> cases h
    | skip =>
      rw [hres] at h
      rcases h with h | h
      · cases h
        exact Or.inl ⟨rfl, rfl, rfl⟩
      · cases h
    | doubleVote w i => rw [hres] at h; rcases h with h | h <;> cases h
    | found w seen =>
      rw [hres] at h
      right
      refine ⟨w, seen, rfl, ?_⟩
      simp only [batchCheck] at h
      cases hhit : batchCacheHit E cache cs w.PubKey
          (E.VoteSignBytes commit chainID (wrapInt32 idx)) with
      | none => rw [hhit] at h; rcases h with h | h <;> cases h
      | some hit =>
        rw [hhit] at h
        simp only [] at h
        cases hadd : (if hit = true then none
            else bv.Add b.batch (batchEntry E chainID commit idx cs w)) with
        | some reason => rw [hadd] at h; rcases h with h | h <;> cases h
        | none =>
          rw [hadd] at h
          simp only [] at h
          have hb1 : b1 = batchAfter E chainID commit countSig idx cs w hit
              { b with val := some w, seenVals := seen } := by
            rcases h with h | h
            · split at h
              · cases h
              · exact (Flow.next.inj h).symm
            · split at h
              · exact (Flow.brk.inj h).symm
              · cases h
          refine ⟨by rw [hb1]; rfl, ?_⟩
          intro hc
          rw [hc] at hhit
          simp only [batchCacheHit, Option.some.injEq] at hhit
          rw [hb1, ← hhit]
          simp [batchAfter]

/-- Without cache, a loop of `verifyCommitBatch` that ran to the end of the
entries has added to the batch every entry that is not ignored and is paired
with a validator. -/
theorem batchLoop_next_added (sigs : List CommitSig) (idx : Nat) (b b1 : BatchState)
    (hc : cache = none)
    (h : batchLoop E bv chainID vals commit needed ignoreSig countSig countAll byIndex cache
      sigs idx b = .next b1) :
    ∀ p ∈ sigs.enumFrom idx, ignoreSig p.2 = false →
      pairedValidator vals byIndex p.1 p.2 ≠ none → CryptoCall.BatchAdd p.1 ∈ b1.calls := by
  induction sigs generalizing idx b with
  | nil => simp
  | cons cs rest ih =>
    rw [batchLoop] at h
    cases hbody : batchBody E bv chainID vals commit needed ignoreSig countSig countAll byIndex
        cache idx cs b with
    | brk b2 => rw [hbody] at h; cases h
    | ret r b2 => rw [hbody] at h; cases h
    | next b2 =>
      rw [hbody] at h
      simp only [] at h
      obtain ⟨new, extra, hcalls, -, -, -⟩ :=
        batchLoop_trace E bv chainID vals commit needed ignoreSig countSig countAll byIndex
          cache rest (idx + 1) b2
      rw [h] at hcalls
      simp only [Flow.state] at hcalls
      intro p hp hi hpv
      rw [List.enumFrom_cons] at hp
      rcases List.mem_cons.mp hp with rfl | hp
      · rw [hcalls]
        apply List.mem_append_left
        rcases batchBody_next E bv chainID vals commit needed ignoreSig countSig countAll
          byIndex cache idx cs b b2 (Or.inl hbody) with ⟨hi2, -⟩ | ⟨-, hskip | hfound⟩
        · rw [hi2] at hi; cases hi
        · exfalso
          apply hpv
          have hbi : byIndex = false := by
            cases hb : byIndex with
            | false => rfl
            | true =>
              have hres := hskip.1
              rw [hb] at hres
              unfold resolve at hres
              simp only [if_true] at hres
              cases hv : vals.Validators[idx]? <;> simp [hv] at hres
          have hres := hskip.1
          rw [hbi] at hres
          exact pairedValidator_of_skip vals byIndex idx cs hbi
            ((resolve_byAddress vals b.seenVals idx cs).1 hres)
        · obtain ⟨v, seen1, -, -, hadd⟩ := hfound
          rw [hadd hc]
          simp
      · exact ih (idx + 1) b2 h p hp hi hpv

/-- With lookup by address, a loop of `verifyCommitBatch` that ran to the end
of the entries has met no validator twice. -/
theorem batchLoop_next_noDoubleVote (sigs : List CommitSig) (idx : Nat) (b b1 : BatchState)
    (h : batchLoop E bv chainID vals commit needed ignoreSig countSig countAll false cache
      sigs idx b = .next b1) :
    NoDoubleVote vals ignoreSig sigs ∧
    (∀ c ∈ sigs, ignoreSig c = false → ∀ i, addressedIndex vals c = some i →
      b.seenVals.lookup i = none) ∧
    (∀ i, b1.seenVals.lookup i = none → b.seenVals.lookup i = none) := by
  induction sigs generalizing idx b with
  | nil =>
    simp only [batchLoop] at h
    cases h
    exact ⟨List.Pairwise.nil, by simp, fun _ h => h⟩
  | cons cs rest ih =>
    rw [batchLoop] at h
    cases hbody : batchBody E bv chainID vals commit needed ignoreSig countSig countAll false
        cache idx cs b with
    | brk b2 => rw [hbody] at h; cases h
    | ret r b2 => rw [hbody] at h; cases h
    | next b2 =>
      rw [hbody] at h
      simp only [] at h
      obtain ⟨hndv, hunseen, hmono⟩ := ih (idx + 1) b2 h
      have hstep : (b2.seenVals = b.seenVals ∧
            (ignoreSig cs = false → addressedIndex vals cs = none)) ∨
          (∃ i, addressedIndex vals cs = some i ∧ b.seenVals.lookup i = none ∧
            b2.seenVals = (i, idx) :: b.seenVals) := by
        rcases batchBody_next E bv chainID vals commit needed ignoreSig countSig countAll false
          cache idx cs b b2 (Or.inl hbody) with ⟨hi, rfl⟩ | ⟨hi, hskip | hfound⟩
        · exact Or.inl ⟨rfl, fun hno => by rw [hi] at hno; cases hno⟩
        · exact Or.inl ⟨hskip.2.1, fun _ => (resolve_byAddress vals _ idx cs).1 hskip.1⟩
        · obtain ⟨v, seen1, hres, hs, -⟩ := hfound
          obtain ⟨i, h1, h2, h3⟩ := (resolve_byAddress vals _ idx cs).2 v seen1 hres
          exact Or.inr ⟨i, h1, h2, by rw [hs, h3]⟩
      have hback : ∀ i, b2.seenVals.lookup i = none → b.seenVals.lookup i = none := by
        intro i hi
        rcases hstep with ⟨hs, -⟩ | ⟨j, -, -, hs⟩
        · rw [← hs]; exact hi
        · rw [hs, List.lookup_cons] at hi
          cases hij : i == j with
          | true => rw [hij] at hi; cases hi
          | false => rw [hij] at hi; exact hi
      refine ⟨?_, ?_, fun i hi => hback i (hmono i hi)⟩
      · unfold NoDoubleVote
        rw [List.pairwise_cons]
        refine ⟨?_, hndv⟩
        intro c hc hics hic
        rcases hstep with ⟨-, hnone⟩ | ⟨j, hj, -, hs⟩
        · exact Or.inl (hnone hics)
        · right
          intro heq
          have := hunseen c hc hic j (by rw [← heq, hj])
          rw [hs, List.lookup_cons] at this
          simp at this
      · intro c hc hic i hi
        rcases List.mem_cons.mp hc with rfl | hc
        · rcases hstep with ⟨-, hnone⟩ | ⟨j, hj, hl, -⟩
          · rw [hnone hic] at hi; cases hi
          · rw [hj] at hi
            cases hi
            exact hl
        · exact hback i (hunseen c hc hic i hi)

end Loops

section Loops

variable (E : Env) (bv : BatchVerifier) (chainID : String) (vals : ValidatorSet)
  (commit : Commit) (needed : Int) (ignoreSig countSig : CommitSig → Bool)
  (countAll byIndex : Bool) (cache : Option SignatureCache)

/-- The loop of `verifyCommitSingle` has no `break`. -/
theorem singleLoop_ne_brk (sigs : List CommitSig) (idx : Nat) (s s1 : SingleState) :
    singleLoop E chainID vals commit needed ignoreSig countSig countAll byIndex sigs idx s
      ≠ .brk s1 := by
  induction sigs generalizing idx s with
  | nil => simp [singleLoop]
  | cons cs rest ih =>
    intro h
    rw [singleLoop] at h
    cases hbody : singleBody E chainID vals commit needed ignoreSig countSig countAll byIndex
        idx cs s with
    | next s2 =>
      rw [hbody] at h
      exact ih _ _ h
    | ret r s2 => rw [hbody] at h; cases h
    | brk s2 =>
      rw [singleBody_eq] at hbody
      split at hbody
      · cases hbody
      · split at hbody
        · cases hbody
        · cases hres : resolve vals byIndex s.seenVals idx cs with
          | panic => rw [hres] at hbody; cases hbody
          | skip => rw [hres] at hbody; cases hbody
          | doubleVote w i => rw [hres] at hbody; cases hbody
          | found w seen =>
            rw [hres] at hbody
            simp only [singleCheck] at hbody
            cases hpk : w.PubKey with
            | none => rw [hpk] at hbody; cases hbody
            | some pk =>
              rw [hpk] at hbody
              simp only [] at hbody
              split at hbody
              · cases hbody
              · split at hbody <;> cases hbody

/-- The loop of `verifyCommitBatch` breaks only with early exit, on a tally
above the threshold. -/
theorem batchLoop_brk (sigs : List CommitSig) (idx : Nat) (b b1 : BatchState)
    (h : batchLoop E bv chainID vals commit needed ignoreSig countSig countAll byIndex cache
      sigs idx b = .brk b1) :
    countAll = false ∧ needed < b1.talliedVotingPower := by
  induction sigs generalizing idx b with
  | nil => simp [batchLoop] at h
  | cons cs rest ih =>
    rw [batchLoop] at h
    cases hbody : batchBody E bv chainID vals commit needed ignoreSig countSig countAll byIndex
        cache idx cs b with
    | next b2 =>
      rw [hbody] at h
      exact ih _ _ h
    | ret r b2 => rw [hbody] at h; cases h
    | brk b2 =>
      rw [hbody] at h
      cases h
      rw [batchBody_eq] at hbody
      split at hbody
      · cases hbody
      · cases hres : resolve vals byIndex b.seenVals idx cs with
        | panic => rw [hres] at hbody; cases hbody
        | skip => rw [hres] at hbody; cases hbody
        | doubleVote w i => rw [hres] at hbody; cases hbody
        | found w seen =>
          rw [hres] at hbody
          simp only [batchCheck] at hbody
          cases hhit : batchCacheHit E cache cs w.PubKey
              (E.VoteSignBytes commit chainID (wrapInt32 idx)) with
          | none => rw [hhit] at hbody; cases hbody
          | some hit =>
            rw [hhit] at hbody
            simp only [] at hbody
            split at hbody
            · cases hbody
            · split at hbody
              · rename_i hx
                cases hbody
                exact hx
              · cases hbody

/-- The loop that follows a failed batch verification never returns the
threshold error. -/
theorem batchFindInvalid_kind (idxs : List Nat) (bits : List Bool) (i : Nat)
    (c : Option SignatureCache) (g n : Int) :
    (batchFindInvalid E chainID commit idxs bits i c).1
      ≠ .reject (.NotEnoughVotingPowerSigned g n) := by
  induction bits generalizing i c with
  | nil => simp [batchFindInvalid]
  | cons ok rest ih =>
    rw [batchFindInvalid]
    split
    · simp
    · split
      · simp
      · split
        · simp
        · exact ih _ _

end Loops

section Drivers

variable (E : Env) (chainID : String) (vals : ValidatorSet)
  (commit : Commit) (needed : Int) (ignoreSig countSig : CommitSig → Bool)
  (countAll byIndex : Bool)

/-- A run of `verifyCommitBatch` ends before the loop, without any call, or is
the end of the function applied to the loop over the signatures. -/
theorem verifyCommitBatch_cases (batchVerifier : Option BatchVerifier)
    (cache : Option SignatureCache) :
    (((verifyCommitBatch E chainID vals commit needed ignoreSig countSig countAll byIndex
          batchVerifier cache).result = .panic ∨
        (verifyCommitBatch E chainID vals commit needed ignoreSig countSig countAll byIndex
          batchVerifier cache).result = .reject .UnsupportedBatchSignature) ∧
      (verifyCommitBatch E chainID vals commit needed ignoreSig countSig countAll byIndex
        batchVerifier cache).calls = []) ∨
    ∃ bv : BatchVerifier,
      verifyCommitBatch E chainID vals commit needed ignoreSig countSig countAll byIndex
        batchVerifier cache =
      batchFinish E bv chainID commit needed cache
        (batchLoop E bv chainID vals commit needed ignoreSig countSig countAll byIndex cache
          commit.Signatures 0
          { val := none, seenVals := [], batchSigIdxs := [], batch := [],
            talliedVotingPower := 0, calls := [] }) := by
  unfold verifyCommitBatch
  cases batchVerifier with
  | some bv =>
    simp only []
    split
    · exact Or.inl ⟨Or.inr rfl, rfl⟩
    · exact Or.inr ⟨bv, rfl⟩
  | none =>
    simp only []
    cases vals.GetProposer with
    | none => exact Or.inl ⟨Or.inl rfl, rfl⟩
    | some p =>
      simp only []
      cases E.CreateBatchVerifier p.PubKey with
      | none => exact Or.inl ⟨Or.inr rfl, rfl⟩
      | some bv =>
        simp only []
        split
        · exact Or.inl ⟨Or.inr rfl, rfl⟩
        · exact Or.inr ⟨bv, rfl⟩

/-- When `verifyCommitBatch` returns `WrongSignature` or the threshold error,
its loop has ended without returning; the threshold error carries the tally
and the threshold, with the tally at or below the threshold, and
`WrongSignature` is returned only with a tally above the threshold. -/
theorem verifyCommitBatch_late_errors (batchVerifier : Option BatchVerifier)
    (cache : Option SignatureCache)
    (h : (∃ i o, (verifyCommitBatch E chainID vals commit needed ignoreSig countSig countAll
          byIndex batchVerifier cache).result = .reject (.WrongSignature i o)) ∨
      (∃ g n, (verifyCommitBatch E chainID vals commit needed ignoreSig countSig countAll
          byIndex batchVerifier cache).result = .reject (.NotEnoughVotingPowerSigned g n))) :
    ∃ (bv : BatchVerifier) (b : BatchState),
      (batchLoop E bv chainID vals commit needed ignoreSig countSig countAll byIndex cache
          commit.Signatures 0
          { val := none, seenVals := [], batchSigIdxs := [], batch := [],
            talliedVotingPower := 0, calls := [] } = .next b ∨
        batchLoop E bv chainID vals commit needed ignoreSig countSig countAll byIndex cache
          commit.Signatures 0
          { val := none, seenVals := [], batchSigIdxs := [], batch := [],
            talliedVotingPower := 0, calls := [] } = .brk b) ∧
      (verifyCommitBatch E chainID vals commit needed ignoreSig countSig countAll byIndex
        batchVerifier cache).tallied = b.talliedVotingPower ∧
      (∀ i o, (verifyCommitBatch E chainID vals commit needed ignoreSig countSig countAll
          byIndex batchVerifier cache).result = .reject (.WrongSignature i o) →
        needed < b.talliedVotingPower) ∧
      (∀ g n, (verifyCommitBatch E chainID vals commit needed ignoreSig countSig countAll
          byIndex batchVerifier cache).result = .reject (.NotEnoughVotingPowerSigned g n) →
        g = b.talliedVotingPower ∧ n = needed ∧ b.talliedVotingPower ≤ needed) := by
  rcases verifyCommitBatch_cases E chainID vals commit needed ignoreSig countSig countAll
    byIndex batchVerifier cache with ⟨hr, -⟩ | ⟨bv, hrun⟩
  · exfalso
    rcases h with ⟨i, o, h⟩ | ⟨g, n, h⟩ <;> rcases hr with hr | hr <;> rw [hr] at h <;> cases h
  · rw [hrun] at h ⊢
    cases hloop : batchLoop E bv chainID vals commit needed ignoreSig countSig countAll byIndex
        cache commit.Signatures 0
        { val := none, seenVals := [], batchSigIdxs := [], batch := [],
          talliedVotingPower := 0, calls := [] } with
    | ret r b =>
      exfalso
      obtain ⟨k1, k2⟩ := batchLoop_ret_kind E bv chainID vals commit needed ignoreSig countSig
        countAll byIndex cache _ _ _ b r hloop
      rw [hloop] at h
      rcases h with ⟨i, o, h⟩ | ⟨g, n, h⟩
      · exact k1 i o h
      · exact k2 g n h
    | next b =>
      refine ⟨bv, b, Or.inl hloop, batchFinish_tallied E chainID commit needed bv cache b _
        (Or.inl rfl), ?_, ?_⟩
      · intro i o hres
        by_contra hle
        simp only [batchFinish, not_lt.mp hle, if_true] at hres
        cases hres
      · intro g n hres
        by_cases hle : b.talliedVotingPower ≤ needed
        · simp only [batchFinish, hle, if_true] at hres
          cases hres
          exact ⟨rfl, rfl, hle⟩
        · exfalso
          simp only [batchFinish, hle, if_false] at hres
          split at hres
          · cases hres
          · split at hres
            · split at hres
              · cases hres
              · split at hres <;> cases hres
            · exact batchFindInvalid_kind E chainID commit _ _ _ _ g n hres
    | brk b =>
      refine ⟨bv, b, Or.inr hloop, batchFinish_tallied E chainID commit needed bv cache b _
        (Or.inr rfl), ?_, ?_⟩
      · intro i o hres
        by_contra hle
        simp only [batchFinish, not_lt.mp hle, if_true] at hres
        cases hres
      · intro g n hres
        by_cases hle : b.talliedVotingPower ≤ needed
        · simp only [batchFinish, hle, if_true] at hres
          cases hres
          exact ⟨rfl, rfl, hle⟩
        · exfalso
          simp only [batchFinish, hle, if_false] at hres
          split at hres
          · cases hres
          · split at hres
            · split at hres
              · cases hres
              · split at hres <;> cases hres
            · exact batchFindInvalid_kind E chainID commit _ _ _ _ g n hres

/-- When `verifyCommitSingle` returns the threshold error, its loop has run to
the end of the entries. -/
theorem verifyCommitSingle_threshold_error (cache : Option SignatureCache) (g n : Int)
    (h : (verifyCommitSingle E chainID vals commit needed ignoreSig countSig countAll byIndex
      cache).result = .reject (.NotEnoughVotingPowerSigned g n)) :
    ∃ s : SingleState,
      singleLoop E chainID vals commit needed ignoreSig countSig countAll byIndex
        commit.Signatures 0
        { val := none, seenVals := [], talliedVotingPower := 0, cache := cache, calls := [] }
        = .next s ∧
      g = s.talliedVotingPower ∧ n = needed ∧ s.talliedVotingPower ≤ needed ∧
      (verifyCommitSingle E chainID vals commit needed ignoreSig countSig countAll byIndex
        cache).calls = s.calls := by
  unfold verifyCommitSingle at h ⊢
  cases hloop : singleLoop E chainID vals commit needed ignoreSig countSig countAll byIndex
      commit.Signatures 0
      { val := none, seenVals := [], talliedVotingPower := 0, cache := cache, calls := [] } with
  | ret r s =>
    rw [hloop] at h
    exact absurd h (singleLoop_ret_kind E chainID vals commit needed ignoreSig countSig countAll
      byIndex _ _ _ s r hloop g n)
  | brk s =>
    exact absurd hloop (singleLoop_ne_brk E chainID vals commit needed ignoreSig countSig
      countAll byIndex _ _ _ s)
  | next s =>
    rw [hloop] at h
    simp only [singleFinish] at h
    by_cases hle : s.talliedVotingPower ≤ needed
    · rw [if_pos hle] at h
      cases h
      exact ⟨s, rfl, rfl, rfl, hle, rfl⟩
    · rw [if_neg hle] at h
      cases h

end Drivers

/-! ### The order of the errors -/

/-- C14 (counterexample): `VerifyCommit` on four validators of power 10
(threshold 26) and a commit that holds a corrupted signature, a valid one and
two absent entries. The commit contains an invalid signature that is not
ignored and its tally, 20, does not exceed the threshold. With keys that do
not support batch verification the result is `WrongSignature` for index 0;
with keys that do, the batch path returns `NotEnoughVotingPowerSigned{20, 26}`
although the invalid signature is present. -/
theorem verifyCommit_threshold_error_before_wrongSignature :
    entryVerifies (Fixture.env true) "c" Fixture.vals4
      (Fixture.commitOf [Fixture.corrupted 1, Fixture.absent, Fixture.signed 3,
        Fixture.absent]) true 0 (Fixture.corrupted 1) = false ∧
    (VerifyCommit (Fixture.env false) "c" (some Fixture.vals4) Fixture.blockB 7
        (some (Fixture.commitOf [Fixture.corrupted 1, Fixture.absent, Fixture.signed 3,
          Fixture.absent]))).result
      = .reject (.WrongSignature 0 (.sigBytes [101, 1, 7])) ∧
    (VerifyCommit (Fixture.env true) "c" (some Fixture.vals4) Fixture.blockB 7
        (some (Fixture.commitOf [Fixture.corrupted 1, Fixture.absent, Fixture.signed 3,
          Fixture.absent]))).result
      = .reject (.NotEnoughVotingPowerSigned 20 26) := by
  decide

/-- C14 (amended): the precondition errors come first: when
`verifyBasicValsAndCommit` fails, `VerifyCommit` and
`verifyCommitLightInternal` return its error without any cryptographic call.
`verifyCommitSingle` (no cache) returns `NotEnoughVotingPowerSigned` only when
no other failure is present in the commit: every entry that is not ignored is
well formed and verifies, no validator is addressed twice, and the error
carries the tally and the threshold. `verifyCommitBatch` reports in the order
loop errors, threshold, signatures: it returns `NotEnoughVotingPowerSigned`
whenever its loop ends with a tally at or below the threshold, without calling
`Verify`, and `WrongSignature` only when the tally exceeds the threshold; in
both cases, when every signature is counted, no validator is addressed
twice. -/
theorem error_order_by_driver (E : Env) (chainID : String) (vals : ValidatorSet)
    (commit : Commit) (votingPowerNeeded : Int) (ignoreSig countSig : CommitSig → Bool)
    (countAllSignatures lookUpByIndex : Bool) :
    (∀ (ovals : Option ValidatorSet) (ocommit : Option Commit) (blockID : BlockID)
        (height : Int) (err : VerifyError) (countAll : Bool) (cache : Option SignatureCache),
      verifyBasicValsAndCommit ovals ocommit height blockID = some err →
      (VerifyCommit E chainID ovals blockID height ocommit).result = .reject err ∧
      (VerifyCommit E chainID ovals blockID height ocommit).calls = [] ∧
      (verifyCommitLightInternal E chainID ovals blockID height ocommit countAll cache).result
        = .reject err ∧
      (verifyCommitLightInternal E chainID ovals blockID height ocommit countAll cache).calls
        = []) ∧
    (∀ g n,
      (verifyCommitSingle E chainID vals commit votingPowerNeeded ignoreSig countSig
        countAllSignatures lookUpByIndex none).result
        = .reject (.NotEnoughVotingPowerSigned g n) →
      g = (verifyCommitSingle E chainID vals commit votingPowerNeeded ignoreSig countSig
        countAllSignatures lookUpByIndex none).tallied ∧
      n = votingPowerNeeded ∧ g ≤ votingPowerNeeded ∧
      (∀ p ∈ commit.Signatures.enum, ignoreSig p.2 = false →
        entryWellFormed E vals lookUpByIndex p.1 p.2 = true ∧
          entryVerifies E chainID vals commit lookUpByIndex p.1 p.2 = true) ∧
      (lookUpByIndex = false → NoDoubleVote vals ignoreSig commit.Signatures)) ∧
    (∀ (batchVerifier : Option BatchVerifier) (cache : Option SignatureCache),
      (∀ i o,
        (verifyCommitBatch E chainID vals commit votingPowerNeeded ignoreSig countSig
          countAllSignatures lookUpByIndex batchVerifier cache).result
          = .reject (.WrongSignature i o) →
        votingPowerNeeded < (verifyCommitBatch E chainID vals commit votingPowerNeeded
          ignoreSig countSig countAllSignatures lookUpByIndex batchVerifier cache).tallied ∧
        (countAllSignatures = true → lookUpByIndex = false →
          NoDoubleVote vals ignoreSig commit.Signatures)) ∧
      (∀ g n,
        (verifyCommitBatch E chainID vals commit votingPowerNeeded ignoreSig countSig
          countAllSignatures lookUpByIndex batchVerifier cache).result
          = .reject (.NotEnoughVotingPowerSigned g n) →
        g = (verifyCommitBatch E chainID vals commit votingPowerNeeded ignoreSig countSig
          countAllSignatures lookUpByIndex batchVerifier cache).tallied ∧
        n = votingPowerNeeded ∧ g ≤ votingPowerNeeded ∧
        CryptoCall.BatchVerify ∉ (verifyCommitBatch E chainID vals commit votingPowerNeeded
          ignoreSig countSig countAllSignatures lookUpByIndex batchVerifier cache).calls ∧
        (countAllSignatures = true → lookUpByIndex = false →
          NoDoubleVote vals ignoreSig commit.Signatures))) := by
  refine ⟨?_, ?_, ?_⟩
  · intro ovals ocommit blockID height err countAll cache herr
    simp [VerifyCommit, verifyCommitLightInternal, herr, earlyReturn]
  · intro g n hres
    obtain ⟨s, hloop, hg, hn, hle, -⟩ :=
      verifyCommitSingle_threshold_error E chainID vals commit votingPowerNeeded ignoreSig
        countSig countAllSignatures lookUpByIndex none g n hres
    have htal : (verifyCommitSingle E chainID vals commit votingPowerNeeded ignoreSig countSig
        countAllSignatures lookUpByIndex none).tallied = s.talliedVotingPower := by
      unfold verifyCommitSingle
      rw [hloop]
      rfl
    obtain ⟨-, hgood⟩ := singleLoop_next_good E chainID vals commit votingPowerNeeded
      ignoreSig countSig countAllSignatures lookUpByIndex commit.Signatures 0 _ s rfl hloop
    refine ⟨by rw [htal, hg], hn, by rw [hg]; exact hle, ?_, ?_⟩
    · intro p hp hi
      obtain ⟨h1, h2, -⟩ := hgood p hp hi
      exact ⟨h1, h2⟩
    · intro hbi
      subst hbi
      exact (singleLoop_next_noDoubleVote E chainID vals commit votingPowerNeeded ignoreSig
        countSig countAllSignatures commit.Signatures 0 _ s hloop).1
  · intro batchVerifier cache
    have hndv : ∀ (bv : BatchVerifier) (b : BatchState),
        (batchLoop E bv chainID vals commit votingPowerNeeded ignoreSig countSig
            countAllSignatures lookUpByIndex cache commit.Signatures 0
            { val := none, seenVals := [], batchSigIdxs := [], batch := [],
              talliedVotingPower := 0, calls := [] } = .next b ∨
          batchLoop E bv chainID vals commit votingPowerNeeded ignoreSig countSig
            countAllSignatures lookUpByIndex cache commit.Signatures 0
            { val := none, seenVals := [], batchSigIdxs := [], batch := [],
              talliedVotingPower := 0, calls := [] } = .brk b) →
        countAllSignatures = true → lookUpByIndex = false →
        NoDoubleVote vals ignoreSig commit.Signatures := by
      intro bv b hloop hca hbi
      subst hbi
      rcases hloop with h | h
      · exact (batchLoop_next_noDoubleVote E bv chainID vals commit votingPowerNeeded
          ignoreSig countSig countAllSignatures cache commit.Signatures 0 _ b h).1
      · have := (batchLoop_brk E bv chainID vals commit votingPowerNeeded ignoreSig countSig
          countAllSignatures false cache commit.Signatures 0 _ b h).1
        rw [hca] at this
        cases this
    constructor
    · intro i o hres
      obtain ⟨bv, b, hloop, htal, hw, -⟩ :=
        verifyCommitBatch_late_errors E chainID vals commit votingPowerNeeded ignoreSig countSig
          countAllSignatures lookUpByIndex batchVerifier cache (Or.inl ⟨i, o, hres⟩)
      exact ⟨by rw [htal]; exact hw i o hres, hndv bv b hloop⟩
    · intro g n hres
      obtain ⟨bv, b, hloop, htal, -, hn⟩ :=
        verifyCommitBatch_late_errors E chainID vals commit votingPowerNeeded ignoreSig countSig
          countAllSignatures lookUpByIndex batchVerifier cache (Or.inr ⟨g, n, hres⟩)
      obtain ⟨h1, h2, h3⟩ := hn g n hres
      obtain ⟨adds, -, -, -, -, g5⟩ :=
        verifyCommitBatch_trace E chainID vals commit votingPowerNeeded ignoreSig countSig
          countAllSignatures lookUpByIndex batchVerifier cache
      refine ⟨by rw [htal, h1], h2, by rw [h1]; exact h3, ?_, hndv bv b hloop⟩
      intro hv
      have := (g5 hv).1
      rw [htal] at this
      exact absurd this (not_lt.mpr h3)

/-- C14, at four validators of power 10 and threshold 26: `verifyCommitSingle`
returns `NotEnoughVotingPowerSigned{20, 26}` on a commit with two valid
signatures and two absent entries, in which therefore every entry that is not
ignored is well formed and verifies. -/
theorem error_order_by_driver_witness :
    (verifyCommitSingle (Fixture.env true) "c" Fixture.vals4
        (Fixture.commitOf [Fixture.signed 1, Fixture.signed 2, Fixture.absent,
          Fixture.absent])
        26 ignoreAbsent countCommit true true none).result
      = .reject (.NotEnoughVotingPowerSigned 20 26) ∧
    ∀ p ∈ (Fixture.commitOf [Fixture.signed 1, Fixture.signed 2, Fixture.absent,
        Fixture.absent]).Signatures.enum, ignoreAbsent p.2 = false →
      entryWellFormed (Fixture.env true) Fixture.vals4 true p.1 p.2 = true ∧
        entryVerifies (Fixture.env true) "c" Fixture.vals4
          (Fixture.commitOf [Fixture.signed 1, Fixture.signed 2, Fixture.absent,
            Fixture.absent]) true p.1 p.2 = true :=
  ⟨by decide,
    ((error_order_by_driver (Fixture.env true) "c" Fixture.vals4
      (Fixture.commitOf [Fixture.signed 1, Fixture.signed 2, Fixture.absent, Fixture.absent])
      26 ignoreAbsent countCommit true true).2.1 20 26 (by decide)).2.2.2.1⟩

/-! ### The tally of a loop that ran to its end -/

section Loops

variable (E : Env) (bv : BatchVerifier) (chainID : String) (vals : ValidatorSet)
  (commit : Commit) (needed : Int) (ignoreSig countSig : CommitSig → Bool)
  (countAll byIndex : Bool) (cache : Option SignatureCache)

/-- An entry is skipped only with lookup by address, when it is paired with no
validator. -/
theorem resolve_skip_paired (seen : List (Nat × Nat)) (idx : Nat) (cs : CommitSig)
    (h : resolve vals byIndex seen idx cs = .skip) :
    byIndex = false ∧ pairedValidator vals byIndex idx cs = none := by
  have hbi : byIndex = false := by
    cases hb : byIndex with
    | false => rfl
    | true =>
      rw [hb] at h
      unfold resolve at h
      simp only [if_true] at h
      cases hv : vals.Validators[idx]? <;> simp [hv] at h
  refine ⟨hbi, ?_⟩
  rw [hbi] at h
  exact pairedValidator_of_skip vals byIndex idx cs hbi
    ((resolve_byAddress vals seen idx cs).1 h)

/-- The tally after an iteration of `verifyCommitSingle` that goes on to the
next entry. -/
theorem singleBody_next_tally (idx : Nat) (cs : CommitSig) (s s1 : SingleState)
    (h : singleBody E chainID vals commit needed ignoreSig countSig countAll byIndex idx cs s
      = .next s1) :
    s1.talliedVotingPower =
      tallyOver vals ignoreSig countSig byIndex [cs] idx s.talliedVotingPower := by
  rw [singleBody_eq] at h
  simp only [tallyOver]
  by_cases hi : ignoreSig cs = true
  · rw [if_pos hi] at h
    cases h
    rw [if_pos hi]
  · rw [if_neg hi] at h
    rw [if_neg hi]
    by_cases hvb : ¬ E.ValidateBasic cs = true
    · rw [if_pos hvb] at h
      cases h
    · rw [if_neg hvb] at h
      cases hres : resolve vals byIndex s.seenVals idx cs with
      | panic => rw [hres] at h; cases h
      | skip =>
        rw [hres] at h
        cases h
        rw [(resolve_skip_paired vals byIndex _ idx cs hres).2]
      | doubleVote w i => rw [hres] at h; cases h
      | found w seen =>
        rw [hres] at h
        rw [resolve_found_paired vals byIndex _ _ idx cs w hres]
        simp only [singleCheck] at h
        cases hpk : w.PubKey with
        | none => rw [hpk] at h; cases h
        | some pk =>
          rw [hpk] at h
          simp only [] at h
          split at h
          · cases h
          · split at h
            · cases h
            · cases h
              rfl

/-- The tally of a loop of `verifyCommitSingle` that ran to the end of the
entries. -/
theorem singleLoop_next_tally (sigs : List CommitSig) (idx : Nat) (s s1 : SingleState)
    (h : singleLoop E chainID vals commit needed ignoreSig countSig countAll byIndex sigs idx s
      = .next s1) :
    s1.talliedVotingPower =
      tallyOver vals ignoreSig countSig byIndex sigs idx s.talliedVotingPower := by
  induction sigs generalizing idx s with
  | nil =>
    simp only [singleLoop] at h
    cases h
    rfl
  | cons cs rest ih =>
    rw [singleLoop] at h
    cases hbody : singleBody E chainID vals commit needed ignoreSig countSig countAll byIndex
        idx cs s with
    | brk s2 => rw [hbody] at h; cases h
    | ret r s2 => rw [hbody] at h; cases h
    | next s2 =>
      rw [hbody] at h
      simp only [] at h
      rw [tallyOver_cons, ← singleBody_next_tally E chainID vals commit needed ignoreSig countSig
        countAll byIndex idx cs s s2 hbody]
      exact ih _ _ h

/-- The loop of `verifyCommitSingle` returns `nil` only with early exit. -/
theorem singleLoop_ret_accept (sigs : List CommitSig) (idx : Nat) (s s1 : SingleState)
    (h : singleLoop E chainID vals commit needed ignoreSig countSig countAll byIndex sigs idx s
      = .ret .accept s1) :
    countAll = false ∧ needed < s1.talliedVotingPower := by
  induction sigs generalizing idx s with
  | nil => simp [singleLoop] at h
  | cons cs rest ih =>
    rw [singleLoop] at h
    cases hbody : singleBody E chainID vals commit needed ignoreSig countSig countAll byIndex
        idx cs s with
    | next s2 =>
      rw [hbody] at h
      exact ih _ _ h
    | brk s2 => rw [hbody] at h; cases h
    | ret r2 s2 =>
      rw [hbody] at h
      cases h
      rw [singleBody_eq] at hbody
      split at hbody
      · cases hbody
      · split at hbody
        · cases hbody
        · cases hres : resolve vals byIndex s.seenVals idx cs with
          | panic => rw [hres] at hbody; cases hbody
          | skip => rw [hres] at hbody; cases hbody
          | doubleVote w i => rw [hres] at hbody; cases hbody
          | found w seen =>
            rw [hres] at hbody
            simp only [singleCheck] at hbody
            cases hpk : w.PubKey with
            | none => rw [hpk] at hbody; cases hbody
            | some pk =>
              rw [hpk] at hbody
              simp only [] at hbody
              split at hbody
              · cases hbody
              · split at hbody
                · rename_i hx
                  cases hbody
                  exact hx
                · cases hbody

/-- An iteration of `verifyCommitBatch` that does not return: the tally, and
the log of the calls of `Add` next to the batched indices. -/
theorem batchBody_next_tally (idx : Nat) (cs : CommitSig) (b b1 : BatchState)
    (h : batchBody E bv chainID vals commit needed ignoreSig countSig countAll byIndex cache
        idx cs b = .next b1 ∨
      batchBody E bv chainID vals commit needed ignoreSig countSig countAll byIndex cache
        idx cs b = .brk b1) :
    b1.talliedVotingPower =
      tallyOver vals ignoreSig countSig byIndex [cs] idx b.talliedVotingPower ∧
    ∃ extra : List Nat, b1.batchSigIdxs = b.batchSigIdxs ++ extra ∧
      b1.calls = b.calls ++ extra.map CryptoCall.BatchAdd := by
  rw [batchBody_eq] at h
  simp only [tallyOver]
  by_cases hi : ignoreSig cs = true
  · rw [if_pos hi] at h
    rw [if_pos hi]
    rcases h with h | h
    · cases h
      exact ⟨rfl, [], by simp, by simp⟩
    · cases h
  · rw [if_neg hi] at h
    rw [if_neg hi]
    cases hres : resolve vals byIndex b.seenVals idx cs with
    | panic => rw [hres] at h; rcases h with h | h <;> cases h
    | skip =>
      rw [hres] at h
      rw [(resolve_skip_paired vals byIndex _ idx cs hres).2]
      rcases h with h | h
      · cases h
        exact ⟨rfl, [], by simp, by simp⟩
      · cases h
    | doubleVote w i => rw [hres] at h; rcases h with h | h <;> cases h
    | found w seen =>
      rw [hres] at h
      rw [resolve_found_paired vals byIndex _ _ idx cs w hres]
      simp only [batchCheck] at h
      cases hhit : batchCacheHit E cache cs w.PubKey
          (E.VoteSignBytes commit chainID (wrapInt32 idx)) with
      | none => rw [hhit] at h; rcases h with h | h <;> cases h
      | some hit =>
        rw [hhit] at h
        simp only [] at h
        cases hadd : (if hit = true then none
            else bv.Add b.batch (batchEntry E chainID commit idx cs w)) with
        | some reason => rw [hadd] at h; rcases h with h | h <;> cases h
        | none =>
          rw [hadd] at h
          simp only [] at h
          have hb1 : b1 = batchAfter E chainID commit countSig idx cs w hit
              { b with val := some w, seenVals := seen } := by
            rcases h with h | h
            · split at h
              · cases h
              · exact (Flow.next.inj h).symm
            · split at h
              · exact (Flow.brk.inj h).symm
              · cases h
          rw [hb1]
          refine ⟨rfl, ?_⟩
          cases hit with
          | true => exact ⟨[], by simp [batchAfter], by simp [batchAfter]⟩
          | false => exact ⟨[idx], by simp [batchAfter], by simp [batchAfter]⟩

/-- A loop of `verifyCommitBatch` that does not return has logged exactly the
calls of `Add` for the batched indices; when it ran to the end of the entries
its tally is that of `tallyOver`. -/
theorem batchLoop_next_tally (sigs : List CommitSig) (idx : Nat) (b b1 : BatchState)
    (h : batchLoop E bv chainID vals commit needed ignoreSig countSig countAll byIndex cache
        sigs idx b = .next b1 ∨
      batchLoop E bv chainID vals commit needed ignoreSig countSig countAll byIndex cache
        sigs idx b = .brk b1) :
    (batchLoop E bv chainID vals commit needed ignoreSig countSig countAll byIndex cache
        sigs idx b = .next b1 →
      b1.talliedVotingPower =
        tallyOver vals ignoreSig countSig byIndex sigs idx b.talliedVotingPower) ∧
    ∃ extra : List Nat, b1.batchSigIdxs = b.batchSigIdxs ++ extra ∧
      b1.calls = b.calls ++ extra.map CryptoCall.BatchAdd := by
  induction sigs generalizing idx b with
  | nil =>
    simp only [batchLoop] at h ⊢
    rcases h with h | h
    · cases h
      exact ⟨fun _ => rfl, [], by simp, by simp⟩
    · cases h
  | cons cs rest ih =>
    rw [batchLoop] at h ⊢
    cases hbody : batchBody E bv chainID vals commit needed ignoreSig countSig countAll byIndex
        cache idx cs b with
    | ret r b2 => rw [hbody] at h; rcases h with h | h <;> cases h
    | brk b2 =>
      rw [hbody] at h
      simp only [] at h ⊢
      have hb : b2 = b1 := by
        rcases h with h | h
        · cases h
        · exact Flow.brk.inj h
      subst hb
      refine ⟨fun hc => (by cases hc), ?_⟩
      exact (batchBody_next_tally E bv chainID vals commit needed ignoreSig countSig countAll
        byIndex cache idx cs b b2 (Or.inr hbody)).2
    | next b2 =>
      rw [hbody] at h
      simp only [] at h ⊢
      obtain ⟨ht1, extra1, hi1, hc1⟩ := batchBody_next_tally E bv chainID vals commit needed
        ignoreSig countSig countAll byIndex cache idx cs b b2 (Or.inl hbody)
      obtain ⟨ht2, extra2, hi2, hc2⟩ := ih (idx + 1) b2 h
      refine ⟨fun hn => ?_, extra1 ++ extra2, ?_, ?_⟩
      · rw [tallyOver_cons, ← ht1]
        exact ht2 hn
      · rw [hi2, hi1, List.append_assoc]
      · rw [hc2, hc1, List.map_append, List.append_assoc]

/-- With lookup by index, the predicates of `VerifyCommit`, voting powers that
are not negative and a sum within the `int64` range, the tally of `tallyOver`
is the voting power of the entries with flag `Commit`. -/
theorem tallyOver_commitFlagPower
    (hflag : ∀ cs, (ignoreSig cs = false ∧ countSig cs = true) ↔ cs.BlockIDFlag = .Commit)
    (sigs : List CommitSig) (vs : List Validator) (idx : Nat) (t : Int)
    (hvs : ∀ k, vals.Validators[idx + k]? = vs[k]?)
    (hlen : vs.length = sigs.length)
    (hpow : ∀ v ∈ vs, 0 ≤ v.VotingPower)
    (h0 : 0 ≤ t)
    (hmax : t + (vs.map (fun v => v.VotingPower)).sum ≤ MaxInt64) :
    tallyOver vals ignoreSig countSig true sigs idx t = t + commitFlagPower vs sigs := by
  induction sigs generalizing vs idx t with
  | nil =>
    cases vs with
    | nil => simp [tallyOver, commitFlagPower]
    | cons v vs => simp at hlen
  | cons cs rest ih =>
    cases vs with
    | nil => simp at hlen
    | cons v vs =>
      have hv : vals.Validators[idx]? = some v := by
        have := hvs 0
        simpa using this
      have hvs' : ∀ k, vals.Validators[idx + 1 + k]? = vs[k]? := by
        intro k
        have := hvs (k + 1)
        rw [show idx + (k + 1) = idx + 1 + k by omega] at this
        simpa using this
      have hlen' : vs.length = rest.length := by simpa using hlen
      have hpv : 0 ≤ v.VotingPower := hpow v (List.mem_cons_self _ _)
      have hpow' : ∀ w ∈ vs, 0 ≤ w.VotingPower :=
        fun w hw => hpow w (List.mem_cons_of_mem _ hw)
      have hsum0 : 0 ≤ (vs.map (fun v => v.VotingPower)).sum := by
        apply List.sum_nonneg
        intro x hx
        obtain ⟨w, hw, rfl⟩ := List.mem_map.mp hx
        exact hpow' w hw
      simp only [List.map_cons, List.sum_cons] at hmax
      have hmin : MinInt64 ≤ 0 := by decide
      rw [tallyOver_cons]
      have hone : tallyOver vals ignoreSig countSig true [cs] idx t =
          t + (if cs.BlockIDFlag = .Commit then v.VotingPower else 0) := by
        simp only [tallyOver, pairedValidator, if_true, hv]
        by_cases hi : ignoreSig cs = true
        · have hnc : ¬ cs.BlockIDFlag = .Commit := by
            intro hc
            have := ((hflag cs).mpr hc).1
            rw [hi] at this
            cases this
          rw [if_pos hi, if_neg hnc, add_zero]
        · rw [if_neg hi]
          have hif : ignoreSig cs = false := by simpa using hi
          unfold addTally
          by_cases hcnt : countSig cs = true
          · have hc : cs.BlockIDFlag = .Commit := (hflag cs).mp ⟨hif, hcnt⟩
            rw [if_pos hcnt, if_pos hc]
            exact wrapInt64_eq_self _ (by omega) (by omega)
          · have hnc : ¬ cs.BlockIDFlag = .Commit := by
              intro hc
              exact hcnt ((hflag cs).mpr hc).2
            rw [if_neg hcnt, if_neg hnc, add_zero]
      rw [hone, ih vs (idx + 1) _ hvs' hlen' hpow']
      · simp only [commitFlagPower]
        ring
      · split <;> omega
      · split <;> omega

end Loops

/-! ### The dispatch between the two drivers -/

/-- The driver that an entrypoint runs: `verifyCommitSingle`, or
`verifyCommitBatch` on at least two signatures with the exact verifier created
for the proposer's key. -/
theorem dispatch_cases (E : Env) (chainID : String) (vals : ValidatorSet)
    (commit : Commit) (needed : Int) (ignoreSig countSig : CommitSig → Bool)
    (countAll byIndex : Bool) (cache : Option SignatureCache)
    (hready : E.BatchReady vals) :
    (match shouldBatchVerify E vals commit with
      | none => earlyReturn .panic cache
      | some true =>
        verifyCommitBatch E chainID vals commit needed ignoreSig countSig countAll byIndex
          none cache
      | some false =>
        verifyCommitSingle E chainID vals commit needed ignoreSig countSig countAll byIndex
          cache) =
      verifyCommitSingle E chainID vals commit needed ignoreSig countSig countAll byIndex
        cache ∨
    (∃ bv p, vals.GetProposer = some p ∧ E.CreateBatchVerifier p.PubKey = some bv ∧
      bv.Exact E ∧ batchVerifyThreshold ≤ commit.Signatures.length ∧
      (match shouldBatchVerify E vals commit with
        | none => earlyReturn .panic cache
        | some true =>
          verifyCommitBatch E chainID vals commit needed ignoreSig countSig countAll byIndex
            none cache
        | some false =>
          verifyCommitSingle E chainID vals commit needed ignoreSig countSig countAll byIndex
            cache) =
        verifyCommitBatch E chainID vals commit needed ignoreSig countSig countAll byIndex
          none cache) := by
  obtain ⟨p, hp, hsup⟩ := hready
  unfold shouldBatchVerify
  by_cases hlen : commit.Signatures.length ≥ batchVerifyThreshold
  · simp only [hlen, if_true, hp]
    cases hs : (E.SupportsBatchVerifier p.PubKey && E.AllKeysHaveSameType vals) with
    | false => exact Or.inl rfl
    | true =>
      have hs1 : E.SupportsBatchVerifier p.PubKey = true := by
        simp only [Bool.and_eq_true] at hs
        exact hs.1
      obtain ⟨bv, hbv, hexact⟩ := hsup hs1
      exact Or.inr ⟨bv, p, rfl, hbv, hexact, trivial, rfl⟩
  · simp only [hlen, if_false]
    exact Or.inl trivial

section Drivers

variable (E : Env) (chainID : String) (vals : ValidatorSet)
  (commit : Commit) (needed : Int) (ignoreSig countSig : CommitSig → Bool)
  (countAll byIndex : Bool)

/-- With a tally above the threshold and a batch that is not empty, the end
of `verifyCommitBatch` calls `Verify`. -/
theorem batchFinish_calls (bv : BatchVerifier) (cache : Option SignatureCache)
    (b : BatchState) (ht : needed < b.talliedVotingPower) (hne : b.batchSigIdxs ≠ []) :
    (batchFinish E bv chainID commit needed cache (.next b)).calls
      = b.calls ++ [.BatchVerify] := by
  have hl : ¬ b.batchSigIdxs.length = 0 := fun h => hne (List.length_eq_zero.mp h)
  simp only [batchFinish, not_le.mpr ht, hl, if_false]
  cases hv : bv.Verify b.batch with
  | mk ok bits =>
    cases ok with
    | true =>
      simp only []
      cases cache with
      | none => rfl
      | some c =>
        simp only []
        cases batchCacheAll E chainID commit b.batchSigIdxs bits 0 c <;> rfl
    | false => rfl

/-- The run of `verifyCommitBatch` in terms of its loop, for the verifier
created for the proposer's key. -/
theorem verifyCommitBatch_run (cache : Option SignatureCache) (bv : BatchVerifier)
    (p : Validator) (hp : vals.GetProposer = some p)
    (hc : E.CreateBatchVerifier p.PubKey = some bv)
    (hlen : batchVerifyThreshold ≤ commit.Signatures.length) :
    verifyCommitBatch E chainID vals commit needed ignoreSig countSig countAll byIndex
      none cache =
      batchFinish E bv chainID commit needed cache
        (batchLoop E bv chainID vals commit needed ignoreSig countSig countAll byIndex cache
          commit.Signatures 0
          { val := none, seenVals := [], batchSigIdxs := [], batch := [],
            talliedVotingPower := 0, calls := [] }) := by
  have hnot : ¬ commit.Signatures.length < batchVerifyThreshold := not_lt.mpr hlen
  simp only [verifyCommitBatch, hp, hc, hnot, if_false]

end Drivers

/-! ### Full verification checks every signature -/

section Drivers

variable (E : Env) (chainID : String) (vals : ValidatorSet)
  (commit : Commit) (needed : Int) (ignoreSig countSig : CommitSig → Bool)
  (byIndex : Bool)

/-- When every signature is counted, `verifyCommitSingle` accepts only after
its loop has run to the end of the entries. -/
theorem verifyCommitSingle_countAll_accept (cache : Option SignatureCache)
    (h : (verifyCommitSingle E chainID vals commit needed ignoreSig countSig true byIndex
      cache).result = .accept) :
    ∃ s : SingleState,
      singleLoop E chainID vals commit needed ignoreSig countSig true byIndex
        commit.Signatures 0
        { val := none, seenVals := [], talliedVotingPower := 0, cache := cache, calls := [] }
        = .next s ∧
      (verifyCommitSingle E chainID vals commit needed ignoreSig countSig true byIndex
        cache).tallied = s.talliedVotingPower ∧
      (verifyCommitSingle E chainID vals commit needed ignoreSig countSig true byIndex
        cache).calls = s.calls := by
  unfold verifyCommitSingle at h ⊢
  cases hloop : singleLoop E chainID vals commit needed ignoreSig countSig true byIndex
      commit.Signatures 0
      { val := none, seenVals := [], talliedVotingPower := 0, cache := cache, calls := [] } with
  | ret r s =>
    rw [hloop] at h
    simp only [singleFinish] at h
    subst h
    have := (singleLoop_ret_accept E chainID vals commit needed ignoreSig countSig true byIndex
      _ _ _ s hloop).1
    cases this
  | brk s =>
    exact absurd hloop (singleLoop_ne_brk E chainID vals commit needed ignoreSig countSig
      true byIndex _ _ _ s)
  | next s => exact ⟨s, rfl, rfl, rfl⟩

/-- When every signature is counted, `verifyCommitBatch` accepts only after its
loop has run to the end of the entries, with a tally above the threshold. -/
theorem verifyCommitBatch_countAll_accept (cache : Option SignatureCache)
    (bv : BatchVerifier)
    (h : (batchFinish E bv chainID commit needed cache
      (batchLoop E bv chainID vals commit needed ignoreSig countSig true byIndex cache
        commit.Signatures 0
        { val := none, seenVals := [], batchSigIdxs := [], batch := [],
          talliedVotingPower := 0, calls := [] })).result = .accept) :
    ∃ b : BatchState,
      batchLoop E bv chainID vals commit needed ignoreSig countSig true byIndex cache
        commit.Signatures 0
        { val := none, seenVals := [], batchSigIdxs := [], batch := [],
          talliedVotingPower := 0, calls := [] } = .next b ∧
      needed < b.talliedVotingPower := by
  cases hloop : batchLoop E bv chainID vals commit needed ignoreSig countSig true byIndex cache
      commit.Signatures 0
      { val := none, seenVals := [], batchSigIdxs := [], batch := [],
        talliedVotingPower := 0, calls := [] } with
  | ret r b =>
    rw [hloop] at h
    simp only [batchFinish] at h
    subst h
    exact absurd hloop (batchLoop_ne_accept E bv chainID vals commit needed ignoreSig countSig
      true byIndex cache _ _ _ b)
  | brk b =>
    have := (batchLoop_brk E bv chainID vals commit needed ignoreSig countSig true byIndex
      cache _ _ _ b hloop).1
    cases this
  | next b =>
    refine ⟨b, rfl, ?_⟩
    rw [hloop] at h
    by_contra hle
    simp only [batchFinish, not_lt.mp hle, if_true] at h
    cases h

end Drivers
/-- C15: `VerifyCommit` on an input that passes the preconditions, with voting
powers that are not negative and a total within the cap. (1) An entry with
flag `Absent` is never verified nor added to the batch. (2) There is no early
exit: when `VerifyCommit` accepts, every entry whose flag is not `Absent` has
been verified (directly, or in the batch handed to `Verify`), and the tally is
the voting power of the entries with flag `Commit` only, so an entry with flag
`Nil` adds nothing. (3) In a commit whose entries are well formed, an entry
with flag `Nil` whose signature is the first that fails verification makes
`VerifyCommit` return `WrongSignature` for its index, even though the power of
the entries with flag `Commit` exceeds the threshold. -/
theorem verifyCommit_checks_every_signature (E : Env) (chainID : String)
    (vals : ValidatorSet) (blockID : BlockID) (height : Int) (commit : Commit)
    (hpre : verifyBasicValsAndCommit (some vals) (some commit) height blockID = none)
    (hready : E.BatchReady vals)
    (hpow : ∀ v ∈ vals.Validators, 0 ≤ v.VotingPower)
    (htotal : vals.TotalVotingPower ≤ MaxTotalVotingPower) :
    (∀ idx cs, commit.Signatures[idx]? = some cs → cs.BlockIDFlag = .Absent →
      CryptoCall.VerifySignature idx ∉
        (VerifyCommit E chainID (some vals) blockID height (some commit)).calls ∧
      CryptoCall.BatchAdd idx ∉
        (VerifyCommit E chainID (some vals) blockID height (some commit)).calls) ∧
    ((VerifyCommit E chainID (some vals) blockID height (some commit)).result = .accept →
      (VerifyCommit E chainID (some vals) blockID height (some commit)).tallied
        = commitFlagPower vals.Validators commit.Signatures ∧
      ∀ idx cs, commit.Signatures[idx]? = some cs → cs.BlockIDFlag ≠ .Absent →
        CryptoCall.VerifySignature idx ∈
          (VerifyCommit E chainID (some vals) blockID height (some commit)).calls ∨
        (CryptoCall.BatchAdd idx ∈
            (VerifyCommit E chainID (some vals) blockID height (some commit)).calls ∧
          CryptoCall.BatchVerify ∈
            (VerifyCommit E chainID (some vals) blockID height (some commit)).calls)) ∧
    (∀ (pre post : List CommitSig) (c : CommitSig),
      commit.Signatures = pre ++ c :: post → c.BlockIDFlag = .Nil →
      (∀ p ∈ commit.Signatures.enum, ignoreAbsent p.2 = false →
        entryWellFormed E vals true p.1 p.2 = true) →
      (∀ p ∈ pre.enum, ignoreAbsent p.2 = false →
        entryVerifies E chainID vals commit true p.1 p.2 = true) →
      entryVerifies E chainID vals commit true pre.length c = false →
      votingPowerNeededTwoThirds vals.TotalVotingPower
        < commitFlagPower vals.Validators commit.Signatures →
      (VerifyCommit E chainID (some vals) blockID height (some commit)).result
          = .reject (.WrongSignature pre.length (.sigBytes c.Signature)) ∨
        (VerifyCommit E chainID (some vals) blockID height (some commit)).result
          = .reject (.WrongSignature pre.length (.commitSig c))) := by
  have hsize := verifyBasicValsAndCommit_size vals commit height blockID hpre
  have hmax : (0 : Int) + (vals.Validators.map (fun v => v.VotingPower)).sum ≤ MaxInt64 := by
    have h8 : MaxTotalVotingPower ≤ MaxInt64 := by decide
    have : (vals.Validators.map (fun v => v.VotingPower)).sum = vals.TotalVotingPower := rfl
    omega
  have hflag : ∀ cs : CommitSig,
      (ignoreAbsent cs = false ∧ countCommit cs = true) ↔ cs.BlockIDFlag = .Commit := by
    intro cs
    unfold ignoreAbsent countCommit
    cases cs.BlockIDFlag <;> simp
  have hP : tallyOver vals ignoreAbsent countCommit true commit.Signatures 0 0
      = commitFlagPower vals.Validators commit.Signatures := by
    rw [tallyOver_commitFlagPower vals ignoreAbsent countCommit hflag commit.Signatures
      vals.Validators 0 0 (fun k => by simp) hsize hpow (le_refl _) hmax, zero_add]
  have hV : VerifyCommit E chainID (some vals) blockID height (some commit) =
      (match shouldBatchVerify E vals commit with
        | none => earlyReturn .panic none
        | some true =>
          verifyCommitBatch E chainID vals commit
            (votingPowerNeededTwoThirds vals.TotalVotingPower) ignoreAbsent countCommit
            true true none none
        | some false =>
          verifyCommitSingle E chainID vals commit
            (votingPowerNeededTwoThirds vals.TotalVotingPower) ignoreAbsent countCommit
            true true none) := by
    simp only [VerifyCommit, hpre]
    rfl
  have hpaired : ∀ idx cs, commit.Signatures[idx]? = some cs →
      pairedValidator vals true idx cs ≠ none := by
    intro idx cs hget
    have hlt : idx < commit.Signatures.length := (List.getElem?_eq_some_iff.mp hget).1
    rw [← hsize] at hlt
    simp only [pairedValidator, if_true]
    rw [List.getElem?_eq_getElem hlt]
    simp
  have hign : ∀ cs : CommitSig, cs.BlockIDFlag ≠ .Absent → ignoreAbsent cs = false := by
    intro cs h
    unfold ignoreAbsent
    simpa using h
  rcases dispatch_cases E chainID vals commit (votingPowerNeededTwoThirds vals.TotalVotingPower)
    ignoreAbsent countCommit true true none hready with hS | ⟨bv, p, hp, hc, hbv, hlen, hB⟩
  · -- the single driver
    rw [hV.trans hS]
    refine ⟨?_, ?_, ?_⟩
    · intro idx cs hget habs
      obtain ⟨adds, -, hcalls, -⟩ := verifyCommitSingle_trace E chainID vals commit
        (votingPowerNeededTwoThirds vals.TotalVotingPower) ignoreAbsent countCommit true true
        none
      constructor
      · intro hmem
        obtain ⟨i, c, hi, hgi, hno⟩ := hcalls _ hmem
        cases hi
        rw [hget] at hgi
        cases hgi
        simp [ignoreAbsent, habs] at hno
      · intro hmem
        obtain ⟨i, c, hi, -, -⟩ := hcalls _ hmem
        cases hi
    · intro hacc
      obtain ⟨s, hloop, htal, hcalls⟩ := verifyCommitSingle_countAll_accept E chainID vals
        commit (votingPowerNeededTwoThirds vals.TotalVotingPower) ignoreAbsent countCommit true
        none hacc
      refine ⟨?_, ?_⟩
      · rw [htal, singleLoop_next_tally E chainID vals commit _ ignoreAbsent countCommit true
          true _ _ _ s hloop]
        exact hP
      · intro idx cs hget hflagc
        left
        rw [hcalls]
        obtain ⟨-, hgood⟩ := singleLoop_next_good E chainID vals commit _ ignoreAbsent
          countCommit true true commit.Signatures 0 _ s rfl hloop
        exact (hgood (idx, cs) (List.mk_mem_enum_iff_getElem?.mpr hget)
          (hign cs hflagc)).2.2 (hpaired idx cs hget)
    · intro pre post c hsigs hnil hwf hprev hcv _
      left
      exact verifyCommitSingle_first_corrupted E chainID vals commit _ ignoreAbsent countCommit
        true true pre post c hsigs hwf (fun h => by cases h) hprev
        (hign c (by rw [hnil]; decide)) hcv (Or.inl rfl)
  · -- the batch driver
    rw [hV.trans hB]
    have hrun := verifyCommitBatch_run E chainID vals commit
      (votingPowerNeededTwoThirds vals.TotalVotingPower) ignoreAbsent countCommit true true
      none bv p hp hc hlen
    refine ⟨?_, ?_, ?_⟩
    · intro idx cs hget habs
      obtain ⟨adds, -, hcalls, -⟩ := verifyCommitBatch_trace E chainID vals commit
        (votingPowerNeededTwoThirds vals.TotalVotingPower) ignoreAbsent countCommit true true
        none none
      constructor
      · intro hmem
        rcases hcalls _ hmem with h | ⟨i, c, hi, -, -⟩
        · cases h
        · cases hi
      · intro hmem
        rcases hcalls _ hmem with h | ⟨i, c, hi, hgi, hno⟩
        · cases h
        · cases hi
          rw [hget] at hgi
          cases hgi
          simp [ignoreAbsent, habs] at hno
    · intro hacc
      rw [hrun] at hacc ⊢
      obtain ⟨b, hloop, hgt⟩ := verifyCommitBatch_countAll_accept E chainID vals commit _
        ignoreAbsent countCommit true none bv hacc
      rw [hloop]
      obtain ⟨htal, extra, hidxs, hcalls⟩ := batchLoop_next_tally E bv chainID vals commit _
        ignoreAbsent countCommit true true none commit.Signatures 0 _ b (Or.inl hloop)
      simp only [List.nil_append] at hidxs hcalls
      refine ⟨?_, ?_⟩
      · rw [batchFinish_tallied E chainID commit _ bv none b _ (Or.inl rfl), htal hloop]
        exact hP
      · intro idx cs hget hflagc
        right
        have hadd : CryptoCall.BatchAdd idx ∈ b.calls :=
          batchLoop_next_added E bv chainID vals commit _ ignoreAbsent countCommit true true
            none commit.Signatures 0 _ b rfl hloop (idx, cs)
            (List.mk_mem_enum_iff_getElem?.mpr hget) (hign cs hflagc) (hpaired idx cs hget)
        have hne : b.batchSigIdxs ≠ [] := by
          intro hnil
          rw [hidxs] at hnil
          rw [hcalls, hnil] at hadd
          cases hadd
        rw [batchFinish_calls E chainID commit _ bv none b hgt hne]
        exact ⟨List.mem_append_left _ hadd, by simp⟩
    · intro pre post c hsigs hnil hwf hprev hcv hpower
      right
      refine verifyCommitBatch_first_corrupted E chainID vals commit _ ignoreAbsent countCommit
        true true pre post c none bv (Or.inr ⟨rfl, p, hp, hc⟩) hbv hlen hsigs hwf
        (fun h => by cases h) hprev (hign c (by rw [hnil]; decide)) hcv (Or.inl rfl) ?_
      rw [hrun]
      obtain ⟨b1, hloop, htal, -⟩ := batchLoop_run E bv chainID vals commit
        (votingPowerNeededTwoThirds vals.TotalVotingPower) ignoreAbsent countCommit true true
        none hbv.1 commit.Signatures 0
        { val := none, seenVals := [], batchSigIdxs := [], batch := [],
          talliedVotingPower := 0, calls := [] }
        hwf (fun h => by cases h) (Or.inl rfl)
      rw [hloop, batchFinish_tallied E chainID commit _ bv none b1 _ (Or.inl rfl), htal]
      show votingPowerNeededTwoThirds vals.TotalVotingPower
        < tallyOver vals ignoreAbsent countCommit true commit.Signatures 0 0
      rw [hP]
      exact hpower
/-- C15, at four validators of power 10 (threshold 26) and a commit with three
valid signatures for the block and a corrupted signature for `nil`: the power
of the entries with flag `Commit` is 30, and `VerifyCommit` returns
`WrongSignature` for index 3. -/
theorem verifyCommit_checks_every_signature_witness :
    verifyBasicValsAndCommit (some Fixture.vals4)
      (some (Fixture.commitOf [Fixture.signed 1, Fixture.signed 2, Fixture.signed 3,
        Fixture.corruptedNil 4])) 7 Fixture.blockB = none ∧
    commitFlagPower Fixture.vals4.Validators
      [Fixture.signed 1, Fixture.signed 2, Fixture.signed 3, Fixture.corruptedNil 4] = 30 ∧
    ((VerifyCommit (Fixture.env true) "c" (some Fixture.vals4) Fixture.blockB 7
        (some (Fixture.commitOf [Fixture.signed 1, Fixture.signed 2, Fixture.signed 3,
          Fixture.corruptedNil 4]))).result
        = .reject (.WrongSignature 3 (.sigBytes (Fixture.corruptedNil 4).Signature)) ∨
      (VerifyCommit (Fixture.env true) "c" (some Fixture.vals4) Fixture.blockB 7
        (some (Fixture.commitOf [Fixture.signed 1, Fixture.signed 2, Fixture.signed 3,
          Fixture.corruptedNil 4]))).result
        = .reject (.WrongSignature 3 (.commitSig (Fixture.corruptedNil 4)))) :=
  ⟨by decide, by decide,
    (verifyCommit_checks_every_signature (Fixture.env true) "c" Fixture.vals4 Fixture.blockB 7
      (Fixture.commitOf [Fixture.signed 1, Fixture.signed 2, Fixture.signed 3,
        Fixture.corruptedNil 4])
      (by decide) Fixture.batchReady_vals4 (by decide) (by decide)).2.2
      [Fixture.signed 1, Fixture.signed 2, Fixture.signed 3] [] (Fixture.corruptedNil 4)
      rfl rfl (by decide) (by decide) (by decide) (by decide)⟩

/-! ### Signatures that are not needed -/

/-- The power of the entries for the block that verify is at most the power
of the entries for the block. -/
theorem validCommitPower_le_commitFlagPower (E : Env) (chainID : String) (commit : Commit)
    (vs : List Validator) (sigs : List CommitSig) (idx : Nat)
    (hpow : ∀ v ∈ vs, 0 ≤ v.VotingPower) :
    validCommitPower E chainID commit vs sigs idx ≤ commitFlagPower vs sigs := by
  induction vs generalizing sigs idx with
  | nil => simp [validCommitPower, commitFlagPower]
  | cons v vs ih =>
    cases sigs with
    | nil => simp [validCommitPower, commitFlagPower]
    | cons cs rest =>
      simp only [validCommitPower, commitFlagPower]
      have h1 := ih rest (idx + 1) (fun w hw => hpow w (List.mem_cons_of_mem _ hw))
      have h2 : 0 ≤ v.VotingPower := hpow v (List.mem_cons_self _ _)
      by_cases hc : cs.BlockIDFlag = .Commit
      · rw [if_pos hc]
        split <;> omega
      · rw [if_neg hc, if_neg (fun h => hc h.1)]
        omega

/-- C13 (counterexample): five validators of powers {20,20,20,1,20}
(threshold 54) and a commit with valid signatures at indices 0, 1, 2 and 4 and
a corrupted one at index 3. `VerifyCommitLight` accepts it, leaving after
index 2. When the valid signature at index 0 is replaced by an absent entry,
the remaining valid signatures for the block still carry the power 60 > 54,
but the loop now reaches index 3 and the commit is rejected with
`WrongSignature`, in the single and in the batch path. -/
theorem verifyCommitLight_rejects_after_removal :
    (VerifyCommitLight (Fixture.env false) "c" (some Fixture.vals5) Fixture.blockB 7
        (some (Fixture.commitOf [Fixture.signed 1, Fixture.signed 2, Fixture.signed 3,
          Fixture.corrupted 4, Fixture.signed 5]))).result = .accept ∧
    (VerifyCommitLight (Fixture.env true) "c" (some Fixture.vals5) Fixture.blockB 7
        (some (Fixture.commitOf [Fixture.signed 1, Fixture.signed 2, Fixture.signed 3,
          Fixture.corrupted 4, Fixture.signed 5]))).result = .accept ∧
    votingPowerNeededTwoThirds Fixture.vals5.TotalVotingPower = 54 ∧
    validCommitPower (Fixture.env true) "c"
      (Fixture.commitOf [Fixture.absent, Fixture.signed 2, Fixture.signed 3,
        Fixture.corrupted 4, Fixture.signed 5])
      Fixture.vals5.Validators
      [Fixture.absent, Fixture.signed 2, Fixture.signed 3, Fixture.corrupted 4,
        Fixture.signed 5] 0 = 60 ∧
    (VerifyCommitLight (Fixture.env false) "c" (some Fixture.vals5) Fixture.blockB 7
        (some (Fixture.commitOf [Fixture.absent, Fixture.signed 2, Fixture.signed 3,
          Fixture.corrupted 4, Fixture.signed 5]))).result
      = .reject (.WrongSignature 3 (.sigBytes [104, 1, 7])) ∧
    (VerifyCommitLight (Fixture.env true) "c" (some Fixture.vals5) Fixture.blockB 7
        (some (Fixture.commitOf [Fixture.absent, Fixture.signed 2, Fixture.signed 3,
          Fixture.corrupted 4, Fixture.signed 5]))).result
      = .reject (.WrongSignature 3 (.commitSig (Fixture.corrupted 4))) := by
  decide

/-- C13 (amended): with `countAllSignatures = false`, on an input that passes
the preconditions (voting powers that are not negative, total within the cap),
a commit, in particular one obtained from an accepted commit by replacing a
signature by an absent entry, is accepted by `VerifyCommitLight` and
`VerifyCommitLightWithCache` whenever every entry with flag `Commit` that it
carries is well formed and verifies and the voting power of these entries
exceeds the threshold. -/
theorem light_accepts_when_remaining_signatures_suffice (E : Env) (chainID : String)
    (vals : ValidatorSet) (blockID : BlockID) (height : Int) (commit : Commit)
    (cache : Option SignatureCache)
    (hpre : verifyBasicValsAndCommit (some vals) (some commit) height blockID = none)
    (hready : E.BatchReady vals)
    (hpow : ∀ v ∈ vals.Validators, 0 ≤ v.VotingPower)
    (htotal : vals.TotalVotingPower ≤ MaxTotalVotingPower)
    (hgood : ∀ p ∈ commit.Signatures.enum, ignoreNotCommit p.2 = false →
      entryWellFormed E vals true p.1 p.2 = true ∧
        entryVerifies E chainID vals commit true p.1 p.2 = true)
    (hpower : votingPowerNeededTwoThirds vals.TotalVotingPower
      < validCommitPower E chainID commit vals.Validators commit.Signatures 0) :
    (VerifyCommitLightWithCache E chainID (some vals) blockID height (some commit)
      cache).result = .accept := by
  have hsize := verifyBasicValsAndCommit_size vals commit height blockID hpre
  have hmax : (0 : Int) + (vals.Validators.map (fun v => v.VotingPower)).sum ≤ MaxInt64 := by
    have h8 : MaxTotalVotingPower ≤ MaxInt64 := by decide
    have : (vals.Validators.map (fun v => v.VotingPower)).sum = vals.TotalVotingPower := rfl
    omega
  have hflag : ∀ cs : CommitSig,
      (ignoreNotCommit cs = false ∧ countAlways cs = true) ↔ cs.BlockIDFlag = .Commit := by
    intro cs
    unfold ignoreNotCommit countAlways
    cases cs.BlockIDFlag <;> simp
  have hP : votingPowerNeededTwoThirds vals.TotalVotingPower
      < tallyOver vals ignoreNotCommit countAlways true commit.Signatures 0 0 := by
    rw [tallyOver_commitFlagPower vals ignoreNotCommit countAlways hflag commit.Signatures
      vals.Validators 0 0 (fun k => by simp) hsize hpow (le_refl _) hmax, zero_add]
    exact lt_of_lt_of_le hpower
      (validCommitPower_le_commitFlagPower E chainID commit _ _ 0 hpow)
  have hV : VerifyCommitLightWithCache E chainID (some vals) blockID height (some commit)
      cache =
      (match shouldBatchVerify E vals commit with
        | none => earlyReturn .panic cache
        | some true =>
          verifyCommitBatch E chainID vals commit
            (votingPowerNeededTwoThirds vals.TotalVotingPower) ignoreNotCommit countAlways
            false true none cache
        | some false =>
          verifyCommitSingle E chainID vals commit
            (votingPowerNeededTwoThirds vals.TotalVotingPower) ignoreNotCommit countAlways
            false true cache) := by
    simp only [VerifyCommitLightWithCache, verifyCommitLightInternal, hpre]
    rfl
  rcases dispatch_cases E chainID vals commit (votingPowerNeededTwoThirds vals.TotalVotingPower)
    ignoreNotCommit countAlways false true cache hready with hS | ⟨bv, p, hp, hc, hbv, hlen, hB⟩
  · rw [hV.trans hS]
    have hres := singleLoop_good E chainID vals commit
      (votingPowerNeededTwoThirds vals.TotalVotingPower) ignoreNotCommit countAlways false true
      commit.Signatures 0
      { val := none, seenVals := [], talliedVotingPower := 0, cache := cache, calls := [] }
      hgood (fun h => by cases h)
    have hres' : (verifyCommitSingle E chainID vals commit
        (votingPowerNeededTwoThirds vals.TotalVotingPower) ignoreNotCommit countAlways false
        true cache).result =
        if votingPowerNeededTwoThirds vals.TotalVotingPower < (verifyCommitSingle E chainID vals
          commit (votingPowerNeededTwoThirds vals.TotalVotingPower) ignoreNotCommit countAlways
          false true cache).tallied
        then .accept
        else .reject (.NotEnoughVotingPowerSigned (verifyCommitSingle E chainID vals
          commit (votingPowerNeededTwoThirds vals.TotalVotingPower) ignoreNotCommit countAlways
          false true cache).tallied (votingPowerNeededTwoThirds vals.TotalVotingPower)) := hres
    split at hres'
    · exact hres'
    · exfalso
      obtain ⟨s, hloop, -, -, hle, -⟩ := verifyCommitSingle_threshold_error E chainID vals
        commit _ ignoreNotCommit countAlways false true cache _ _ hres'
      rw [singleLoop_next_tally E chainID vals commit _ ignoreNotCommit countAlways false true
        _ _ _ s hloop] at hle
      exact absurd hP (not_lt.mpr hle)
  · rw [hV.trans hB]
    have hres := verifyCommitBatch_good E chainID vals commit
      (votingPowerNeededTwoThirds vals.TotalVotingPower) ignoreNotCommit countAlways false true
      cache none bv (Or.inr ⟨rfl, p, hp, hc⟩) hbv hlen hgood (fun h => by cases h)
    split at hres
    · exact hres
    · exfalso
      obtain ⟨bv2, b, hloop, -, -, hn⟩ := verifyCommitBatch_late_errors E chainID vals commit
        _ ignoreNotCommit countAlways false true none cache (Or.inr ⟨_, _, hres⟩)
      obtain ⟨-, -, hle⟩ := hn _ _ hres
      rcases hloop with h | h
      · rw [(batchLoop_next_tally E bv2 chainID vals commit _ ignoreNotCommit countAlways false
          true cache _ _ _ b (Or.inl h)).1 h] at hle
        exact absurd hP (not_lt.mpr hle)
      · exact absurd (batchLoop_brk E bv2 chainID vals commit _ ignoreNotCommit countAlways
          false true cache _ _ _ b h).2 (not_lt.mpr hle)

/-- C13, at five validators of powers {20,20,20,1,20} (threshold 54): the
commit with valid signatures at indices 1 to 4 and an absent entry at index 0
carries the power 61 and is accepted by `VerifyCommitLight`. -/
theorem light_accepts_when_remaining_signatures_suffice_witness :
    votingPowerNeededTwoThirds Fixture.vals5.TotalVotingPower
      < validCommitPower (Fixture.env true) "c"
        (Fixture.commitOf [Fixture.absent, Fixture.signed 2, Fixture.signed 3,
          Fixture.signed 4, Fixture.signed 5])
        Fixture.vals5.Validators
        [Fixture.absent, Fixture.signed 2, Fixture.signed 3, Fixture.signed 4,
          Fixture.signed 5] 0 ∧
    (VerifyCommitLight (Fixture.env true) "c" (some Fixture.vals5) Fixture.blockB 7
        (some (Fixture.commitOf [Fixture.absent, Fixture.signed 2, Fixture.signed 3,
          Fixture.signed 4, Fixture.signed 5]))).result = .accept :=
  ⟨by decide,
    light_accepts_when_remaining_signatures_suffice (Fixture.env true) "c" Fixture.vals5
      Fixture.blockB 7
      (Fixture.commitOf [Fixture.absent, Fixture.signed 2, Fixture.signed 3,
        Fixture.signed 4, Fixture.signed 5]) none
      (by decide) ⟨Fixture.validator 1 20, rfl, fun _ => ⟨Fixture.verifier, rfl,
        Fixture.verifier_exact true⟩⟩ (by decide) (by decide) (by decide) (by decide)⟩

/-! ### Entries that are skipped -/

section Loops

variable (E : Env) (bv : BatchVerifier) (chainID : String) (vals : ValidatorSet)
  (commit : Commit) (needed : Int) (ignoreSig countSig : CommitSig → Bool)
  (countAll byIndex : Bool) (cache : Option SignatureCache)

/-- The loop of `verifyCommitSingle` depends on the commit through the sign
bytes only. -/
theorem singleLoop_congr_commit (commit1 : Commit)
    (hbytes : ∀ idx, E.VoteSignBytes commit1 chainID idx = E.VoteSignBytes commit chainID idx)
    (sigs : List CommitSig) (idx : Nat) (s : SingleState) :
    singleLoop E chainID vals commit1 needed ignoreSig countSig countAll byIndex sigs idx s =
      singleLoop E chainID vals commit needed ignoreSig countSig countAll byIndex sigs idx s := by
  have hcheck : ∀ i cs v s0, singleCheck E chainID commit1 needed countSig countAll i cs v s0 =
      singleCheck E chainID commit needed countSig countAll i cs v s0 := by
    intro i cs v s0
    simp only [singleCheck, singleAfter, hbytes]
  have hbody : ∀ i cs s0,
      singleBody E chainID vals commit1 needed ignoreSig countSig countAll byIndex i cs s0 =
        singleBody E chainID vals commit needed ignoreSig countSig countAll byIndex i cs s0 := by
    intro i cs s0
    simp only [singleBody, hcheck]
  induction sigs generalizing idx s with
  | nil => rfl
  | cons cs rest ih =>
    rw [singleLoop, singleLoop, hbody]
    cases singleBody E chainID vals commit needed ignoreSig countSig countAll byIndex idx cs s
      with
    | next s1 => exact ih _ _
    | brk s1 => rfl
    | ret r s1 => rfl

/-- The loop of `verifyCommitBatch` depends on the commit through the sign
bytes only. -/
theorem batchLoop_congr_commit (commit1 : Commit)
    (hbytes : ∀ idx, E.VoteSignBytes commit1 chainID idx = E.VoteSignBytes commit chainID idx)
    (sigs : List CommitSig) (idx : Nat) (b : BatchState) :
    batchLoop E bv chainID vals commit1 needed ignoreSig countSig countAll byIndex cache
        sigs idx b =
      batchLoop E bv chainID vals commit needed ignoreSig countSig countAll byIndex cache
        sigs idx b := by
  have hcheck : ∀ i cs v b0,
      batchCheck E bv chainID commit1 needed countSig countAll cache i cs v b0 =
        batchCheck E bv chainID commit needed countSig countAll cache i cs v b0 := by
    intro i cs v b0
    simp only [batchCheck, batchAfter, batchEntry, hbytes]
  have hbody : ∀ i cs b0,
      batchBody E bv chainID vals commit1 needed ignoreSig countSig countAll byIndex cache
          i cs b0 =
        batchBody E bv chainID vals commit needed ignoreSig countSig countAll byIndex cache
          i cs b0 := by
    intro i cs b0
    simp only [batchBody, hcheck]
  induction sigs generalizing idx b with
  | nil => rfl
  | cons cs rest ih =>
    rw [batchLoop, batchLoop, hbody]
    cases batchBody E bv chainID vals commit needed ignoreSig countSig countAll byIndex cache
        idx cs b with
    | next b1 => exact ih _ _
    | brk b1 => rfl
    | ret r b1 => rfl

/-- On entries that pass the shape check, the result of `verifyCommitSingle`
does not depend on the validator left in `val` by the entries before. -/
theorem singleFinish_val (sigs : List CommitSig) (idx : Nat) (s : SingleState)
    (x : Option Validator)
    (hbasic : ∀ cs ∈ sigs, ignoreSig cs = false → E.ValidateBasic cs = true) :
    singleFinish needed
        (singleLoop E chainID vals commit needed ignoreSig countSig countAll byIndex sigs idx
          { s with val := x }) =
      singleFinish needed
        (singleLoop E chainID vals commit needed ignoreSig countSig countAll byIndex sigs idx
          s) := by
  induction sigs generalizing idx s x with
  | nil => rfl
  | cons cs rest ih =>
    have hrest : ∀ c ∈ rest, ignoreSig c = false → E.ValidateBasic c = true :=
      fun c hc => hbasic c (List.mem_cons_of_mem _ hc)
    rw [singleLoop, singleLoop, singleBody_eq, singleBody_eq]
    by_cases hi : ignoreSig cs = true
    · rw [if_pos hi, if_pos hi]
      exact ih _ _ _ hrest
    · rw [if_neg hi, if_neg hi]
      have hvb : E.ValidateBasic cs = true :=
        hbasic cs (List.mem_cons_self _ _) (by simpa using hi)
      rw [if_neg (by simp [hvb]), if_neg (by simp [hvb])]
      cases resolve vals byIndex s.seenVals idx cs with
      | panic => rfl
      | skip => rfl
      | doubleVote w i => rfl
      | found w seen => rfl

/-- The result of `verifyCommitBatch` does not depend on the validator left in
`val` by the entries before. -/
theorem batchFinish_val (sigs : List CommitSig) (idx : Nat) (b : BatchState)
    (x : Option Validator) :
    batchFinish E bv chainID commit needed cache
        (batchLoop E bv chainID vals commit needed ignoreSig countSig countAll byIndex cache
          sigs idx { b with val := x }) =
      batchFinish E bv chainID commit needed cache
        (batchLoop E bv chainID vals commit needed ignoreSig countSig countAll byIndex cache
          sigs idx b) := by
  induction sigs generalizing idx b x with
  | nil => rfl
  | cons cs rest ih =>
    rw [batchLoop, batchLoop, batchBody_eq, batchBody_eq]
    by_cases hi : ignoreSig cs = true
    · rw [if_pos hi, if_pos hi]
      exact ih _ _ _
    · rw [if_neg hi, if_neg hi]
      cases resolve vals byIndex b.seenVals idx cs with
      | panic => rfl
      | skip => rfl
      | doubleVote w i => rfl
      | found w seen => rfl

/-- The loops that follow the batch verification read the commit at the
batched indices only. -/
theorem batchCacheAll_congr (commit1 : Commit)
    (hbytes : ∀ idx, E.VoteSignBytes commit1 chainID idx = E.VoteSignBytes commit chainID idx)
    (idxs : List Nat)
    (hsame : ∀ idx ∈ idxs, commit1.Signatures[idx]? = commit.Signatures[idx]?)
    (bits : List Bool) (i : Nat) (c : SignatureCache) :
    batchCacheAll E chainID commit1 idxs bits i c =
      batchCacheAll E chainID commit idxs bits i c := by
  induction bits generalizing i c with
  | nil => rfl
  | cons bit rest ih =>
    rw [batchCacheAll, batchCacheAll]
    cases h1 : idxs[i]? with
    | none => rfl
    | some idx =>
      simp only []
      rw [hsame idx (List.getElem?_mem h1)]
      cases commit.Signatures[idx]? with
      | none => rfl
      | some sig =>
        simp only [hbytes]
        exact ih _ _

theorem batchFindInvalid_congr (commit1 : Commit)
    (hbytes : ∀ idx, E.VoteSignBytes commit1 chainID idx = E.VoteSignBytes commit chainID idx)
    (idxs : List Nat)
    (hsame : ∀ idx ∈ idxs, commit1.Signatures[idx]? = commit.Signatures[idx]?)
    (bits : List Bool) (i : Nat) (c : Option SignatureCache) :
    batchFindInvalid E chainID commit1 idxs bits i c =
      batchFindInvalid E chainID commit idxs bits i c := by
  induction bits generalizing i c with
  | nil => rfl
  | cons bit rest ih =>
    rw [batchFindInvalid, batchFindInvalid]
    cases h1 : idxs[i]? with
    | none => rfl
    | some idx =>
      simp only []
      rw [hsame idx (List.getElem?_mem h1)]
      cases commit.Signatures[idx]? with
      | none => rfl
      | some sig =>
        simp only [hbytes]
        rw [ih]

/-- The end of `verifyCommitBatch` reads the commit at the batched indices
only. -/
theorem batchFinish_congr (commit1 : Commit)
    (hbytes : ∀ idx, E.VoteSignBytes commit1 chainID idx = E.VoteSignBytes commit chainID idx)
    (f : Flow BatchState)
    (hsame : ∀ idx ∈ f.state.batchSigIdxs,
      commit1.Signatures[idx]? = commit.Signatures[idx]?) :
    batchFinish E bv chainID commit1 needed cache f =
      batchFinish E bv chainID commit needed cache f := by
  cases f with
  | ret r b => rfl
  | next b =>
    simp only [batchFinish,
      batchFindInvalid_congr E chainID commit commit1 hbytes b.batchSigIdxs hsame,
      batchCacheAll_congr E chainID commit commit1 hbytes b.batchSigIdxs hsame]
  | brk b =>
    simp only [batchFinish,
      batchFindInvalid_congr E chainID commit commit1 hbytes b.batchSigIdxs hsame,
      batchCacheAll_congr E chainID commit commit1 hbytes b.batchSigIdxs hsame]

end Loops

/-- C17: with lookup by address, let two commits differ in one entry only,
which in the first is not ignored and carries the address of no validator of
the set and in the second is ignored (an absent entry), the sign bytes of the
votes being the same in both. Then `verifyCommitBatch` returns the same result,
tally, log and cache on both commits, and so does `verifyCommitSingle` on a
commit that honours the contract of the drivers, namely that the entries that
are not ignored pass `CommitSig.ValidateBasic`: the entry is not verified,
raises no error and adds nothing to the tally. -/
theorem unknown_address_entry_as_absent (E : Env) (chainID : String) (vals : ValidatorSet)
    (commit commit1 : Commit) (votingPowerNeeded : Int)
    (ignoreSig countSig : CommitSig → Bool) (countAllSignatures : Bool)
    (cache : Option SignatureCache) (pre post : List CommitSig) (e e1 : CommitSig)
    (hsigs : commit.Signatures = pre ++ e :: post)
    (hsigs1 : commit1.Signatures = pre ++ e1 :: post)
    (hbytes : ∀ idx, E.VoteSignBytes commit1 chainID idx = E.VoteSignBytes commit chainID idx)
    (he : ignoreSig e = false)
    (hunknown : vals.GetByAddress e.ValidatorAddress = none)
    (he1 : ignoreSig e1 = true) :
    ((∀ cs ∈ commit.Signatures, ignoreSig cs = false → E.ValidateBasic cs = true) →
      verifyCommitSingle E chainID vals commit votingPowerNeeded ignoreSig countSig
          countAllSignatures false cache =
        verifyCommitSingle E chainID vals commit1 votingPowerNeeded ignoreSig countSig
          countAllSignatures false cache) ∧
    (∀ batchVerifier : Option BatchVerifier,
      verifyCommitBatch E chainID vals commit votingPowerNeeded ignoreSig countSig
          countAllSignatures false batchVerifier cache =
        verifyCommitBatch E chainID vals commit1 votingPowerNeeded ignoreSig countSig
          countAllSignatures false batchVerifier cache) := by
  have hskip : ∀ seen idx, resolve vals false seen idx e = .skip := by
    intro seen idx
    simp [resolve, hunknown]
  constructor
  · intro hbasic
    unfold verifyCommitSingle
    rw [singleLoop_congr_commit E chainID vals commit votingPowerNeeded ignoreSig countSig
      countAllSignatures false commit1 hbytes, hsigs, hsigs1, singleLoop_append,
      singleLoop_append]
    cases singleLoop E chainID vals commit votingPowerNeeded ignoreSig countSig
        countAllSignatures false pre 0
        { val := none, seenVals := [], talliedVotingPower := 0, cache := cache, calls := [] }
      with
    | brk s1 => rfl
    | ret r s1 => rfl
    | next s1 =>
      simp only []
      have hvb : E.ValidateBasic e = true := by
        apply hbasic e _ he
        rw [hsigs]
        simp
      have hpost : ∀ cs ∈ post, ignoreSig cs = false → E.ValidateBasic cs = true := by
        intro cs hcs
        apply hbasic cs
        rw [hsigs]
        simp [hcs]
      rw [singleLoop, singleLoop, singleBody_eq, singleBody_eq, if_pos he1,
        if_neg (by simp [he]), if_neg (by simp [hvb]), hskip]
      exact singleFinish_val E chainID vals commit votingPowerNeeded ignoreSig countSig
        countAllSignatures false post _ s1 none hpost
  · intro batchVerifier
    have hlen : commit1.Signatures.length = commit.Signatures.length := by
      rw [hsigs, hsigs1]
      simp
    have hmain : ∀ bv : BatchVerifier,
        batchFinish E bv chainID commit votingPowerNeeded cache
          (batchLoop E bv chainID vals commit votingPowerNeeded ignoreSig countSig
            countAllSignatures false cache commit.Signatures 0
            { val := none, seenVals := [], batchSigIdxs := [], batch := [],
              talliedVotingPower := 0, calls := [] }) =
        batchFinish E bv chainID commit1 votingPowerNeeded cache
          (batchLoop E bv chainID vals commit1 votingPowerNeeded ignoreSig countSig
            countAllSignatures false cache commit1.Signatures 0
            { val := none, seenVals := [], batchSigIdxs := [], batch := [],
              talliedVotingPower := 0, calls := [] }) := by
      intro bv
      rw [batchLoop_congr_commit E bv chainID vals commit votingPowerNeeded ignoreSig countSig
        countAllSignatures false cache commit1 hbytes]
      -- the batched indices are not the index of the replaced entry
      have hsame : ∀ idx ∈ (batchLoop E bv chainID vals commit votingPowerNeeded ignoreSig
          countSig countAllSignatures false cache commit1.Signatures 0
          { val := none, seenVals := [], batchSigIdxs := [], batch := [],
            talliedVotingPower := 0, calls := [] }).state.batchSigIdxs,
          commit1.Signatures[idx]? = commit.Signatures[idx]? := by
        intro idx hidx
        obtain ⟨new, extra, h1, h2, h3, h4⟩ := batchLoop_trace E bv chainID vals commit
          votingPowerNeeded ignoreSig countSig countAllSignatures false cache
          commit1.Signatures 0
          { val := none, seenVals := [], batchSigIdxs := [], batch := [],
            talliedVotingPower := 0, calls := [] }
        rw [h2] at hidx
        simp only [List.nil_append] at hidx
        obtain ⟨k, cs, hk, hget, hno⟩ := h3 _ (h4 idx hidx)
        simp only [CryptoCall.BatchAdd.injEq, zero_add] at hk
        subst hk
        rw [hsigs1] at hget
        rw [hsigs, hsigs1]
        rcases Nat.lt_trichotomy idx pre.length with hlt | heq | hgt
        · rw [List.getElem?_append_left hlt, List.getElem?_append_left hlt]
        · subst heq
          rw [List.getElem?_append_right (le_refl _)] at hget
          simp only [Nat.sub_self, List.getElem?_cons_zero, Option.some.injEq] at hget
          subst hget
          rw [he1] at hno
          cases hno
        · rw [List.getElem?_append_right (le_of_lt hgt),
            List.getElem?_append_right (le_of_lt hgt)]
          obtain ⟨m, hm⟩ : ∃ m, idx - pre.length = m + 1 := ⟨idx - pre.length - 1, by omega⟩
          rw [hm]
          rfl
      rw [batchFinish_congr E bv chainID commit votingPowerNeeded cache commit1 hbytes _ hsame,
        hsigs, hsigs1, batchLoop_append, batchLoop_append]
      cases batchLoop E bv chainID vals commit votingPowerNeeded ignoreSig countSig
          countAllSignatures false cache pre 0
          { val := none, seenVals := [], batchSigIdxs := [], batch := [],
            talliedVotingPower := 0, calls := [] } with
      | brk b1 => rfl
      | ret r b1 => rfl
      | next b1 =>
        simp only []
        rw [batchLoop, batchLoop, batchBody_eq, batchBody_eq, if_pos he1,
          if_neg (by simp [he]), hskip]
        exact batchFinish_val E bv chainID vals commit votingPowerNeeded ignoreSig countSig
          countAllSignatures false cache post _ b1 none
    unfold verifyCommitBatch
    rw [hlen]
    cases batchVerifier with
    | some bv =>
      simp only []
      split
      · rfl
      · exact hmain bv
    | none =>
      simp only []
      cases vals.GetProposer with
      | none => rfl
      | some p =>
        simp only []
        cases E.CreateBatchVerifier p.PubKey with
        | none => rfl
        | some bv =>
          simp only []
          split
          · rfl
          · exact hmain bv

/-- C17, at four validators of power 10 and threshold 26, with lookup by
address: the commit whose first entry is a signature by a key of no validator,
followed by three valid signatures, gets from both drivers the results of the
commit whose first entry is absent. -/
theorem unknown_address_entry_as_absent_witness :
    Fixture.vals4.GetByAddress Fixture.stranger.ValidatorAddress = none ∧
    verifyCommitSingle (Fixture.env true) "c" Fixture.vals4
        (Fixture.commitOf [Fixture.stranger, Fixture.signed 1, Fixture.signed 2,
          Fixture.signed 3])
        26 ignoreNotCommit countAlways false false none =
      verifyCommitSingle (Fixture.env true) "c" Fixture.vals4
        (Fixture.commitOf [Fixture.absent, Fixture.signed 1, Fixture.signed 2,
          Fixture.signed 3])
        26 ignoreNotCommit countAlways false false none ∧
    verifyCommitBatch (Fixture.env true) "c" Fixture.vals4
        (Fixture.commitOf [Fixture.stranger, Fixture.signed 1, Fixture.signed 2,
          Fixture.signed 3])
        26 ignoreNotCommit countAlways false false none none =
      verifyCommitBatch (Fixture.env true) "c" Fixture.vals4
        (Fixture.commitOf [Fixture.absent, Fixture.signed 1, Fixture.signed 2,
          Fixture.signed 3])
        26 ignoreNotCommit countAlways false false none none :=
  ⟨by decide,
    (unknown_address_entry_as_absent (Fixture.env true) "c" Fixture.vals4
      (Fixture.commitOf [Fixture.stranger, Fixture.signed 1, Fixture.signed 2,
        Fixture.signed 3])
      (Fixture.commitOf [Fixture.absent, Fixture.signed 1, Fixture.signed 2,
        Fixture.signed 3])
      26 ignoreNotCommit countAlways false none []
      [Fixture.signed 1, Fixture.signed 2, Fixture.signed 3] Fixture.stranger Fixture.absent
      rfl rfl (fun _ => rfl) (by decide) (by decide) (by decide)).1 (by decide),
    (unknown_address_entry_as_absent (Fixture.env true) "c" Fixture.vals4
      (Fixture.commitOf [Fixture.stranger, Fixture.signed 1, Fixture.signed 2,
        Fixture.signed 3])
      (Fixture.commitOf [Fixture.absent, Fixture.signed 1, Fixture.signed 2,
        Fixture.signed 3])
      26 ignoreNotCommit countAlways false none []
      [Fixture.signed 1, Fixture.signed 2, Fixture.signed 3] Fixture.stranger Fixture.absent
      rfl rfl (fun _ => rfl) (by decide) (by decide) (by decide)).2 none⟩

/-! ### Commits without any signature -/

section Loops

variable (E : Env) (bv : BatchVerifier) (chainID : String) (vals : ValidatorSet)
  (commit : Commit) (needed : Int) (ignoreSig countSig : CommitSig → Bool)
  (countAll byIndex : Bool) (cache : Option SignatureCache)

/-- On entries that are all ignored the loops change nothing. -/
theorem loops_all_ignored (sigs : List CommitSig)
    (hall : ∀ cs ∈ sigs, ignoreSig cs = true) (idx : Nat) :
    (∀ s : SingleState,
      singleLoop E chainID vals commit needed ignoreSig countSig countAll byIndex sigs idx s
        = .next s) ∧
    (∀ b : BatchState,
      batchLoop E bv chainID vals commit needed ignoreSig countSig countAll byIndex cache
        sigs idx b = .next b) := by
  induction sigs generalizing idx with
  | nil => exact ⟨fun _ => rfl, fun _ => rfl⟩
  | cons cs rest ih =>
    have hcs : ignoreSig cs = true := hall cs (List.mem_cons_self _ _)
    obtain ⟨h1, h2⟩ := ih (fun c hc => hall c (List.mem_cons_of_mem _ hc)) (idx + 1)
    constructor
    · intro s
      rw [singleLoop, singleBody_eq, if_pos hcs]
      exact h1 s
    · intro b
      rw [batchLoop, batchBody_eq, if_pos hcs]
      exact h2 b

end Loops

/-- With a threshold that is not negative, the two drivers reject a commit
whose entries are all ignored with `ErrNotEnoughVotingPowerSigned{Got: 0,
Needed: votingPowerNeeded}`, without any cryptographic call. -/
theorem drivers_all_ignored (E : Env) (chainID : String) (vals : ValidatorSet)
    (commit : Commit) (needed : Int) (ignoreSig countSig : CommitSig → Bool)
    (countAll byIndex : Bool) (cache : Option SignatureCache)
    (hall : ∀ cs ∈ commit.Signatures, ignoreSig cs = true) (h0 : 0 ≤ needed) :
    verifyCommitSingle E chainID vals commit needed ignoreSig countSig countAll byIndex cache =
      { result := .reject (.NotEnoughVotingPowerSigned 0 needed), cache := cache,
        tallied := 0, calls := [] } ∧
    ∀ bv : BatchVerifier, batchVerifyThreshold ≤ commit.Signatures.length →
      verifyCommitBatch E chainID vals commit needed ignoreSig countSig countAll byIndex
          (some bv) cache =
        { result := .reject (.NotEnoughVotingPowerSigned 0 needed), cache := cache,
          tallied := 0, calls := [] } := by
  constructor
  · unfold verifyCommitSingle
    rw [(loops_all_ignored E Fixture.verifier chainID vals commit needed ignoreSig countSig
      countAll byIndex cache commit.Signatures hall 0).1]
    simp only [singleFinish, h0, if_true]
  · intro bv hlen
    have hnot : ¬ commit.Signatures.length < batchVerifyThreshold := not_lt.mpr hlen
    simp only [verifyCommitBatch, hnot, if_false]
    rw [(loops_all_ignored E bv chainID vals commit needed ignoreSig countSig
      countAll byIndex cache commit.Signatures hall 0).2]
    simp only [batchFinish, h0, if_true]

/-- C16 (failing input): `VerifyCommitLightTrusting` on two validators of
power 10, a commit with two absent entries and the trust level
`1/18446744073709551615`. The conversion `int64(trustLevel.Denominator)` turns
the denominator into -1, the threshold becomes `20 / -1 = -20`, and the commit
without any signature is accepted, with the tally 0, in the single and in the
batch path. -/
theorem trusting_accepts_commit_without_signature :
    divInt64 (safeMul Fixture.vals2.TotalVotingPower (wrapInt64 1)).1
      (wrapInt64 18446744073709551615) = -20 ∧
    (VerifyCommitLightTrusting (Fixture.env false) "c" (some Fixture.vals2)
        (some (Fixture.commitOf [Fixture.absent, Fixture.absent]))
        { Numerator := 1, Denominator := 18446744073709551615 }).result = .accept ∧
    (VerifyCommitLightTrusting (Fixture.env true) "c" (some Fixture.vals2)
        (some (Fixture.commitOf [Fixture.absent, Fixture.absent]))
        { Numerator := 1, Denominator := 18446744073709551615 }).result = .accept ∧
    (VerifyCommitLightTrusting (Fixture.env true) "c" (some Fixture.vals2)
        (some (Fixture.commitOf [Fixture.absent, Fixture.absent]))
        { Numerator := 1, Denominator := 18446744073709551615 }).tallied = 0 := by
  decide

/-! ### The scan of the validity bits -/

section Loops

variable (E : Env) (bv : BatchVerifier) (chainID : String) (vals : ValidatorSet)
  (commit : Commit) (needed : Int) (ignoreSig countSig : CommitSig → Bool)
  (countAll byIndex : Bool) (cache : Option SignatureCache)

/-- The batched indices are recorded in increasing order: the loop of
`verifyCommitBatch` appends to `batchSigIdxs` commit indices of the entries it
runs over, each larger than the ones before. -/
theorem batchLoop_idxs_sorted (sigs : List CommitSig) (idx : Nat) (b : BatchState) :
    ∃ extra : List Nat,
      (batchLoop E bv chainID vals commit needed ignoreSig countSig countAll byIndex cache
        sigs idx b).state.batchSigIdxs = b.batchSigIdxs ++ extra ∧
      extra.Pairwise (· < ·) ∧
      ∀ i ∈ extra, idx ≤ i ∧ i < idx + sigs.length := by
  induction sigs generalizing idx b with
  | nil => exact ⟨[], by simp [batchLoop, Flow.state], List.Pairwise.nil, by simp⟩
  | cons cs rest ih =>
    have hstep := batchBody_trace E bv chainID vals commit needed ignoreSig countSig countAll
      byIndex cache idx cs b
    have hfirst : ∃ extra1 : List Nat,
        (batchBody E bv chainID vals commit needed ignoreSig countSig countAll byIndex cache idx
          cs b).state.batchSigIdxs = b.batchSigIdxs ++ extra1 ∧
        (extra1 = [] ∨ extra1 = [idx]) := by
      rcases hstep with ⟨-, h2⟩ | ⟨-, -, h2 | h2⟩
      · exact ⟨[], by simpa using h2, Or.inl rfl⟩
      · exact ⟨[], by simpa using h2, Or.inl rfl⟩
      · exact ⟨[idx], h2, Or.inr rfl⟩
    obtain ⟨extra1, hk1, hshape⟩ := hfirst
    have hsorted1 : extra1.Pairwise (· < ·) := by
      rcases hshape with h | h <;> rw [h] <;> simp
    have hrange1 : ∀ i ∈ extra1, idx ≤ i ∧ i < idx + (cs :: rest).length := by
      intro i hi
      rcases hshape with h | h
      · rw [h] at hi; cases hi
      · rw [h] at hi
        simp only [List.mem_singleton] at hi
        subst hi
        simp
    rw [batchLoop]
    cases hbody : batchBody E bv chainID vals commit needed ignoreSig countSig countAll byIndex
        cache idx cs b with
    | next b1 =>
      simp only []
      rw [hbody] at hk1
      simp only [Flow.state] at hk1
      obtain ⟨extra2, hk2, hs2, hr2⟩ := ih (idx + 1) b1
      refine ⟨extra1 ++ extra2, by rw [hk2, hk1, List.append_assoc], ?_, ?_⟩
      · rw [List.pairwise_append]
        refine ⟨hsorted1, hs2, ?_⟩
        intro a ha c hc
        have h1 := hr2 c hc
        rcases hshape with h | h
        · rw [h] at ha; cases ha
        · rw [h] at ha
          simp only [List.mem_singleton] at ha
          omega
      · intro i hi
        rcases List.mem_append.mp hi with h | h
        · exact hrange1 i h
        · have := hr2 i h
          simp only [List.length_cons]
          omega
    | brk b1 =>
      simp only []
      rw [hbody] at hk1
      exact ⟨extra1, hk1, hsorted1, hrange1⟩
    | ret r b1 =>
      simp only []
      rw [hbody] at hk1
      exact ⟨extra1, hk1, hsorted1, hrange1⟩

/-- A list of bits whose first `false` bit is at position `n`. -/
theorem bits_first_false (bits : List Bool) (n : Nat) (hn : bits[n]? = some false)
    (hfirst : ∀ j < n, bits[j]? = some true) :
    bits = List.replicate n true ++ false :: bits.drop (n + 1) := by
  induction bits generalizing n with
  | nil => simp at hn
  | cons bit rest ih =>
    cases n with
    | zero =>
      simp only [List.getElem?_cons_zero, Option.some.injEq] at hn
      simp [hn]
    | succ m =>
      have h0 := hfirst 0 (by omega)
      simp only [List.getElem?_cons_zero, Option.some.injEq] at h0
      have hm : rest[m]? = some false := by simpa using hn
      have hrest : ∀ j < m, rest[j]? = some true := by
        intro j hj
        have := hfirst (j + 1) (by omega)
        simpa using this
      have := ih m hm hrest
      rw [h0, List.replicate_succ, List.cons_append, List.drop_succ_cons, ← this]

/-- The writes of the scan of the validity bits: the entries of the batched
indices that come before the first `false` bit, and no other. -/
theorem batchFindInvalid_cache (A B : List Nat) (k : Nat)
    (hA : ∀ a ∈ A, a < commit.Signatures.length) (bitsB : List Bool)
    (n i : Nat) (c : Option SignatureCache) (hi : i + n = A.length) :
    (batchFindInvalid E chainID commit (A ++ k :: B)
      (List.replicate n true ++ false :: bitsB) i c).2 =
      c.map (fun c0 => ((A.drop i).filterMap (batchCacheEntry E chainID commit)).reverse
        ++ c0) := by
  induction n generalizing i c with
  | zero =>
    have hik : (A ++ k :: B)[i]? = some k := by
      rw [show i = A.length by omega, List.getElem?_append_right (le_refl _)]
      simp
    have hdrop : A.drop i = [] := by
      rw [show i = A.length by omega]
      simp
    simp only [List.replicate_zero, List.nil_append, batchFindInvalid, hik, hdrop]
    cases commit.Signatures[k]? <;> cases c <;> simp
  | succ n ih =>
    have hlt : i < A.length := by omega
    have hia : (A ++ k :: B)[i]? = some A[i] := by
      rw [List.getElem?_append_left hlt]
      exact List.getElem?_eq_getElem hlt
    have hin : A[i] < commit.Signatures.length := hA _ (List.getElem_mem _)
    have his : commit.Signatures[A[i]]? = some commit.Signatures[A[i]] :=
      List.getElem?_eq_getElem hin
    have hdrop : A.drop i = A[i] :: A.drop (i + 1) := List.drop_eq_getElem_cons hlt
    simp only [List.replicate_succ, List.cons_append, batchFindInvalid, hia, his]
    simp only [not_true_eq_false, if_false]
    refine Eq.trans (ih (i + 1) _ (by omega)) ?_
    have hent : batchCacheEntry E chainID commit A[i] =
        some (commit.Signatures[A[i]].Signature,
          { ValidatorAddress := commit.Signatures[A[i]].ValidatorAddress,
            VoteSignBytes := E.VoteSignBytes commit chainID (wrapInt32 A[i]) }) := by
      simp only [batchCacheEntry, his, Option.map_some']
    cases c with
    | none => rfl
    | some c0 =>
      simp only [Option.map_some', SignatureCache.Add]
      rw [hdrop, List.filterMap_cons_some hent, List.reverse_cons, List.append_assoc]
      rfl

end Loops

section Drivers

variable (E : Env) (chainID : String) (vals : ValidatorSet)
  (commit : Commit) (needed : Int) (ignoreSig countSig : CommitSig → Bool)
  (countAll byIndex : Bool)

/-- The end of `verifyCommitBatch` when `Verify` reports a failure with one bit
per batched signature, the first `false` bit being at position `n`: the error
is `WrongSignature` for the batched index at position `n`, and the cache has
received the entries of the batched indices before position `n` only. -/
theorem batchFinish_first_false (bv : BatchVerifier) (cache : Option SignatureCache)
    (b : BatchState) (bits : List Bool) (n : Nat)
    (ht : needed < b.talliedVotingPower)
    (hverify : bv.Verify b.batch = (false, bits))
    (hbits : bits.length = b.batchSigIdxs.length)
    (hn : bits[n]? = some false) (hfirst : ∀ j < n, bits[j]? = some true)
    (hidx : ∀ idx ∈ b.batchSigIdxs, idx < commit.Signatures.length) :
    ∃ k sig, b.batchSigIdxs[n]? = some k ∧ commit.Signatures[k]? = some sig ∧
      (batchFinish E bv chainID commit needed cache (.next b)).result
        = .reject (.WrongSignature k (.commitSig sig)) ∧
      (batchFinish E bv chainID commit needed cache (.next b)).cache
        = cache.map (fun c0 =>
            ((b.batchSigIdxs.take n).filterMap (batchCacheEntry E chainID commit)).reverse
              ++ c0) := by
  have hnlt : n < b.batchSigIdxs.length := by
    rw [← hbits]
    exact (List.getElem?_eq_some_iff.mp hn).1
  obtain ⟨A, k, B, hdec, hAlen, hAtake⟩ : ∃ A k B, b.batchSigIdxs = A ++ k :: B ∧
      A.length = n ∧ A = b.batchSigIdxs.take n := by
    refine ⟨b.batchSigIdxs.take n, b.batchSigIdxs[n], b.batchSigIdxs.drop (n + 1), ?_, ?_, rfl⟩
    · rw [← List.drop_eq_getElem_cons hnlt, List.take_append_drop]
    · rw [List.length_take]
      omega
  have hkmem : k ∈ b.batchSigIdxs := by
    rw [hdec]
    simp
  have hk : k < commit.Signatures.length := hidx k hkmem
  have hA : ∀ a ∈ A, a < commit.Signatures.length := by
    intro a ha
    apply hidx
    rw [hdec]
    simp [ha]
  have hbitsdec := bits_first_false bits n hn hfirst
  have hl : ¬ b.batchSigIdxs.length = 0 := by omega
  have hkn : b.batchSigIdxs[n]? = some k := by
    rw [hdec, ← hAlen, List.getElem?_append_right (le_refl _)]
    simp
  refine ⟨k, commit.Signatures[k], hkn, List.getElem?_eq_getElem hk, ?_, ?_⟩
  · simp only [batchFinish, not_le.mpr ht, hl, if_false, hverify]
    rw [hbitsdec, hdec]
    exact batchFindInvalid_first E chainID commit A B k _ (List.getElem?_eq_getElem hk) hA _
      n 0 cache (by rw [hAlen]; simp)
  · simp only [batchFinish, not_le.mpr ht, hl, if_false, hverify]
    rw [hbitsdec, ← hAtake, hdec]
    rw [batchFindInvalid_cache E chainID commit A B k hA _ n 0 cache (by rw [hAlen]; simp)]
    simp only [List.drop_zero]

/-- The run of `verifyCommitBatch` with a given verifier, in terms of its
loop, and the range of the batched indices. -/
theorem verifyCommitBatch_with (cache : Option SignatureCache) (bv : BatchVerifier)
    (b : BatchState)
    (hlen : batchVerifyThreshold ≤ commit.Signatures.length)
    (hloop :
      batchLoop E bv chainID vals commit needed ignoreSig countSig countAll byIndex cache
        commit.Signatures 0
        { val := none, seenVals := [], batchSigIdxs := [], batch := [],
          talliedVotingPower := 0, calls := [] } = .next b ∨
      batchLoop E bv chainID vals commit needed ignoreSig countSig countAll byIndex cache
        commit.Signatures 0
        { val := none, seenVals := [], batchSigIdxs := [], batch := [],
          talliedVotingPower := 0, calls := [] } = .brk b) :
    verifyCommitBatch E chainID vals commit needed ignoreSig countSig countAll byIndex
        (some bv) cache =
      batchFinish E bv chainID commit needed cache (.next b) ∧
    b.batchSigIdxs.Pairwise (· < ·) ∧
    ∀ idx ∈ b.batchSigIdxs, idx < commit.Signatures.length := by
  have hnot : ¬ commit.Signatures.length < batchVerifyThreshold := not_lt.mpr hlen
  obtain ⟨extra, h1, h2, h3⟩ := batchLoop_idxs_sorted E bv chainID vals commit needed
    ignoreSig countSig countAll byIndex cache commit.Signatures 0
    { val := none, seenVals := [], batchSigIdxs := [], batch := [],
      talliedVotingPower := 0, calls := [] }
  have hidxs : b.batchSigIdxs = extra := by
    rcases hloop with h | h <;> rw [h] at h1 <;> simpa [Flow.state] using h1
  refine ⟨?_, by rw [hidxs]; exact h2, ?_⟩
  · simp only [verifyCommitBatch, hnot, if_false]
    rcases hloop with h | h
    · rw [h]
    · rw [h]
      rfl
  · intro idx hidx
    rw [hidxs] at hidx
    have := (h3 idx hidx).2
    omega

end Drivers

/-! ### The first invalid signature of a batch -/

/-- C21: in `verifyCommitBatch` (at least two signatures, a verifier `bv`), let
the loop end, at the end of the entries or at the break, with a tally above
the threshold, and let `Verify` report a failure with one bit per batched
signature, the first `false` bit being at position `n`. Then `batchSigIdxs` is
strictly increasing, the result is `WrongSignature` for the commit index
batched at position `n`, with the entry of the commit at this index as
operand, and this index is the smallest commit index among the batched
signatures whose bit is `false`. -/
theorem batch_reports_first_invalid (E : Env) (chainID : String) (vals : ValidatorSet)
    (commit : Commit) (votingPowerNeeded : Int) (ignoreSig countSig : CommitSig → Bool)
    (countAllSignatures lookUpByIndex : Bool) (cache : Option SignatureCache)
    (bv : BatchVerifier) (b : BatchState) (validSigs : List Bool) (n : Nat)
    (hlen : batchVerifyThreshold ≤ commit.Signatures.length)
    (hloop :
      batchLoop E bv chainID vals commit votingPowerNeeded ignoreSig countSig
        countAllSignatures lookUpByIndex cache commit.Signatures 0
        { val := none, seenVals := [], batchSigIdxs := [], batch := [],
          talliedVotingPower := 0, calls := [] } = .next b ∨
      batchLoop E bv chainID vals commit votingPowerNeeded ignoreSig countSig
        countAllSignatures lookUpByIndex cache commit.Signatures 0
        { val := none, seenVals := [], batchSigIdxs := [], batch := [],
          talliedVotingPower := 0, calls := [] } = .brk b)
    (htally : votingPowerNeeded < b.talliedVotingPower)
    (hverify : bv.Verify b.batch = (false, validSigs))
    (hbits : validSigs.length = b.batchSigIdxs.length)
    (hn : validSigs[n]? = some false) (hfirst : ∀ j < n, validSigs[j]? = some true) :
    b.batchSigIdxs.Pairwise (· < ·) ∧
    ∃ k sig, b.batchSigIdxs[n]? = some k ∧ commit.Signatures[k]? = some sig ∧
      (verifyCommitBatch E chainID vals commit votingPowerNeeded ignoreSig countSig
        countAllSignatures lookUpByIndex (some bv) cache).result
        = .reject (.WrongSignature k (.commitSig sig)) ∧
      ∀ j k1 : Nat, b.batchSigIdxs[j]? = some k1 → validSigs[j]? = some false → k ≤ k1 := by
  obtain ⟨hrun, hsorted, hidx⟩ := verifyCommitBatch_with E chainID vals commit
    votingPowerNeeded ignoreSig countSig countAllSignatures lookUpByIndex cache bv b hlen hloop
  obtain ⟨k, sig, hk, hsig, hres, -⟩ := batchFinish_first_false E chainID commit
    votingPowerNeeded bv cache b validSigs n htally hverify hbits hn hfirst hidx
  refine ⟨hsorted, k, sig, hk, hsig, by rw [hrun]; exact hres, ?_⟩
  intro j k1 hj hbit
  have hnj : n ≤ j := by
    by_contra hlt
    have := hfirst j (not_le.mp hlt)
    rw [this] at hbit
    cases hbit
  rcases Nat.eq_or_lt_of_le hnj with heq | hlt
  · subst heq
    rw [hk] at hj
    cases hj
    exact le_refl _
  · have hjl : j < b.batchSigIdxs.length := (List.getElem?_eq_some_iff.mp hj).1
    have hnl : n < b.batchSigIdxs.length := (List.getElem?_eq_some_iff.mp hk).1
    have hlt2 := List.pairwise_iff_getElem.mp hsorted n j hnl hjl hlt
    rw [List.getElem?_eq_getElem hnl] at hk
    rw [List.getElem?_eq_getElem hjl] at hj
    cases hk
    cases hj
    exact le_of_lt hlt2

/-- C21, at four validators of power 10 and threshold 26, every signature
counted: the commit holds a valid signature followed by three corrupted ones;
the bits of the batch are `[true, false, false, false]` and the result is
`WrongSignature` for index 1. -/
theorem batch_reports_first_invalid_witness :
    (verifyCommitBatch (Fixture.env true) "c" Fixture.vals4
        (Fixture.commitOf [Fixture.signed 1, Fixture.corrupted 2, Fixture.corrupted 3,
          Fixture.corrupted 4])
        26 ignoreAbsent countCommit true true (some Fixture.verifier) none).result
      = .reject (.WrongSignature 1 (.commitSig (Fixture.corrupted 2))) :=
  (batch_reports_first_invalid (Fixture.env true) "c" Fixture.vals4
    (Fixture.commitOf [Fixture.signed 1, Fixture.corrupted 2, Fixture.corrupted 3,
      Fixture.corrupted 4])
    26 ignoreAbsent countCommit true true none Fixture.verifier
    { val := some (Fixture.validator 4 10), seenVals := [], batchSigIdxs := [0, 1, 2, 3],
      batch := [{ key := some (Fixture.key 1), msg := Fixture.msg, sig := [1, 1, 7] },
        { key := some (Fixture.key 2), msg := Fixture.msg, sig := [102, 1, 7] },
        { key := some (Fixture.key 3), msg := Fixture.msg, sig := [103, 1, 7] },
        { key := some (Fixture.key 4), msg := Fixture.msg, sig := [104, 1, 7] }],
      talliedVotingPower := 40,
      calls := [.BatchAdd 0, .BatchAdd 1, .BatchAdd 2, .BatchAdd 3] }
    [true, false, false, false] 1
    (by decide) (Or.inl rfl) (by decide) rfl rfl rfl (by decide)).2.elim
    (fun k h => h.elim (fun sig h2 => by
      obtain ⟨hk, hsig, hres, -⟩ := h2
      have hk1 : k = 1 := by
        have : ([0, 1, 2, 3] : List Nat)[1]? = some k := hk
        simpa using this.symm
      subst hk1
      have hs : sig = Fixture.corrupted 2 := by
        have : (Fixture.commitOf [Fixture.signed 1, Fixture.corrupted 2, Fixture.corrupted 3,
          Fixture.corrupted 4]).Signatures[1]? = some sig := hsig
        simpa [Fixture.commitOf] using this.symm
      subst hs
      exact hres))

/-! ### The cache after a failed batch verification -/

/-- C22 (counterexample): four validators of power 10, threshold 26, every
signature counted, an empty cache, and a commit whose first signature is
corrupted and whose three other signatures are valid. The bits of the batch
are `[false, true, true, true]`; `verifyCommitBatch` returns `WrongSignature`
for index 0 and the cache is still empty: none of the three signatures whose
bit is `true` has been added. -/
theorem verifyCommitBatch_valid_after_invalid_not_cached :
    (Fixture.verifier.Verify
        [{ key := some (Fixture.key 1), msg := Fixture.msg, sig := [101, 1, 7] },
          { key := some (Fixture.key 2), msg := Fixture.msg, sig := [2, 1, 7] },
          { key := some (Fixture.key 3), msg := Fixture.msg, sig := [3, 1, 7] },
          { key := some (Fixture.key 4), msg := Fixture.msg, sig := [4, 1, 7] }])
      = (false, [false, true, true, true]) ∧
    (verifyCommitBatch (Fixture.env true) "c" Fixture.vals4
        (Fixture.commitOf [Fixture.corrupted 1, Fixture.signed 2, Fixture.signed 3,
          Fixture.signed 4])
        26 ignoreAbsent countCommit true true (some Fixture.verifier) (some [])).result
      = .reject (.WrongSignature 0 (.commitSig (Fixture.corrupted 1))) ∧
    (verifyCommitBatch (Fixture.env true) "c" Fixture.vals4
        (Fixture.commitOf [Fixture.corrupted 1, Fixture.signed 2, Fixture.signed 3,
          Fixture.signed 4])
        26 ignoreAbsent countCommit true true (some Fixture.verifier) (some [])).cache
      = some [] := by
  decide

/-- C22 (amended): in `verifyCommitBatch` (at least two signatures, a verifier
`bv`), let the loop end with a tally above the threshold and let `Verify`
report a failure with one bit per batched signature, the first `false` bit
being at position `n`. Then the cache returned with the `WrongSignature` error
is the cache received with, in front of it, the entries of the batched
signatures at the positions before `n`, the last one first, and no other: the
signatures batched after position `n` are not added, whatever their bits. -/
theorem batch_caches_valid_before_first_invalid (E : Env) (chainID : String)
    (vals : ValidatorSet) (commit : Commit) (votingPowerNeeded : Int)
    (ignoreSig countSig : CommitSig → Bool) (countAllSignatures lookUpByIndex : Bool)
    (cache : Option SignatureCache) (bv : BatchVerifier) (b : BatchState)
    (validSigs : List Bool) (n : Nat)
    (hlen : batchVerifyThreshold ≤ commit.Signatures.length)
    (hloop :
      batchLoop E bv chainID vals commit votingPowerNeeded ignoreSig countSig
        countAllSignatures lookUpByIndex cache commit.Signatures 0
        { val := none, seenVals := [], batchSigIdxs := [], batch := [],
          talliedVotingPower := 0, calls := [] } = .next b ∨
      batchLoop E bv chainID vals commit votingPowerNeeded ignoreSig countSig
        countAllSignatures lookUpByIndex cache commit.Signatures 0
        { val := none, seenVals := [], batchSigIdxs := [], batch := [],
          talliedVotingPower := 0, calls := [] } = .brk b)
    (htally : votingPowerNeeded < b.talliedVotingPower)
    (hverify : bv.Verify b.batch = (false, validSigs))
    (hbits : validSigs.length = b.batchSigIdxs.length)
    (hn : validSigs[n]? = some false) (hfirst : ∀ j < n, validSigs[j]? = some true) :
    (verifyCommitBatch E chainID vals commit votingPowerNeeded ignoreSig countSig
      countAllSignatures lookUpByIndex (some bv) cache).cache =
      cache.map (fun c0 =>
        ((b.batchSigIdxs.take n).filterMap (batchCacheEntry E chainID commit)).reverse
          ++ c0) ∧
    ∀ (j k : Nat), j < n → b.batchSigIdxs[j]? = some k →
      ∃ sig, commit.Signatures[k]? = some sig ∧
        batchCacheEntry E chainID commit k =
          some (sig.Signature,
            { ValidatorAddress := sig.ValidatorAddress,
              VoteSignBytes := E.VoteSignBytes commit chainID (wrapInt32 k) }) ∧
        ∀ c0, cache = some c0 → ∃ c1,
          (verifyCommitBatch E chainID vals commit votingPowerNeeded ignoreSig countSig
            countAllSignatures lookUpByIndex (some bv) cache).cache = some c1 ∧
          (sig.Signature,
            ({ ValidatorAddress := sig.ValidatorAddress,
               VoteSignBytes := E.VoteSignBytes commit chainID (wrapInt32 k) } :
              SignatureCacheValue)) ∈ c1 := by
  obtain ⟨hrun, -, hidx⟩ := verifyCommitBatch_with E chainID vals commit
    votingPowerNeeded ignoreSig countSig countAllSignatures lookUpByIndex cache bv b hlen hloop
  obtain ⟨k0, sig0, -, -, -, hcache⟩ := batchFinish_first_false E chainID commit
    votingPowerNeeded bv cache b validSigs n htally hverify hbits hn hfirst hidx
  rw [hrun]
  refine ⟨hcache, ?_⟩
  intro j k hj hk
  have hkmem : k ∈ b.batchSigIdxs := List.getElem?_mem hk
  have hklt : k < commit.Signatures.length := hidx k hkmem
  have hsig : commit.Signatures[k]? = some commit.Signatures[k] := List.getElem?_eq_getElem hklt
  have hent : batchCacheEntry E chainID commit k =
      some (commit.Signatures[k].Signature,
        { ValidatorAddress := commit.Signatures[k].ValidatorAddress,
          VoteSignBytes := E.VoteSignBytes commit chainID (wrapInt32 k) }) := by
    simp only [batchCacheEntry, hsig, Option.map_some']
  refine ⟨commit.Signatures[k], hsig, hent, ?_⟩
  intro c0 hc0
  rw [hcache, hc0]
  refine ⟨_, rfl, ?_⟩
  apply List.mem_append_left
  rw [List.mem_reverse, List.mem_filterMap]
  refine ⟨k, ?_, hent⟩
  rw [List.mem_iff_getElem?]
  refine ⟨j, ?_⟩
  rw [List.getElem?_take_of_lt hj]
  exact hk

/-- C22, at four validators of power 10 and threshold 26, every signature
counted, an empty cache: the commit holds two valid signatures, a corrupted
one and a valid one; the result is `WrongSignature` for index 2 and the cache
holds the first two signatures, not the fourth. -/
theorem batch_caches_valid_before_first_invalid_witness :
    (verifyCommitBatch (Fixture.env true) "c" Fixture.vals4
        (Fixture.commitOf [Fixture.signed 1, Fixture.signed 2, Fixture.corrupted 3,
          Fixture.signed 4])
        26 ignoreAbsent countCommit true true (some Fixture.verifier) (some [])).cache
      = some [Fixture.cached 2, Fixture.cached 1] :=
  ((batch_caches_valid_before_first_invalid (Fixture.env true) "c" Fixture.vals4
    (Fixture.commitOf [Fixture.signed 1, Fixture.signed 2, Fixture.corrupted 3,
      Fixture.signed 4])
    26 ignoreAbsent countCommit true true (some []) Fixture.verifier
    { val := some (Fixture.validator 4 10), seenVals := [], batchSigIdxs := [0, 1, 2, 3],
      batch := [{ key := some (Fixture.key 1), msg := Fixture.msg, sig := [1, 1, 7] },
        { key := some (Fixture.key 2), msg := Fixture.msg, sig := [2, 1, 7] },
        { key := some (Fixture.key 3), msg := Fixture.msg, sig := [103, 1, 7] },
        { key := some (Fixture.key 4), msg := Fixture.msg, sig := [4, 1, 7] }],
      talliedVotingPower := 40,
      calls := [.BatchAdd 0, .BatchAdd 1, .BatchAdd 2, .BatchAdd 3] }
    [true, true, false, true] 2
    (by decide) (Or.inl rfl) (by decide) rfl rfl rfl (by decide)).1).trans (by decide)

/-! ### Early exit against checking every signature -/

section Loops

variable (E : Env) (bv : BatchVerifier) (chainID : String) (vals : ValidatorSet)
  (commit : Commit) (needed : Int) (ignoreSig countSig : CommitSig → Bool)
  (byIndex : Bool) (cache : Option SignatureCache)

/-- With early exit the check of an entry does what it does without, unless it
returns `nil`. -/
theorem singleCheck_early (idx : Nat) (cs : CommitSig) (v : Validator) (s : SingleState) :
    singleCheck E chainID commit needed countSig false idx cs v s =
        singleCheck E chainID commit needed countSig true idx cs v s ∨
      ∃ s2, singleCheck E chainID commit needed countSig false idx cs v s = .ret .accept s2 := by
  simp only [singleCheck]
  cases v.PubKey with
  | none => exact Or.inl rfl
  | some pk =>
    simp only []
    split
    · exact Or.inl rfl
    · simp only [Bool.true_eq_false, false_and, if_false, true_and]
      split
      · exact Or.inr ⟨_, rfl⟩
      · exact Or.inl rfl

theorem singleBody_early (idx : Nat) (cs : CommitSig) (s : SingleState) :
    singleBody E chainID vals commit needed ignoreSig countSig false byIndex idx cs s =
        singleBody E chainID vals commit needed ignoreSig countSig true byIndex idx cs s ∨
      ∃ s2, singleBody E chainID vals commit needed ignoreSig countSig false byIndex idx cs s
        = .ret .accept s2 := by
  rw [singleBody_eq, singleBody_eq]
  by_cases hi : ignoreSig cs = true
  · rw [if_pos hi, if_pos hi]
    exact Or.inl rfl
  · rw [if_neg hi, if_neg hi]
    by_cases hvb : ¬ E.ValidateBasic cs = true
    · rw [if_pos hvb, if_pos hvb]
      exact Or.inl rfl
    · rw [if_neg hvb, if_neg hvb]
      cases resolve vals byIndex s.seenVals idx cs with
      | panic => exact Or.inl rfl
      | skip => exact Or.inl rfl
      | doubleVote w i => exact Or.inl rfl
      | found w seen =>
        exact singleCheck_early E chainID commit needed countSig idx cs w _

/-- With early exit the loop of `verifyCommitSingle` does what it does
without, unless it returns `nil`. -/
theorem singleLoop_early (sigs : List CommitSig) (idx : Nat) (s : SingleState) :
    singleLoop E chainID vals commit needed ignoreSig countSig false byIndex sigs idx s =
        singleLoop E chainID vals commit needed ignoreSig countSig true byIndex sigs idx s ∨
      ∃ s2, singleLoop E chainID vals commit needed ignoreSig countSig false byIndex sigs idx s
        = .ret .accept s2 := by
  induction sigs generalizing idx s with
  | nil => exact Or.inl rfl
  | cons cs rest ih =>
    rw [singleLoop, singleLoop]
    rcases singleBody_early E chainID vals commit needed ignoreSig countSig byIndex idx cs s
      with h | ⟨s2, h⟩
    · rw [h]
      cases singleBody E chainID vals commit needed ignoreSig countSig true byIndex idx cs s
        with
      | next s1 => exact ih _ _
      | brk s1 => exact Or.inl rfl
      | ret r s1 => exact Or.inl rfl
    · rw [h]
      exact Or.inr ⟨s2, rfl⟩

/-- When an iteration of `verifyCommitBatch` without early exit goes on to the
next entry, the iteration with early exit reaches the same state, going on or
breaking out of the loop on a tally above the threshold. -/
theorem batchBody_early (idx : Nat) (cs : CommitSig) (b b1 : BatchState)
    (h : batchBody E bv chainID vals commit needed ignoreSig countSig true byIndex cache
      idx cs b = .next b1) :
    batchBody E bv chainID vals commit needed ignoreSig countSig false byIndex cache
        idx cs b = .next b1 ∨
    (batchBody E bv chainID vals commit needed ignoreSig countSig false byIndex cache
        idx cs b = .brk b1 ∧ needed < b1.talliedVotingPower) := by
  rw [batchBody_eq] at h ⊢
  by_cases hi : ignoreSig cs = true
  · rw [if_pos hi] at h ⊢
    exact Or.inl h
  · rw [if_neg hi] at h ⊢
    cases hres : resolve vals byIndex b.seenVals idx cs with
    | panic => rw [hres] at h; cases h
    | skip =>
      rw [hres] at h
      exact Or.inl h
    | doubleVote w i => rw [hres] at h; cases h
    | found w seen =>
      rw [hres] at h
      simp only [batchCheck] at h ⊢
      cases hhit : batchCacheHit E cache cs w.PubKey
          (E.VoteSignBytes commit chainID (wrapInt32 idx)) with
      | none => rw [hhit] at h; cases h
      | some hit =>
        rw [hhit] at h
        simp only [] at h ⊢
        cases hadd : (if hit = true then none
            else bv.Add b.batch (batchEntry E chainID commit idx cs w)) with
        | some reason => rw [hadd] at h; cases h
        | none =>
          rw [hadd] at h
          simp only [Bool.true_eq_false, false_and, if_false] at h
          simp only [true_and]
          cases h
          split
          · rename_i hx
            exact Or.inr ⟨rfl, hx⟩
          · exact Or.inl rfl

/-- When the loop of `verifyCommitBatch` without early exit runs to the end of
the entries, the loop with early exit reaches the same state or breaks, on a
tally above the threshold, with a batch that is the beginning of the batch of
the loop without early exit. -/
theorem batchLoop_early (sigs : List CommitSig) (idx : Nat) (b bT : BatchState)
    (h : batchLoop E bv chainID vals commit needed ignoreSig countSig true byIndex cache
      sigs idx b = .next bT) :
    batchLoop E bv chainID vals commit needed ignoreSig countSig false byIndex cache
        sigs idx b = .next bT ∨
    ∃ b1, batchLoop E bv chainID vals commit needed ignoreSig countSig false byIndex cache
        sigs idx b = .brk b1 ∧ needed < b1.talliedVotingPower ∧
      ∃ extra : List (Nat × BatchEntry),
        bT.batchSigIdxs = b1.batchSigIdxs ++ extra.map Prod.fst ∧
        bT.batch = b1.batch ++ extra.map Prod.snd := by
  induction sigs generalizing idx b with
  | nil =>
    simp only [batchLoop] at h ⊢
    exact Or.inl h
  | cons cs rest ih =>
    rw [batchLoop] at h ⊢
    cases hbody : batchBody E bv chainID vals commit needed ignoreSig countSig true byIndex
        cache idx cs b with
    | brk b2 => rw [hbody] at h; cases h
    | ret r b2 => rw [hbody] at h; cases h
    | next b2 =>
      rw [hbody] at h
      simp only [] at h
      rcases batchBody_early E bv chainID vals commit needed ignoreSig countSig byIndex cache
        idx cs b b2 hbody with h1 | ⟨h1, hgt⟩
      · rw [h1]
        exact ih _ _ h
      · rw [h1]
        right
        obtain ⟨extra, e1, e2, -⟩ := batchLoop_flow E bv chainID vals commit needed ignoreSig
          countSig true byIndex cache rest (idx + 1) b2 bT (Or.inl h)
        exact ⟨b2, rfl, hgt, extra, e1, e2⟩

end Loops

/-- What `shouldBatchVerify` returns on a validator set that is ready for
batch verification. -/
theorem shouldBatchVerify_cases (E : Env) (vals : ValidatorSet) (commit : Commit)
    (hready : E.BatchReady vals) :
    shouldBatchVerify E vals commit = some false ∨
    (shouldBatchVerify E vals commit = some true ∧
      batchVerifyThreshold ≤ commit.Signatures.length ∧
      ∃ bv p, vals.GetProposer = some p ∧ E.CreateBatchVerifier p.PubKey = some bv ∧
        bv.Exact E) := by
  obtain ⟨p, hp, hsup⟩ := hready
  unfold shouldBatchVerify
  by_cases hlen : commit.Signatures.length ≥ batchVerifyThreshold
  · rw [if_pos hlen]
    simp only [hp]
    cases hs : (E.SupportsBatchVerifier p.PubKey && E.AllKeysHaveSameType vals) with
    | false => exact Or.inl rfl
    | true =>
      have hs1 : E.SupportsBatchVerifier p.PubKey = true := by
        simp only [Bool.and_eq_true] at hs
        exact hs.1
      obtain ⟨bv, hbv, hexact⟩ := hsup hs1
      exact Or.inr ⟨rfl, hlen, bv, p, rfl, hbv, hexact⟩
  · rw [if_neg hlen]
    exact Or.inl rfl

section Drivers

variable (E : Env) (chainID : String) (vals : ValidatorSet)
  (commit : Commit) (needed : Int) (ignoreSig countSig : CommitSig → Bool)
  (byIndex : Bool)

/-- If `verifyCommitSingle` accepts when every signature is counted, it
accepts with early exit. -/
theorem verifyCommitSingle_early (cache : Option SignatureCache)
    (h : (verifyCommitSingle E chainID vals commit needed ignoreSig countSig true byIndex
      cache).result = .accept) :
    (verifyCommitSingle E chainID vals commit needed ignoreSig countSig false byIndex
      cache).result = .accept := by
  unfold verifyCommitSingle at h ⊢
  rcases singleLoop_early E chainID vals commit needed ignoreSig countSig byIndex
    commit.Signatures 0
    { val := none, seenVals := [], talliedVotingPower := 0, cache := cache, calls := [] }
    with heq | ⟨s2, hacc⟩
  · rw [heq]
    exact h
  · rw [hacc]
    rfl

/-- If `verifyCommitBatch`, without cache and with an exact verifier, accepts
when every signature is counted, it accepts with early exit. -/
theorem verifyCommitBatch_early (bv : BatchVerifier) (hbv : bv.Exact E)
    (h : (batchFinish E bv chainID commit needed none
      (batchLoop E bv chainID vals commit needed ignoreSig countSig true byIndex none
        commit.Signatures 0
        { val := none, seenVals := [], batchSigIdxs := [], batch := [],
          talliedVotingPower := 0, calls := [] })).result = .accept) :
    (batchFinish E bv chainID commit needed none
      (batchLoop E bv chainID vals commit needed ignoreSig countSig false byIndex none
        commit.Signatures 0
        { val := none, seenVals := [], batchSigIdxs := [], batch := [],
          talliedVotingPower := 0, calls := [] })).result = .accept := by
  obtain ⟨bT, hloop, hgt⟩ := verifyCommitBatch_countAll_accept E chainID vals commit needed
    ignoreSig countSig byIndex none bv h
  rw [hloop] at h
  have hT := (batchFinish_accept_iff E bv chainID commit needed hbv bT).1.mp h
  rcases batchLoop_early E bv chainID vals commit needed ignoreSig countSig byIndex none
    commit.Signatures 0 _ bT hloop with hsame | ⟨b1, hbrk, hgt1, extra, e1, e2⟩
  · rw [hsame]
    exact h
  · rw [hbrk]
    apply (batchFinish_accept_iff E bv chainID commit needed hbv b1).2.mpr
    refine ⟨hgt1, ?_⟩
    rcases hT.2 with h0 | hall
    · left
      rw [e1, List.length_append] at h0
      omega
    · right
      rw [e2, List.all_append, Bool.and_eq_true] at hall
      exact hall.1

end Drivers

/-- The dispatch of the light entrypoints: if the driver chosen by
`shouldBatchVerify` accepts when every signature is counted, it accepts with
early exit. -/
theorem dispatch_early (E : Env) (chainID : String) (vals : ValidatorSet) (commit : Commit)
    (needed : Int) (ignoreSig countSig : CommitSig → Bool) (byIndex : Bool)
    (hready : E.BatchReady vals)
    (h : (match shouldBatchVerify E vals commit with
      | none => earlyReturn .panic none
      | some true =>
        verifyCommitBatch E chainID vals commit needed ignoreSig countSig true byIndex
          none none
      | some false =>
        verifyCommitSingle E chainID vals commit needed ignoreSig countSig true byIndex
          none).result = .accept) :
    (match shouldBatchVerify E vals commit with
      | none => earlyReturn .panic none
      | some true =>
        verifyCommitBatch E chainID vals commit needed ignoreSig countSig false byIndex
          none none
      | some false =>
        verifyCommitSingle E chainID vals commit needed ignoreSig countSig false byIndex
          none).result = .accept := by
  rcases shouldBatchVerify_cases E vals commit hready with hs | ⟨hs, hlen, bv, p, hp, hc, hbv⟩
  · rw [hs] at h ⊢
    exact verifyCommitSingle_early E chainID vals commit needed ignoreSig countSig byIndex
      none h
  · rw [hs] at h ⊢
    simp only [] at h ⊢
    rw [verifyCommitBatch_run E chainID vals commit needed ignoreSig countSig _ byIndex none
      bv p hp hc hlen] at h ⊢
    exact verifyCommitBatch_early E chainID vals commit needed ignoreSig countSig byIndex bv
      hbv h

/-- C23: checking every signature is at least as strict as early exit. For
every input, if `verifyCommitSingle` accepts with `countAllSignatures = true`
it accepts with `countAllSignatures = false`, all other arguments being equal.
Hence, on a validator set whose proposer has an exact batch verifier, whenever
`VerifyCommitLightAllSignatures` accepts, `VerifyCommitLight` accepts, and
whenever `VerifyCommitLightTrustingAllSignatures` accepts,
`VerifyCommitLightTrusting` accepts. -/
theorem all_signatures_stricter_than_early_exit (E : Env) (chainID : String) :
    (∀ (vals : ValidatorSet) (commit : Commit) (votingPowerNeeded : Int)
        (ignoreSig countSig : CommitSig → Bool) (lookUpByIndex : Bool)
        (cache : Option SignatureCache),
      (verifyCommitSingle E chainID vals commit votingPowerNeeded ignoreSig countSig true
        lookUpByIndex cache).result = .accept →
      (verifyCommitSingle E chainID vals commit votingPowerNeeded ignoreSig countSig false
        lookUpByIndex cache).result = .accept) ∧
    (∀ (vals : Option ValidatorSet) (blockID : BlockID) (height : Int)
        (commit : Option Commit),
      (∀ vs, vals = some vs → E.BatchReady vs) →
      (VerifyCommitLightAllSignatures E chainID vals blockID height commit).result
        = .accept →
      (VerifyCommitLight E chainID vals blockID height commit).result = .accept) ∧
    (∀ (vals : Option ValidatorSet) (commit : Option Commit) (trustLevel : Fraction),
      (∀ vs, vals = some vs → E.BatchReady vs) →
      (VerifyCommitLightTrustingAllSignatures E chainID vals commit trustLevel).result
        = .accept →
      (VerifyCommitLightTrusting E chainID vals commit trustLevel).result = .accept) := by
  refine ⟨?_, ?_, ?_⟩
  · intro vals commit needed ignoreSig countSig byIndex cache h
    exact verifyCommitSingle_early E chainID vals commit needed ignoreSig countSig byIndex
      cache h
  · intro vals blockID height commit hready h
    simp only [VerifyCommitLightAllSignatures, VerifyCommitLight, verifyCommitLightInternal]
      at h ⊢
    cases hpre : verifyBasicValsAndCommit vals commit height blockID with
    | some err =>
      rw [hpre] at h
      cases h
    | none =>
      rw [hpre] at h
      simp only [] at h ⊢
      cases vals with
      | none => cases h
      | some vs =>
        cases commit with
        | none => cases h
        | some c =>
          simp only [] at h ⊢
          exact dispatch_early E chainID vs c _ _ _ true (hready vs rfl) h
  · intro vals commit trustLevel hready h
    simp only [VerifyCommitLightTrustingAllSignatures, VerifyCommitLightTrusting,
      verifyCommitLightTrustingInternal] at h ⊢
    cases vals with
    | none => cases h
    | some vs =>
      simp only [] at h ⊢
      by_cases hden : trustLevel.Denominator = 0
      · rw [if_pos hden] at h
        cases h
      · rw [if_neg hden] at h ⊢
        cases commit with
        | none => cases h
        | some c =>
          simp only [] at h ⊢
          by_cases hov : (safeMul vs.TotalVotingPower (wrapInt64 trustLevel.Numerator)).2 = true
          · rw [if_pos hov] at h
            cases h
          · rw [if_neg hov] at h ⊢
            by_cases hz : wrapInt64 trustLevel.Denominator = 0
            · rw [if_pos hz] at h
              cases h
            · rw [if_neg hz] at h ⊢
              exact dispatch_early E chainID vs c _ _ _ false (hready vs rfl) h

/-- C23, at four validators of power 10: the commit with four valid signatures
is accepted by `VerifyCommitLightAllSignatures`, hence by `VerifyCommitLight`. -/
theorem all_signatures_stricter_than_early_exit_witness :
    (VerifyCommitLightAllSignatures (Fixture.env true) "c" (some Fixture.vals4)
        Fixture.blockB 7
        (some (Fixture.commitOf [Fixture.signed 1, Fixture.signed 2, Fixture.signed 3,
          Fixture.signed 4]))).result = .accept ∧
    (VerifyCommitLight (Fixture.env true) "c" (some Fixture.vals4) Fixture.blockB 7
        (some (Fixture.commitOf [Fixture.signed 1, Fixture.signed 2, Fixture.signed 3,
          Fixture.signed 4]))).result = .accept :=
  ⟨by decide,
    (all_signatures_stricter_than_early_exit (Fixture.env true) "c").2.1
      (some Fixture.vals4) Fixture.blockB 7
      (some (Fixture.commitOf [Fixture.signed 1, Fixture.signed 2, Fixture.signed 3,
        Fixture.signed 4]))
      (fun vs hvs => by
        cases hvs
        exact Fixture.batchReady_vals4)
      (by decide)⟩

/-! ### Index safety -/

section Loops

variable (E : Env) (bv : BatchVerifier) (chainID : String) (vals : ValidatorSet)
  (commit : Commit) (needed : Int) (ignoreSig countSig : CommitSig → Bool)
  (countAll byIndex : Bool) (cache : Option SignatureCache)

/-- The resolution of an entry panics only with lookup by index, on an index
beyond the validators. -/
theorem resolve_panic (seen : List (Nat × Nat)) (idx : Nat) (cs : CommitSig)
    (h : resolve vals byIndex seen idx cs = .panic) :
    byIndex = true ∧ vals.Validators[idx]? = none := by
  unfold resolve at h
  cases byIndex with
  | true =>
    simp only [if_true] at h
    cases hv : vals.Validators[idx]? with
    | none => exact ⟨rfl, rfl⟩
    | some v => simp [hv] at h
  | false =>
    simp only [Bool.false_eq_true, if_false] at h
    cases hg : vals.GetByAddress cs.ValidatorAddress with
    | none => simp [hg] at h
    | some p =>
      obtain ⟨vi, v⟩ := p
      simp only [hg] at h
      cases hl : List.lookup vi seen <;> simp [hl] at h

/-- A panic of the loop of `verifyCommitSingle` is an access to a validator
beyond the end of the set. -/
theorem singleLoop_ret_panic (sigs : List CommitSig) (idx : Nat) (s s1 : SingleState)
    (h : singleLoop E chainID vals commit needed ignoreSig countSig countAll byIndex sigs idx s
      = .ret .panic s1) :
    byIndex = true ∧ ∃ k cs, sigs[k]? = some cs ∧ vals.Validators[idx + k]? = none := by
  induction sigs generalizing idx s with
  | nil => simp [singleLoop] at h
  | cons cs rest ih =>
    rw [singleLoop] at h
    cases hbody : singleBody E chainID vals commit needed ignoreSig countSig countAll byIndex
        idx cs s with
    | next s2 =>
      rw [hbody] at h
      obtain ⟨hb, k, c, h1, h2⟩ := ih _ _ h
      exact ⟨hb, k + 1, c, by simpa using h1, by
        rw [show idx + (k + 1) = idx + 1 + k by omega]
        exact h2⟩
    | brk s2 => rw [hbody] at h; cases h
    | ret r2 s2 =>
      rw [hbody] at h
      cases h
      rw [singleBody_eq] at hbody
      split at hbody
      · cases hbody
      · split at hbody
        · cases hbody
        · cases hres : resolve vals byIndex s.seenVals idx cs with
          | panic =>
            obtain ⟨hb, hv⟩ := resolve_panic vals byIndex _ idx cs hres
            exact ⟨hb, 0, cs, by simp, by simpa using hv⟩
          | skip => rw [hres] at hbody; cases hbody
          | doubleVote w i => rw [hres] at hbody; cases hbody
          | found w seen =>
            rw [hres] at hbody
            simp only [singleCheck] at hbody
            cases hpk : w.PubKey with
            | none => rw [hpk] at hbody; cases hbody
            | some pk =>
              rw [hpk] at hbody
              simp only [] at hbody
              split at hbody
              · cases hbody
              · split at hbody <;> cases hbody

/-- A panic of the loop of `verifyCommitBatch` is an access to a validator
beyond the end of the set, or the use of the key of a validator without key in
the cache test. -/
theorem batchLoop_ret_panic (sigs : List CommitSig) (idx : Nat) (b b1 : BatchState)
    (h : batchLoop E bv chainID vals commit needed ignoreSig countSig countAll byIndex cache
      sigs idx b = .ret .panic b1) :
    (byIndex = true ∧ ∃ k cs, sigs[k]? = some cs ∧ vals.Validators[idx + k]? = none) ∨
    (cache ≠ none ∧ ∃ v ∈ vals.Validators, v.PubKey = none) := by
  induction sigs generalizing idx b with
  | nil => simp [batchLoop] at h
  | cons cs rest ih =>
    rw [batchLoop] at h
    cases hbody : batchBody E bv chainID vals commit needed ignoreSig countSig countAll byIndex
        cache idx cs b with
    | next b2 =>
      rw [hbody] at h
      rcases ih _ _ h with ⟨hb, k, c, h1, h2⟩ | hkey
      · exact Or.inl ⟨hb, k + 1, c, by simpa using h1, by
          rw [show idx + (k + 1) = idx + 1 + k by omega]
          exact h2⟩
      · exact Or.inr hkey
    | brk b2 => rw [hbody] at h; cases h
    | ret r2 b2 =>
      rw [hbody] at h
      cases h
      rw [batchBody_eq] at hbody
      split at hbody
      · cases hbody
      · cases hres : resolve vals byIndex b.seenVals idx cs with
        | panic =>
          obtain ⟨hb, hv⟩ := resolve_panic vals byIndex _ idx cs hres
          exact Or.inl ⟨hb, 0, cs, by simp, by simpa using hv⟩
        | skip => rw [hres] at hbody; cases hbody
        | doubleVote w i => rw [hres] at hbody; cases hbody
        | found w seen =>
          right
          have hmem := resolve_found_mem vals byIndex _ _ idx cs w hres
          rw [hres] at hbody
          simp only [batchCheck] at hbody
          cases hhit : batchCacheHit E cache cs w.PubKey
              (E.VoteSignBytes commit chainID (wrapInt32 idx)) with
          | none =>
            unfold batchCacheHit at hhit
            cases hc : cache with
            | none => rw [hc] at hhit; cases hhit
            | some c0 =>
              refine ⟨by simp, w, hmem, ?_⟩
              rw [hc] at hhit
              simp only [] at hhit
              cases hg : c0.Get cs.Signature with
              | none => rw [hg] at hhit; cases hhit
              | some cv =>
                rw [hg] at hhit
                simp only [] at hhit
                cases hpk : w.PubKey with
                | none => rfl
                | some pk => rw [hpk] at hhit; cases hhit
          | some hit =>
            rw [hhit] at hbody
            simp only [] at hbody
            split at hbody
            · cases hbody
            · split at hbody <;> cases hbody

/-- A list of bits that are not all `true` has a first `false` bit. -/
theorem exists_first_false (bits : List Bool) (h : bits.all id = false) :
    ∃ n : Nat, bits[n]? = some false ∧ ∀ j : Nat, j < n → bits[j]? = some true := by
  induction bits with
  | nil => simp at h
  | cons bit rest ih =>
    cases bit with
    | false => exact ⟨0, by simp, fun j hj => absurd hj (Nat.not_lt_zero j)⟩
    | true =>
      have hrest : rest.all id = false := by simpa using h
      obtain ⟨n, h1, h2⟩ := ih hrest
      refine ⟨n + 1, by simpa using h1, ?_⟩
      intro j hj
      cases j with
      | zero => simp
      | succ m => simpa using h2 m (by omega)

end Loops

section Drivers

variable (E : Env) (chainID : String) (vals : ValidatorSet)
  (commit : Commit) (needed : Int) (ignoreSig countSig : CommitSig → Bool)
  (countAll byIndex : Bool)

/-- With an exact verifier the end of `verifyCommitBatch` does not panic. -/
theorem batchFinish_ne_panic (bv : BatchVerifier) (hbv : bv.Exact E)
    (cache : Option SignatureCache) (b : BatchState)
    (hlen : b.batchSigIdxs.length = b.batch.length)
    (hidx : ∀ idx ∈ b.batchSigIdxs, idx < commit.Signatures.length) :
    (batchFinish E bv chainID commit needed cache (.next b)).result ≠ .panic := by
  by_cases ht : b.talliedVotingPower ≤ needed
  · simp [batchFinish, ht]
  · by_cases hl : b.batchSigIdxs.length = 0
    · simp [batchFinish, ht, hl]
    · cases hall : b.batch.all (entryValid E) with
      | true =>
        simp only [batchFinish, ht, hl, if_false, hbv.2, hall]
        cases cache with
        | none => simp
        | some c =>
          simp only []
          obtain ⟨c1, hc1⟩ := batchCacheAll_some E chainID commit b.batchSigIdxs hidx
            (b.batch.map (entryValid E)) 0 c (by simp [hlen])
          rw [hc1]
          simp
      | false =>
        have hverify : bv.Verify b.batch = (false, b.batch.map (entryValid E)) := by
          rw [hbv.2, hall]
        have hbits : (b.batch.map (entryValid E)).all id = false := by
          rw [← hall]
          clear hall hverify hlen
          induction b.batch with
          | nil => rfl
          | cons x xs ih => simp [List.all_cons, ih]
        obtain ⟨n, hn, hfirst⟩ := exists_first_false _ hbits
        obtain ⟨k, sig, -, -, hres, -⟩ := batchFinish_first_false E chainID commit needed bv
          cache b _ n (not_le.mp ht) hverify (by simp [hlen]) hn hfirst hidx
        rw [hres]
        simp

/-- With lookup by address, or with lookup by index on a validator set as long
as the commit, neither driver panics: `verifyCommitSingle` for every cache,
`verifyCommitBatch` with an exact verifier when there is no cache or every
validator has a key. -/
theorem drivers_ne_panic
    (hsize : byIndex = true → vals.Validators.length = commit.Signatures.length) :
    (∀ cache : Option SignatureCache,
      (verifyCommitSingle E chainID vals commit needed ignoreSig countSig countAll byIndex
        cache).result ≠ .panic) ∧
    (∀ (cache : Option SignatureCache) (bv : BatchVerifier) (p : Validator),
      vals.GetProposer = some p → E.CreateBatchVerifier p.PubKey = some bv → bv.Exact E →
      batchVerifyThreshold ≤ commit.Signatures.length →
      (cache = none ∨ ∀ v ∈ vals.Validators, v.PubKey ≠ none) →
      (verifyCommitBatch E chainID vals commit needed ignoreSig countSig countAll byIndex
        none cache).result ≠ .panic) := by
  have hin : byIndex = true → ∀ k cs, commit.Signatures[k]? = some cs →
      vals.Validators[0 + k]? ≠ none := by
    intro hb k cs hk
    have hlt : k < commit.Signatures.length := (List.getElem?_eq_some_iff.mp hk).1
    rw [← hsize hb] at hlt
    rw [zero_add, List.getElem?_eq_getElem hlt]
    simp
  constructor
  · intro cache hpanic
    unfold verifyCommitSingle at hpanic
    cases hloop : singleLoop E chainID vals commit needed ignoreSig countSig countAll byIndex
        commit.Signatures 0
        { val := none, seenVals := [], talliedVotingPower := 0, cache := cache, calls := [] }
      with
    | ret r s =>
      rw [hloop] at hpanic
      simp only [singleFinish] at hpanic
      subst hpanic
      obtain ⟨hb, k, cs, h1, h2⟩ := singleLoop_ret_panic E chainID vals commit needed ignoreSig
        countSig countAll byIndex _ _ _ s hloop
      exact hin hb k cs h1 h2
    | next s =>
      rw [hloop] at hpanic
      simp only [singleFinish] at hpanic
      split at hpanic <;> cases hpanic
    | brk s =>
      rw [hloop] at hpanic
      simp only [singleFinish] at hpanic
      split at hpanic <;> cases hpanic
  · intro cache bv p hp hc hbv hlen hkeys hpanic
    rw [verifyCommitBatch_run E chainID vals commit needed ignoreSig countSig countAll byIndex
      cache bv p hp hc hlen] at hpanic
    cases hloop : batchLoop E bv chainID vals commit needed ignoreSig countSig countAll byIndex
        cache commit.Signatures 0
        { val := none, seenVals := [], batchSigIdxs := [], batch := [],
          talliedVotingPower := 0, calls := [] } with
    | ret r b =>
      rw [hloop] at hpanic
      simp only [batchFinish] at hpanic
      subst hpanic
      rcases batchLoop_ret_panic E bv chainID vals commit needed ignoreSig countSig countAll
        byIndex cache _ _ _ b hloop with ⟨hb, k, cs, h1, h2⟩ | ⟨hcache, v, hv, hnokey⟩
      · exact hin hb k cs h1 h2
      · rcases hkeys with hnone | hall
        · exact hcache hnone
        · exact hall v hv hnokey
    | next b =>
      rw [hloop] at hpanic
      obtain ⟨extra, e1, e2, -⟩ := batchLoop_flow E bv chainID vals commit needed ignoreSig
        countSig countAll byIndex cache commit.Signatures 0 _ b (Or.inl hloop)
      obtain ⟨-, -, hidx⟩ := verifyCommitBatch_with E chainID vals commit needed ignoreSig
        countSig countAll byIndex cache bv b hlen (Or.inl hloop)
      exact batchFinish_ne_panic E chainID commit needed bv hbv cache b
        (by rw [e1, e2]; simp) hidx hpanic
    | brk b =>
      rw [hloop] at hpanic
      obtain ⟨extra, e1, e2, -⟩ := batchLoop_flow E bv chainID vals commit needed ignoreSig
        countSig countAll byIndex cache commit.Signatures 0 _ b (Or.inr hloop)
      obtain ⟨-, -, hidx⟩ := verifyCommitBatch_with E chainID vals commit needed ignoreSig
        countSig countAll byIndex cache bv b hlen (Or.inr hloop)
      exact batchFinish_ne_panic E chainID commit needed bv hbv cache b
        (by rw [e1, e2]; simp) hidx hpanic

end Drivers

/-- The conversion `int64(trustLevel.Denominator)` of a non-zero `uint64` is
not zero. -/
theorem wrapInt64_denominator_ne_zero (d : Nat) (h0 : d ≠ 0) (h1 : d < 2 ^ 64) :
    wrapInt64 (d : Int) ≠ 0 := by
  unfold wrapInt64
  omega

/-- C25: index safety. Once `verifyBasicValsAndCommit` has passed, every
access `vals.Validators[idx]` at the index of a commit signature is in bounds:
the entry is paired with the validator at that index, `verifyCommitSingle` with
lookup by index does not panic, a panic of the loop of `verifyCommitBatch` is
not an index out of range (it is the use of a missing key in the cache test),
and the by-index entrypoints do not panic on a validator set that is ready for
batch verification. With lookup by address no validator is accessed by index:
the resolution never panics, whatever the sizes of the commit and the validator
set, and neither do the drivers and the trusting entrypoints. -/
theorem validator_index_in_bounds (E : Env) (chainID : String) (vals : ValidatorSet)
    (commit : Commit) (height : Int) (blockID : BlockID)
    (hpre : verifyBasicValsAndCommit (some vals) (some commit) height blockID = none) :
    (∀ (idx : Nat) (cs : CommitSig), commit.Signatures[idx]? = some cs →
      ∃ v, vals.Validators[idx]? = some v ∧ pairedValidator vals true idx cs = some v ∧
        ∀ seen, resolve vals true seen idx cs = .found v seen) ∧
    (∀ (needed : Int) (ignoreSig countSig : CommitSig → Bool) (countAll : Bool)
        (cache : Option SignatureCache),
      (verifyCommitSingle E chainID vals commit needed ignoreSig countSig countAll true
        cache).result ≠ .panic) ∧
    (∀ (needed : Int) (ignoreSig countSig : CommitSig → Bool) (countAll : Bool)
        (cache : Option SignatureCache) (bv : BatchVerifier) (b : BatchState),
      batchLoop E bv chainID vals commit needed ignoreSig countSig countAll true cache
          commit.Signatures 0
          { val := none, seenVals := [], batchSigIdxs := [], batch := [],
            talliedVotingPower := 0, calls := [] } = .ret .panic b →
        cache ≠ none ∧ ∃ v ∈ vals.Validators, v.PubKey = none) ∧
    (E.BatchReady vals →
      (VerifyCommit E chainID (some vals) blockID height (some commit)).result ≠ .panic ∧
      (VerifyCommitLight E chainID (some vals) blockID height (some commit)).result
        ≠ .panic ∧
      (VerifyCommitLightAllSignatures E chainID (some vals) blockID height
        (some commit)).result ≠ .panic) ∧
    (∀ (vs : ValidatorSet) (seen : List (Nat × Nat)) (idx : Nat) (cs : CommitSig),
      resolve vs false seen idx cs ≠ .panic) ∧
    (∀ (vs : ValidatorSet) (c : Commit) (needed : Int) (ignoreSig countSig : CommitSig → Bool)
        (countAll : Bool) (cache : Option SignatureCache),
      (verifyCommitSingle E chainID vs c needed ignoreSig countSig countAll false
        cache).result ≠ .panic) ∧
    (∀ (vs : ValidatorSet) (c : Commit) (trustLevel : Fraction),
      E.BatchReady vs → trustLevel.Denominator < 2 ^ 64 →
      (VerifyCommitLightTrusting E chainID (some vs) (some c) trustLevel).result ≠ .panic ∧
      (VerifyCommitLightTrustingAllSignatures E chainID (some vs) (some c)
        trustLevel).result ≠ .panic) := by
  have hsize := verifyBasicValsAndCommit_size vals commit height blockID hpre
  have hdisp : ∀ (vs : ValidatorSet) (c : Commit) (needed : Int)
      (ignoreSig countSig : CommitSig → Bool) (countAll byIndex : Bool),
      (byIndex = true → vs.Validators.length = c.Signatures.length) → E.BatchReady vs →
      (match shouldBatchVerify E vs c with
        | none => earlyReturn .panic none
        | some true =>
          verifyCommitBatch E chainID vs c needed ignoreSig countSig countAll byIndex
            none none
        | some false =>
          verifyCommitSingle E chainID vs c needed ignoreSig countSig countAll byIndex
            none).result ≠ .panic := by
    intro vs c needed ignoreSig countSig countAll byIndex hs hready
    have hd := drivers_ne_panic E chainID vs c needed ignoreSig countSig countAll byIndex hs
    rcases shouldBatchVerify_cases E vs c hready with h | ⟨h, hlen, bv, p, hp, hc, hbv⟩
    · rw [h]
      exact hd.1 none
    · rw [h]
      exact hd.2 none bv p hp hc hbv hlen (Or.inl rfl)
  refine ⟨?_, ?_, ?_, ?_, ?_, ?_, ?_⟩
  · intro idx cs hcs
    have hlt : idx < commit.Signatures.length := (List.getElem?_eq_some_iff.mp hcs).1
    rw [← hsize] at hlt
    refine ⟨vals.Validators[idx], List.getElem?_eq_getElem hlt, ?_, ?_⟩
    · simp [pairedValidator, List.getElem?_eq_getElem hlt]
    · intro seen
      simp [resolve, List.getElem?_eq_getElem hlt]
  · intro needed ignoreSig countSig countAll cache
    exact (drivers_ne_panic E chainID vals commit needed ignoreSig countSig countAll true
      (fun _ => hsize)).1 cache
  · intro needed ignoreSig countSig countAll cache bv b hloop
    rcases batchLoop_ret_panic E bv chainID vals commit needed ignoreSig countSig countAll
      true cache _ _ _ b hloop with ⟨-, k, cs, h1, h2⟩ | hkey
    · exfalso
      have hlt : k < commit.Signatures.length := (List.getElem?_eq_some_iff.mp h1).1
      rw [← hsize] at hlt
      rw [zero_add, List.getElem?_eq_getElem hlt] at h2
      cases h2
    · exact hkey
  · intro hready
    refine ⟨?_, ?_, ?_⟩
    · unfold VerifyCommit
      rw [hpre]
      exact hdisp vals commit _ _ _ true true (fun _ => hsize) hready
    · unfold VerifyCommitLight verifyCommitLightInternal
      rw [hpre]
      exact hdisp vals commit _ _ _ false true (fun _ => hsize) hready
    · unfold VerifyCommitLightAllSignatures verifyCommitLightInternal
      rw [hpre]
      exact hdisp vals commit _ _ _ true true (fun _ => hsize) hready
  · intro vs seen idx cs h
    have := (resolve_panic vs false seen idx cs h).1
    cases this
  · intro vs c needed ignoreSig countSig countAll cache
    exact (drivers_ne_panic E chainID vs c needed ignoreSig countSig countAll false
      (fun h => by cases h)).1 cache
  · intro vs c trustLevel hready hd
    have htrust : ∀ countAll : Bool,
        (verifyCommitLightTrustingInternal E chainID (some vs) (some c) trustLevel countAll
          none).result ≠ .panic := by
      intro countAll
      unfold verifyCommitLightTrustingInternal
      simp only []
      by_cases hz : trustLevel.Denominator = 0
      · rw [if_pos hz]
        simp [earlyReturn]
      · rw [if_neg hz]
        by_cases hov : (safeMul vs.TotalVotingPower (wrapInt64 trustLevel.Numerator)).2 = true
        · rw [if_pos hov]
          simp [earlyReturn]
        · rw [if_neg hov, if_neg (wrapInt64_denominator_ne_zero _ hz hd)]
          exact hdisp vs c _ _ _ countAll false (fun h => by cases h) hready
    exact ⟨htrust false, htrust true⟩

/-- C25, at four validators and a commit of four entries: the check of the
sizes passes, the entry at index 3 is paired with the fourth validator, and
`VerifyCommit` does not panic. -/
theorem validator_index_in_bounds_witness :
    verifyBasicValsAndCommit (some Fixture.vals4)
      (some (Fixture.commitOf [Fixture.signed 1, Fixture.absent, Fixture.signed 3,
        Fixture.signed 4])) 7 Fixture.blockB = none ∧
    (∃ v, Fixture.vals4.Validators[3]? = some v ∧
      pairedValidator Fixture.vals4 true 3 (Fixture.signed 4) = some v ∧
      ∀ seen, resolve Fixture.vals4 true seen 3 (Fixture.signed 4) = .found v seen) ∧
    (VerifyCommit (Fixture.env true) "c" (some Fixture.vals4) Fixture.blockB 7
      (some (Fixture.commitOf [Fixture.signed 1, Fixture.absent, Fixture.signed 3,
        Fixture.signed 4]))).result ≠ .panic :=
  ⟨by decide,
    (validator_index_in_bounds (Fixture.env true) "c" Fixture.vals4
      (Fixture.commitOf [Fixture.signed 1, Fixture.absent, Fixture.signed 3,
        Fixture.signed 4]) 7 Fixture.blockB (by decide)).1 3 (Fixture.signed 4) rfl,
    ((validator_index_in_bounds (Fixture.env true) "c" Fixture.vals4
      (Fixture.commitOf [Fixture.signed 1, Fixture.absent, Fixture.signed 3,
        Fixture.signed 4]) 7 Fixture.blockB (by decide)).2.2.2.1
      Fixture.batchReady_vals4).1⟩

/-! ### The tally stays within the total voting power -/

theorem findByAddress_index (address : Bytes) (vs : List Validator) (start j : Nat)
    (v : Validator) (h : findByAddress address vs start = some (j, v)) :
    start ≤ j ∧ vs[j - start]? = some v := by
  induction vs generalizing start with
  | nil => simp [findByAddress] at h
  | cons w ws ih =>
    rw [findByAddress] at h
    split at h
    · simp only [Option.some.injEq, Prod.mk.injEq] at h
      obtain ⟨rfl, rfl⟩ := h
      simp
    · obtain ⟨h1, h2⟩ := ih _ h
      refine ⟨by omega, ?_⟩
      rw [show j - start = (j - (start + 1)) + 1 by omega]
      simpa using h2

/-- A validator found by `resolve` sits at an index of the set: the commit
index with lookup by index, an index not yet in `seenVals` and recorded there
with lookup by address. -/
theorem resolve_found_index (vals : ValidatorSet) (byIndex : Bool) (seen seen1 : List (Nat × Nat))
    (idx : Nat) (cs : CommitSig) (v : Validator)
    (h : resolve vals byIndex seen idx cs = .found v seen1) :
    ∃ i, vals.Validators[i]? = some v ∧
      (byIndex = true → i = idx ∧ seen1 = seen) ∧
      (byIndex = false → seen.lookup i = none ∧ seen1 = (i, idx) :: seen) := by
  unfold resolve at h
  cases byIndex with
  | true =>
    simp only [if_true] at h
    cases hv : vals.Validators[idx]? with
    | none => simp [hv] at h
    | some w =>
      simp only [hv, Resolution.found.injEq] at h
      obtain ⟨rfl, rfl⟩ := h
      exact ⟨idx, hv, fun _ => ⟨rfl, rfl⟩, fun hb => (by cases hb)⟩
  | false =>
    simp only [Bool.false_eq_true, if_false] at h
    cases hv : vals.GetByAddress cs.ValidatorAddress with
    | none => simp [hv] at h
    | some p =>
      obtain ⟨vi, w⟩ := p
      simp only [hv] at h
      cases hl : List.lookup vi seen with
      | some i => simp [hl] at h
      | none =>
        simp only [hl, Resolution.found.injEq] at h
        obtain ⟨rfl, rfl⟩ := h
        have hidx := (findByAddress_index _ _ _ _ _ hv).2
        exact ⟨vi, by simpa using hidx, fun hb => (by cases hb), fun _ => ⟨hl, rfl⟩⟩

theorem powerAt_nonneg (vals : ValidatorSet)
    (hpow : ∀ v ∈ vals.Validators, 0 ≤ v.VotingPower) (i : Nat) : 0 ≤ vals.powerAt i := by
  unfold ValidatorSet.powerAt
  cases hv : vals.Validators[i]? with
  | none => simp
  | some v =>
    simp only [Option.map_some', Option.getD_some]
    exact hpow v (List.getElem?_mem hv)

theorem powerAt_range (vals : ValidatorSet) :
    (List.range vals.Validators.length).map vals.powerAt =
      vals.Validators.map (fun v => v.VotingPower) := by
  apply List.ext_getElem
  · simp
  · intro i h1 h2
    simp only [List.length_map, List.length_range] at h1
    simp [ValidatorSet.powerAt, List.getElem?_eq_getElem h1]

/-- The powers of distinct validators sum to a value between zero and the total
voting power. -/
theorem counted_sum_bounds (vals : ValidatorSet)
    (hpow : ∀ v ∈ vals.Validators, 0 ≤ v.VotingPower) (counted : List Nat)
    (hnd : counted.Nodup) (hlt : ∀ i ∈ counted, i < vals.Validators.length) :
    0 ≤ (counted.map vals.powerAt).sum ∧
    (counted.map vals.powerAt).sum ≤ vals.TotalVotingPower := by
  constructor
  · apply List.sum_nonneg
    intro x hx
    obtain ⟨i, -, rfl⟩ := List.mem_map.mp hx
    exact powerAt_nonneg vals hpow i
  · have hsub : counted.Subperm (List.range vals.Validators.length) :=
      List.subperm_of_subset hnd (fun i hi => List.mem_range.mpr (hlt i hi))
    obtain ⟨l, hperm, hsubl⟩ := hsub
    rw [← (hperm.map vals.powerAt).sum_eq]
    unfold ValidatorSet.TotalVotingPower
    rw [← powerAt_range]
    apply (hsubl.map vals.powerAt).sum_le_sum
    intro x hx
    obtain ⟨i, -, rfl⟩ := List.mem_map.mp hx
    exact powerAt_nonneg vals hpow i

theorem countedOnce_bounds (vals : ValidatorSet)
    (hpow : ∀ v ∈ vals.Validators, 0 ≤ v.VotingPower) (t : Int) (h : CountedOnce vals t) :
    0 ≤ t ∧ t ≤ vals.TotalVotingPower := by
  obtain ⟨counted, hnd, hlt, rfl⟩ := h
  exact counted_sum_bounds vals hpow counted hnd hlt

theorem TallyInv.countedOnce {vals : ValidatorSet} {byIndex : Bool} {idx : Nat}
    {seen : List (Nat × Nat)} {t : Int} (h : TallyInv vals byIndex idx seen t) :
    CountedOnce vals t := by
  obtain ⟨counted, hnd, hlt, hsum, -⟩ := h
  exact ⟨counted, hnd, hlt, hsum⟩

theorem tallyInv_init (vals : ValidatorSet) (byIndex : Bool) : TallyInv vals byIndex 0 [] 0 :=
  ⟨[], List.nodup_nil, by simp, by simp, by simp⟩

/-- An iteration that adds nothing keeps the invariant. -/
theorem tallyInv_next (vals : ValidatorSet) (byIndex : Bool) (idx : Nat)
    (seen : List (Nat × Nat)) (t : Int) (h : TallyInv vals byIndex idx seen t) :
    TallyInv vals byIndex (idx + 1) seen t := by
  obtain ⟨counted, hnd, hlt, hsum, hinv⟩ := h
  exact ⟨counted, hnd, hlt, hsum, fun i hi =>
    ⟨fun hb => Nat.lt_succ_of_lt ((hinv i hi).1 hb), (hinv i hi).2⟩⟩

theorem maxTotalVotingPower_le : MaxTotalVotingPower ≤ MaxInt64 := by
  unfold MaxTotalVotingPower MaxInt64
  norm_num

/-- An iteration that finds a validator keeps the invariant, whether the power
of the validator is added to the tally or not; the addition does not wrap. -/
theorem tallyInv_found (vals : ValidatorSet) (countSig : CommitSig → Bool) (byIndex : Bool)
    (hpow : ∀ v ∈ vals.Validators, 0 ≤ v.VotingPower)
    (htotal : vals.TotalVotingPower ≤ MaxTotalVotingPower)
    (idx : Nat) (seen seen1 : List (Nat × Nat)) (t : Int) (cs : CommitSig) (v : Validator)
    (h : TallyInv vals byIndex idx seen t)
    (hres : resolve vals byIndex seen idx cs = .found v seen1) :
    TallyInv vals byIndex (idx + 1) seen1 t ∧
    TallyInv vals byIndex (idx + 1) seen1 (addTally countSig cs v t) ∧
    (countSig cs = true → addTally countSig cs v t = t + v.VotingPower) := by
  obtain ⟨i, hi, htrue, hfalse⟩ := resolve_found_index vals byIndex seen seen1 idx cs v hres
  obtain ⟨counted, hnd, hlt, hsum, hinv⟩ := h
  have hkeep : ∀ j ∈ counted, (byIndex = true → j < idx + 1) ∧
      (byIndex = false → (seen1.lookup j).isSome = true) := by
    intro j hj
    refine ⟨fun hb => Nat.lt_succ_of_lt ((hinv j hj).1 hb), fun hb => ?_⟩
    rw [(hfalse hb).2, List.lookup_cons]
    split
    · rfl
    · exact (hinv j hj).2 hb
  have hnew : (byIndex = true → i < idx + 1) ∧
      (byIndex = false → (seen1.lookup i).isSome = true) := by
    refine ⟨fun hb => by rw [(htrue hb).1]; exact Nat.lt_succ_self _, fun hb => ?_⟩
    rw [(hfalse hb).2, List.lookup_cons]
    simp
  have hfresh : i ∉ counted := by
    intro hmem
    cases hb : byIndex with
    | true =>
      have := (hinv i hmem).1 hb
      rw [(htrue hb).1] at this
      exact Nat.lt_irrefl _ this
    | false =>
      have := (hinv i hmem).2 hb
      rw [(hfalse hb).1] at this
      cases this
  have hilt : i < vals.Validators.length := (List.getElem?_eq_some_iff.mp hi).1
  have hpi : vals.powerAt i = v.VotingPower := by
    simp [ValidatorSet.powerAt, hi]
  have hnd1 : (i :: counted).Nodup := List.nodup_cons.mpr ⟨hfresh, hnd⟩
  have hlt1 : ∀ j ∈ i :: counted, j < vals.Validators.length := by
    intro j hj
    rcases List.mem_cons.mp hj with rfl | hj
    · exact hilt
    · exact hlt j hj
  have hb1 := counted_sum_bounds vals hpow (i :: counted) hnd1 hlt1
  have hsum1 : ((i :: counted).map vals.powerAt).sum = t + v.VotingPower := by
    rw [List.map_cons, List.sum_cons, hpi, hsum]
    ring
  have hwrap : wrapInt64 (t + v.VotingPower) = t + v.VotingPower := by
    apply wrapInt64_eq_self
    · rw [← hsum1]
      have : MinInt64 ≤ 0 := by unfold MinInt64; norm_num
      exact le_trans this hb1.1
    · rw [← hsum1]
      exact le_trans hb1.2 (le_trans htotal maxTotalVotingPower_le)
  refine ⟨⟨counted, hnd, hlt, hsum, hkeep⟩, ?_, ?_⟩
  · unfold addTally
    split
    · refine ⟨i :: counted, hnd1, hlt1, ?_, ?_⟩
      · rw [hwrap, hsum1]
      · intro j hj
        rcases List.mem_cons.mp hj with rfl | hj
        · exact hnew
        · exact hkeep j hj
    · exact ⟨counted, hnd, hlt, hsum, hkeep⟩
  · intro hc
    unfold addTally
    rw [if_pos hc, hwrap]

section Loops

variable (E : Env) (bv : BatchVerifier) (chainID : String) (vals : ValidatorSet)
  (commit : Commit) (needed : Int) (ignoreSig countSig : CommitSig → Bool)
  (countAll byIndex : Bool) (cache : Option SignatureCache)

/-- The check of a resolved entry leaves `seenVals` alone and either leaves the
tally alone or adds the power of the validator, if the signature counts. -/
theorem singleCheck_state (idx : Nat) (cs : CommitSig) (v : Validator) (s : SingleState) :
    (singleCheck E chainID commit needed countSig countAll idx cs v s).state.seenVals
      = s.seenVals ∧
    ((singleCheck E chainID commit needed countSig countAll idx cs v s).state.talliedVotingPower
        = s.talliedVotingPower ∨
      (singleCheck E chainID commit needed countSig countAll idx cs v
        s).state.talliedVotingPower = addTally countSig cs v s.talliedVotingPower) := by
  unfold singleCheck
  cases v.PubKey with
  | none => exact ⟨rfl, Or.inl rfl⟩
  | some pk =>
    simp only []
    split
    · exact ⟨rfl, Or.inl rfl⟩
    · split
      · exact ⟨rfl, Or.inr rfl⟩
      · exact ⟨rfl, Or.inr rfl⟩

theorem batchCheck_state (idx : Nat) (cs : CommitSig) (v : Validator) (b : BatchState) :
    (batchCheck E bv chainID commit needed countSig countAll cache idx cs v b).state.seenVals
      = b.seenVals ∧
    ((batchCheck E bv chainID commit needed countSig countAll cache idx cs v
        b).state.talliedVotingPower = b.talliedVotingPower ∨
      (batchCheck E bv chainID commit needed countSig countAll cache idx cs v
        b).state.talliedVotingPower = addTally countSig cs v b.talliedVotingPower) := by
  unfold batchCheck
  simp only []
  cases batchCacheHit E cache cs v.PubKey (E.VoteSignBytes commit chainID (wrapInt32 idx)) with
  | none => exact ⟨rfl, Or.inl rfl⟩
  | some hit =>
    simp only []
    split
    · exact ⟨rfl, Or.inl rfl⟩
    · split
      · exact ⟨rfl, Or.inr rfl⟩
      · exact ⟨rfl, Or.inr rfl⟩

/-- One iteration of `verifyCommitSingle` keeps the invariant on the tally. -/
theorem singleBody_tallyInv
    (hpow : ∀ v ∈ vals.Validators, 0 ≤ v.VotingPower)
    (htotal : vals.TotalVotingPower ≤ MaxTotalVotingPower)
    (idx : Nat) (cs : CommitSig) (s : SingleState)
    (h : TallyInv vals byIndex idx s.seenVals s.talliedVotingPower) :
    TallyInv vals byIndex (idx + 1)
      (singleBody E chainID vals commit needed ignoreSig countSig countAll byIndex idx cs
        s).state.seenVals
      (singleBody E chainID vals commit needed ignoreSig countSig countAll byIndex idx cs
        s).state.talliedVotingPower := by
  have hnext := tallyInv_next vals byIndex idx _ _ h
  rw [singleBody_eq]
  split
  · exact hnext
  · split
    · exact hnext
    · cases hres : resolve vals byIndex s.seenVals idx cs with
      | panic => exact hnext
      | skip => exact hnext
      | doubleVote w i => exact hnext
      | found w seen1 =>
        obtain ⟨h1, h2, -⟩ := tallyInv_found vals countSig byIndex hpow htotal idx _ seen1 _ cs w
          h hres
        obtain ⟨e1, e2⟩ := singleCheck_state E chainID commit needed countSig countAll idx cs w
          { s with val := some w, seenVals := seen1 }
        simp only []
        rw [e1]
        rcases e2 with e | e
        · rw [e]
          exact h1
        · rw [e]
          exact h2

/-- One iteration of `verifyCommitBatch` keeps the invariant on the tally. -/
theorem batchBody_tallyInv
    (hpow : ∀ v ∈ vals.Validators, 0 ≤ v.VotingPower)
    (htotal : vals.TotalVotingPower ≤ MaxTotalVotingPower)
    (idx : Nat) (cs : CommitSig) (b : BatchState)
    (h : TallyInv vals byIndex idx b.seenVals b.talliedVotingPower) :
    TallyInv vals byIndex (idx + 1)
      (batchBody E bv chainID vals commit needed ignoreSig countSig countAll byIndex cache idx
        cs b).state.seenVals
      (batchBody E bv chainID vals commit needed ignoreSig countSig countAll byIndex cache idx
        cs b).state.talliedVotingPower := by
  have hnext := tallyInv_next vals byIndex idx _ _ h
  rw [batchBody_eq]
  split
  · exact hnext
  · cases hres : resolve vals byIndex b.seenVals idx cs with
    | panic => exact hnext
    | skip => exact hnext
    | doubleVote w i => exact hnext
    | found w seen1 =>
      obtain ⟨h1, h2, -⟩ := tallyInv_found vals countSig byIndex hpow htotal idx _ seen1 _ cs w
        h hres
      obtain ⟨e1, e2⟩ := batchCheck_state E bv chainID commit needed countSig countAll cache
        idx cs w { b with val := some w, seenVals := seen1 }
      simp only []
      rw [e1]
      rcases e2 with e | e
      · rw [e]
        exact h1
      · rw [e]
        exact h2

/-- Wherever the loop of `verifyCommitSingle` stands or ends, the tally is the
sum of the powers of distinct validators. -/
theorem singleLoop_countedOnce
    (hpow : ∀ v ∈ vals.Validators, 0 ≤ v.VotingPower)
    (htotal : vals.TotalVotingPower ≤ MaxTotalVotingPower)
    (sigs : List CommitSig) (idx : Nat) (s : SingleState)
    (h : TallyInv vals byIndex idx s.seenVals s.talliedVotingPower) :
    CountedOnce vals
      (singleLoop E chainID vals commit needed ignoreSig countSig countAll byIndex sigs idx
        s).state.talliedVotingPower := by
  induction sigs generalizing idx s with
  | nil => exact h.countedOnce
  | cons cs rest ih =>
    have hb := singleBody_tallyInv E chainID vals commit needed ignoreSig countSig countAll
      byIndex hpow htotal idx cs s h
    rw [singleLoop]
    cases hbody : singleBody E chainID vals commit needed ignoreSig countSig countAll byIndex
        idx cs s with
    | next s2 =>
      rw [hbody] at hb
      exact ih _ _ hb
    | brk s2 =>
      rw [hbody] at hb
      exact hb.countedOnce
    | ret r s2 =>
      rw [hbody] at hb
      exact hb.countedOnce

/-- Wherever the loop of `verifyCommitBatch` stands or ends, the tally is the
sum of the powers of distinct validators. -/
theorem batchLoop_countedOnce
    (hpow : ∀ v ∈ vals.Validators, 0 ≤ v.VotingPower)
    (htotal : vals.TotalVotingPower ≤ MaxTotalVotingPower)
    (sigs : List CommitSig) (idx : Nat) (b : BatchState)
    (h : TallyInv vals byIndex idx b.seenVals b.talliedVotingPower) :
    CountedOnce vals
      (batchLoop E bv chainID vals commit needed ignoreSig countSig countAll byIndex cache sigs
        idx b).state.talliedVotingPower := by
  induction sigs generalizing idx b with
  | nil => exact h.countedOnce
  | cons cs rest ih =>
    have hb := batchBody_tallyInv E bv chainID vals commit needed ignoreSig countSig countAll
      byIndex cache hpow htotal idx cs b h
    rw [batchLoop]
    cases hbody : batchBody E bv chainID vals commit needed ignoreSig countSig countAll byIndex
        cache idx cs b with
    | next b2 =>
      rw [hbody] at hb
      exact ih _ _ hb
    | brk b2 =>
      rw [hbody] at hb
      exact hb.countedOnce
    | ret r b2 =>
      rw [hbody] at hb
      exact hb.countedOnce

/-- The tally reported by `verifyCommitSingle` is that of its loop. -/
theorem singleFinish_tallied (f : Flow SingleState) :
    (singleFinish needed f).tallied = f.state.talliedVotingPower := by
  cases f <;> rfl

/-- The tally reported by `verifyCommitBatch` is that of its loop. -/
theorem batchFinish_tallied_state (f : Flow BatchState) :
    (batchFinish E bv chainID commit needed cache f).tallied = f.state.talliedVotingPower := by
  cases f with
  | next b => exact batchFinish_tallied E chainID commit needed bv cache b _ (Or.inl rfl)
  | brk b => exact batchFinish_tallied E chainID commit needed bv cache b _ (Or.inr rfl)
  | ret r b => rfl

end Loops

/-- C24: the tally never exceeds the total voting power. On a validator set
with non-negative voting powers whose total is within the cap
`MaxTotalVotingPower`, at every point of the signature loop of
`verifyCommitSingle` and of `verifyCommitBatch` (after every prefix `pre` of the
signatures, by index or by address) the tally is the sum over the integers of
the powers of validators counted at most once each, so that it lies between
zero and the total voting power and within `int64`: no addition wraps. The
tally at the return of the two drivers is within the same bounds. -/
theorem tally_within_total_voting_power (E : Env) (bv : BatchVerifier) (chainID : String)
    (vals : ValidatorSet) (commit : Commit) (needed : Int)
    (ignoreSig countSig : CommitSig → Bool) (countAll byIndex : Bool)
    (cache : Option SignatureCache)
    (hpow : ∀ v ∈ vals.Validators, 0 ≤ v.VotingPower)
    (htotal : vals.TotalVotingPower ≤ MaxTotalVotingPower) :
    (∀ pre suf : List CommitSig, commit.Signatures = pre ++ suf →
      CountedOnce vals
        (singleLoop E chainID vals commit needed ignoreSig countSig countAll byIndex pre 0
          { val := none, seenVals := [], talliedVotingPower := 0, cache := cache,
            calls := [] }).state.talliedVotingPower ∧
      0 ≤ (singleLoop E chainID vals commit needed ignoreSig countSig countAll byIndex pre 0
          { val := none, seenVals := [], talliedVotingPower := 0, cache := cache,
            calls := [] }).state.talliedVotingPower ∧
      (singleLoop E chainID vals commit needed ignoreSig countSig countAll byIndex pre 0
          { val := none, seenVals := [], talliedVotingPower := 0, cache := cache,
            calls := [] }).state.talliedVotingPower ≤ vals.TotalVotingPower ∧
      (singleLoop E chainID vals commit needed ignoreSig countSig countAll byIndex pre 0
          { val := none, seenVals := [], talliedVotingPower := 0, cache := cache,
            calls := [] }).state.talliedVotingPower ≤ MaxInt64) ∧
    (∀ pre suf : List CommitSig, commit.Signatures = pre ++ suf →
      CountedOnce vals
        (batchLoop E bv chainID vals commit needed ignoreSig countSig countAll byIndex cache
          pre 0
          { val := none, seenVals := [], batchSigIdxs := [], batch := [],
            talliedVotingPower := 0, calls := [] }).state.talliedVotingPower ∧
      0 ≤ (batchLoop E bv chainID vals commit needed ignoreSig countSig countAll byIndex cache
          pre 0
          { val := none, seenVals := [], batchSigIdxs := [], batch := [],
            talliedVotingPower := 0, calls := [] }).state.talliedVotingPower ∧
      (batchLoop E bv chainID vals commit needed ignoreSig countSig countAll byIndex cache
          pre 0
          { val := none, seenVals := [], batchSigIdxs := [], batch := [],
            talliedVotingPower := 0, calls := [] }).state.talliedVotingPower
        ≤ vals.TotalVotingPower ∧
      (batchLoop E bv chainID vals commit needed ignoreSig countSig countAll byIndex cache
          pre 0
          { val := none, seenVals := [], batchSigIdxs := [], batch := [],
            talliedVotingPower := 0, calls := [] }).state.talliedVotingPower ≤ MaxInt64) ∧
    (0 ≤ (verifyCommitSingle E chainID vals commit needed ignoreSig countSig countAll byIndex
        cache).tallied ∧
      (verifyCommitSingle E chainID vals commit needed ignoreSig countSig countAll byIndex
        cache).tallied ≤ vals.TotalVotingPower) ∧
    (0 ≤ (verifyCommitBatch E chainID vals commit needed ignoreSig countSig countAll byIndex
        (some bv) cache).tallied ∧
      (verifyCommitBatch E chainID vals commit needed ignoreSig countSig countAll byIndex
        (some bv) cache).tallied ≤ vals.TotalVotingPower) := by
  have hcap : vals.TotalVotingPower ≤ MaxInt64 := le_trans htotal maxTotalVotingPower_le
  have hsingle : ∀ sigs : List CommitSig, CountedOnce vals
      (singleLoop E chainID vals commit needed ignoreSig countSig countAll byIndex sigs 0
        { val := none, seenVals := [], talliedVotingPower := 0, cache := cache,
          calls := [] }).state.talliedVotingPower := fun sigs =>
    singleLoop_countedOnce E chainID vals commit needed ignoreSig countSig countAll byIndex
      hpow htotal sigs 0 _ (tallyInv_init vals byIndex)
  have hbatch : ∀ sigs : List CommitSig, CountedOnce vals
      (batchLoop E bv chainID vals commit needed ignoreSig countSig countAll byIndex cache
        sigs 0
        { val := none, seenVals := [], batchSigIdxs := [], batch := [],
          talliedVotingPower := 0, calls := [] }).state.talliedVotingPower := fun sigs =>
    batchLoop_countedOnce E bv chainID vals commit needed ignoreSig countSig countAll byIndex
      cache hpow htotal sigs 0 _ (tallyInv_init vals byIndex)
  refine ⟨?_, ?_, ?_, ?_⟩
  · intro pre suf _
    have hb := countedOnce_bounds vals hpow _ (hsingle pre)
    exact ⟨hsingle pre, hb.1, hb.2, le_trans hb.2 hcap⟩
  · intro pre suf _
    have hb := countedOnce_bounds vals hpow _ (hbatch pre)
    exact ⟨hbatch pre, hb.1, hb.2, le_trans hb.2 hcap⟩
  · unfold verifyCommitSingle
    rw [singleFinish_tallied]
    exact countedOnce_bounds vals hpow _ (hsingle commit.Signatures)
  · have hzero : (0 : Int) ≤ 0 ∧ (0 : Int) ≤ vals.TotalVotingPower :=
      ⟨le_refl 0, (countedOnce_bounds vals hpow 0
        (tallyInv_init vals byIndex).countedOnce).2⟩
    unfold verifyCommitBatch
    simp only []
    split
    · exact hzero
    · rw [batchFinish_tallied_state]
      exact countedOnce_bounds vals hpow _ (hbatch commit.Signatures)

/-- C24, at four validators of power 10 and a commit with four valid
signatures: after the first three signatures the tally of the loop of
`verifyCommitSingle` is within zero and the total 40, and so is the tally at the
return of `verifyCommitBatch`. -/
theorem tally_within_total_voting_power_witness :
    (∀ v ∈ Fixture.vals4.Validators, 0 ≤ v.VotingPower) ∧
    Fixture.vals4.TotalVotingPower ≤ MaxTotalVotingPower ∧
    (0 ≤ (singleLoop (Fixture.env true) "c" Fixture.vals4
        (Fixture.commitOf [Fixture.signed 1, Fixture.signed 2, Fixture.signed 3,
          Fixture.signed 4]) 26 ignoreNotCommit countAlways true true
        [Fixture.signed 1, Fixture.signed 2, Fixture.signed 3] 0
        { val := none, seenVals := [], talliedVotingPower := 0, cache := none,
          calls := [] }).state.talliedVotingPower ∧
      (singleLoop (Fixture.env true) "c" Fixture.vals4
        (Fixture.commitOf [Fixture.signed 1, Fixture.signed 2, Fixture.signed 3,
          Fixture.signed 4]) 26 ignoreNotCommit countAlways true true
        [Fixture.signed 1, Fixture.signed 2, Fixture.signed 3] 0
        { val := none, seenVals := [], talliedVotingPower := 0, cache := none,
          calls := [] }).state.talliedVotingPower ≤ Fixture.vals4.TotalVotingPower) ∧
    (0 ≤ (verifyCommitBatch (Fixture.env true) "c" Fixture.vals4
        (Fixture.commitOf [Fixture.signed 1, Fixture.signed 2, Fixture.signed 3,
          Fixture.signed 4]) 26 ignoreNotCommit countAlways true true
        (some Fixture.verifier) none).tallied ∧
      (verifyCommitBatch (Fixture.env true) "c" Fixture.vals4
        (Fixture.commitOf [Fixture.signed 1, Fixture.signed 2, Fixture.signed 3,
          Fixture.signed 4]) 26 ignoreNotCommit countAlways true true
        (some Fixture.verifier) none).tallied ≤ Fixture.vals4.TotalVotingPower) :=
  ⟨by decide, by decide,
    ⟨((tally_within_total_voting_power (Fixture.env true) Fixture.verifier "c" Fixture.vals4
        (Fixture.commitOf [Fixture.signed 1, Fixture.signed 2, Fixture.signed 3,
          Fixture.signed 4]) 26 ignoreNotCommit countAlways true true none
        (by decide) (by decide)).1
        [Fixture.signed 1, Fixture.signed 2, Fixture.signed 3] [Fixture.signed 4] rfl).2.1,
      ((tally_within_total_voting_power (Fixture.env true) Fixture.verifier "c" Fixture.vals4
        (Fixture.commitOf [Fixture.signed 1, Fixture.signed 2, Fixture.signed 3,
          Fixture.signed 4]) 26 ignoreNotCommit countAlways true true none
        (by decide) (by decide)).1
        [Fixture.signed 1, Fixture.signed 2, Fixture.signed 3] [Fixture.signed 4] rfl).2.2.1⟩,
    (tally_within_total_voting_power (Fixture.env true) Fixture.verifier "c" Fixture.vals4
      (Fixture.commitOf [Fixture.signed 1, Fixture.signed 2, Fixture.signed 3,
        Fixture.signed 4]) 26 ignoreNotCommit countAlways true true none
      (by decide) (by decide)).2.2.2⟩

/-! ### The early exit under a negative threshold -/

/-- C19 (failing input): `VerifyCommitLightTrusting`, with keys that do not
support batch verification, on two validators of power 10, the commit made of
an absent entry followed by a corrupted signature of the first validator, and
the trust level `1/18446744073709551615`. The conversion
`int64(trustLevel.Denominator)` turns the denominator into -1 and the threshold
becomes `20 / -1 = -20`. The loop of `verifyCommitSingle` gets through index 0
without error, with the tally 0, which exceeds the threshold; yet the call does
not accept: the absent entry is skipped before the exit test is reached, the
signature at index 1 is verified and the result is `WrongSignature` for index
1. With a valid signature at index 1 the call accepts, so the result depends on
the entry after index 0. -/
theorem trusting_negative_threshold_misses_early_exit :
    divInt64 (safeMul Fixture.vals2.TotalVotingPower (wrapInt64 1)).1
      (wrapInt64 18446744073709551615) = -20 ∧
    (∃ s, singleLoop (Fixture.env false) "c" Fixture.vals2
        (Fixture.commitOf [Fixture.absent, Fixture.corrupted 1]) (-20) ignoreNotCommit
        countAlways false false [Fixture.absent] 0
        { val := none, seenVals := [], talliedVotingPower := 0, cache := none, calls := [] }
        = .next s ∧ s.talliedVotingPower = 0 ∧ (-20 : Int) < s.talliedVotingPower) ∧
    (VerifyCommitLightTrusting (Fixture.env false) "c" (some Fixture.vals2)
        (some (Fixture.commitOf [Fixture.absent, Fixture.corrupted 1]))
        { Numerator := 1, Denominator := 18446744073709551615 }).result
      = .reject (.WrongSignature 1 (.sigBytes (Fixture.corrupted 1).Signature)) ∧
    (VerifyCommitLightTrusting (Fixture.env false) "c" (some Fixture.vals2)
        (some (Fixture.commitOf [Fixture.absent, Fixture.corrupted 1]))
        { Numerator := 1, Denominator := 18446744073709551615 }).calls
      = [.VerifySignature 1] ∧
    (VerifyCommitLightTrusting (Fixture.env false) "c" (some Fixture.vals2)
        (some (Fixture.commitOf [Fixture.absent, Fixture.signed 1]))
        { Numerator := 1, Denominator := 18446744073709551615 }).result = .accept :=
  ⟨by decide, ⟨_, rfl, rfl, by decide⟩, by decide, by decide, by decide⟩

end Validation
